import Mathlib

/-!
# SimpleDatabaseC: the chained hash table, the command dispatcher and the
connection multiplexer

A shallow embedding of the hash table engine (`src/src/hashtable.c`), of the
command dispatcher (`src/src/main.c`) and of the connection multiplexer
(`src/src/network.c`), with proofs of their contracts; and of the functions
of the legacy table (`src/hashtable.c`) that differ from the current ones,
`htAdd`, `htRemove` and the codec `htSerializeToFile` /
`htDeserializeFromFile`.

Modelling conventions.

* A key is the list of its bytes; `keylen` is the length of that list, so a
  key may hold any byte, the NUL byte included.
* A bucket chain (`HashtableEntry_t *` linked through `next`) is the list of
  its entries, head first.  `ht->table` is the list of the `1 << exp` chains.
* A pointer to a linked entry is the pair of its bucket index and its
  position in the chain.
* `htHashFunction` wraps the third-party SipHash routine of `siphash.h`:
  every definition takes the hash function as the parameter `hash`, and every
  theorem holds for all hash functions.
* The heap is modelled by its contents: `malloc`, `free`, `realloc` and the
  byte copies `memcpy` / `strcpy` keep the bytes they copy.  That is the state
  of the heap as long as every byte is written inside the buffer allocated for
  it.  The copy of a `STRING` payload in `htAdd` and `htReplace` is the one
  write of `hashtable.c` that is not: `Heap.htAdd` and `Heap.htReplace` are
  these functions with the copy carried out in a buffer of the size that
  `malloc` is asked for, and have no result when it leaves the buffer.
* `ht->len` (a `uint64_t`) and `ht->exp` (an `unsigned char`) are natural
  numbers and `1 << ht->exp` is `2 ^ exp`.  `len` counts live heap entries, so
  `len++` stays far below `2 ^ 64`; `len--` wraps at `0` as in C.  The C
  expression `1 << ht->exp` is an `int` and equals `2 ^ exp` for `exp ≤ 30`,
  that is for every table of up to `2 ^ 30` entries.
* A C function that returns a status and mutates `*ht` returns the pair
  `(status, table afterwards)`.
* A local variable that is read before any assignment holds an indeterminate
  value; that value is a parameter of the function that reads it.
* What the operating system answers to the multiplexer (the results of
  `socket`, `bind`, `listen`, `accept`, `poll`, `recv`) is an input; the calls
  of `close` and of the handler `onData` it makes are part of its result.
* A file is the list of its bytes; a call that passes a `NULL` pointer to a
  library function that reads through it has no result, and says so.
-/

namespace SimpleDatabase

/-! ## Data model (`hashtable.h`) -/

/-- The macro `HASHTABLE_DEFAULTCAP`: `2^5 = 32` buckets. -/
def HASHTABLE_DEFAULTCAP : Nat := 5

/-- The enumeration `EntryType_t`. -/
inductive EntryType_t
  | STRING
  | UNSIGNED_INT
  | SIGNED_INT
  | DOUBLE
  | NONE
  deriving DecidableEq, Repr

/-- The union `v` of `HashtableValue_t`: either the 64-bit word read through
`u64`, `s64` or `d` (the null `val` is the word `0`), or a `val` that points
to a C string, given by the characters before its terminator. -/
inductive ValueUnion
  | word (bits : Nat)
  | val (chars : List UInt8)
  deriving DecidableEq, Repr

/-- The struct `HashtableValue_t`: a type tag and the payload union. -/
structure HashtableValue_t where
  entryType : EntryType_t
  v : ValueUnion
  deriving DecidableEq, Repr

/-- A key: `keylen` explicit bytes. -/
abbrev Key := List UInt8

/-- The struct `HashtableEntry_t` without its `next` link: the chain is the
list that holds the entry.  `keylen` is `key.length`. -/
structure HashtableEntry_t where
  key : Key
  htv : HashtableValue_t
  deriving DecidableEq, Repr

/-- The struct `Hashtable_t`. -/
structure Hashtable_t where
  table : List (List HashtableEntry_t)
  len : Nat
  exp : Nat
  deriving DecidableEq, Repr

/-! ## Operations (`hashtable.c`) -/

/-- The byte loop of `cmpKey`: `0` at the first differing byte, `1` when the
loop ends. -/
def cmpKeyLoop : List UInt8 → List UInt8 → Int
  | b1 :: r1, b2 :: r2 => if b1 ≠ b2 then 0 else cmpKeyLoop r1 r2
  | _, _ => 1

/-- The function `cmpKey`: `1` if the keys are the same, `0` if not. -/
def cmpKey (key1 key2 : Key) : Int :=
  if key1.length ≠ key2.length then 0 else cmpKeyLoop key1 key2

/-- The `while` loop of `htFindEntry`: the number of `hte = hte->next` steps
it takes from the head of the chain.  The loop stops at the last entry, or
earlier at an entry whose key compares equal. -/
def htFindEntryWalk (key : Key) : List HashtableEntry_t → Nat
  | [] => 0
  | [_] => 0
  | hte :: next :: rest =>
    if cmpKey hte.key key = 0 then htFindEntryWalk key (next :: rest) + 1 else 0

/-- The function `htFindEntry`: the entry the loop stopped at when its key compares equal
(bucket index, position in the chain, and the entry there), `none` for
`NULL`. -/
def htFindEntry (hash : Key → Nat) (ht : Hashtable_t) (key : Key) :
    Option (Nat × Nat × HashtableEntry_t) :=
  let idx := hash key % 2 ^ ht.exp
  let chain := ht.table.getD idx []
  let pos := htFindEntryWalk key chain
  match chain.get? pos with
  | none => none
  | some hte => if cmpKey hte.key key = 0 then none else some (idx, pos, hte)

/-- One step of the inner loop of `htExpandAndRehash`: link `hte` at the top
of its list in `newTable`. -/
def rehashLink (hash : Key → Nat) (newExp : Nat)
    (newTable : List (List HashtableEntry_t)) (hte : HashtableEntry_t) :
    List (List HashtableEntry_t) :=
  let idx := hash hte.key % 2 ^ newExp
  newTable.set idx (hte :: newTable.getD idx [])

/-- The function `htExpandAndRehash`: a zeroed array of `1 << (exp + 1)` heads, then every
chain of the old array walked in index order, head first. -/
def htExpandAndRehash (hash : Key → Nat) (ht : Hashtable_t) : Hashtable_t :=
  let newTable : List (List HashtableEntry_t) := List.replicate (2 ^ (ht.exp + 1)) []
  let newTable := (List.range (2 ^ ht.exp)).foldl
    (fun nt i => (ht.table.getD i []).foldl (rehashLink hash (ht.exp + 1)) nt) newTable
  { table := newTable, len := ht.len, exp := ht.exp + 1 }

/-- The function `htCreateTable`: `len = 0`, `exp = HASHTABLE_DEFAULTCAP` and a
zeroed array of `1 << HASHTABLE_DEFAULTCAP` heads. -/
def htCreateTable : Hashtable_t :=
  { table := List.replicate (2 ^ HASHTABLE_DEFAULTCAP) [], len := 0, exp := HASHTABLE_DEFAULTCAP }

/-- The value `htFind` builds on a miss: type `NONE`, `v.val = 0`. -/
def noneValue : HashtableValue_t :=
  { entryType := EntryType_t.NONE, v := ValueUnion.word 0 }

/-- The function `htFind`: the value of the entry `htFindEntry` returns, or the
`NONE` value when it returns `NULL`. -/
def htFind (hash : Key → Nat) (ht : Hashtable_t) (key : Key) : HashtableValue_t :=
  match htFindEntry hash ht key with
  | none => noneValue
  | some (_, _, hte) => hte.htv

/-- The characters `strcpy` copies for a `STRING` payload: those of the
string it is given.  The buffer they are copied into is that of
`mallocStrcpy`, which gives the copy with its terminator and the size of the
buffer. -/
def strcpyPayload : ValueUnion → ValueUnion
  | ValueUnion.val chars => ValueUnion.val chars
  | ValueUnion.word bits => ValueUnion.word bits

/-- The value written into an entry by `htAdd` and `htReplace`: the tag, and
the payload copied as a string for `STRING`, assigned otherwise.  It is the
value by its contents; `Heap.storeValue` is the same statement with the copy
carried out in its buffer. -/
def storeValue (htv : HashtableValue_t) : HashtableValue_t :=
  if htv.entryType = EntryType_t.STRING then
    { entryType := htv.entryType, v := strcpyPayload htv.v }
  else
    { entryType := htv.entryType, v := htv.v }

/-- The function `htAdd`: the returned status and the table afterwards, by
their contents (see `Heap.htAdd` for the call with its string copy on the
heap). -/
def htAdd (hash : Key → Nat) (ht : Hashtable_t) (key : Key) (htv : HashtableValue_t) :
    Int × Hashtable_t :=
  if (htFind hash ht key).entryType ≠ EntryType_t.NONE then (1, ht)
  else
    let ht1 := if ht.len = 2 ^ ht.exp then htExpandAndRehash hash ht else ht
    let idx := hash key % 2 ^ ht1.exp
    let hte : HashtableEntry_t := { key := key, htv := storeValue htv }
    (0, { table := ht1.table.set idx (hte :: ht1.table.getD idx []),
          len := ht1.len + 1,
          exp := ht1.exp })

/-- The search loop of `htRemove` followed by the unlinking: `none` when the
loop runs off the chain, otherwise the chain without the first entry whose
key compares equal. -/
def htRemoveUnlink (key : Key) : List HashtableEntry_t → Option (List HashtableEntry_t)
  | [] => none
  | hte :: next =>
    if cmpKey hte.key key = 0 then (htRemoveUnlink key next).map (fun c => hte :: c)
    else some next

/-- The function `htRemove`: the returned status and the table afterwards.  `ht->len--` is
the decrement of a `uint64_t`, which wraps at `0`. -/
def htRemove (hash : Key → Nat) (ht : Hashtable_t) (key : Key) : Int × Hashtable_t :=
  let idx := hash key % 2 ^ ht.exp
  match htRemoveUnlink key (ht.table.getD idx []) with
  | none => (1, ht)
  | some chain =>
    (0, { table := ht.table.set idx chain,
          len := if ht.len = 0 then 2 ^ 64 - 1 else ht.len - 1,
          exp := ht.exp })

/-- The function `htReplace`: the returned status and the table afterwards, by
their contents (see `Heap.htReplace` for the call with its string copy on the
heap). -/
def htReplace (hash : Key → Nat) (ht : Hashtable_t) (key : Key) (htv : HashtableValue_t) :
    Int × Hashtable_t :=
  match htFindEntry hash ht key with
  | some (idx, pos, _) =>
    let hte : HashtableEntry_t := { key := key, htv := storeValue htv }
    (0, { table := ht.table.set idx ((ht.table.getD idx []).set pos hte),
          len := ht.len,
          exp := ht.exp })
  | none => (0, (htAdd hash ht key htv).2)

/-! ## Call sequences and reachable tables -/

/-- One mutating call on the table. -/
inductive Op
  | add (key : Key) (htv : HashtableValue_t)
  | remove (key : Key)
  | replace (key : Key) (htv : HashtableValue_t)
  deriving DecidableEq, Repr

/-- The table after one call. -/
def Op.run (hash : Key → Nat) (ht : Hashtable_t) : Op → Hashtable_t
  | Op.add key htv => (htAdd hash ht key htv).2
  | Op.remove key => (htRemove hash ht key).2
  | Op.replace key htv => (htReplace hash ht key htv).2

/-- The table after a sequence of calls, first call first. -/
def runOps (hash : Key → Nat) (ht : Hashtable_t) (ops : List Op) : Hashtable_t :=
  ops.foldl (Op.run hash) ht

/-- A value of one of the four storable types. -/
def Storable (htv : HashtableValue_t) : Prop := htv.entryType ≠ EntryType_t.NONE

instance (htv : HashtableValue_t) : Decidable (Storable htv) := by
  unfold Storable; infer_instance

/-- Every value the call supplies is of a storable type. -/
def Op.Storable : Op → Prop
  | Op.add _ htv => SimpleDatabase.Storable htv
  | Op.remove _ => True
  | Op.replace _ htv => SimpleDatabase.Storable htv

/-- The tables reached from `htCreateTable` by `htAdd`, `htRemove` and
`htReplace` calls that supply values of storable types. -/
def Reachable (hash : Key → Nat) (ht : Hashtable_t) : Prop :=
  ∃ ops : List Op, (∀ op ∈ ops, op.Storable) ∧ runOps hash htCreateTable ops = ht

/-- All entries linked in the table, bucket by bucket. -/
def entries (ht : Hashtable_t) : List HashtableEntry_t := ht.table.flatten

/-- The key is present: some linked entry has these bytes and this length. -/
def Present (ht : Hashtable_t) (key : Key) : Prop := ∃ e ∈ entries ht, e.key = key

instance (ht : Hashtable_t) (key : Key) : Decidable (Present ht key) := by
  unfold Present; infer_instance

/-! ## Specification-side definitions used by the proofs -/

/-- The first entry of a chain with the given key, with its position. -/
def firstMatch (key : Key) : List HashtableEntry_t → Option (Nat × HashtableEntry_t)
  | [] => none
  | e :: rest =>
    if e.key = key then some (0, e)
    else (firstMatch key rest).map (fun r => (r.1 + 1, r.2))

/-- Every entry linked in bucket `i` hashes to `i` under capacity `2 ^ exp`. -/
def BucketInv (hash : Key → Nat) (exp : Nat) (T : List (List HashtableEntry_t)) : Prop :=
  ∀ i chain, T[i]? = some chain → ∀ e ∈ chain, hash e.key % 2 ^ exp = i

/-- The part of the representation invariant that every call keeps, whatever
value it supplies: the array has `2 ^ exp` heads, every entry sits in the
bucket of its hash, and `len` counts the linked entries. -/
structure Shape (hash : Key → Nat) (ht : Hashtable_t) : Prop where
  size : ht.table.length = 2 ^ ht.exp
  bucket : BucketInv hash ht.exp ht.table
  count : ht.len = (entries ht).length

/-- The representation invariant of the tables built with storable values. -/
structure WF (hash : Key → Nat) (ht : Hashtable_t) : Prop where
  size : ht.table.length = 2 ^ ht.exp
  bucket : BucketInv hash ht.exp ht.table
  nodup : ((entries ht).map (fun e => e.key)).Nodup
  count : ht.len = (entries ht).length
  stored : ∀ e ∈ entries ht, e.htv.entryType ≠ EntryType_t.NONE

/-! ## The reference finite map of the specification -/

/-- The reference finite map: an association list from keys to values. -/
abbrev RefMap := List (Key × HashtableValue_t)

/-- The value the reference map holds for a key, if it holds one. -/
def refLookup (m : RefMap) (key : Key) : Option HashtableValue_t :=
  (m.find? (fun p => p.1 = key)).map (fun p => p.2)

/-- Reference `remove`: erase the key. -/
def refErase (m : RefMap) (key : Key) : RefMap :=
  m.filter (fun p => p.1 ≠ key)

/-- Reference `add`: insert if absent. -/
def refInsertIfAbsent (m : RefMap) (key : Key) (htv : HashtableValue_t) : RefMap :=
  if refLookup m key = none then (key, htv) :: m else m

/-- Reference `replace`: insert or overwrite. -/
def refInsertOrOverwrite (m : RefMap) (key : Key) (htv : HashtableValue_t) : RefMap :=
  (key, htv) :: refErase m key

/-- The size of the reference map: the number of distinct keys it holds. -/
def refSize (m : RefMap) : Nat := (m.map Prod.fst).dedup.length

/-- One call, on the reference map. -/
def refStep (m : RefMap) : Op → RefMap
  | Op.add key htv => refInsertIfAbsent m key htv
  | Op.remove key => refErase m key
  | Op.replace key htv => refInsertOrOverwrite m key htv

/-- A sequence of calls, on the empty reference map. -/
def refRun (ops : List Op) : RefMap := ops.foldl refStep []

/-- What the specification says `find` returns: the value the reference map
holds, or the `NONE` sentinel when it holds none. -/
def refFind (m : RefMap) (key : Key) : HashtableValue_t :=
  match refLookup m key with
  | some htv => htv
  | none => noneValue

/-- The table refines the reference map. -/
structure Refines (hash : Key → Nat) (ht : Hashtable_t) (m : RefMap) : Prop where
  wf : WF hash ht
  nodup : (m.map Prod.fst).Nodup
  stored : ∀ p ∈ m, Storable p.2
  find : ∀ key, htFind hash ht key = refFind m key
  len : ht.len = m.length

/-! ## Successive calls and sample inputs -/

/-- Successive `htAdd` calls, first pair first: the statuses returned and the
table after the last call. -/
def htAddAll (hash : Key → Nat) (ht : Hashtable_t) :
    List (Key × HashtableValue_t) → List Int × Hashtable_t
  | [] => ([], ht)
  | (key, htv) :: rest =>
    let r := htAdd hash ht key htv
    let rr := htAddAll hash r.2 rest
    (r.1 :: rr.1, rr.2)

instance (op : Op) : Decidable op.Storable := by
  cases op <;> unfold Op.Storable <;> infer_instance

/-- A small hash function, to run the operations on concrete inputs. -/
def sampleHash : Key → Nat := fun key => key.length

/-- A `SIGNED_INT` value. -/
def sampleInt (n : Nat) : HashtableValue_t :=
  { entryType := EntryType_t.SIGNED_INT, v := ValueUnion.word n }

/-- A `STRING` value. -/
def sampleString (chars : List UInt8) : HashtableValue_t :=
  { entryType := EntryType_t.STRING, v := ValueUnion.val chars }

/-- A short call sequence that adds, replaces and removes. -/
def sampleOps : List Op :=
  [Op.add [1] (sampleInt 10), Op.add [2] (sampleInt 20), Op.replace [1] (sampleString [104, 105]),
   Op.remove [2], Op.add [1] (sampleInt 5)]

/-- The table after `htAdd` of the one-byte key `1` on a fresh table. -/
def sampleTable : Hashtable_t := (Op.add [1] (sampleInt 10)).run sampleHash htCreateTable

/-- The one-byte keys `0, 1, ..., n - 1`, each with a `SIGNED_INT` value. -/
def distinctPairs (n : Nat) : List (Key × HashtableValue_t) :=
  (List.range n).map (fun i => ([UInt8.ofNat i], sampleInt (10 * i)))

/-- A fresh table after `htAdd` of the 31 one-byte keys `0, ..., 30`. -/
def table31 (hash : Key → Nat) : Hashtable_t :=
  (htAddAll hash htCreateTable (distinctPairs 31)).2

/-! ## The C library, as far as `main.c` uses it

A pointer into a character buffer is modelled by the bytes from the pointer
to the end of the buffer; a read that finds no NUL before the end of the
buffer leaves the buffer and has no result (`none`).  `long` has 64 bits.
`strtod` and the conversion `%lf` work on floating-point numbers and are
taken as parameters (`Libc`), on the 64-bit pattern of the `double`. -/

/-- The bytes of an ASCII string literal, without a terminator. -/
def ascii (s : String) : List UInt8 := s.toList.map (fun c => UInt8.ofNat c.toNat)

/-- The C string a pointer addresses: the bytes before the first NUL. -/
def cString : List UInt8 → Option (List UInt8)
  | [] => none
  | b :: rest => if b = 0 then some [] else (cString rest).map (fun s => b :: s)

/-- The call `strspn(s, " ")` added to `s`: the leading spaces skipped. -/
def skipSpaces : List UInt8 → List UInt8
  | [] => []
  | b :: rest => if b = 32 then skipSpaces rest else b :: rest

/-- The call `strcspn(s, " ")`: the bytes before the first space or NUL, and
the bytes from there on. -/
def tokenEnd : List UInt8 → List UInt8 × List UInt8
  | [] => ([], [])
  | b :: rest =>
    if b = 32 ∨ b = 0 then ([], b :: rest)
    else ((b :: (tokenEnd rest).1), (tokenEnd rest).2)

/-- The library function `strtok_r` with the delimiter `" "`, on the bytes
from the scan position on: the token (`none` for `NULL`), the bytes from the
byte that ended the token (a space, which `strtok_r` overwrites with NUL, or
the terminator), and the bytes from the new `*saveptr`. -/
def strtok_r (s : List UInt8) : Option (Option (List UInt8) × List UInt8 × List UInt8) :=
  match skipSpaces s with
  | [] => none
  | b :: rest =>
    if b = 0 then some (none, b :: rest, b :: rest)
    else
      match (tokenEnd (b :: rest)).2 with
      | [] => none
      | e :: after =>
        if e = 0 then some (some (tokenEnd (b :: rest)).1, e :: after, e :: after)
        else some (some (tokenEnd (b :: rest)).1, e :: after, after)

/-- The comparison `strncmp(s1, s2, n) == 0` of two C strings. -/
def strncmpEq (s1 s2 : List UInt8) (n : Nat) : Bool := decide (s1.take n = s2.take n)

/-- The C predicate `isspace` in the C locale. -/
def isspace (b : UInt8) : Bool := decide (b.toNat = 32 ∨ (9 ≤ b.toNat ∧ b.toNat ≤ 13))

/-- The C predicate `isdigit`. -/
def isdigit (b : UInt8) : Bool := decide (48 ≤ b.toNat ∧ b.toNat ≤ 57)

/-- The digit loop of `strtol` in base 10: the number read so far and the
bytes from the first byte that is not a digit. -/
def strtolDigits : List UInt8 → Nat → Nat × List UInt8
  | [], acc => (acc, [])
  | b :: rest, acc =>
    if isdigit b then strtolDigits rest (acc * 10 + (b.toNat - 48)) else (acc, b :: rest)

/-- The largest `long`. -/
def LONG_MAX : Int := 2 ^ 63 - 1

/-- The smallest `long`. -/
def LONG_MIN : Int := -(2 ^ 63)

/-- The result of `strtol` clamped to the range of `long`. -/
def clampLong (x : Int) : Int :=
  if x > LONG_MAX then LONG_MAX else if x < LONG_MIN then LONG_MIN else x

/-- The library function `strtol(nptr, &err, 10)`: white space is skipped, an
optional sign is read, then decimal digits; the result is clamped to the range
of `long`.  Returned with the bytes `err` addresses: the bytes after the last
digit, or all of `nptr` when there is no digit to read. -/
def strtol (nptr : List UInt8) : Int × List UInt8 :=
  let s := nptr.dropWhile isspace
  let negative : Bool := decide (s.head? = some 45)
  let digits := if s.head? = some 45 ∨ s.head? = some 43 then s.tail else s
  match digits with
  | [] => (0, nptr)
  | b :: rest =>
    if isdigit b then
      let r := strtolDigits (b :: rest) 0
      (clampLong (if negative then -(r.1 : Int) else (r.1 : Int)), r.2)
    else (0, nptr)

/-- The decimal digits of a natural number, most significant first; `fuel`
bounds their number. -/
def decimalDigits : Nat → Nat → List UInt8
  | 0, _ => []
  | fuel + 1, n =>
    if n < 10 then [UInt8.ofNat (48 + n)]
    else decimalDigits fuel (n / 10) ++ [UInt8.ofNat (48 + n % 10)]

/-- The text the conversion `%ld` prints for a `long`. -/
def printLong (x : Int) : List UInt8 :=
  if x < 0 then 45 :: decimalDigits (x.natAbs + 1) x.natAbs
  else decimalDigits (x.toNat + 1) x.toNat

/-- A 64-bit word read as a `long` (two's complement). -/
def asLong (bits : Nat) : Int := if bits < 2 ^ 63 then (bits : Int) else (bits : Int) - 2 ^ 64

/-- A `long` converted to `uint64_t` or `int64_t`: its 64-bit word. -/
def wordOfLong (x : Int) : Nat := (x % 2 ^ 64).toNat

/-- The floating-point routines of the C library: `strtod`, which returns the
64-bit pattern of the `double` it reads and the bytes `err` addresses, and the
text the conversion `%lf` prints for a `double`. -/
structure Libc where
  strtod : List UInt8 → Nat × List UInt8
  printDouble : Nat → List UInt8

/-! ## The command dispatcher (`main.c`) -/

/-- The struct `Command_t`.  A field is `none` for `NULL`, and otherwise the C
string the pointer addresses; `value` points into `statementCopy` at a place
where no terminator is known, and holds the bytes from there to the end of
that buffer. -/
structure Command_t where
  query : Option (List UInt8)
  type : Option (List UInt8)
  key : Option (List UInt8)
  value : Option (List UInt8)

/-- The number of an `EntryType_t` constant. -/
def EntryType_t.toInt : EntryType_t → Int
  | EntryType_t.STRING => 0
  | EntryType_t.UNSIGNED_INT => 1
  | EntryType_t.SIGNED_INT => 2
  | EntryType_t.DOUBLE => 3
  | EntryType_t.NONE => 4

/-- The function `getKeyType`.  For a name that is none of the four it ends
without a `return`; `junk` is the indeterminate value the caller then reads. -/
def getKeyType (junk : Int) (type : List UInt8) : Int :=
  if type = ascii "string" then EntryType_t.STRING.toInt
  else if type = ascii "uint" then EntryType_t.UNSIGNED_INT.toInt
  else if type = ascii "int" then EntryType_t.SIGNED_INT.toInt
  else if type = ascii "double" then EntryType_t.DOUBLE.toInt
  else junk

/-- The statements that follow `retVal = htAdd(...)` in every case of
`executeInsertCommand`: the reply `Key %s already exists` when it returned 1. -/
def afterHtAdd (key : List UInt8) (r : Int × Hashtable_t) (commandResult : List UInt8) :
    Int × Hashtable_t × List UInt8 :=
  (r.1, r.2,
    if r.1 = 1 then ascii "Key " ++ key ++ ascii " already exists" else commandResult)

/-- The end of `executeInsertCommand`: the reply `Value inserted successfully`
when `retVal == 0`. -/
def insertEpilogue (x : Int × Hashtable_t × List UInt8) : Int × Hashtable_t × List UInt8 :=
  (x.1, x.2.1, if x.1 = 0 then ascii "Value inserted successfully" else x.2.2)

/-- The case `DOUBLE` of `executeInsertCommand`, which the case `SIGNED_INT`
falls into when its parse fails: the reply `Error inserting key` when the
parse fails, and in either case the `htAdd` call. -/
def insertDouble (hash : Key → Nat) (libc : Libc) (ht : Hashtable_t) (key text : List UInt8)
    (commandResult : List UInt8) : Int × Hashtable_t × List UInt8 :=
  let d := libc.strtod text
  let commandResult1 := if d.2 ≠ [] then ascii "Error inserting key" else commandResult
  afterHtAdd key
    (htAdd hash ht key { entryType := EntryType_t.DOUBLE, v := ValueUnion.word d.1 })
    commandResult1

/-- The function `executeInsertCommand`: the status, the table afterwards and
the content of `commandResult`; `none` when it reads through a `NULL` pointer
or outside the request buffer. -/
def executeInsertCommand (hash : Key → Nat) (libc : Libc) (junk : Int) (ht : Hashtable_t)
    (command : Command_t) (commandResult : List UInt8) :
    Option (Int × Hashtable_t × List UInt8) :=
  match command.type, command.key with
  | some type, some key =>
    let text := command.value.bind cString
    let kind := getKeyType junk type
    if kind = EntryType_t.STRING.toInt then
      match text with
      | some chars =>
        some (insertEpilogue (afterHtAdd key
          (htAdd hash ht key { entryType := EntryType_t.STRING, v := ValueUnion.val chars })
          commandResult))
      | none =>
        -- `htAdd` reads the string only after its lookup has missed
        if (htFind hash ht key).entryType ≠ EntryType_t.NONE then
          some (insertEpilogue (afterHtAdd key (1, ht) commandResult))
        else none
    else if kind = EntryType_t.UNSIGNED_INT.toInt then
      match text with
      | some digits =>
        if (strtol digits).2 ≠ [] then
          some (insertEpilogue (1, ht, ascii "Error inserting key"))
        else
          some (insertEpilogue (afterHtAdd key
            (htAdd hash ht key
              { entryType := EntryType_t.UNSIGNED_INT,
                v := ValueUnion.word (wordOfLong (strtol digits).1) })
            commandResult))
      | none => none
    else if kind = EntryType_t.SIGNED_INT.toInt then
      match text with
      | some digits =>
        if (strtol digits).2 ≠ [] then
          -- no `break` on this path: control falls into `case DOUBLE`
          some (insertEpilogue (insertDouble hash libc ht key digits
            (ascii "Error inserting key")))
        else
          some (insertEpilogue (afterHtAdd key
            (htAdd hash ht key
              { entryType := EntryType_t.SIGNED_INT,
                v := ValueUnion.word (wordOfLong (strtol digits).1) })
            commandResult))
      | none => none
    else if kind = EntryType_t.DOUBLE.toInt then
      match text with
      | some digits => some (insertEpilogue (insertDouble hash libc ht key digits commandResult))
      | none => none
    else some (insertEpilogue (1, ht, commandResult))
  | _, _ => none

/-- The text `executeSelectCommand` prints for a stored value, by its type
tag: `%s` for a string, `%ld` for both integer types, `%lf` for a double.
The result is `none` where the payload is not of the kind the tag names. -/
def renderValue (libc : Libc) (htv : HashtableValue_t) : Option (List UInt8) :=
  match htv.entryType, htv.v with
  | EntryType_t.STRING, ValueUnion.val chars => some chars
  | EntryType_t.UNSIGNED_INT, ValueUnion.word bits => some (printLong (asLong bits))
  | EntryType_t.SIGNED_INT, ValueUnion.word bits => some (printLong (asLong bits))
  | EntryType_t.DOUBLE, ValueUnion.word bits => some (libc.printDouble bits)
  | _, _ => none

/-- The function `executeSelectCommand`. -/
def executeSelectCommand (hash : Key → Nat) (libc : Libc) (ht : Hashtable_t)
    (command : Command_t) (_commandResult : List UInt8) :
    Option (Int × Hashtable_t × List UInt8) :=
  match command.key with
  | none => none
  | some key =>
    let htv := htFind hash ht key
    if htv.entryType = EntryType_t.NONE then some (0, ht, ascii "Key not found")
    else
      match renderValue libc htv with
      | some text => some (0, ht, ascii "\x7b" ++ key ++ ascii ": " ++ text ++ ascii "\x7d")
      | none => none

/-- The function `executeDeleteCommand`. -/
def executeDeleteCommand (hash : Key → Nat) (ht : Hashtable_t) (command : Command_t)
    (commandResult : List UInt8) : Option (Int × Hashtable_t × List UInt8) :=
  match command.key with
  | none => none
  | some key =>
    let r := htRemove hash ht key
    some (r.1, r.2,
      if r.1 = 0 then ascii "Key removed successfully"
      else if r.1 = 1 then ascii "Key not found"
      else commandResult)

/-- The end of `executeReplaceCommand`: the reply by `retval`. -/
def replaceEpilogue (retval : Int) (ht : Hashtable_t) : Int × Hashtable_t × List UInt8 :=
  (retval, ht,
    if retval = 0 then ascii "Key replaced successfully" else ascii "Error replacing key")

/-- The function `executeReplaceCommand`. -/
def executeReplaceCommand (hash : Key → Nat) (libc : Libc) (junk : Int) (ht : Hashtable_t)
    (command : Command_t) : Option (Int × Hashtable_t × List UInt8) :=
  match command.type, command.key with
  | some type, some key =>
    let text := command.value.bind cString
    let kind := getKeyType junk type
    if kind = EntryType_t.STRING.toInt then
      match text with
      | some chars =>
        let r := htReplace hash ht key { entryType := EntryType_t.STRING, v := ValueUnion.val chars }
        some (replaceEpilogue r.1 r.2)
      | none => none
    else if kind = EntryType_t.UNSIGNED_INT.toInt then
      match text with
      | some digits =>
        if (strtol digits).2 ≠ [] then some (replaceEpilogue 1 ht)
        else
          let r := htReplace hash ht key
            { entryType := EntryType_t.UNSIGNED_INT,
              v := ValueUnion.word (wordOfLong (strtol digits).1) }
          some (replaceEpilogue r.1 r.2)
      | none => none
    else if kind = EntryType_t.SIGNED_INT.toInt then
      match text with
      | some digits =>
        if (strtol digits).2 ≠ [] then some (replaceEpilogue 1 ht)
        else
          let r := htReplace hash ht key
            { entryType := EntryType_t.SIGNED_INT,
              v := ValueUnion.word (wordOfLong (strtol digits).1) }
          some (replaceEpilogue r.1 r.2)
      | none => none
    else if kind = EntryType_t.DOUBLE.toInt then
      match text with
      | some digits =>
        if (libc.strtod digits).2 ≠ [] then some (replaceEpilogue 1 ht)
        else
          let r := htReplace hash ht key
            { entryType := EntryType_t.DOUBLE, v := ValueUnion.word (libc.strtod digits).1 }
          some (replaceEpilogue r.1 r.2)
      | none => none
    else some (replaceEpilogue 1 ht)
  | _, _ => none

/-- The tokenizing part of `executeDbCommand` (the three `strtok_r` calls and
the `if` statements after them): the command, `retval` and the content of
`commandResult`.  `retval0` is the indeterminate value of the uninitialized
local `retval`.  The result is `none` when a scan leaves `statementCopy` and
when `strncmp` is called on a `NULL` `command.query`. -/
def parseCommand (retval0 : Int) (commandResult0 : List UInt8) (statementCopy : List UInt8) :
    Option (Command_t × Int × List UInt8) :=
  match strtok_r statementCopy with
  | none => none
  | some (none, _, _) =>
    -- `command.key` and `command.type` are `NULL` too, and the `else` branch
    -- of `command.type != NULL` passes the `NULL` `command.query` to `strncmp`
    none
  | some (some query, _, save1) =>
    match strtok_r save1 with
    | none => none
    | some (none, _, _) =>
      some ({ query := some query, type := none, key := none, value := none }, 1,
        ascii "Malformed query")
    | some (some key, _, save2) =>
      match strtok_r save2 with
      | none => none
      | some (none, _, _) =>
        if strncmpEq query (ascii "insert") 6 ∨ strncmpEq query (ascii "replace") 7 then
          some ({ query := some query, type := none, key := some key, value := none }, 1,
            ascii "Malformed query")
        else
          some ({ query := some query, type := none, key := some key, value := none },
            retval0, commandResult0)
      | some (some type, stop, _) =>
        -- `command.value = command.type + strlen(command.type) + 1`
        some ({ query := some query, type := some type, key := some key,
                value := some stop.tail }, retval0, commandResult0)

/-- The function `executeDbCommand`: the status, the table afterwards and the
content of `commandResult`.  `inputStatementSize` is the length of
`inputStatement`. -/
def executeDbCommand (hash : Key → Nat) (libc : Libc) (retval0 junk : Int)
    (inputStatement : List UInt8) (ht : Hashtable_t) (commandResult0 : List UInt8) :
    Option (Int × Hashtable_t × List UInt8) :=
  if inputStatement = [] then none
  else
    let statementCopy :=
      if inputStatement.getLast? = some 10 then inputStatement.dropLast ++ [0]
      else inputStatement
    match parseCommand retval0 commandResult0 statementCopy with
    | none => none
    | some (command, retval, commandResult) =>
      if retval ≠ 1 then
        match command.query with
        | none => none
        | some query =>
          if strncmpEq query (ascii "insert") 6 then
            executeInsertCommand hash libc junk ht command commandResult
          else if strncmpEq query (ascii "select") 6 then
            executeSelectCommand hash libc ht command commandResult
          else if strncmpEq query (ascii "delete") 6 then
            executeDeleteCommand hash ht command commandResult
          else if strncmpEq query (ascii "replace") 7 then
            executeReplaceCommand hash libc junk ht command
          else some (1, ht, ascii "Query not supported")
      else some (retval, ht, commandResult)

/-- A NUL-terminated request `insert <key> <type> <value>`. -/
def insertRequest (key type value : List UInt8) : List UInt8 :=
  ascii "insert " ++ key ++ [32] ++ type ++ [32] ++ value ++ [0]

/-- A NUL-terminated request `select <key>`. -/
def selectRequest (key : List UInt8) : List UInt8 :=
  ascii "select " ++ key ++ [0]

/-- A floating-point library for running the dispatcher on inputs without
doubles: it reads nothing and prints nothing. -/
def sampleLibc : Libc := { strtod := fun text => (0, text), printDouble := fun _ => [] }

/-- The bytes of a token of a request: neither a space nor NUL. -/
def TokenBytes (tok : List UInt8) : Prop := ∀ b ∈ tok, b ≠ 32 ∧ b ≠ 0

/-- A key as a request can name it: at least one byte, no space, no NUL. -/
def KeyToken (key : List UInt8) : Prop := key ≠ [] ∧ TokenBytes key

instance (tok : List UInt8) : Decidable (TokenBytes tok) := by
  unfold TokenBytes; infer_instance

instance (key : List UInt8) : Decidable (KeyToken key) := by
  unfold KeyToken; infer_instance

/-- A text of decimal digits, at least one. -/
def IsDecimal (text : List UInt8) : Prop := text ≠ [] ∧ ∀ b ∈ text, isdigit b = true

/-- A decimal text with an optional sign in front. -/
def IsSignedDecimal (text : List UInt8) : Prop :=
  IsDecimal text ∨ ∃ d, (text = 45 :: d ∨ text = 43 :: d) ∧ IsDecimal d

/-- The number a text of decimal digits denotes. -/
def digitsValue (text : List UInt8) : Nat :=
  text.foldl (fun a b => a * 10 + (b.toNat - 48)) 0

instance (text : List UInt8) : Decidable (IsDecimal text) := by
  unfold IsDecimal; infer_instance

/-- A type name of the protocol with a value text that is valid for it: any
text for `string` and `double` (what `strtod` accepts is a matter of the C
library), decimal digits for `uint`, decimal digits with an optional sign for
`int`.  The text holds no NUL. -/
def ValidValue (type value : List UInt8) : Prop :=
  (0 : UInt8) ∉ value ∧
  (type = ascii "string" ∨ (type = ascii "uint" ∧ IsDecimal value) ∨
    (type = ascii "int" ∧ IsSignedDecimal value) ∨ type = ascii "double")

/-- The type tag a type name of the protocol names. -/
def typeTag (type : List UInt8) : EntryType_t :=
  if type = ascii "string" then EntryType_t.STRING
  else if type = ascii "uint" then EntryType_t.UNSIGNED_INT
  else if type = ascii "int" then EntryType_t.SIGNED_INT
  else if type = ascii "double" then EntryType_t.DOUBLE
  else EntryType_t.NONE

/-- A one-byte key, `k`, for running the dispatcher on concrete requests. -/
def sampleKey : List UInt8 := ascii "k"

/-- The table after the request `insert k string hello` on a fresh table. -/
def sampleDbTable : Hashtable_t :=
  (htAdd sampleHash htCreateTable sampleKey (sampleString (ascii "hello"))).2

/-- A NUL-terminated request `delete <key>`. -/
def deleteRequest (key : List UInt8) : List UInt8 :=
  ascii "delete " ++ key ++ [0]

/-- A NUL-terminated request `replace <key> <type> <value>`. -/
def replaceRequest (key type value : List UInt8) : List UInt8 :=
  ascii "replace " ++ key ++ [32] ++ type ++ [32] ++ value ++ [0]

/-- A value text in the canonical form of its type: any text without NUL for
`string`; for `uint` and `int` the decimal text `%ld` prints for a number in
the range of a signed 64-bit integer (not negative for `uint`). -/
def CanonicalValue (type x : List UInt8) : Prop :=
  (type = ascii "string" ∧ (0 : UInt8) ∉ x) ∨
  (type = ascii "uint" ∧ ∃ n : Int, 0 ≤ n ∧ n < 2 ^ 63 ∧ x = printLong n) ∨
  (type = ascii "int" ∧ ∃ n : Int, -(2 ^ 63) ≤ n ∧ n < 2 ^ 63 ∧ x = printLong n)

/-- The value texts `executeReplaceCommand` accepts for a type name: every
text for `string`; for `uint` and `int` a text `strtol` reads to its end; for
`double` a text `strtod` reads to its end. -/
def ReplaceAccepts (libc : Libc) (type value : List UInt8) : Prop :=
  type = ascii "string" ∨
  ((type = ascii "uint" ∨ type = ascii "int") ∧ (strtol value).2 = []) ∨
  (type = ascii "double" ∧ (libc.strtod value).2 = [])

instance (libc : Libc) (type value : List UInt8) : Decidable (ReplaceAccepts libc type value) := by
  unfold ReplaceAccepts; infer_instance

/-- The four type names of the protocol. -/
def typeNames : List (List UInt8) := [ascii "string", ascii "uint", ascii "int", ascii "double"]

/-- A NUL-terminated request that holds a verb token only, followed by `n`
spaces. -/
def verbOnlyRequest (verb : List UInt8) (n : Nat) : List UInt8 :=
  verb ++ List.replicate n 32 ++ [0]

/-- A NUL-terminated request that holds a verb token and a key token but no
type token, followed by `n` spaces. -/
def noTypeRequest (verb key : List UInt8) (n : Nat) : List UInt8 :=
  verb ++ [32] ++ key ++ List.replicate n 32 ++ [0]

/-- The canonical decimal text of a natural number: its digits, most
significant first, without leading zeros. -/
def canonicalDecimal (n : Nat) : List UInt8 := decimalDigits (n + 1) n

/-- A NUL-terminated request that ends with its type token: a verb, a key and
a type, and no byte after the type. -/
def noValueRequest (verb key type : List UInt8) : List UInt8 :=
  verb ++ [32] ++ key ++ [32] ++ type ++ [0]

/-- The four comparisons by which `executeDbCommand` selects the operation:
the first 6 bytes of the query against `insert`, `select`, `delete`, or its
first 7 bytes against `replace`. -/
def matchesVerb (query : List UInt8) : Bool :=
  strncmpEq query (ascii "insert") 6 || strncmpEq query (ascii "select") 6 ||
    strncmpEq query (ascii "delete") 6 || strncmpEq query (ascii "replace") 7

/-- A NUL-terminated request with a first token, a key token and whatever
follows the key: nothing, or a space and further bytes. -/
def keyedRequest (verb key tail : List UInt8) : List UInt8 :=
  verb ++ [32] ++ key ++ tail ++ [0]

/-! ## The connection multiplexer (`network.c`)

The state is the part of `Server_t` the multiplexer keeps in step: the
descriptor `clients[i].clientFd` of every slot and the descriptor
`pollFds[j].fd` of every entry of the poll set.  What the operating system
answers (the results of `socket`, `bind`, `listen`, `accept`, `poll` and
`recv`) is an input.  The calls by which a descriptor leaves the multiplexer,
`close` and the handler `onData`, are returned with the state, in the order
in which they are made. -/

/-- The constant `MAX_SERVER_CONN` of `network.h`. -/
def MAX_SERVER_CONN : Nat := 20

/-- The struct `Server_t`: `clients` holds `clients[i].clientFd` and `pollFds`
holds `pollFds[j].fd`. -/
structure Server_t where
  serverFd : Int
  port : Int
  clients : List Int
  pollFds : List Int

/-- The function `createServer`, given what `socket`, `bind` and `listen`
return: `none` for `NULL`.  Every `clientFd` is set to -1, and the `memset`
of `pollFds` with the byte -1 makes every `fd` the `int` -1. -/
def createServer (port socketFd bindResult listenResult : Int) : Option Server_t :=
  if socketFd < 0 then none
  else if bindResult < 0 then none
  else if listenResult < 0 then none
  else some
    { serverFd := socketFd, port := port,
      clients := List.replicate MAX_SERVER_CONN (-1),
      pollFds := List.replicate (MAX_SERVER_CONN + 1) (-1) }

/-- A call by which the multiplexer hands a descriptor on: `close` of the
descriptor, or the handler `onData` with the descriptor of a client as its
first argument. -/
inductive ServerCall
  | close (fd : Int)
  | onData (clientFd : Int)
  deriving DecidableEq, Repr

/-- The `for` loop at the head of the `while` loop of
`acceptClientConnections`: `clientIdx` is the last slot whose `clientFd` is
-1, and -1 when there is none. -/
def freeSlot (clients : List Int) : Int :=
  (List.range MAX_SERVER_CONN).foldl
    (fun (clientIdx : Int) (i : Nat) => if clients[i]? = some (-1) then (i : Int) else clientIdx)
    (-1)

/-- One pass of the `while` loop of `acceptClientConnections`, where `accept`
returns `acceptResult`: the state afterwards, the value the function returns
with (`none` when the loop goes on), and the calls of `close` the pass makes.
With no free slot the new connection is closed and the function returns -1;
with a free slot the descriptor is stored in the slot and in the poll set,
one entry further, the first entry being the listening socket. -/
def acceptPass (numAccept : Int) (server : Server_t) (acceptResult : Int) :
    Server_t × Option Int × List ServerCall :=
  let clientIdx := freeSlot server.clients
  if clientIdx = -1 then
    -- `int closeFd = accept(...)`
    if acceptResult = -1 then (server, some numAccept, [])
    else (server, some (-1), [ServerCall.close acceptResult])
  else if acceptResult = -1 then (server, some numAccept, [])
  else
    ({ server with
        clients := server.clients.set clientIdx.toNat acceptResult,
        pollFds := server.pollFds.set (clientIdx.toNat + 1) acceptResult }, none, [])

/-- The function `acceptClientConnections`, given the descriptors of the
connections that wait to be accepted; when none is left `accept` returns -1.
The result is the value returned, the state afterwards and the calls made, in
their order. -/
def acceptClientConnections (server : Server_t) : List Int → Int × Server_t × List ServerCall
  | [] => (0, (acceptPass 0 server (-1)).1, (acceptPass 0 server (-1)).2.2)
  | acceptResult :: pending =>
    match acceptPass 0 server acceptResult with
    | (server1, some r, calls) => (r, server1, calls)
    | (server1, none, calls) =>
      match acceptClientConnections server1 pending with
      | (r, server2, calls2) => (r, server2, calls ++ calls2)

/-- The body of the `for` loop of `runServer` for a slot that has data to
read, where `recv` returns `size`: the state afterwards and the call made
with the descriptor `clients[i].clientFd`.  A disconnect closes the
descriptor, frees the slot and takes the descriptor out of the poll set;
otherwise `onData` is called with the descriptor, and does not touch the
server. -/
def serveClient (server : Server_t) (i : Nat) (size : Int) : Server_t × List ServerCall :=
  if size ≤ 0 then
    ({ server with
        clients := server.clients.set i (-1),
        pollFds := server.pollFds.set (i + 1) (-1) },
      (server.clients[i]?.map ServerCall.close).toList)
  else (server, (server.clients[i]?.map ServerCall.onData).toList)

/-- What the operating system answers in one pass of the `while` loop of
`runServer`: the result of `poll`, whether the listening socket and each slot
are readable, the connections that wait to be accepted, and the size `recv`
returns for each slot. -/
structure PollRound where
  numReady : Int
  serverReadable : Bool
  pending : List Int
  clientReadable : Nat → Bool
  recvSize : Nat → Int

/-- The statements of `runServer` before its loop: the listening socket takes
the first entry of the poll set. -/
def runServerSetup (server : Server_t) : Server_t :=
  { server with pollFds := server.pollFds.set 0 server.serverFd }

/-- One step of the `for` loop of `runServer`: the slot `i` is served when it
is readable; the calls made are added to those made before. -/
def serveSlot (r : PollRound) (s : Server_t × List ServerCall) (i : Nat) :
    Server_t × List ServerCall :=
  if r.clientReadable i then
    ((serveClient s.1 i (r.recvSize i)).1, s.2 ++ (serveClient s.1 i (r.recvSize i)).2)
  else s

/-- One pass of the `while` loop of `runServer` after a successful `poll`:
the state afterwards and the calls made, in their order. -/
def runServerRound (server : Server_t) (r : PollRound) : Server_t × List ServerCall :=
  let accepted : Server_t × List ServerCall :=
    if r.serverReadable then (acceptClientConnections server r.pending).2 else (server, [])
  (List.range MAX_SERVER_CONN).foldl (serveSlot r) accepted

/-- The loop of `runServer`: it ends when `poll` fails. -/
def runServerLoop (server : Server_t) : List PollRound → Server_t × List ServerCall
  | [] => (server, [])
  | r :: rest =>
    if r.numReady = -1 then (server, [])
    else
      ((runServerLoop (runServerRound server r).1 rest).1,
        (runServerRound server r).2 ++ (runServerLoop (runServerRound server r).1 rest).2)

/-- The function `runServer`, up to the call of `destroyServer`. -/
def runServer (server : Server_t) (rounds : List PollRound) : Server_t × List ServerCall :=
  runServerLoop (runServerSetup server) rounds

/-- A step of the multiplexer: a pass of the accept loop (into a free slot, or
rejected when there is none), or the service of a readable slot (a read when
`size` is positive, a disconnect otherwise). -/
inductive ServerStep
  | accept (acceptResult : Int)
  | serve (i : Fin MAX_SERVER_CONN) (size : Int)

/-- The state after a step. -/
def ServerStep.run (server : Server_t) : ServerStep → Server_t
  | ServerStep.accept acceptResult => (acceptPass 0 server acceptResult).1
  | ServerStep.serve i size => (serveClient server i.val size).1

/-- The state after a sequence of steps. -/
def runSteps (server : Server_t) (steps : List ServerStep) : Server_t :=
  steps.foldl ServerStep.run server

/-- The poll set agrees with the slots: for every slot `i`, `pollFds[i+1].fd`
and `clients[i].clientFd` are the same descriptor. -/
def Registered (server : Server_t) : Prop :=
  ∀ i, i < MAX_SERVER_CONN →
    ∃ fd : Int, server.pollFds[i + 1]? = some fd ∧ server.clients[i]? = some fd

/-- The form of the invariant the proofs carry: all slots exist, and the poll
set after its first entry is the list of the slots. -/
structure PollSetInv (server : Server_t) : Prop where
  clients_length : server.clients.length = MAX_SERVER_CONN
  pollFds_tail : server.pollFds.tail = server.clients

/-- The server `createServer` returns for port 1337 when `socket` returns the
descriptor 3. -/
def sampleServer : Server_t :=
  { serverFd := 3, port := 1337,
    clients := List.replicate MAX_SERVER_CONN (-1),
    pollFds := List.replicate (MAX_SERVER_CONN + 1) (-1) }

/-- Steps on the sample server: two accepts, a read, a disconnect, an accept
that `accept` fails. -/
def sampleSteps : List ServerStep :=
  [ServerStep.accept 4, ServerStep.accept 5, ServerStep.serve ⟨19, by decide⟩ 12,
    ServerStep.serve ⟨19, by decide⟩ 0, ServerStep.accept (-1)]

/-- The table with the one-byte keys `1` and `2`, which `sampleHash` links in
one bucket, the key `2` at its head. -/
def sampleChainTable : Hashtable_t := (Op.add [2] (sampleInt 20)).run sampleHash sampleTable

/-- The four verbs of the protocol. -/
def verbNames : List (List UInt8) :=
  [ascii "insert", ascii "select", ascii "delete", ascii "replace"]

/-- The number of occupied slots. -/
def occupied (server : Server_t) : Nat := (server.clients.filter (fun fd => fd ≠ -1)).length

/-- A pass of the loop of `runServer` in which the listening socket is
readable with the connections 24 and 25 pending, slot 3 has 12 bytes to read
and slot 5 has disconnected. -/
def sampleRound : PollRound :=
  { numReady := 3, serverReadable := true, pending := [24, 25],
    clientReadable := fun i => decide (i = 3 ∨ i = 5),
    recvSize := fun i => if i = 3 then 12 else 0 }

/-- A server whose 20 slots are all occupied, by the descriptors 4 to 23. -/
def fullServer : Server_t :=
  { serverFd := 3, port := 1337,
    clients := (List.range MAX_SERVER_CONN).map (fun i => (i : Int) + 4),
    pollFds := 3 :: (List.range MAX_SERVER_CONN).map (fun i => (i : Int) + 4) }

/-! ## The legacy table (`src/hashtable.c`)

The file `src/hashtable.c` is an earlier version of the table.  Its types
`Hashtable`, `HashtableValue` and `HashtableEntry` have the fields of the
current ones.  Its functions `cmpKey`, `htFindEntry`, `htExpandAndRehash`,
`htCreateTable` and `htFind` have the statements of the current ones
(`1 << ht->exp + 1` is `1 << (ht->exp + 1)`, and `htFindEntry` returns `NULL`
in the same cases), so the definitions above stand for both versions.  The
functions that differ are embedded here, under the name `Legacy`. -/

/-- The legacy function `htAdd`: as the current one, but the payload is
assigned for every type, a string included. -/
def Legacy.htAdd (hash : Key → Nat) (ht : Hashtable_t) (key : Key) (htv : HashtableValue_t) :
    Int × Hashtable_t :=
  if (htFind hash ht key).entryType ≠ EntryType_t.NONE then (1, ht)
  else
    let ht1 := if ht.len = 2 ^ ht.exp then htExpandAndRehash hash ht else ht
    let idx := hash key % 2 ^ ht1.exp
    let hte : HashtableEntry_t := { key := key, htv := htv }
    (0, { table := ht1.table.set idx (hte :: ht1.table.getD idx []),
          len := ht1.len + 1,
          exp := ht1.exp })

/-- The legacy function `htRemove`.  Its search loop is the loop of
`htFindEntry`: it stops at the last entry of the chain, or earlier at an entry
whose key compares equal, and the entry it stopped at is unlinked without a
further comparison.  An entry behind another is taken out of the chain; for
the entry at the head, `ht->table[idx]` is set to `hte->next` and then to
`NULL`.  The function returns 0 in every case. -/
def Legacy.htRemove (hash : Key → Nat) (ht : Hashtable_t) (key : Key) : Int × Hashtable_t :=
  let idx := hash key % 2 ^ ht.exp
  let chain := ht.table.getD idx []
  match chain with
  | [] => (0, ht)
  | _ :: _ =>
    let pos := htFindEntryWalk key chain
    (0, { table := ht.table.set idx (if pos = 0 then [] else chain.eraseIdx pos),
          len := if ht.len = 0 then 2 ^ 64 - 1 else ht.len - 1,
          exp := ht.exp })

/-! ## The legacy codec (`src/hashtable.c`)

A file is the list of its bytes.  What `htSerializeToFile` writes is returned
as a list of bytes.  The line buffer `getline` fills is the line followed by
the terminating NUL; `strtok` works on the buffer and on the position its
static pointer holds, and a token is named by the position of its first byte
in the buffer. -/

/-- What `htSerializeToFile` prints for the value of an entry after the type
number: a space, the value by the conversion of its type (`%s`, `%ld`, `%ld`,
`%lf`) and a newline; nothing for a type without a `case`.  The result is
`none` where the payload is not of the kind the tag names. -/
def Legacy.valueText (libc : Libc) (htv : HashtableValue_t) : Option (List UInt8) :=
  match htv.entryType, htv.v with
  | EntryType_t.STRING, ValueUnion.val chars =>
    some ([32] ++ chars.takeWhile (fun b => b ≠ 0) ++ [10])
  | EntryType_t.UNSIGNED_INT, ValueUnion.word bits => some ([32] ++ printLong (asLong bits) ++ [10])
  | EntryType_t.SIGNED_INT, ValueUnion.word bits => some ([32] ++ printLong (asLong bits) ++ [10])
  | EntryType_t.DOUBLE, ValueUnion.word bits => some ([32] ++ libc.printDouble bits ++ [10])
  | EntryType_t.NONE, _ => some []
  | _, _ => none

/-- The bytes `htSerializeToFile` prints for one entry: `keylen` by `%ld`, a
space, the bytes of the key by `%c`, a space and the type number by `%d`, then
the value. -/
def Legacy.recordText (libc : Libc) (curr : HashtableEntry_t) : Option (List UInt8) :=
  (Legacy.valueText libc curr.htv).map (fun text =>
    printLong (asLong curr.key.length) ++ [32] ++ curr.key ++ [32] ++
      printLong curr.htv.entryType.toInt ++ text)

/-- The bytes printed for the entries of the table, in the order the loops of
`htSerializeToFile` visit them. -/
def Legacy.writeEntries (libc : Libc) : List HashtableEntry_t → Option (List UInt8)
  | [] => some []
  | curr :: next =>
    match Legacy.recordText libc curr, Legacy.writeEntries libc next with
    | some record, some records => some (record ++ records)
    | _, _ => none

/-- The legacy function `htSerializeToFile`: the bytes written to the file;
the buckets are visited in index order and every chain head first. -/
def Legacy.htSerializeToFile (libc : Libc) (ht : Hashtable_t) : Option (List UInt8) :=
  Legacy.writeEntries libc ((List.range (2 ^ ht.exp)).flatMap (fun i => ht.table.getD i []))

/-- The lines successive `getline` calls return for a file: each ends with
its newline, except a last line that has none. -/
def Legacy.getlines : List UInt8 → List (List UInt8)
  | [] => []
  | b :: rest =>
    if b = 10 then [10] :: Legacy.getlines rest
    else
      match Legacy.getlines rest with
      | [] => [[b]]
      | line :: lines => (b :: line) :: lines

/-- The library function `strtok` with a one-byte delimiter, on the buffer and
the position the static pointer holds: the position of the token (`none` for
`NULL`), the buffer afterwards (the delimiter that ends the token is
overwritten with NUL) and the new position of the static pointer. -/
def Legacy.strtok (delim : UInt8) (buf : List UInt8) (pos : Nat) :
    Option Nat × List UInt8 × Nat :=
  let start := pos + ((buf.drop pos).takeWhile (fun b => b = delim)).length
  match buf[start]? with
  | none => (none, buf, start)
  | some b =>
    if b = 0 then (none, buf, start)
    else
      let stop := start + ((buf.drop start).takeWhile (fun c => c ≠ delim ∧ c ≠ 0)).length
      match buf[stop]? with
      | none => (some start, buf, stop)
      | some c =>
        if c = 0 then (some start, buf, stop) else (some start, buf.set stop 0, stop + 1)

/-- The C string at a position of the buffer: the bytes before the next
NUL. -/
def Legacy.cStringAt (buf : List UInt8) (pos : Nat) : List UInt8 :=
  (buf.drop pos).takeWhile (fun b => b ≠ 0)

/-- The library function `atol`: `strtol` in base 10 without the end
pointer. -/
def Legacy.atol (s : List UInt8) : Int := (strtol s).1

/-- The library function `atoi`: the result of `strtol` converted to a 32-bit
`int`. -/
def Legacy.atoi (s : List UInt8) : Int := ((strtol s).1 + 2 ^ 31) % 2 ^ 32 - 2 ^ 31

/-- The enumerator of `EntryType` with a given number. -/
def Legacy.entryTypeOfInt (n : Int) : Option EntryType_t :=
  if n = 0 then some EntryType_t.STRING
  else if n = 1 then some EntryType_t.UNSIGNED_INT
  else if n = 2 then some EntryType_t.SIGNED_INT
  else if n = 3 then some EntryType_t.DOUBLE
  else if n = 4 then some EntryType_t.NONE
  else none

/-- How an attempt to read a record ends when it yields no record. -/
inductive Legacy.Fault
  /-- A `NULL` pointer is passed to `atol`, `atoi` or `atof`, or is read as
  the key. -/
  | nullPointer
  /-- The record is outside the model: a `STRING` payload, which is a pointer
  into the line buffer that the next `getline` overwrites; a type number that
  is no enumerator; a key length that reaches past the line. -/
  | notModelled
  deriving DecidableEq, Repr

/-- The bytes `htAdd` reads at `key`: `keylen` bytes of the buffer from the
position of the key token on; for a `NULL` key no byte is read when `keylen`
is 0. -/
def Legacy.keyBytes (buf : List UInt8) (key : Option Nat) (keylen : Nat) :
    Except Legacy.Fault Key :=
  match key with
  | none => if keylen = 0 then Except.ok [] else Except.error Legacy.Fault.nullPointer
  | some s2 =>
    if s2 + keylen ≤ buf.length then Except.ok ((buf.drop s2).take keylen)
    else Except.error Legacy.Fault.notModelled

/-- The `switch` of the loop of `htDeserializeFromFile`: the payload by the
type number, read from the token `val`.  `junk` is the indeterminate payload
of a value whose type has no `case`. -/
def Legacy.readValue (libc : Libc) (junk : Nat) (entryType : Int) (buf : List UInt8)
    (val : Option Nat) : Except Legacy.Fault HashtableValue_t :=
  match Legacy.entryTypeOfInt entryType with
  | some EntryType_t.STRING => Except.error Legacy.Fault.notModelled
  | some EntryType_t.UNSIGNED_INT =>
    match val with
    | none => Except.error Legacy.Fault.nullPointer
    | some s4 =>
      Except.ok { entryType := EntryType_t.UNSIGNED_INT,
                  v := ValueUnion.word (wordOfLong (Legacy.atol (Legacy.cStringAt buf s4))) }
  | some EntryType_t.SIGNED_INT =>
    match val with
    | none => Except.error Legacy.Fault.nullPointer
    | some s4 =>
      Except.ok { entryType := EntryType_t.SIGNED_INT,
                  v := ValueUnion.word (wordOfLong (Legacy.atol (Legacy.cStringAt buf s4))) }
  | some EntryType_t.DOUBLE =>
    match val with
    | none => Except.error Legacy.Fault.nullPointer
    | some s4 =>
      Except.ok { entryType := EntryType_t.DOUBLE,
                  v := ValueUnion.word (libc.strtod (Legacy.cStringAt buf s4)).1 }
  | some EntryType_t.NONE =>
    Except.ok { entryType := EntryType_t.NONE, v := ValueUnion.word junk }
  | none => Except.error Legacy.Fault.notModelled

/-- The body of the loop of `htDeserializeFromFile` up to the `htAdd` call,
for one line: the four `strtok` calls, the `switch`, and the key and the
value handed to `htAdd`. -/
def Legacy.readRecord (libc : Libc) (junk : Nat) (line : List UInt8) :
    Except Legacy.Fault (Key × HashtableValue_t) :=
  match Legacy.strtok 32 (line ++ [0]) 0 with
  | (none, _, _) => Except.error Legacy.Fault.nullPointer
  | (some s1, buf1, pos1) =>
    let keylen := wordOfLong (Legacy.atol (Legacy.cStringAt buf1 s1))
    match Legacy.strtok 32 buf1 pos1 with
    | (key, buf2, pos2) =>
      match Legacy.strtok 32 buf2 pos2 with
      | (none, _, _) => Except.error Legacy.Fault.nullPointer
      | (some s3, buf3, pos3) =>
        let entryType := Legacy.atoi (Legacy.cStringAt buf3 s3)
        match Legacy.strtok 10 buf3 pos3 with
        | (val, buf4, _) =>
          match Legacy.readValue libc junk entryType buf4 val with
          | Except.error f => Except.error f
          | Except.ok htv =>
            match Legacy.keyBytes buf4 key keylen with
            | Except.error f => Except.error f
            | Except.ok k => Except.ok (k, htv)

/-- The loop of `htDeserializeFromFile` over the lines of the file. -/
def Legacy.deserializeLines (hash : Key → Nat) (libc : Libc) (junk : Nat) :
    Hashtable_t → List (List UInt8) → Except Legacy.Fault Hashtable_t
  | ht, [] => Except.ok ht
  | ht, line :: lines =>
    match Legacy.readRecord libc junk line with
    | Except.error f => Except.error f
    | Except.ok (key, htv) =>
      Legacy.deserializeLines hash libc junk (Legacy.htAdd hash ht key htv).2 lines

/-- The legacy function `htDeserializeFromFile`: the table afterwards. -/
def Legacy.htDeserializeFromFile (hash : Key → Nat) (libc : Libc) (junk : Nat)
    (ht : Hashtable_t) (file : List UInt8) : Except Legacy.Fault Hashtable_t :=
  Legacy.deserializeLines hash libc junk ht (Legacy.getlines file)
/-- A key the format of the codec carries: at least one byte, none of them a
space, a newline or NUL, and a length `%ld` prints without a sign. -/
def Legacy.GoodKey (key : Key) : Prop :=
  key ≠ [] ∧ key.length < 2 ^ 63 ∧ ∀ b ∈ key, b ≠ 32 ∧ b ≠ 10 ∧ b ≠ 0

/-- An integer value: the type `UNSIGNED_INT` or `SIGNED_INT` with a 64-bit
word as payload. -/
def Legacy.IntValue (htv : HashtableValue_t) : Prop :=
  ∃ bits : Nat, bits < 2 ^ 64 ∧ htv.v = ValueUnion.word bits ∧
    (htv.entryType = EntryType_t.UNSIGNED_INT ∨ htv.entryType = EntryType_t.SIGNED_INT)

instance (key : Key) : Decidable (Legacy.GoodKey key) := by
  unfold Legacy.GoodKey; infer_instance

/-- The legacy table with the one-byte keys `1` and `2`, as `htAdd` builds it
from a fresh table. -/
def legacyTable : Hashtable_t :=
  (Legacy.htAdd sampleHash (Legacy.htAdd sampleHash htCreateTable [49] (sampleInt 10)).2 [50]
    (sampleInt 20)).2

/-- Three records, the first and the last with the same key. -/
def duplicateRecords : List HashtableEntry_t :=
  [{ key := [49], htv := sampleInt 10 }, { key := [50], htv := sampleInt 20 },
   { key := [49], htv := sampleInt 30 }]

/-! ## The string copy of `htAdd` and `htReplace` on the heap

The definitions of `htAdd` and `htReplace` above give the table by its
contents, which is the state of the heap as long as every byte a call writes
lies inside the buffer allocated for it.  Every write of `hashtable.c` does,
but for the copy of a `STRING` payload.  The definitions below are `htAdd`
and `htReplace` with that copy carried out on a buffer of the size `malloc`
is asked for; a call has no result when it writes a byte outside the
buffer. -/

/-- The statements `hte->htv.v.val = malloc(strlen(htv.v.val));` and
`strcpy(hte->htv.v.val, htv.v.val);` of `htAdd` and `htReplace`, on the
characters of the string: the buffer has `strlen` bytes, and `strcpy` writes
the characters and the terminator from its start.  The result is the content
of the buffer, and `none` when a byte is written past its end. -/
def mallocStrcpy (chars : List UInt8) : Option (List UInt8) :=
  let text := chars.takeWhile (fun b => b ≠ 0)
  let size := text.length
  let written := text ++ [0]
  if written.length ≤ size then some written else none

/-- The value written into an entry by `htAdd` and `htReplace`, with the copy
of a `STRING` payload carried out in its buffer; `none` when the copy writes
outside the buffer, and when the payload of a `STRING` is no string. -/
def Heap.storeValue (htv : HashtableValue_t) : Option HashtableValue_t :=
  if htv.entryType = EntryType_t.STRING then
    match htv.v with
    | ValueUnion.val chars =>
      ((mallocStrcpy chars).bind cString).map
        (fun copy => { entryType := htv.entryType, v := ValueUnion.val copy })
    | ValueUnion.word _ => none
  else some { entryType := htv.entryType, v := htv.v }

/-- The function `htAdd`, with the copy of a `STRING` payload carried out in
its buffer: the returned status and the table afterwards, `none` when the copy
writes outside the buffer. -/
def Heap.htAdd (hash : Key → Nat) (ht : Hashtable_t) (key : Key) (htv : HashtableValue_t) :
    Option (Int × Hashtable_t) :=
  if (htFind hash ht key).entryType ≠ EntryType_t.NONE then some (1, ht)
  else
    let ht1 := if ht.len = 2 ^ ht.exp then htExpandAndRehash hash ht else ht
    let idx := hash key % 2 ^ ht1.exp
    match Heap.storeValue htv with
    | none => none
    | some stored =>
      let hte : HashtableEntry_t := { key := key, htv := stored }
      some (0, { table := ht1.table.set idx (hte :: ht1.table.getD idx []),
                 len := ht1.len + 1,
                 exp := ht1.exp })

/-- The function `htReplace`, with the copy of a `STRING` payload carried out
in its buffer. -/
def Heap.htReplace (hash : Key → Nat) (ht : Hashtable_t) (key : Key) (htv : HashtableValue_t) :
    Option (Int × Hashtable_t) :=
  match htFindEntry hash ht key with
  | some (idx, pos, _) =>
    match Heap.storeValue htv with
    | none => none
    | some stored =>
      let hte : HashtableEntry_t := { key := key, htv := stored }
      some (0, { table := ht.table.set idx ((ht.table.getD idx []).set pos hte),
                 len := ht.len,
                 exp := ht.exp })
  | none => (Heap.htAdd hash ht key htv).map (fun r => (0, r.2))

/-- The table after one call, `none` when the call writes outside a buffer.
The function `htRemove` copies no string. -/
def Heap.runOp (hash : Key → Nat) (ht : Hashtable_t) : Op → Option Hashtable_t
  | Op.add key htv => (Heap.htAdd hash ht key htv).map (fun r => r.2)
  | Op.remove key => some (htRemove hash ht key).2
  | Op.replace key htv => (Heap.htReplace hash ht key htv).map (fun r => r.2)

/-- The table after a sequence of calls, first call first; `none` when one of
the calls writes outside a buffer. -/
def Heap.runOps (hash : Key → Nat) (ht : Hashtable_t) : List Op → Option Hashtable_t
  | [] => some ht
  | op :: ops => (Heap.runOp hash ht op).bind (fun ht1 => Heap.runOps hash ht1 ops)

/-- The tables reached from `htCreateTable` by `htAdd`, `htRemove` and
`htReplace` calls that supply values of storable types and write inside their
buffers. -/
def Heap.Reachable (hash : Key → Nat) (ht : Hashtable_t) : Prop :=
  ∃ ops : List Op, (∀ op ∈ ops, op.Storable) ∧ Heap.runOps hash htCreateTable ops = some ht

/-- The call supplies a value of type `STRING`. -/
def Op.HasString : Op → Prop
  | Op.add _ htv => htv.entryType = EntryType_t.STRING
  | Op.remove _ => False
  | Op.replace _ htv => htv.entryType = EntryType_t.STRING

instance (op : Op) : Decidable op.HasString := by
  cases op <;> unfold Op.HasString <;> infer_instance

/-! ## Further sample inputs -/

/-- A fresh table after `htAdd` of the 32 one-byte keys `0, ..., 31`: as many
entries as buckets. -/
def table32 (hash : Key → Nat) : Hashtable_t :=
  (htAddAll hash htCreateTable (distinctPairs 32)).2

/-- A short call sequence that adds, replaces and removes values that are no
strings. -/
def sampleNumericOps : List Op :=
  [Op.add [1] (sampleInt 10), Op.add [2] (sampleInt 20), Op.replace [1] (sampleInt 30),
   Op.remove [2], Op.add [1] (sampleInt 5)]

/-- A `STRING` value of 24 characters. -/
def sampleString24 : HashtableValue_t := sampleString (List.replicate 24 120)

/-- The three type names of the protocol whose values are stored by
assignment, without a string copy. -/
def numericTypeNames : List (List UInt8) := [ascii "uint", ascii "int", ascii "double"]

/-- The table after `htAdd` of the key `k` with the `SIGNED_INT` 7 on a fresh
table. -/
def sampleIntDbTable : Hashtable_t :=
  (htAdd sampleHash htCreateTable sampleKey (sampleInt 7)).2

/-- The legacy table after `htAdd(k', SIGNED_INT 10)`, `htAdd(k, SIGNED_INT
20)` and `htRemove(k)` on a fresh table. -/
def legacyTableAfterRemove (hash : Key → Nat) (key key2 : Key) : Hashtable_t :=
  (Legacy.htRemove hash
    (Legacy.htAdd hash (Legacy.htAdd hash htCreateTable key2 (sampleInt 10)).2 key
      (sampleInt 20)).2 key).2

/-! ## Key comparison and the search inside one chain -/

theorem cmpKeyLoop_eq_zero_iff (a : List UInt8) :
    ∀ b : List UInt8, a.length = b.length → (cmpKeyLoop a b = 0 ↔ a ≠ b) := by
  induction a with
  | nil =>
    intro b hb
    cases b with
    | nil => simp [cmpKeyLoop]
    | cons y ys => simp at hb
  | cons x xs ih =>
    intro b hb
    cases b with
    | nil => simp at hb
    | cons y ys =>
      have hlen : xs.length = ys.length := by simpa using hb
      by_cases hxy : x = y
      · subst hxy
        simp [cmpKeyLoop, ih ys hlen]
      · simp [cmpKeyLoop, hxy]

theorem cmpKey_eq_zero_iff (a b : Key) : cmpKey a b = 0 ↔ a ≠ b := by
  unfold cmpKey
  by_cases hlen : a.length = b.length
  · simp [hlen, cmpKeyLoop_eq_zero_iff a b hlen]
  · have hne : a ≠ b := fun h => hlen (by rw [h])
    simp [hlen, hne]

theorem cmpKey_self (a : Key) : cmpKey a a ≠ 0 := by
  intro h
  exact (cmpKey_eq_zero_iff a a).mp h rfl

/-- The search of `htFindEntry` inside one chain. -/
theorem chainFind_eq_firstMatch (key : Key) (chain : List HashtableEntry_t) :
    (match chain.get? (htFindEntryWalk key chain) with
      | none => none
      | some hte =>
        if cmpKey hte.key key = 0 then none else some (htFindEntryWalk key chain, hte))
      = firstMatch key chain := by
  induction chain with
  | nil => simp [htFindEntryWalk, firstMatch]
  | cons e rest ih =>
    cases rest with
    | nil =>
      by_cases h : e.key = key
      · simp [htFindEntryWalk, firstMatch, h, cmpKey_self]
      · simp [htFindEntryWalk, firstMatch, h, (cmpKey_eq_zero_iff e.key key).mpr h]
    | cons e2 rest2 =>
      by_cases h : e.key = key
      · subst h
        simp [htFindEntryWalk, firstMatch, cmpKey_self]
      · have hc : cmpKey e.key key = 0 := (cmpKey_eq_zero_iff e.key key).mpr h
        rw [firstMatch, if_neg h, ← ih]
        simp only [htFindEntryWalk, hc, if_true, List.get?_cons_succ]
        cases hg : (e2 :: rest2).get? (htFindEntryWalk key (e2 :: rest2)) with
        | none => simp
        | some hte => by_cases hk : cmpKey hte.key key = 0 <;> simp [hk]

/-! ## The first entry with a key -/

theorem firstMatch_eq_none_iff (key : Key) (chain : List HashtableEntry_t) :
    firstMatch key chain = none ↔ ∀ e ∈ chain, e.key ≠ key := by
  induction chain with
  | nil => simp [firstMatch]
  | cons e rest ih =>
    by_cases h : e.key = key
    · simp [firstMatch, h]
    · simp [firstMatch, h, ih]

theorem firstMatch_some (key : Key) (chain : List HashtableEntry_t) :
    ∀ (p : Nat) (e : HashtableEntry_t), firstMatch key chain = some (p, e) →
      chain[p]? = some e ∧ e.key = key := by
  induction chain with
  | nil => intro p e h; simp [firstMatch] at h
  | cons a rest ih =>
    intro p e h
    by_cases hk : a.key = key
    · simp [firstMatch, hk] at h
      obtain ⟨hp, he⟩ := h
      subst hp; subst he
      simp [hk]
    · simp only [firstMatch, if_neg hk, Option.map_eq_some'] at h
      obtain ⟨⟨q, e2⟩, hq, heq⟩ := h
      simp only [Prod.mk.injEq] at heq
      obtain ⟨hp, he⟩ := heq
      subst hp; subst he
      have := ih q e2 hq
      simpa using this

theorem firstMatch_of_mem (chain : List HashtableEntry_t) (e : HashtableEntry_t)
    (hnd : (chain.map (fun x => x.key)).Nodup) (he : e ∈ chain) :
    ∃ p, firstMatch e.key chain = some (p, e) := by
  induction chain with
  | nil => simp at he
  | cons a rest ih =>
    simp only [List.map_cons, List.nodup_cons, List.mem_map, not_exists, not_and] at hnd
    rcases List.mem_cons.mp he with hea | her
    · subst hea
      exact ⟨0, by simp [firstMatch]⟩
    · have hne : a.key ≠ e.key := fun h => hnd.1 e her h.symm
      obtain ⟨p, hp⟩ := ih hnd.2 her
      exact ⟨p + 1, by simp [firstMatch, hne, hp]⟩

/-! ## Unlinking inside one chain -/

theorem htRemoveUnlink_eq_none_iff (key : Key) (chain : List HashtableEntry_t) :
    htRemoveUnlink key chain = none ↔ ∀ e ∈ chain, e.key ≠ key := by
  induction chain with
  | nil => simp [htRemoveUnlink]
  | cons e rest ih =>
    by_cases h : e.key = key
    · subst h
      simp [htRemoveUnlink, cmpKey_self]
    · have hc : cmpKey e.key key = 0 := (cmpKey_eq_zero_iff _ _).mpr h
      simp [htRemoveUnlink, hc, h, ih]

theorem htRemoveUnlink_some (key : Key) (chain : List HashtableEntry_t) :
    ∀ chain2, htRemoveUnlink key chain = some chain2 →
      ∃ e, e.key = key ∧ chain.Perm (e :: chain2) := by
  induction chain with
  | nil => intro c h; simp [htRemoveUnlink] at h
  | cons a rest ih =>
    intro c h
    by_cases hk : a.key = key
    · have hc : cmpKey a.key key ≠ 0 := fun hc => (cmpKey_eq_zero_iff _ _).mp hc hk
      simp only [htRemoveUnlink, if_neg hc, Option.some.injEq] at h
      subst h
      exact ⟨a, hk, List.Perm.refl _⟩
    · have hc : cmpKey a.key key = 0 := (cmpKey_eq_zero_iff _ _).mpr hk
      simp only [htRemoveUnlink, hc, if_true, Option.map_eq_some'] at h
      obtain ⟨c2, hc2, hcc⟩ := h
      subst hcc
      obtain ⟨e, hek, hp⟩ := ih c2 hc2
      exact ⟨e, hek, (List.Perm.cons a hp).trans (List.Perm.swap e a c2)⟩

/-! ## Replacing one element of a list, up to permutation -/

theorem perm_cons_eraseIdx {α : Type} (l : List α) :
    ∀ (i : Nat) (a : α), l[i]? = some a → l.Perm (a :: l.eraseIdx i) := by
  induction l with
  | nil => intro i a h; simp at h
  | cons x xs ih =>
    intro i a h
    cases i with
    | zero =>
      simp at h
      subst h
      simp
    | succ j =>
      simp at h
      have := ih j a h
      simp only [List.eraseIdx_cons_succ]
      exact (List.Perm.cons x this).trans (List.Perm.swap a x _)

theorem set_perm_cons_eraseIdx {α : Type} (l : List α) :
    ∀ (i : Nat) (a : α), i < l.length → (l.set i a).Perm (a :: l.eraseIdx i) := by
  induction l with
  | nil => intro i a h; simp at h
  | cons x xs ih =>
    intro i a h
    cases i with
    | zero => simp
    | succ j =>
      have hj : j < xs.length := by simpa using h
      simp only [List.set_cons_succ, List.eraseIdx_cons_succ]
      exact (List.Perm.cons x (ih j a hj)).trans (List.Perm.swap a x _)

theorem flatten_perm_bucket (T : List (List HashtableEntry_t)) (i : Nat)
    (chain : List HashtableEntry_t) (h : T[i]? = some chain) :
    T.flatten.Perm (chain ++ (T.eraseIdx i).flatten) := by
  have := (perm_cons_eraseIdx T i chain h).flatten
  simpa using this

theorem flatten_set_perm (T : List (List HashtableEntry_t)) (i : Nat)
    (chain : List HashtableEntry_t) (h : i < T.length) :
    (T.set i chain).flatten.Perm (chain ++ (T.eraseIdx i).flatten) := by
  have := (set_perm_cons_eraseIdx T i chain h).flatten
  simpa using this

/-! ## Lookup in a well-formed table -/

theorem htFindEntry_eq (hash : Key → Nat) (ht : Hashtable_t) (key : Key) :
    htFindEntry hash ht key =
      (firstMatch key (ht.table.getD (hash key % 2 ^ ht.exp) [])).map
        (fun r => (hash key % 2 ^ ht.exp, r.1, r.2)) := by
  rw [← chainFind_eq_firstMatch]
  unfold htFindEntry
  simp only []
  cases (ht.table.getD (hash key % 2 ^ ht.exp) []).get?
      (htFindEntryWalk key (ht.table.getD (hash key % 2 ^ ht.exp) [])) with
  | none => rfl
  | some hte => by_cases hk : cmpKey hte.key key = 0 <;> simp [hk]

theorem htFind_eq (hash : Key → Nat) (ht : Hashtable_t) (key : Key) :
    htFind hash ht key =
      match firstMatch key (ht.table.getD (hash key % 2 ^ ht.exp) []) with
      | none => noneValue
      | some r => r.2.htv := by
  unfold htFind
  rw [htFindEntry_eq]
  cases firstMatch key (ht.table.getD (hash key % 2 ^ ht.exp) []) with
  | none => rfl
  | some r => rfl

theorem mem_entries_iff (ht : Hashtable_t) (e : HashtableEntry_t) :
    e ∈ entries ht ↔ ∃ (i : Nat) (chain : List HashtableEntry_t), ht.table[i]? = some chain ∧ e ∈ chain := by
  unfold entries
  rw [List.mem_flatten]
  constructor
  · rintro ⟨chain, hc, he⟩
    obtain ⟨i, hi⟩ := List.mem_iff_getElem?.mp hc
    exact ⟨i, chain, hi, he⟩
  · rintro ⟨i, chain, hi, he⟩
    exact ⟨chain, List.mem_iff_getElem?.mpr ⟨i, hi⟩, he⟩

theorem htFind_of_absent (hash : Key → Nat) (ht : Hashtable_t) (key : Key)
    (h : ¬ Present ht key) : htFind hash ht key = noneValue := by
  rw [htFind_eq]
  have hnone : firstMatch key (ht.table.getD (hash key % 2 ^ ht.exp) []) = none := by
    rw [firstMatch_eq_none_iff]
    intro e he hk
    apply h
    refine ⟨e, ?_, hk⟩
    rw [mem_entries_iff]
    cases hg : ht.table[hash key % 2 ^ ht.exp]? with
    | none => simp [hg] at he
    | some chain =>
      simp [hg] at he
      exact ⟨_, chain, hg, he⟩
  rw [hnone]

theorem htFind_of_mem (hash : Key → Nat) (ht : Hashtable_t) (e : HashtableEntry_t)
    (hwf : WF hash ht) (he : e ∈ entries ht) : htFind hash ht e.key = e.htv := by
  obtain ⟨i, chain, hi, hec⟩ := (mem_entries_iff ht e).mp he
  have hidx : hash e.key % 2 ^ ht.exp = i := hwf.bucket i chain hi e hec
  have hnd : (chain.map (fun x => x.key)).Nodup := by
    have hp := (flatten_perm_bucket ht.table i chain hi).map (fun x => x.key)
    have hn := hp.nodup_iff.mp hwf.nodup
    rw [List.map_append] at hn
    exact (List.nodup_append.mp hn).1
  obtain ⟨p, hp⟩ := firstMatch_of_mem chain e hnd hec
  rw [htFind_eq, hidx]
  simp [hi, hp]

theorem present_iff_htFind (hash : Key → Nat) (ht : Hashtable_t) (key : Key)
    (hwf : WF hash ht) :
    Present ht key ↔ (htFind hash ht key).entryType ≠ EntryType_t.NONE := by
  constructor
  · rintro ⟨e, he, hk⟩
    rw [← hk, htFind_of_mem hash ht e hwf he]
    exact hwf.stored e he
  · intro h
    by_contra hp
    rw [htFind_of_absent hash ht key hp] at h
    exact h rfl

/-! ## Linking an entry at the head of its bucket, and the rehash -/

theorem storeValue_eq (htv : HashtableValue_t) : storeValue htv = htv := by
  unfold storeValue
  cases htv with
  | mk ty v =>
    cases v with
    | word bits => by_cases h : ty = EntryType_t.STRING <;> simp [h, strcpyPayload]
    | val chars => by_cases h : ty = EntryType_t.STRING <;> simp [h, strcpyPayload]

theorem BucketInv_set (hash : Key → Nat) (E : Nat) (T : List (List HashtableEntry_t))
    (idx : Nat) (chain : List HashtableEntry_t) (hB : BucketInv hash E T)
    (hc : ∀ e ∈ chain, hash e.key % 2 ^ E = idx) :
    BucketInv hash E (T.set idx chain) := by
  intro i c hi e he
  rw [List.getElem?_set] at hi
  by_cases hii : idx = i
  · rw [if_pos hii] at hi
    by_cases hl : idx < T.length
    · rw [if_pos hl] at hi
      simp only [Option.some.injEq] at hi
      subst hi
      rw [← hii]
      exact hc e he
    · rw [if_neg hl] at hi
      simp at hi
  · rw [if_neg hii] at hi
    exact hB i c hi e he

theorem rehashLink_length (hash : Key → Nat) (E : Nat) (T : List (List HashtableEntry_t))
    (e : HashtableEntry_t) : (rehashLink hash E T e).length = T.length := by
  simp [rehashLink]

theorem rehashLink_perm (hash : Key → Nat) (E : Nat) (T : List (List HashtableEntry_t))
    (e : HashtableEntry_t) (hT : T.length = 2 ^ E) :
    (rehashLink hash E T e).flatten.Perm (e :: T.flatten) := by
  have hlt : hash e.key % 2 ^ E < T.length := by
    rw [hT]; exact Nat.mod_lt _ (Nat.pow_pos (by decide))
  have hget : T[hash e.key % 2 ^ E]? = some (T.getD (hash e.key % 2 ^ E) []) := by
    simp [List.getElem?_eq_getElem hlt]
  have h1 := flatten_set_perm T (hash e.key % 2 ^ E) (e :: T.getD (hash e.key % 2 ^ E) []) hlt
  have h2 := flatten_perm_bucket T (hash e.key % 2 ^ E) _ hget
  unfold rehashLink
  exact h1.trans (List.Perm.cons e h2.symm)

theorem rehashLink_bucket (hash : Key → Nat) (E : Nat) (T : List (List HashtableEntry_t))
    (e : HashtableEntry_t) (hB : BucketInv hash E T) :
    BucketInv hash E (rehashLink hash E T e) := by
  unfold rehashLink
  apply BucketInv_set hash E T _ _ hB
  intro x hx
  rcases List.mem_cons.mp hx with hxe | hxr
  · rw [hxe]
  · cases hg : T[hash e.key % 2 ^ E]? with
    | none => simp [hg] at hxr
    | some chain =>
      simp [hg] at hxr
      exact hB _ chain hg x hxr

theorem foldl_rehashLink (hash : Key → Nat) (E : Nat) (es : List HashtableEntry_t) :
    ∀ T : List (List HashtableEntry_t), T.length = 2 ^ E → BucketInv hash E T →
      (es.foldl (rehashLink hash E) T).length = 2 ^ E ∧
      BucketInv hash E (es.foldl (rehashLink hash E) T) ∧
      (es.foldl (rehashLink hash E) T).flatten.Perm (es ++ T.flatten) := by
  induction es with
  | nil => intro T hT hB; exact ⟨hT, hB, List.Perm.refl _⟩
  | cons e rest ih =>
    intro T hT hB
    have hT1 : (rehashLink hash E T e).length = 2 ^ E := by rw [rehashLink_length, hT]
    obtain ⟨h1, h2, h3⟩ := ih (rehashLink hash E T e) hT1 (rehashLink_bucket hash E T e hB)
    refine ⟨h1, h2, ?_⟩
    simp only [List.foldl_cons, List.cons_append]
    exact h3.trans ((List.Perm.append_left rest (rehashLink_perm hash E T e hT)).trans
      List.perm_middle)

theorem foldl_chains_rehashLink (hash : Key → Nat) (E : Nat)
    (chains : List (List HashtableEntry_t)) :
    ∀ T : List (List HashtableEntry_t), T.length = 2 ^ E → BucketInv hash E T →
      (chains.foldl (fun nt c => c.foldl (rehashLink hash E) nt) T).length = 2 ^ E ∧
      BucketInv hash E (chains.foldl (fun nt c => c.foldl (rehashLink hash E) nt) T) ∧
      (chains.foldl (fun nt c => c.foldl (rehashLink hash E) nt) T).flatten.Perm
        (chains.flatten ++ T.flatten) := by
  induction chains with
  | nil => intro T hT hB; exact ⟨hT, hB, List.Perm.refl _⟩
  | cons c rest ih =>
    intro T hT hB
    obtain ⟨a1, a2, a3⟩ := foldl_rehashLink hash E c T hT hB
    obtain ⟨h1, h2, h3⟩ := ih (c.foldl (rehashLink hash E) T) a1 a2
    refine ⟨h1, h2, ?_⟩
    simp only [List.foldl_cons, List.flatten_cons, List.append_assoc]
    exact h3.trans ((List.Perm.append_left rest.flatten a3).trans
      (List.perm_append_comm_assoc _ _ _))

theorem foldl_range_getD {β : Type} (f : β → List HashtableEntry_t → β)
    (T : List (List HashtableEntry_t)) (init : β) :
    ∀ n, n ≤ T.length →
      (List.range n).foldl (fun acc i => f acc (T.getD i [])) init = (T.take n).foldl f init := by
  intro n
  induction n with
  | zero => intro _; simp
  | succ m ih =>
    intro hm
    have hlt : m < T.length := hm
    rw [List.range_succ, List.foldl_append, ih (Nat.le_of_lt hlt), List.take_succ,
      List.foldl_append]
    simp [List.getElem?_eq_getElem hlt]

theorem htExpandAndRehash_table (hash : Key → Nat) (ht : Hashtable_t)
    (hsize : ht.table.length = 2 ^ ht.exp) :
    (htExpandAndRehash hash ht).table =
      ht.table.foldl (fun nt c => c.foldl (rehashLink hash (ht.exp + 1)) nt)
        (List.replicate (2 ^ (ht.exp + 1)) []) := by
  unfold htExpandAndRehash
  simp only []
  rw [← hsize, foldl_range_getD (fun nt c => c.foldl (rehashLink hash (ht.exp + 1)) nt)
    ht.table _ ht.table.length (Nat.le_refl _), List.take_length]

theorem BucketInv_replicate (hash : Key → Nat) (E n : Nat) :
    BucketInv hash E (List.replicate n []) := by
  intro i chain hi e he
  have hmem : chain ∈ List.replicate n ([] : List HashtableEntry_t) :=
    List.mem_iff_getElem?.mpr ⟨i, hi⟩
  rw [List.eq_of_mem_replicate hmem] at he
  simp at he

theorem htExpandAndRehash_spec (hash : Key → Nat) (ht : Hashtable_t)
    (hsize : ht.table.length = 2 ^ ht.exp) :
    (htExpandAndRehash hash ht).table.length = 2 ^ (ht.exp + 1) ∧
    BucketInv hash (ht.exp + 1) (htExpandAndRehash hash ht).table ∧
    (entries (htExpandAndRehash hash ht)).Perm (entries ht) := by
  have h := foldl_chains_rehashLink hash (ht.exp + 1) ht.table
    (List.replicate (2 ^ (ht.exp + 1)) []) (by simp) (BucketInv_replicate hash _ _)
  rw [← htExpandAndRehash_table hash ht hsize] at h
  refine ⟨h.1, h.2.1, ?_⟩
  have h3 := h.2.2
  simpa [entries] using h3

theorem WF_of_perm (hash : Key → Nat) (ht ht2 : Hashtable_t)
    (hwf : WF hash ht) (hsize : ht2.table.length = 2 ^ ht2.exp)
    (hB : BucketInv hash ht2.exp ht2.table)
    (hp : (entries ht2).Perm (entries ht)) (hlen : ht2.len = ht.len) : WF hash ht2 where
  size := hsize
  bucket := hB
  nodup := (hp.map (fun e => e.key)).nodup_iff.mpr hwf.nodup
  count := by rw [hlen, hwf.count, hp.length_eq]
  stored := fun e he => hwf.stored e (hp.mem_iff.mp he)

theorem htExpandAndRehash_WF (hash : Key → Nat) (ht : Hashtable_t) (hwf : WF hash ht) :
    WF hash (htExpandAndRehash hash ht) := by
  obtain ⟨h1, h2, h3⟩ := htExpandAndRehash_spec hash ht hwf.size
  exact WF_of_perm hash ht _ hwf h1 h2 h3 rfl

theorem htCreateTable_WF (hash : Key → Nat) : WF hash htCreateTable where
  size := by simp [htCreateTable]
  bucket := BucketInv_replicate hash _ _
  nodup := by simp [entries, htCreateTable]
  count := by simp [entries, htCreateTable]
  stored := by simp [entries, htCreateTable]

theorem WF_shape {hash : Key → Nat} {ht : Hashtable_t} (h : WF hash ht) : Shape hash ht :=
  ⟨h.size, h.bucket, h.count⟩

theorem mem_entries_of_mem_bucket (ht : Hashtable_t) (i : Nat) (e : HashtableEntry_t)
    (he : e ∈ ht.table.getD i []) : e ∈ entries ht := by
  rw [mem_entries_iff]
  cases hg : ht.table[i]? with
  | none => simp [hg] at he
  | some chain =>
    simp [hg] at he
    exact ⟨i, chain, hg, he⟩

theorem getElem?_of_getD_ne_nil (T : List (List HashtableEntry_t)) (i : Nat)
    (h : T.getD i [] ≠ []) : T[i]? = some (T.getD i []) := by
  cases hg : T[i]? with
  | none => simp [hg] at h
  | some chain => simp [hg]

theorem bucket_of_present (hash : Key → Nat) (ht : Hashtable_t) (key : Key)
    (hB : BucketInv hash ht.exp ht.table) (hp : Present ht key) :
    ∃ chain, ht.table[hash key % 2 ^ ht.exp]? = some chain ∧ ∃ e ∈ chain, e.key = key := by
  obtain ⟨e, he, hk⟩ := hp
  obtain ⟨i, chain, hi, hec⟩ := (mem_entries_iff ht e).mp he
  have hidx : hash e.key % 2 ^ ht.exp = i := hB i chain hi e hec
  rw [hk] at hidx
  rw [hidx]
  exact ⟨chain, hi, e, hec, hk⟩

theorem htFind_congr (hash : Key → Nat) (ht ht2 : Hashtable_t) (key : Key)
    (hwf : WF hash ht) (hwf2 : WF hash ht2)
    (h : ∀ e : HashtableEntry_t, e.key = key → (e ∈ entries ht ↔ e ∈ entries ht2)) :
    htFind hash ht key = htFind hash ht2 key := by
  by_cases hp : Present ht key
  · obtain ⟨e, he, hk⟩ := hp
    have he2 : e ∈ entries ht2 := (h e hk).mp he
    rw [← hk, htFind_of_mem hash ht e hwf he, htFind_of_mem hash ht2 e hwf2 he2]
  · have hp2 : ¬ Present ht2 key := by
      rintro ⟨e, he, hk⟩
      exact hp ⟨e, (h e hk).mpr he, hk⟩
    rw [htFind_of_absent hash ht key hp, htFind_of_absent hash ht2 key hp2]

/-! ## `htAdd`, by what its lookup returns -/

theorem htAdd_hit (hash : Key → Nat) (ht : Hashtable_t) (key : Key) (htv : HashtableValue_t)
    (h : (htFind hash ht key).entryType ≠ EntryType_t.NONE) :
    htAdd hash ht key htv = (1, ht) := by
  unfold htAdd
  rw [if_pos h]

theorem htAdd_miss (hash : Key → Nat) (ht : Hashtable_t) (key : Key) (htv : HashtableValue_t)
    (hsize : ht.table.length = 2 ^ ht.exp)
    (h : (htFind hash ht key).entryType = EntryType_t.NONE) :
    (htAdd hash ht key htv).1 = 0 ∧
    (htAdd hash ht key htv).2.len = ht.len + 1 ∧
    (htAdd hash ht key htv).2.exp = (if ht.len = 2 ^ ht.exp then ht.exp + 1 else ht.exp) ∧
    (htAdd hash ht key htv).2.table.length = 2 ^ (htAdd hash ht key htv).2.exp ∧
    (BucketInv hash ht.exp ht.table →
      BucketInv hash (htAdd hash ht key htv).2.exp (htAdd hash ht key htv).2.table) ∧
    (entries (htAdd hash ht key htv).2).Perm ({ key := key, htv := htv } :: entries ht) ∧
    (htAdd hash ht key htv).2.table[hash key % 2 ^ (htAdd hash ht key htv).2.exp]?.bind
      List.head? = some { key := key, htv := htv } := by
  have hnone : ¬ (htFind hash ht key).entryType ≠ EntryType_t.NONE := fun hn => hn h
  unfold htAdd
  rw [if_neg hnone]
  simp only [storeValue_eq]
  by_cases hfull : ht.len = 2 ^ ht.exp
  · simp only [if_pos hfull]
    obtain ⟨h1, h2, h3⟩ := htExpandAndRehash_spec hash ht hsize
    have hexp : (htExpandAndRehash hash ht).exp = ht.exp + 1 := rfl
    have hlen : (htExpandAndRehash hash ht).len = ht.len := rfl
    rw [hexp, hlen]
    have hlt : hash key % 2 ^ (ht.exp + 1) < (htExpandAndRehash hash ht).table.length := by
      rw [h1]; exact Nat.mod_lt _ (Nat.pow_pos (by decide))
    refine ⟨trivial, rfl, rfl, ?_, ?_, ?_, ?_⟩
    · rw [List.length_set]; exact h1
    · intro _
      exact rehashLink_bucket hash (ht.exp + 1) _ { key := key, htv := htv } h2
    · exact (rehashLink_perm hash (ht.exp + 1) _ { key := key, htv := htv } h1).trans
        (List.Perm.cons _ h3)
    · simp [List.getElem?_set, hlt]
  · simp only [if_neg hfull]
    have hlt : hash key % 2 ^ ht.exp < ht.table.length := by
      rw [hsize]; exact Nat.mod_lt _ (Nat.pow_pos (by decide))
    refine ⟨trivial, trivial, trivial, ?_, ?_, ?_, ?_⟩
    · rw [List.length_set]; exact hsize
    · intro hB
      exact rehashLink_bucket hash ht.exp _ { key := key, htv := htv } hB
    · exact rehashLink_perm hash ht.exp _ { key := key, htv := htv } hsize
    · simp [List.getElem?_set, hlt]

/-! ## `htRemove`, by what its search loop finds -/

theorem htRemove_none (hash : Key → Nat) (ht : Hashtable_t) (key : Key)
    (h : htRemoveUnlink key (ht.table.getD (hash key % 2 ^ ht.exp) []) = none) :
    htRemove hash ht key = (1, ht) := by
  unfold htRemove
  simp only [h]

theorem htRemove_some (hash : Key → Nat) (ht : Hashtable_t) (key : Key)
    (hsize : ht.table.length = 2 ^ ht.exp) (chain2 : List HashtableEntry_t)
    (h : htRemoveUnlink key (ht.table.getD (hash key % 2 ^ ht.exp) []) = some chain2) :
    (htRemove hash ht key).1 = 0 ∧
    (htRemove hash ht key).2.len = (if ht.len = 0 then 2 ^ 64 - 1 else ht.len - 1) ∧
    (htRemove hash ht key).2.exp = ht.exp ∧
    (htRemove hash ht key).2.table.length = 2 ^ ht.exp ∧
    (BucketInv hash ht.exp ht.table → BucketInv hash ht.exp (htRemove hash ht key).2.table) ∧
    ∃ e0 : HashtableEntry_t, e0.key = key ∧
      (entries ht).Perm (e0 :: entries (htRemove hash ht key).2) := by
  have hne : ht.table.getD (hash key % 2 ^ ht.exp) [] ≠ [] := by
    intro hnil
    rw [hnil] at h
    simp [htRemoveUnlink] at h
  have hget := getElem?_of_getD_ne_nil ht.table _ hne
  have hlt : hash key % 2 ^ ht.exp < ht.table.length := by
    rw [hsize]; exact Nat.mod_lt _ (Nat.pow_pos (by decide))
  obtain ⟨e0, hk0, hperm⟩ := htRemoveUnlink_some key _ chain2 h
  unfold htRemove
  simp only [h]
  refine ⟨trivial, trivial, trivial, ?_, ?_, e0, hk0, ?_⟩
  · rw [List.length_set]; exact hsize
  · intro hB
    apply BucketInv_set hash ht.exp ht.table _ _ hB
    intro x hx
    have hxc : x ∈ ht.table.getD (hash key % 2 ^ ht.exp) [] :=
      hperm.mem_iff.mpr (List.mem_cons_of_mem e0 hx)
    exact hB _ _ hget x hxc
  · have h1 := flatten_perm_bucket ht.table _ _ hget
    have h2 := flatten_set_perm ht.table (hash key % 2 ^ ht.exp) chain2 hlt
    unfold entries
    exact h1.trans ((List.Perm.append_right _ hperm).trans (List.Perm.cons e0 h2.symm))

/-! ## `htReplace`, by what `htFindEntry` returns -/

theorem htFind_of_htFindEntry_none (hash : Key → Nat) (ht : Hashtable_t) (key : Key)
    (h : htFindEntry hash ht key = none) : htFind hash ht key = noneValue := by
  unfold htFind
  rw [h]

theorem htReplace_none (hash : Key → Nat) (ht : Hashtable_t) (key : Key)
    (htv : HashtableValue_t) (h : htFindEntry hash ht key = none) :
    htReplace hash ht key htv = (0, (htAdd hash ht key htv).2) := by
  unfold htReplace
  rw [h]

theorem htReplace_some (hash : Key → Nat) (ht : Hashtable_t) (key : Key)
    (htv : HashtableValue_t) (hsize : ht.table.length = 2 ^ ht.exp)
    (r : Nat × Nat × HashtableEntry_t) (h : htFindEntry hash ht key = some r) :
    (htReplace hash ht key htv).1 = 0 ∧
    (htReplace hash ht key htv).2.len = ht.len ∧
    (htReplace hash ht key htv).2.exp = ht.exp ∧
    (htReplace hash ht key htv).2.table.length = 2 ^ ht.exp ∧
    (BucketInv hash ht.exp ht.table →
      BucketInv hash ht.exp (htReplace hash ht key htv).2.table) ∧
    ∃ (e0 : HashtableEntry_t) (X : List HashtableEntry_t), e0.key = key ∧
      (entries ht).Perm (e0 :: X) ∧
      (entries (htReplace hash ht key htv).2).Perm ({ key := key, htv := htv } :: X) := by
  have hlt : hash key % 2 ^ ht.exp < ht.table.length := by
    rw [hsize]; exact Nat.mod_lt _ (Nat.pow_pos (by decide))
  have hfe := h
  rw [htFindEntry_eq] at hfe
  cases hfm : firstMatch key (ht.table.getD (hash key % 2 ^ ht.exp) []) with
  | none => rw [hfm] at hfe; simp at hfe
  | some q =>
    obtain ⟨p, e0⟩ := q
    rw [hfm] at hfe
    simp only [Option.map_some', Option.some.injEq] at hfe
    obtain ⟨hp0, hk0⟩ := firstMatch_some key _ p e0 hfm
    have hplt : p < (ht.table.getD (hash key % 2 ^ ht.exp) []).length := by
      rcases Nat.lt_or_ge p (ht.table.getD (hash key % 2 ^ ht.exp) []).length with hh | hh
      · exact hh
      · rw [List.getElem?_eq_none hh] at hp0; simp at hp0
    have hne : ht.table.getD (hash key % 2 ^ ht.exp) [] ≠ [] := by
      intro hnil
      rw [hnil] at hplt
      simp at hplt
    have hget := getElem?_of_getD_ne_nil ht.table _ hne
    unfold htReplace
    rw [h, ← hfe]
    simp only [storeValue_eq]
    refine ⟨trivial, trivial, trivial, ?_, ?_, e0,
      ((ht.table.getD (hash key % 2 ^ ht.exp) []).eraseIdx p ++
        (ht.table.eraseIdx (hash key % 2 ^ ht.exp)).flatten), hk0, ?_, ?_⟩
    · rw [List.length_set]; exact hsize
    · intro hB
      apply BucketInv_set hash ht.exp ht.table _ _ hB
      intro x hx
      rcases List.mem_or_eq_of_mem_set hx with hh | hh
      · exact hB _ _ hget x hh
      · rw [hh]
    · have h1 := flatten_perm_bucket ht.table _ _ hget
      unfold entries
      exact h1.trans (List.Perm.append_right _ (perm_cons_eraseIdx _ p e0 hp0))
    · have h2 := flatten_set_perm ht.table (hash key % 2 ^ ht.exp)
        ((ht.table.getD (hash key % 2 ^ ht.exp) []).set p { key := key, htv := htv }) hlt
      unfold entries
      exact h2.trans (List.Perm.append_right _
        (set_perm_cons_eraseIdx _ p { key := key, htv := htv } hplt))

/-! ## Every call keeps the shape of the table -/

theorem htAdd_Shape (hash : Key → Nat) (ht : Hashtable_t) (key : Key) (htv : HashtableValue_t)
    (hs : Shape hash ht) : Shape hash (htAdd hash ht key htv).2 := by
  by_cases h : (htFind hash ht key).entryType = EntryType_t.NONE
  · obtain ⟨_, hlen, _, hsize, hB, hperm, _⟩ := htAdd_miss hash ht key htv hs.size h
    exact ⟨hsize, hB hs.bucket, by rw [hlen, hperm.length_eq, List.length_cons, hs.count]⟩
  · rw [htAdd_hit hash ht key htv h]; exact hs

theorem htRemove_Shape (hash : Key → Nat) (ht : Hashtable_t) (key : Key)
    (hs : Shape hash ht) : Shape hash (htRemove hash ht key).2 := by
  cases hu : htRemoveUnlink key (ht.table.getD (hash key % 2 ^ ht.exp) []) with
  | none => rw [htRemove_none hash ht key hu]; exact hs
  | some chain2 =>
    obtain ⟨_, hlen, hexp, hsize, hB, e0, _, hperm⟩ :=
      htRemove_some hash ht key hs.size chain2 hu
    refine ⟨by rw [hexp]; exact hsize, by rw [hexp]; exact hB hs.bucket, ?_⟩
    have hl := hperm.length_eq
    rw [List.length_cons, ← hs.count] at hl
    have hne : ht.len ≠ 0 := by omega
    rw [hlen, if_neg hne]
    omega

theorem htReplace_Shape (hash : Key → Nat) (ht : Hashtable_t) (key : Key)
    (htv : HashtableValue_t) (hs : Shape hash ht) : Shape hash (htReplace hash ht key htv).2 := by
  cases hf : htFindEntry hash ht key with
  | none =>
    rw [htReplace_none hash ht key htv hf]
    exact htAdd_Shape hash ht key htv hs
  | some r =>
    obtain ⟨_, hlen, hexp, hsize, hB, e0, X, _, hp1, hp2⟩ :=
      htReplace_some hash ht key htv hs.size r hf
    refine ⟨by rw [hexp]; exact hsize, by rw [hexp]; exact hB hs.bucket, ?_⟩
    rw [hlen, hs.count, hp1.length_eq, hp2.length_eq]; rfl

theorem Op.run_Shape (hash : Key → Nat) (ht : Hashtable_t) (op : Op) (hs : Shape hash ht) :
    Shape hash (op.run hash ht) := by
  cases op with
  | add key htv => exact htAdd_Shape hash ht key htv hs
  | remove key => exact htRemove_Shape hash ht key hs
  | replace key htv => exact htReplace_Shape hash ht key htv hs

theorem runOps_Shape (hash : Key → Nat) (ops : List Op) :
    ∀ ht : Hashtable_t, Shape hash ht → Shape hash (runOps hash ht ops) := by
  induction ops with
  | nil => intro ht hs; exact hs
  | cons op rest ih => intro ht hs; exact ih (op.run hash ht) (Op.run_Shape hash ht op hs)

/-! ## The calls on a well-formed table, by presence of the key -/

theorem htFindEntry_isSome_of_present (hash : Key → Nat) (ht : Hashtable_t) (key : Key)
    (hB : BucketInv hash ht.exp ht.table) (hp : Present ht key) :
    ∃ r, htFindEntry hash ht key = some r := by
  obtain ⟨chain, hget, e, hec, hk⟩ := bucket_of_present hash ht key hB hp
  have hgetD : ht.table.getD (hash key % 2 ^ ht.exp) [] = chain := by simp [hget]
  rw [htFindEntry_eq, hgetD]
  cases hfm : firstMatch key chain with
  | none => exact absurd hk ((firstMatch_eq_none_iff key chain).mp hfm e hec)
  | some q => exact ⟨_, rfl⟩

theorem htFindEntry_none_of_absent (hash : Key → Nat) (ht : Hashtable_t) (key : Key)
    (hp : ¬ Present ht key) : htFindEntry hash ht key = none := by
  rw [htFindEntry_eq]
  have : firstMatch key (ht.table.getD (hash key % 2 ^ ht.exp) []) = none := by
    rw [firstMatch_eq_none_iff]
    intro e he hk
    exact hp ⟨e, mem_entries_of_mem_bucket ht _ e he, hk⟩
  rw [this]; rfl

theorem htAdd_present (hash : Key → Nat) (ht : Hashtable_t) (key : Key) (htv : HashtableValue_t)
    (hwf : WF hash ht) (hp : Present ht key) : htAdd hash ht key htv = (1, ht) :=
  htAdd_hit hash ht key htv ((present_iff_htFind hash ht key hwf).mp hp)

theorem htFind_type_of_absent (hash : Key → Nat) (ht : Hashtable_t) (key : Key)
    (hp : ¬ Present ht key) : (htFind hash ht key).entryType = EntryType_t.NONE := by
  rw [htFind_of_absent hash ht key hp]; rfl

theorem htAdd_absent_WF (hash : Key → Nat) (ht : Hashtable_t) (key : Key)
    (htv : HashtableValue_t) (hwf : WF hash ht) (hp : ¬ Present ht key)
    (hst : Storable htv) : WF hash (htAdd hash ht key htv).2 := by
  obtain ⟨_, hlen, _, hsize, hB, hperm, _⟩ :=
    htAdd_miss hash ht key htv hwf.size (htFind_type_of_absent hash ht key hp)
  refine ⟨hsize, hB hwf.bucket, ?_, ?_, ?_⟩
  · rw [(hperm.map (fun e => e.key)).nodup_iff]
    simp only [List.map_cons, List.nodup_cons]
    refine ⟨?_, hwf.nodup⟩
    intro hmem
    obtain ⟨e, he, hk⟩ := List.mem_map.mp hmem
    exact hp ⟨e, he, hk⟩
  · rw [hlen, hperm.length_eq, List.length_cons, hwf.count]
  · intro e he
    rcases List.mem_cons.mp (hperm.mem_iff.mp he) with h | h
    · rw [h]; exact hst
    · exact hwf.stored e h

theorem htRemove_absent (hash : Key → Nat) (ht : Hashtable_t) (key : Key)
    (hp : ¬ Present ht key) : htRemove hash ht key = (1, ht) := by
  apply htRemove_none
  rw [htRemoveUnlink_eq_none_iff]
  intro e he hk
  exact hp ⟨e, mem_entries_of_mem_bucket ht _ e he, hk⟩

theorem htRemove_present (hash : Key → Nat) (ht : Hashtable_t) (key : Key)
    (hwf : WF hash ht) (hp : Present ht key) :
    (htRemove hash ht key).1 = 0 ∧
    (htRemove hash ht key).2.len + 1 = ht.len ∧
    (htRemove hash ht key).2.exp = ht.exp ∧
    WF hash (htRemove hash ht key).2 ∧
    ¬ Present (htRemove hash ht key).2 key ∧
    ∃ e0 : HashtableEntry_t, e0.key = key ∧
      (entries ht).Perm (e0 :: entries (htRemove hash ht key).2) := by
  obtain ⟨chain, hget, e, hec, hk⟩ := bucket_of_present hash ht key hwf.bucket hp
  have hgetD : ht.table.getD (hash key % 2 ^ ht.exp) [] = chain := by simp [hget]
  cases hu : htRemoveUnlink key (ht.table.getD (hash key % 2 ^ ht.exp) []) with
  | none =>
    rw [hgetD] at hu
    exact absurd hk ((htRemoveUnlink_eq_none_iff key chain).mp hu e hec)
  | some chain2 =>
    obtain ⟨hret, hlen, hexp, hsize, hB, e0, hk0, hperm⟩ :=
      htRemove_some hash ht key hwf.size chain2 hu
    have hnd := (hperm.map (fun e => e.key)).nodup_iff.mp hwf.nodup
    simp only [List.map_cons, List.nodup_cons] at hnd
    have hl := hperm.length_eq
    rw [List.length_cons, ← hwf.count] at hl
    have hne : ht.len ≠ 0 := by omega
    rw [if_neg hne] at hlen
    refine ⟨hret, by omega, hexp, ?_, ?_, e0, hk0, hperm⟩
    · refine ⟨by rw [hexp]; exact hsize, by rw [hexp]; exact hB hwf.bucket, hnd.2, by omega, ?_⟩
      intro x hx
      exact hwf.stored x (hperm.mem_iff.mpr (List.mem_cons_of_mem e0 hx))
    · rintro ⟨x, hx, hxk⟩
      apply hnd.1
      rw [hk0]
      exact List.mem_map.mpr ⟨x, hx, hxk⟩

theorem htReplace_absent (hash : Key → Nat) (ht : Hashtable_t) (key : Key)
    (htv : HashtableValue_t) (hp : ¬ Present ht key) :
    htReplace hash ht key htv = (0, (htAdd hash ht key htv).2) :=
  htReplace_none hash ht key htv (htFindEntry_none_of_absent hash ht key hp)

theorem htReplace_present (hash : Key → Nat) (ht : Hashtable_t) (key : Key)
    (htv : HashtableValue_t) (hwf : WF hash ht) (hp : Present ht key) (hst : Storable htv) :
    (htReplace hash ht key htv).1 = 0 ∧
    (htReplace hash ht key htv).2.len = ht.len ∧
    (htReplace hash ht key htv).2.exp = ht.exp ∧
    WF hash (htReplace hash ht key htv).2 ∧
    ∃ (e0 : HashtableEntry_t) (X : List HashtableEntry_t), e0.key = key ∧
      (entries ht).Perm (e0 :: X) ∧
      (entries (htReplace hash ht key htv).2).Perm ({ key := key, htv := htv } :: X) := by
  obtain ⟨r, hr⟩ := htFindEntry_isSome_of_present hash ht key hwf.bucket hp
  obtain ⟨hret, hlen, hexp, hsize, hB, e0, X, hk0, hp1, hp2⟩ :=
    htReplace_some hash ht key htv hwf.size r hr
  have hnd := (hp1.map (fun e => e.key)).nodup_iff.mp hwf.nodup
  refine ⟨hret, hlen, hexp, ?_, e0, X, hk0, hp1, hp2⟩
  refine ⟨by rw [hexp]; exact hsize, by rw [hexp]; exact hB hwf.bucket, ?_, ?_, ?_⟩
  · rw [(hp2.map (fun e => e.key)).nodup_iff]
    simpa [hk0] using hnd
  · rw [hlen, hwf.count, hp1.length_eq, hp2.length_eq]; rfl
  · intro e he
    rcases List.mem_cons.mp (hp2.mem_iff.mp he) with h | h
    · rw [h]; exact hst
    · exact hwf.stored e (hp1.mem_iff.mpr (List.mem_cons_of_mem e0 h))

/-! ## What a lookup returns after each call -/

theorem htFind_htAdd_absent (hash : Key → Nat) (ht : Hashtable_t) (key : Key)
    (htv : HashtableValue_t) (hwf : WF hash ht) (hp : ¬ Present ht key) (hst : Storable htv)
    (key2 : Key) :
    htFind hash (htAdd hash ht key htv).2 key2 =
      if key2 = key then htv else htFind hash ht key2 := by
  have hwf2 := htAdd_absent_WF hash ht key htv hwf hp hst
  obtain ⟨_, _, _, _, _, hperm, _⟩ :=
    htAdd_miss hash ht key htv hwf.size (htFind_type_of_absent hash ht key hp)
  by_cases hk : key2 = key
  · rw [if_pos hk, hk]
    have hmem : ({ key := key, htv := htv } : HashtableEntry_t) ∈
        entries (htAdd hash ht key htv).2 := hperm.mem_iff.mpr (List.mem_cons_self _ _)
    exact htFind_of_mem hash _ _ hwf2 hmem
  · rw [if_neg hk]
    symm
    apply htFind_congr hash ht _ key2 hwf hwf2
    intro e hek
    rw [hperm.mem_iff, List.mem_cons]
    constructor
    · exact fun h => Or.inr h
    · rintro (h | h)
      · exact absurd (by rw [← hek, h]) hk
      · exact h

theorem htFind_htRemove_present (hash : Key → Nat) (ht : Hashtable_t) (key : Key)
    (hwf : WF hash ht) (hp : Present ht key) (key2 : Key) :
    htFind hash (htRemove hash ht key).2 key2 =
      if key2 = key then noneValue else htFind hash ht key2 := by
  obtain ⟨_, _, _, hwf2, hnp, e0, hk0, hperm⟩ := htRemove_present hash ht key hwf hp
  by_cases hk : key2 = key
  · rw [if_pos hk, hk]
    exact htFind_of_absent hash _ key hnp
  · rw [if_neg hk]
    symm
    apply htFind_congr hash ht _ key2 hwf hwf2
    intro e hek
    rw [hperm.mem_iff, List.mem_cons]
    constructor
    · rintro (h | h)
      · exact absurd (by rw [← hek, h, hk0]) hk
      · exact h
    · exact fun h => Or.inr h

theorem htFind_htReplace_present (hash : Key → Nat) (ht : Hashtable_t) (key : Key)
    (htv : HashtableValue_t) (hwf : WF hash ht) (hp : Present ht key) (hst : Storable htv)
    (key2 : Key) :
    htFind hash (htReplace hash ht key htv).2 key2 =
      if key2 = key then htv else htFind hash ht key2 := by
  obtain ⟨_, _, _, hwf2, e0, X, hk0, hp1, hp2⟩ :=
    htReplace_present hash ht key htv hwf hp hst
  by_cases hk : key2 = key
  · rw [if_pos hk, hk]
    have hmem : ({ key := key, htv := htv } : HashtableEntry_t) ∈
        entries (htReplace hash ht key htv).2 := hp2.mem_iff.mpr (List.mem_cons_self _ _)
    exact htFind_of_mem hash _ _ hwf2 hmem
  · rw [if_neg hk]
    symm
    apply htFind_congr hash ht _ key2 hwf hwf2
    intro e hek
    rw [hp1.mem_iff, hp2.mem_iff, List.mem_cons, List.mem_cons]
    constructor
    · rintro (h | h)
      · exact absurd (by rw [← hek, h, hk0]) hk
      · exact Or.inr h
    · rintro (h | h)
      · exact absurd (by rw [← hek, h]) hk
      · exact Or.inr h

/-! ## Reachable tables are well formed -/

theorem Op.run_WF (hash : Key → Nat) (ht : Hashtable_t) (op : Op) (hwf : WF hash ht)
    (hst : op.Storable) : WF hash (op.run hash ht) := by
  cases op with
  | add key htv =>
    by_cases hp : Present ht key
    · simp only [Op.run, htAdd_present hash ht key htv hwf hp]; exact hwf
    · exact htAdd_absent_WF hash ht key htv hwf hp hst
  | remove key =>
    by_cases hp : Present ht key
    · exact (htRemove_present hash ht key hwf hp).2.2.2.1
    · simp only [Op.run, htRemove_absent hash ht key hp]; exact hwf
  | replace key htv =>
    by_cases hp : Present ht key
    · exact (htReplace_present hash ht key htv hwf hp hst).2.2.2.1
    · simp only [Op.run, htReplace_absent hash ht key htv hp]
      exact htAdd_absent_WF hash ht key htv hwf hp hst

theorem runOps_WF (hash : Key → Nat) (ops : List Op) :
    ∀ ht : Hashtable_t, WF hash ht → (∀ op ∈ ops, op.Storable) → WF hash (runOps hash ht ops) := by
  induction ops with
  | nil => intro ht hwf _; exact hwf
  | cons op rest ih =>
    intro ht hwf hst
    exact ih (op.run hash ht) (Op.run_WF hash ht op hwf (hst op (List.mem_cons_self _ _)))
      (fun o ho => hst o (List.mem_cons_of_mem _ ho))

theorem Reachable_wf {hash : Key → Nat} {ht : Hashtable_t} (h : Reachable hash ht) :
    WF hash ht := by
  obtain ⟨ops, hst, hrun⟩ := h
  rw [← hrun]
  exact runOps_WF hash ops htCreateTable (htCreateTable_WF hash) hst

theorem runOps_append (hash : Key → Nat) (ht : Hashtable_t) (ops1 ops2 : List Op) :
    runOps hash ht (ops1 ++ ops2) = runOps hash (runOps hash ht ops1) ops2 := by
  simp [runOps, List.foldl_append]

theorem present_htAdd_absent (hash : Key → Nat) (ht : Hashtable_t) (key : Key)
    (htv : HashtableValue_t) (hwf : WF hash ht) (hp : ¬ Present ht key) (key2 : Key) :
    Present (htAdd hash ht key htv).2 key2 ↔ key2 = key ∨ Present ht key2 := by
  obtain ⟨_, _, _, _, _, hperm, _⟩ :=
    htAdd_miss hash ht key htv hwf.size (htFind_type_of_absent hash ht key hp)
  unfold Present
  constructor
  · rintro ⟨e, he, hk⟩
    rcases List.mem_cons.mp (hperm.mem_iff.mp he) with h | h
    · left; rw [← hk, h]
    · right; exact ⟨e, h, hk⟩
  · rintro (h | ⟨e, he, hk⟩)
    · exact ⟨_, hperm.mem_iff.mpr (List.mem_cons_self _ _), h.symm⟩
    · exact ⟨e, hperm.mem_iff.mpr (List.mem_cons_of_mem _ he), hk⟩

theorem Reachable_create (hash : Key → Nat) : Reachable hash htCreateTable :=
  ⟨[], by simp, rfl⟩

theorem Reachable_step {hash : Key → Nat} {ht : Hashtable_t} (h : Reachable hash ht)
    (op : Op) (hst : op.Storable) : Reachable hash (op.run hash ht) := by
  obtain ⟨ops, hops, hrun⟩ := h
  refine ⟨ops ++ [op], ?_, ?_⟩
  · intro o ho
    rcases List.mem_append.mp ho with h1 | h1
    · exact hops o h1
    · rw [List.mem_singleton.mp h1]; exact hst
  · rw [runOps_append, hrun]; rfl

/-! ## The reference map -/

theorem refLookup_cons (m : RefMap) (k key : Key) (v : HashtableValue_t) :
    refLookup ((k, v) :: m) key = if k = key then some v else refLookup m key := by
  by_cases h : k = key <;> simp [refLookup, List.find?_cons, h]

theorem refLookup_eq_none_iff (m : RefMap) (key : Key) :
    refLookup m key = none ↔ key ∉ m.map Prod.fst := by
  induction m with
  | nil => simp [refLookup]
  | cons p rest ih =>
    obtain ⟨k, v⟩ := p
    rw [refLookup_cons]
    by_cases h : k = key
    · simp [h]
    · have h2 : ¬ key = k := fun hh => h hh.symm
      simp [h, h2, ih]

theorem refLookup_mem (m : RefMap) (key : Key) (v : HashtableValue_t) :
    refLookup m key = some v → (key, v) ∈ m := by
  induction m with
  | nil => simp [refLookup]
  | cons p rest ih =>
    obtain ⟨k, w⟩ := p
    rw [refLookup_cons]
    by_cases h : k = key
    · simp only [if_pos h, Option.some.injEq]
      intro hv
      rw [h, hv]
      exact List.mem_cons_self _ _
    · simp only [if_neg h]
      intro hv
      exact List.mem_cons_of_mem _ (ih hv)

theorem refLookup_refErase (m : RefMap) (k key : Key) :
    refLookup (refErase m k) key = if key = k then none else refLookup m key := by
  induction m with
  | nil => simp [refLookup, refErase]
  | cons p rest ih =>
    obtain ⟨k2, w⟩ := p
    unfold refErase at ih ⊢
    by_cases h2 : k2 = k
    · subst h2
      rw [List.filter_cons_of_neg (by simp), ih, refLookup_cons]
      by_cases hk : key = k2
      · simp [hk]
      · have : ¬ k2 = key := fun hh => hk hh.symm
        simp [hk, this]
    · rw [List.filter_cons_of_pos (by simp [h2]), refLookup_cons, refLookup_cons, ih]
      by_cases hk : key = k
      · have : ¬ k2 = key := fun hh => h2 (hh.trans hk)
        simp [hk, this, h2]
      · simp [hk]

theorem refErase_keys_sublist (m : RefMap) (k : Key) :
    ((refErase m k).map Prod.fst).Sublist (m.map Prod.fst) :=
  List.Sublist.map _ (List.filter_sublist m)

theorem refErase_length_absent (m : RefMap) (k : Key) (h : k ∉ m.map Prod.fst) :
    (refErase m k).length = m.length := by
  unfold refErase
  rw [List.filter_eq_self.mpr]
  intro p hp
  have : p.1 ≠ k := fun hh => h (List.mem_map.mpr ⟨p, hp, hh⟩)
  simp [this]

theorem refErase_length_present (m : RefMap) (k : Key) (hnd : (m.map Prod.fst).Nodup)
    (h : k ∈ m.map Prod.fst) : (refErase m k).length + 1 = m.length := by
  induction m with
  | nil => simp at h
  | cons p rest ih =>
    obtain ⟨k2, w⟩ := p
    simp only [List.map_cons, List.nodup_cons] at hnd
    by_cases h2 : k2 = k
    · subst h2
      unfold refErase
      rw [List.filter_cons_of_neg (by simp)]
      have := refErase_length_absent rest k2 hnd.1
      unfold refErase at this
      rw [this, List.length_cons]
    · have hr : k ∈ rest.map Prod.fst := by
        rcases List.mem_cons.mp h with hh | hh
        · exact absurd hh.symm h2
        · exact hh
      have := ih hnd.2 hr
      unfold refErase at this ⊢
      rw [List.filter_cons_of_pos (by simp [h2]), List.length_cons, List.length_cons, this]

theorem refSize_eq_length (m : RefMap) (hnd : (m.map Prod.fst).Nodup) :
    refSize m = m.length := by
  unfold refSize
  rw [List.Nodup.dedup hnd, List.length_map]

/-! ## The table refines the reference map -/

theorem refFind_cons (m : RefMap) (k key : Key) (v : HashtableValue_t) :
    refFind ((k, v) :: m) key = if key = k then v else refFind m key := by
  unfold refFind
  rw [refLookup_cons]
  by_cases h : k = key
  · simp [h]
  · have : ¬ key = k := fun hh => h hh.symm
    simp [h, this]

theorem refFind_refErase (m : RefMap) (k key : Key) :
    refFind (refErase m k) key = if key = k then noneValue else refFind m key := by
  unfold refFind
  rw [refLookup_refErase]
  by_cases h : key = k <;> simp [h]

theorem refErase_eq_self (m : RefMap) (k : Key) (h : k ∉ m.map Prod.fst) :
    refErase m k = m := by
  unfold refErase
  rw [List.filter_eq_self]
  intro p hp
  have : p.1 ≠ k := fun hh => h (List.mem_map.mpr ⟨p, hp, hh⟩)
  simp [this]

theorem not_mem_keys_refErase (m : RefMap) (k : Key) : k ∉ (refErase m k).map Prod.fst := by
  rw [← refLookup_eq_none_iff, refLookup_refErase, if_pos rfl]

theorem refErase_stored (m : RefMap) (k : Key) (h : ∀ p ∈ m, Storable p.2) :
    ∀ p ∈ refErase m k, Storable p.2 := by
  intro p hp
  exact h p (List.mem_of_mem_filter hp)

theorem Refines_present_iff {hash : Key → Nat} {ht : Hashtable_t} {m : RefMap}
    (h : Refines hash ht m) (key : Key) : Present ht key ↔ key ∈ m.map Prod.fst := by
  rw [present_iff_htFind hash ht key h.wf, h.find key]
  unfold refFind
  cases hl : refLookup m key with
  | none =>
    have := (refLookup_eq_none_iff m key).mp hl
    simp [this, noneValue]
  | some v =>
    have hmem : key ∈ m.map Prod.fst :=
      List.mem_map.mpr ⟨(key, v), refLookup_mem m key v hl, rfl⟩
    have hst := h.stored (key, v) (refLookup_mem m key v hl)
    simp only [hmem, iff_true]
    exact hst

theorem Refines_create (hash : Key → Nat) : Refines hash htCreateTable [] where
  wf := htCreateTable_WF hash
  nodup := by simp
  stored := by simp
  find := by
    intro key
    rw [htFind_of_absent hash htCreateTable key (by simp [Present, entries, htCreateTable])]
    rfl
  len := rfl

theorem Refines_step {hash : Key → Nat} {ht : Hashtable_t} {m : RefMap}
    (h : Refines hash ht m) (op : Op) (hst : op.Storable) :
    Refines hash (op.run hash ht) (refStep m op) := by
  cases op with
  | add key htv =>
    simp only [Op.run, refStep, refInsertIfAbsent]
    by_cases hp : Present ht key
    · have hk : ¬ refLookup m key = none := by
        rw [refLookup_eq_none_iff]; exact fun hn => hn ((Refines_present_iff h key).mp hp)
      rw [htAdd_present hash ht key htv h.wf hp, if_neg hk]
      exact h
    · have hk : key ∉ m.map Prod.fst := fun hn => hp ((Refines_present_iff h key).mpr hn)
      rw [if_pos ((refLookup_eq_none_iff m key).mpr hk)]
      refine ⟨htAdd_absent_WF hash ht key htv h.wf hp hst, ?_, ?_, ?_, ?_⟩
      · simp only [List.map_cons, List.nodup_cons]; exact ⟨hk, h.nodup⟩
      · intro p hpm
        rcases List.mem_cons.mp hpm with hh | hh
        · rw [hh]; exact hst
        · exact h.stored p hh
      · intro key2
        rw [htFind_htAdd_absent hash ht key htv h.wf hp hst key2, refFind_cons, h.find key2]
      · rw [(htAdd_miss hash ht key htv h.wf.size (htFind_type_of_absent hash ht key hp)).2.1,
          h.len, List.length_cons]
  | remove key =>
    simp only [Op.run, refStep]
    by_cases hp : Present ht key
    · have hk : key ∈ m.map Prod.fst := (Refines_present_iff h key).mp hp
      obtain ⟨_, hlen, _, hwf2, _, _⟩ := htRemove_present hash ht key h.wf hp
      refine ⟨hwf2, (refErase_keys_sublist m key).nodup h.nodup,
        refErase_stored m key h.stored, ?_, ?_⟩
      · intro key2
        rw [htFind_htRemove_present hash ht key h.wf hp key2, refFind_refErase, h.find key2]
      · have := refErase_length_present m key h.nodup hk
        have := h.len
        omega
    · have hk : key ∉ m.map Prod.fst := fun hn => hp ((Refines_present_iff h key).mpr hn)
      rw [htRemove_absent hash ht key hp, refErase_eq_self m key hk]
      exact h
  | replace key htv =>
    simp only [Op.run, refStep, refInsertOrOverwrite]
    have hnd : (((key, htv) :: refErase m key).map Prod.fst).Nodup := by
      simp only [List.map_cons, List.nodup_cons]
      exact ⟨not_mem_keys_refErase m key, (refErase_keys_sublist m key).nodup h.nodup⟩
    have hstored : ∀ p ∈ (key, htv) :: refErase m key, Storable p.2 := by
      intro p hpm
      rcases List.mem_cons.mp hpm with hh | hh
      · rw [hh]; exact hst
      · exact refErase_stored m key h.stored p hh
    have hfind : ∀ key2, (if key2 = key then htv else htFind hash ht key2) =
        refFind ((key, htv) :: refErase m key) key2 := by
      intro key2
      rw [refFind_cons, refFind_refErase, h.find key2]
      by_cases hk : key2 = key <;> simp [hk]
    by_cases hp : Present ht key
    · have hk : key ∈ m.map Prod.fst := (Refines_present_iff h key).mp hp
      obtain ⟨_, hlen, _, hwf2, _⟩ := htReplace_present hash ht key htv h.wf hp hst
      refine ⟨hwf2, hnd, hstored, ?_, ?_⟩
      · intro key2
        rw [htFind_htReplace_present hash ht key htv h.wf hp hst key2]
        exact hfind key2
      · have := refErase_length_present m key h.nodup hk
        have := h.len
        rw [List.length_cons]
        omega
    · have hk : key ∉ m.map Prod.fst := fun hn => hp ((Refines_present_iff h key).mpr hn)
      rw [htReplace_absent hash ht key htv hp]
      refine ⟨htAdd_absent_WF hash ht key htv h.wf hp hst, hnd, hstored, ?_, ?_⟩
      · intro key2
        rw [htFind_htAdd_absent hash ht key htv h.wf hp hst key2]
        exact hfind key2
      · rw [(htAdd_miss hash ht key htv h.wf.size (htFind_type_of_absent hash ht key hp)).2.1,
          h.len, List.length_cons, refErase_eq_self m key hk]

theorem Refines_runOps (hash : Key → Nat) (ops : List Op) :
    ∀ (ht : Hashtable_t) (m : RefMap), Refines hash ht m → (∀ op ∈ ops, op.Storable) →
      Refines hash (runOps hash ht ops) (ops.foldl refStep m) := by
  induction ops with
  | nil => intro ht m h _; exact h
  | cons op rest ih =>
    intro ht m h hst
    exact ih (op.run hash ht) (refStep m op) (Refines_step h op (hst op (List.mem_cons_self _ _)))
      (fun o ho => hst o (List.mem_cons_of_mem _ ho))

/-! ## Successive adds of distinct keys -/

theorem htAddAll_distinct (hash : Key → Nat) (kvs : List (Key × HashtableValue_t)) :
    ∀ ht : Hashtable_t, WF hash ht → (∀ p ∈ kvs, ¬ Present ht p.1) →
      (kvs.map Prod.fst).Nodup → (∀ p ∈ kvs, Storable p.2) →
      (htAddAll hash ht kvs).1 = List.replicate kvs.length 0 ∧
      (htAddAll hash ht kvs).2.len = ht.len + kvs.length ∧
      (ht.len + kvs.length ≤ 2 ^ ht.exp → (htAddAll hash ht kvs).2.exp = ht.exp) ∧
      WF hash (htAddAll hash ht kvs).2 ∧
      (∀ key, Present (htAddAll hash ht kvs).2 key ↔ key ∈ kvs.map Prod.fst ∨ Present ht key) := by
  induction kvs with
  | nil => intro ht hwf _ _ _; simp [htAddAll, hwf]
  | cons p rest ih =>
    intro ht hwf habs hnd hst
    obtain ⟨k, v⟩ := p
    simp only [List.map_cons, List.nodup_cons] at hnd
    have hp : ¬ Present ht k := habs (k, v) (List.mem_cons_self _ _)
    have hv : Storable v := hst (k, v) (List.mem_cons_self _ _)
    obtain ⟨hret, hlen, hexp, _, _, _, _⟩ :=
      htAdd_miss hash ht k v hwf.size (htFind_type_of_absent hash ht k hp)
    have hwf2 := htAdd_absent_WF hash ht k v hwf hp hv
    have habs2 : ∀ q ∈ rest, ¬ Present (htAdd hash ht k v).2 q.1 := by
      intro q hq hpres
      rcases (present_htAdd_absent hash ht k v hwf hp q.1).mp hpres with h | h
      · exact hnd.1 (h ▸ List.mem_map.mpr ⟨q, hq, rfl⟩)
      · exact habs q (List.mem_cons_of_mem _ hq) h
    obtain ⟨i1, i2, i3, i4, i5⟩ := ih (htAdd hash ht k v).2 hwf2 habs2 hnd.2
      (fun q hq => hst q (List.mem_cons_of_mem _ hq))
    simp only [htAddAll, List.length_cons, List.replicate_succ]
    refine ⟨by rw [hret, i1], by rw [i2, hlen]; omega, ?_, i4, ?_⟩
    · intro hle
      have hne : ht.len ≠ 2 ^ ht.exp := by omega
      rw [if_neg hne] at hexp
      rw [i3 (by rw [hlen, hexp]; omega), hexp]
    · intro key
      rw [i5 key, present_htAdd_absent hash ht k v hwf hp key, List.map_cons, List.mem_cons]
      constructor
      · rintro (h | h | h)
        · exact Or.inl (Or.inr h)
        · exact Or.inl (Or.inl h)
        · exact Or.inr h
      · rintro ((h | h) | h)
        · exact Or.inr (Or.inl h)
        · exact Or.inl h
        · exact Or.inr (Or.inr h)

theorem htAddAll_eq_runOps (hash : Key → Nat) (kvs : List (Key × HashtableValue_t)) :
    ∀ ht : Hashtable_t,
      (htAddAll hash ht kvs).2 = runOps hash ht (kvs.map (fun p => Op.add p.1 p.2)) := by
  induction kvs with
  | nil => intro ht; rfl
  | cons p rest ih =>
    intro ht
    obtain ⟨k, v⟩ := p
    simp only [htAddAll, List.map_cons, runOps, List.foldl_cons, Op.run]
    exact ih _

theorem sampleTable_reachable : Reachable sampleHash sampleTable :=
  Reachable_step (Reachable_create sampleHash) (Op.add [1] (sampleInt 10)) (by decide)

/-! ## The contract of the hash table -/

/-- After every finite sequence of `htAdd` / `htRemove` / `htReplace`
calls with values of storable types on a table from `htCreateTable`, and for
every key, `htFind` returns the value the reference finite map (add =
insert-if-absent, remove = erase, replace = insert-or-overwrite) holds for the
key, or the `NONE` sentinel when the map holds none, and `len` is the size of
that map. -/
theorem htFind_refines_reference_map (hash : Key → Nat) (ops : List Op)
    (hst : ∀ op ∈ ops, op.Storable) (key : Key) :
    htFind hash (runOps hash htCreateTable ops) key = refFind (refRun ops) key ∧
    (runOps hash htCreateTable ops).len = refSize (refRun ops) := by
  have h := Refines_runOps hash ops htCreateTable [] (Refines_create hash) hst
  exact ⟨h.find key, by rw [h.len]; exact (refSize_eq_length _ h.nodup).symm⟩

/-- On a reachable table, `htAdd` of a key that is not present, with a
value of a storable type, returns 0, increases `len` by exactly 1, and
`htFind` of the key then returns that value.  Consequently successive adds of
pairwise distinct keys to a fresh table all return 0 and leave `len` equal to
their number. -/
theorem htAdd_absent_key (hash : Key → Nat) :
    (∀ (ht : Hashtable_t) (key : Key) (htv : HashtableValue_t),
      Reachable hash ht → ¬ Present ht key → Storable htv →
        (htAdd hash ht key htv).1 = 0 ∧
        (htAdd hash ht key htv).2.len = ht.len + 1 ∧
        htFind hash (htAdd hash ht key htv).2 key = htv) ∧
    (∀ kvs : List (Key × HashtableValue_t),
      (kvs.map Prod.fst).Nodup → (∀ p ∈ kvs, Storable p.2) →
        (htAddAll hash htCreateTable kvs).1 = List.replicate kvs.length 0 ∧
        (htAddAll hash htCreateTable kvs).2.len = kvs.length) := by
  constructor
  · intro ht key htv hr hp hst
    obtain ⟨hret, hlen, _⟩ :=
      htAdd_miss hash ht key htv (Reachable_wf hr).size (htFind_type_of_absent hash ht key hp)
    refine ⟨hret, hlen, ?_⟩
    rw [htFind_htAdd_absent hash ht key htv (Reachable_wf hr) hp hst key, if_pos rfl]
  · intro kvs hnd hst
    obtain ⟨h1, h2, _⟩ := htAddAll_distinct hash kvs htCreateTable (htCreateTable_WF hash)
      (fun p _ => by simp [Present, entries, htCreateTable]) hnd hst
    refine ⟨h1, ?_⟩
    rw [h2]
    simp [htCreateTable]

/-- C3: on a reachable table, `htAdd` of a key that is already present
returns 1 for any value and leaves the table unchanged: the same table, so the
same `len`, the same `exp` and the same result of `htFind` for every key. -/
theorem C3_htAdd_present_key (hash : Key → Nat) (ht : Hashtable_t) (key : Key)
    (htv2 : HashtableValue_t) (hr : Reachable hash ht) (hp : Present ht key) :
    (htAdd hash ht key htv2).1 = 1 ∧
    (htAdd hash ht key htv2).2 = ht ∧
    (htAdd hash ht key htv2).2.len = ht.len ∧
    (htAdd hash ht key htv2).2.exp = ht.exp ∧
    (∀ key2, htFind hash (htAdd hash ht key htv2).2 key2 = htFind hash ht key2) ∧
    (htFind hash ht key).entryType ≠ EntryType_t.NONE := by
  rw [htAdd_present hash ht key htv2 (Reachable_wf hr) hp]
  exact ⟨rfl, rfl, rfl, rfl, fun _ => rfl, (present_iff_htFind hash ht key (Reachable_wf hr)).mp hp⟩

/-- C3 at the sample table: a second add of its key, with a value of another
type. -/
theorem C3_witness :
    (htAdd sampleHash sampleTable [1] (sampleString [104])).1 = 1 ∧
    (htAdd sampleHash sampleTable [1] (sampleString [104])).2 = sampleTable ∧
    (htAdd sampleHash sampleTable [1] (sampleString [104])).2.len = sampleTable.len ∧
    (htAdd sampleHash sampleTable [1] (sampleString [104])).2.exp = sampleTable.exp ∧
    (∀ key2, htFind sampleHash (htAdd sampleHash sampleTable [1] (sampleString [104])).2 key2 =
      htFind sampleHash sampleTable key2) ∧
    (htFind sampleHash sampleTable [1]).entryType ≠ EntryType_t.NONE :=
  C3_htAdd_present_key sampleHash sampleTable [1] (sampleString [104]) sampleTable_reachable
    (by decide)

/-- On a reachable table, `htRemove` of a present key returns 0, decreases
`len` by exactly 1, and `htFind` of the key then returns the `NONE` sentinel
with a zero payload. -/
theorem htRemove_present_key (hash : Key → Nat) (ht : Hashtable_t) (key : Key)
    (hr : Reachable hash ht) (hp : Present ht key) :
    (htRemove hash ht key).1 = 0 ∧
    (htRemove hash ht key).2.len + 1 = ht.len ∧
    htFind hash (htRemove hash ht key).2 key =
      { entryType := EntryType_t.NONE, v := ValueUnion.word 0 } := by
  obtain ⟨hret, hlen, _, _, hnp, _⟩ := htRemove_present hash ht key (Reachable_wf hr) hp
  exact ⟨hret, hlen, htFind_of_absent hash _ key hnp⟩

/-- C5: on a reachable table, `htRemove` of a key that is not present returns
1 and leaves the table unchanged (the same chains, `len` and `exp`), whatever
else the bucket of the key holds. -/
theorem C5_htRemove_absent_key (hash : Key → Nat) (ht : Hashtable_t) (key : Key)
    (_hr : Reachable hash ht) (hp : ¬ Present ht key) :
    (htRemove hash ht key).1 = 1 ∧ (htRemove hash ht key).2 = ht := by
  rw [htRemove_absent hash ht key hp]
  exact ⟨rfl, rfl⟩

/-- C5 at the sample table and the absent key `2`, which hashes to the bucket
that holds the entry of key `1`. -/
theorem C5_witness :
    sampleHash [2] % 2 ^ sampleTable.exp = sampleHash [1] % 2 ^ sampleTable.exp ∧
    (htRemove sampleHash sampleTable [2]).1 = 1 ∧
    (htRemove sampleHash sampleTable [2]).2 = sampleTable :=
  ⟨by decide, C5_htRemove_absent_key sampleHash sampleTable [2] sampleTable_reachable
    (by decide)⟩

/-- On a reachable table, `htReplace` of a present key with a value of a
storable type (of any type, the stored one or another) returns 0, leaves `len`
and `exp` unchanged, and `htFind` of the key then returns the new value. -/
theorem htReplace_present_key (hash : Key → Nat) (ht : Hashtable_t) (key : Key)
    (htv : HashtableValue_t) (hr : Reachable hash ht) (hp : Present ht key)
    (hst : Storable htv) :
    (htReplace hash ht key htv).1 = 0 ∧
    (htReplace hash ht key htv).2.len = ht.len ∧
    (htReplace hash ht key htv).2.exp = ht.exp ∧
    htFind hash (htReplace hash ht key htv).2 key = htv := by
  obtain ⟨hret, hlen, hexp, _⟩ := htReplace_present hash ht key htv (Reachable_wf hr) hp hst
  refine ⟨hret, hlen, hexp, ?_⟩
  rw [htFind_htReplace_present hash ht key htv (Reachable_wf hr) hp hst key, if_pos rfl]

/-- On a reachable table, `htReplace` of a key that is not present, with a
value of a storable type, produces the very table `htAdd` produces (same
buckets, `len` and `exp`), returns 0, and `htFind` of the key then returns the
value. -/
theorem htReplace_absent_key (hash : Key → Nat) (ht : Hashtable_t) (key : Key)
    (htv : HashtableValue_t) (hr : Reachable hash ht) (hp : ¬ Present ht key)
    (hst : Storable htv) :
    (htReplace hash ht key htv).2 = (htAdd hash ht key htv).2 ∧
    (htReplace hash ht key htv).1 = 0 ∧
    htFind hash (htReplace hash ht key htv).2 key = htv := by
  rw [htReplace_absent hash ht key htv hp]
  refine ⟨rfl, rfl, ?_⟩
  rw [htFind_htAdd_absent hash ht key htv (Reachable_wf hr) hp hst key, if_pos rfl]

/-! ## Count and capacity -/

theorem htAdd_len_le (hash : Key → Nat) (ht : Hashtable_t) (key : Key) (htv : HashtableValue_t)
    (hs : Shape hash ht) (h : ht.len ≤ 2 ^ ht.exp) :
    (htAdd hash ht key htv).2.len ≤ 2 ^ (htAdd hash ht key htv).2.exp := by
  by_cases hm : (htFind hash ht key).entryType = EntryType_t.NONE
  · obtain ⟨_, hlen, hexp, _⟩ := htAdd_miss hash ht key htv hs.size hm
    rw [hlen, hexp]
    by_cases hfull : ht.len = 2 ^ ht.exp
    · rw [if_pos hfull, hfull, Nat.pow_succ]
      have : 0 < 2 ^ ht.exp := Nat.pow_pos (by decide)
      omega
    · rw [if_neg hfull]
      omega
  · rw [htAdd_hit hash ht key htv hm]; exact h

theorem htRemove_len_le (hash : Key → Nat) (ht : Hashtable_t) (key : Key)
    (hs : Shape hash ht) (h : ht.len ≤ 2 ^ ht.exp) :
    (htRemove hash ht key).2.len ≤ 2 ^ (htRemove hash ht key).2.exp := by
  cases hu : htRemoveUnlink key (ht.table.getD (hash key % 2 ^ ht.exp) []) with
  | none => rw [htRemove_none hash ht key hu]; exact h
  | some chain2 =>
    obtain ⟨_, hlen, hexp, _, _, e0, _, hperm⟩ := htRemove_some hash ht key hs.size chain2 hu
    have hl := hperm.length_eq
    rw [List.length_cons, ← hs.count] at hl
    have hne : ht.len ≠ 0 := by omega
    rw [hlen, hexp, if_neg hne]
    omega

theorem htReplace_len_le (hash : Key → Nat) (ht : Hashtable_t) (key : Key)
    (htv : HashtableValue_t) (hs : Shape hash ht) (h : ht.len ≤ 2 ^ ht.exp) :
    (htReplace hash ht key htv).2.len ≤ 2 ^ (htReplace hash ht key htv).2.exp := by
  cases hf : htFindEntry hash ht key with
  | none =>
    rw [htReplace_none hash ht key htv hf]
    exact htAdd_len_le hash ht key htv hs h
  | some r =>
    obtain ⟨_, hlen, hexp, _⟩ := htReplace_some hash ht key htv hs.size r hf
    rw [hlen, hexp]; exact h

theorem Op.run_len_le (hash : Key → Nat) (ht : Hashtable_t) (op : Op)
    (hs : Shape hash ht) (h : ht.len ≤ 2 ^ ht.exp) :
    (op.run hash ht).len ≤ 2 ^ (op.run hash ht).exp := by
  cases op with
  | add key htv => exact htAdd_len_le hash ht key htv hs h
  | remove key => exact htRemove_len_le hash ht key hs h
  | replace key htv => exact htReplace_len_le hash ht key htv hs h

theorem runOps_len_le (hash : Key → Nat) (ops : List Op) :
    ∀ ht : Hashtable_t, Shape hash ht → ht.len ≤ 2 ^ ht.exp →
      (runOps hash ht ops).len ≤ 2 ^ (runOps hash ht ops).exp := by
  induction ops with
  | nil => intro ht _ h; exact h
  | cons op rest ih =>
    intro ht hs h
    exact ih (op.run hash ht) (Op.run_Shape hash ht op hs) (Op.run_len_le hash ht op hs h)

theorem htAdd_exp_absent (hash : Key → Nat) (ht : Hashtable_t) (key : Key)
    (htv : HashtableValue_t) (hwf : WF hash ht) (hp : ¬ Present ht key) :
    (htAdd hash ht key htv).2.exp = if ht.len = 2 ^ ht.exp then ht.exp + 1 else ht.exp :=
  (htAdd_miss hash ht key htv hwf.size (htFind_type_of_absent hash ht key hp)).2.2.1

theorem toNat_ofNat_of_lt (i : Nat) (h : i < 256) : (UInt8.ofNat i).toNat = i := by
  show i % 256 = i
  exact Nat.mod_eq_of_lt h

theorem distinctPairs_keys (n : Nat) :
    (distinctPairs n).map Prod.fst = (List.range n).map (fun i => [UInt8.ofNat i]) := by
  simp [distinctPairs, List.map_map, Function.comp_def]

theorem distinctPairs_keys_nodup (n : Nat) (hn : n ≤ 256) :
    ((distinctPairs n).map Prod.fst).Nodup := by
  rw [distinctPairs_keys]
  apply List.Nodup.map_on _ (List.nodup_range n)
  intro x hx y hy hxy
  have hx1 : x < 256 := Nat.lt_of_lt_of_le (List.mem_range.mp hx) hn
  have hy1 : y < 256 := Nat.lt_of_lt_of_le (List.mem_range.mp hy) hn
  have h1 : UInt8.ofNat x = UInt8.ofNat y := by simpa using hxy
  have h2 := congrArg UInt8.toNat h1
  rwa [toNat_ofNat_of_lt x hx1, toNat_ofNat_of_lt y hy1] at h2

theorem distinctPairs_length (n : Nat) : (distinctPairs n).length = n := by
  simp [distinctPairs]

theorem distinctPairs_storable (n : Nat) : ∀ p ∈ distinctPairs n, Storable p.2 := by
  intro p hp
  obtain ⟨i, _, hi⟩ := List.mem_map.mp hp
  rw [← hi]
  simp [Storable, sampleInt]

theorem not_mem_distinctPairs_keys (n m : Nat) (hnm : n ≤ m) (hm : m < 256) :
    [UInt8.ofNat m] ∉ (distinctPairs n).map Prod.fst := by
  rw [distinctPairs_keys]
  intro hmem
  obtain ⟨i, hi, hie⟩ := List.mem_map.mp hmem
  have hi1 : i < n := List.mem_range.mp hi
  have h1 : UInt8.ofNat i = UInt8.ofNat m := by simpa using hie
  have h2 := congrArg UInt8.toNat h1
  rw [toNat_ofNat_of_lt i (by omega), toNat_ofNat_of_lt m hm] at h2
  omega

theorem not_present_htCreateTable (key : Key) : ¬ Present htCreateTable key := by
  simp [Present, entries, htCreateTable]

theorem table31_spec (hash : Key → Nat) :
    Reachable hash (table31 hash) ∧ (table31 hash).len = 31 ∧ (table31 hash).exp = 5 ∧
    ¬ Present (table31 hash) [31] := by
  have hnd := distinctPairs_keys_nodup 31 (by decide)
  have hst := distinctPairs_storable 31
  obtain ⟨_, h2, h3, _, h5⟩ := htAddAll_distinct hash (distinctPairs 31) htCreateTable
    (htCreateTable_WF hash) (fun p _ => not_present_htCreateTable p.1) hnd hst
  refine ⟨?_, ?_, ?_, ?_⟩
  · refine ⟨(distinctPairs 31).map (fun p => Op.add p.1 p.2), ?_, ?_⟩
    · intro op hop
      obtain ⟨p, hp, hpe⟩ := List.mem_map.mp hop
      rw [← hpe]
      exact hst p hp
    · exact (htAddAll_eq_runOps hash (distinctPairs 31) htCreateTable).symm
  · rw [table31, h2, distinctPairs_length]; rfl
  · have h3b := h3 (by rw [distinctPairs_length]; decide)
    rw [table31, h3b]; rfl
  · intro hp
    rcases (h5 [31]).mp hp with h | h
    · exact not_mem_distinctPairs_keys 31 31 (Nat.le_refl _) (by decide) h
    · exact not_present_htCreateTable _ h

/-- C8: `len ≤ 2 ^ exp` holds for the table `htCreateTable` returns, every
`htAdd`, `htRemove` and `htReplace` call preserves it on a table of the right
shape, and so it holds after every sequence of calls on a fresh table. -/
theorem C8_len_le_capacity (hash : Key → Nat) :
    htCreateTable.len ≤ 2 ^ htCreateTable.exp ∧
    (∀ (ht : Hashtable_t) (op : Op), Shape hash ht → ht.len ≤ 2 ^ ht.exp →
      (op.run hash ht).len ≤ 2 ^ (op.run hash ht).exp) ∧
    (∀ ops : List Op,
      (runOps hash htCreateTable ops).len ≤ 2 ^ (runOps hash htCreateTable ops).exp) := by
  have h0 : htCreateTable.len ≤ 2 ^ htCreateTable.exp := by decide
  exact ⟨h0, fun ht op hs h => Op.run_len_le hash ht op hs h,
    fun ops => runOps_len_le hash ops htCreateTable (WF_shape (htCreateTable_WF hash)) h0⟩

/-- C8 at the sample call sequence. -/
theorem C8_witness :
    (runOps sampleHash htCreateTable sampleOps).len ≤
      2 ^ (runOps sampleHash htCreateTable sampleOps).exp :=
  (C8_len_le_capacity sampleHash).2.2 sampleOps

/-- On a reachable table, `htAdd` increases `exp` by exactly 1 if and
only if the key is absent and `len = 2 ^ exp` before the call; in every other
case it leaves `exp` unchanged. -/
theorem htAdd_grows_iff (hash : Key → Nat) (ht : Hashtable_t) (key : Key)
    (htv : HashtableValue_t) (hr : Reachable hash ht) :
    ((htAdd hash ht key htv).2.exp = ht.exp + 1 ↔ (¬ Present ht key ∧ ht.len = 2 ^ ht.exp)) ∧
    (¬ (¬ Present ht key ∧ ht.len = 2 ^ ht.exp) → (htAdd hash ht key htv).2.exp = ht.exp) := by
  by_cases hp : Present ht key
  · rw [htAdd_present hash ht key htv (Reachable_wf hr) hp]
    simp [hp]
  · rw [htAdd_exp_absent hash ht key htv (Reachable_wf hr) hp]
    by_cases hfull : ht.len = 2 ^ ht.exp
    · simp [hp, hfull]
    · simp [hp, hfull]

/-- C10, refuted: whatever the hash function, the table holding the 31
one-byte keys `0, ..., 30` is reachable, has `len + 1 = 2 ^ exp` (31 entries,
32 buckets) and does not hold the key `31`, yet `htAdd` of that key leaves
`exp` at 5. -/
theorem C10_counterexample :
    ¬ ∃ hash : Key → Nat,
      (Reachable hash (table31 hash) → ¬ Present (table31 hash) [31] →
        (table31 hash).len + 1 = 2 ^ (table31 hash).exp →
        (htAdd hash (table31 hash) [31] (sampleInt 310)).2.exp = (table31 hash).exp + 1) := by
  rintro ⟨hash, h⟩
  obtain ⟨hr, hlen, hexp, hp⟩ := table31_spec hash
  have hgrow := h hr hp (by rw [hlen, hexp]; norm_num)
  rw [htAdd_exp_absent hash (table31 hash) [31] (sampleInt 310) (Reachable_wf hr) hp, hlen, hexp] at hgrow
  revert hgrow
  decide

/-- On a reachable table and for an absent key, `htAdd`
doubles the capacity (`exp` increases by 1) whenever the insert would make the
count exceed `2 ^ exp`, that is when `len = 2 ^ exp` before the call; when
`len + 1 = 2 ^ exp` it leaves `exp` unchanged. -/
theorem htAdd_grows_when_full (hash : Key → Nat) (ht : Hashtable_t) (key : Key)
    (htv : HashtableValue_t) (hr : Reachable hash ht) (hp : ¬ Present ht key) :
    (ht.len = 2 ^ ht.exp → (htAdd hash ht key htv).2.exp = ht.exp + 1) ∧
    (ht.len + 1 = 2 ^ ht.exp → (htAdd hash ht key htv).2.exp = ht.exp) := by
  rw [htAdd_exp_absent hash ht key htv (Reachable_wf hr) hp]
  constructor
  · intro hfull
    rw [if_pos hfull]
  · intro hnext
    have hne : ht.len ≠ 2 ^ ht.exp := by omega
    rw [if_neg hne]

/-! ## Lookup where keys are unique, whatever the types of the values -/

theorem htFind_of_mem_keyed (hash : Key → Nat) (ht : Hashtable_t) (e : HashtableEntry_t)
    (hB : BucketInv hash ht.exp ht.table)
    (hnd : ((entries ht).map (fun x => x.key)).Nodup) (he : e ∈ entries ht) :
    htFind hash ht e.key = e.htv := by
  obtain ⟨i, chain, hi, hec⟩ := (mem_entries_iff ht e).mp he
  have hidx : hash e.key % 2 ^ ht.exp = i := hB i chain hi e hec
  have hndc : (chain.map (fun x => x.key)).Nodup := by
    have hp := (flatten_perm_bucket ht.table i chain hi).map (fun x => x.key)
    have hn := hp.nodup_iff.mp hnd
    rw [List.map_append] at hn
    exact (List.nodup_append.mp hn).1
  obtain ⟨p, hp⟩ := firstMatch_of_mem chain e hndc hec
  rw [htFind_eq, hidx]
  simp [hi, hp]

theorem htFind_congr_keyed (hash : Key → Nat) (ht ht2 : Hashtable_t) (key : Key)
    (hB : BucketInv hash ht.exp ht.table)
    (hnd : ((entries ht).map (fun x => x.key)).Nodup)
    (hB2 : BucketInv hash ht2.exp ht2.table)
    (hnd2 : ((entries ht2).map (fun x => x.key)).Nodup)
    (h : ∀ e : HashtableEntry_t, e.key = key → (e ∈ entries ht ↔ e ∈ entries ht2)) :
    htFind hash ht key = htFind hash ht2 key := by
  by_cases hp : Present ht key
  · obtain ⟨e, he, hk⟩ := hp
    have he2 : e ∈ entries ht2 := (h e hk).mp he
    rw [← hk, htFind_of_mem_keyed hash ht e hB hnd he,
      htFind_of_mem_keyed hash ht2 e hB2 hnd2 he2]
  · have hp2 : ¬ Present ht2 key := by
      rintro ⟨e, he, hk⟩
      exact hp ⟨e, (h e hk).mpr he, hk⟩
    rw [htFind_of_absent hash ht key hp, htFind_of_absent hash ht2 key hp2]

theorem htFind_htAdd_other (hash : Key → Nat) (ht : Hashtable_t) (key : Key)
    (htv : HashtableValue_t) (hwf : WF hash ht) (key2 : Key) (hne : key2 ≠ key) :
    htFind hash (htAdd hash ht key htv).2 key2 = htFind hash ht key2 := by
  by_cases hp : Present ht key
  · rw [htAdd_present hash ht key htv hwf hp]
  · obtain ⟨_, _, _, _, hB, hperm, _⟩ :=
      htAdd_miss hash ht key htv hwf.size (htFind_type_of_absent hash ht key hp)
    have hnd2 : ((entries (htAdd hash ht key htv).2).map (fun x => x.key)).Nodup := by
      rw [(hperm.map (fun e => e.key)).nodup_iff]
      simp only [List.map_cons, List.nodup_cons]
      refine ⟨?_, hwf.nodup⟩
      intro hmem
      obtain ⟨e, he, hk⟩ := List.mem_map.mp hmem
      exact hp ⟨e, he, hk⟩
    symm
    apply htFind_congr_keyed hash ht _ key2 hwf.bucket hwf.nodup (hB hwf.bucket) hnd2
    intro e hek
    rw [hperm.mem_iff, List.mem_cons]
    constructor
    · exact fun h => Or.inr h
    · rintro (h | h)
      · exact absurd (by rw [← hek, h]) hne
      · exact h

theorem htFind_htExpandAndRehash (hash : Key → Nat) (ht : Hashtable_t) (hwf : WF hash ht)
    (key : Key) : htFind hash (htExpandAndRehash hash ht) key = htFind hash ht key := by
  have hwf2 := htExpandAndRehash_WF hash ht hwf
  obtain ⟨_, _, hperm⟩ := htExpandAndRehash_spec hash ht hwf.size
  symm
  apply htFind_congr hash ht _ key hwf hwf2
  intro e _
  exact hperm.mem_iff.symm

/-! ## The exponent after adds of distinct keys -/

theorem present_htAdd_miss (hash : Key → Nat) (ht : Hashtable_t) (key : Key)
    (htv : HashtableValue_t) (hsize : ht.table.length = 2 ^ ht.exp)
    (hp : ¬ Present ht key) (key2 : Key) :
    Present (htAdd hash ht key htv).2 key2 ↔ key2 = key ∨ Present ht key2 := by
  obtain ⟨_, _, _, _, _, hperm, _⟩ :=
    htAdd_miss hash ht key htv hsize (htFind_type_of_absent hash ht key hp)
  unfold Present
  constructor
  · rintro ⟨e, he, hk⟩
    rcases List.mem_cons.mp (hperm.mem_iff.mp he) with h | h
    · left; rw [← hk, h]
    · right; exact ⟨e, h, hk⟩
  · rintro (h | ⟨e, he, hk⟩)
    · exact ⟨_, hperm.mem_iff.mpr (List.mem_cons_self _ _), h.symm⟩
    · exact ⟨e, hperm.mem_iff.mpr (List.mem_cons_of_mem _ he), hk⟩

theorem htAddAll_distinct_exp (hash : Key → Nat) (kvs : List (Key × HashtableValue_t)) :
    ∀ ht : Hashtable_t, ht.table.length = 2 ^ ht.exp → (∀ p ∈ kvs, ¬ Present ht p.1) →
      (kvs.map Prod.fst).Nodup →
      (5 ≤ ht.exp ∧ ht.len ≤ 2 ^ ht.exp ∧ (5 < ht.exp → 2 ^ (ht.exp - 1) < ht.len)) →
      (htAddAll hash ht kvs).2.len = ht.len + kvs.length ∧
      5 ≤ (htAddAll hash ht kvs).2.exp ∧
      (htAddAll hash ht kvs).2.len ≤ 2 ^ (htAddAll hash ht kvs).2.exp ∧
      (5 < (htAddAll hash ht kvs).2.exp →
        2 ^ ((htAddAll hash ht kvs).2.exp - 1) < (htAddAll hash ht kvs).2.len) := by
  induction kvs with
  | nil => intro ht _ _ _ h; exact ⟨rfl, h⟩
  | cons p rest ih =>
    intro ht hsize habs hnd hinv
    obtain ⟨k, v⟩ := p
    simp only [List.map_cons, List.nodup_cons] at hnd
    have hp : ¬ Present ht k := habs (k, v) (List.mem_cons_self _ _)
    obtain ⟨_, hlen, hexp, hsize2, _, _, _⟩ :=
      htAdd_miss hash ht k v hsize (htFind_type_of_absent hash ht k hp)
    have habs2 : ∀ q ∈ rest, ¬ Present (htAdd hash ht k v).2 q.1 := by
      intro q hq hpres
      rcases (present_htAdd_miss hash ht k v hsize hp q.1).mp hpres with h | h
      · exact hnd.1 (h ▸ List.mem_map.mpr ⟨q, hq, rfl⟩)
      · exact habs q (List.mem_cons_of_mem _ hq) h
    have hinv2 : 5 ≤ (htAdd hash ht k v).2.exp ∧
        (htAdd hash ht k v).2.len ≤ 2 ^ (htAdd hash ht k v).2.exp ∧
        (5 < (htAdd hash ht k v).2.exp →
          2 ^ ((htAdd hash ht k v).2.exp - 1) < (htAdd hash ht k v).2.len) := by
      rw [hlen, hexp]
      obtain ⟨h5, hle, hlow⟩ := hinv
      by_cases hfull : ht.len = 2 ^ ht.exp
      · rw [if_pos hfull, Nat.add_sub_cancel, Nat.pow_succ]
        have : 0 < 2 ^ ht.exp := Nat.pow_pos (by decide)
        exact ⟨by omega, by omega, fun _ => by omega⟩
      · rw [if_neg hfull]
        exact ⟨h5, by omega, fun h => by have := hlow h; omega⟩
    obtain ⟨i1, i2, i3, i4⟩ := ih (htAdd hash ht k v).2 hsize2 habs2 hnd.2 hinv2
    simp only [htAddAll, List.length_cons]
    exact ⟨by rw [i1, hlen]; omega, i2, i3, i4⟩

theorem exp_least_of_inv (n E e : Nat) (h5 : 5 ≤ E) (hlow : 5 < E → 2 ^ (E - 1) < n)
    (he5 : 5 ≤ e) (hn : n ≤ 2 ^ e) : E ≤ e := by
  by_cases h : 5 < E
  · have h1 := hlow h
    have h2 : 2 ^ (E - 1) < 2 ^ e := Nat.lt_of_lt_of_le h1 hn
    have h3 : E - 1 < e := (Nat.pow_lt_pow_iff_right (by decide)).mp h2
    omega
  · omega

/-- C11: after `htAdd` calls with pairwise distinct keys on a table from
`htCreateTable`, `exp` is the least `e ≥ 5` with `n ≤ 2 ^ e`, where `n` is the
number of calls; so 32 adds give 5, 33 and 50 give 6, and 999 give 10. -/
theorem C11_exp_after_distinct_adds (hash : Key → Nat) (kvs : List (Key × HashtableValue_t))
    (hnd : (kvs.map Prod.fst).Nodup) :
    (5 ≤ (htAddAll hash htCreateTable kvs).2.exp ∧
      kvs.length ≤ 2 ^ (htAddAll hash htCreateTable kvs).2.exp ∧
      ∀ e, 5 ≤ e → kvs.length ≤ 2 ^ e → (htAddAll hash htCreateTable kvs).2.exp ≤ e) ∧
    (kvs.length = 32 → (htAddAll hash htCreateTable kvs).2.exp = 5) ∧
    (kvs.length = 33 → (htAddAll hash htCreateTable kvs).2.exp = 6) ∧
    (kvs.length = 50 → (htAddAll hash htCreateTable kvs).2.exp = 6) ∧
    (kvs.length = 999 → (htAddAll hash htCreateTable kvs).2.exp = 10) := by
  obtain ⟨hlen, h5, hle, hlow⟩ := htAddAll_distinct_exp hash kvs htCreateTable
    (by simp [htCreateTable]) (fun p _ => not_present_htCreateTable p.1) hnd
    (by decide)
  have hlen2 : (htAddAll hash htCreateTable kvs).2.len = kvs.length := by
    rw [hlen]; simp [htCreateTable]
  rw [hlen2] at hle hlow
  have hleast : ∀ e, 5 ≤ e → kvs.length ≤ 2 ^ e →
      (htAddAll hash htCreateTable kvs).2.exp ≤ e :=
    fun e he hn => exp_least_of_inv kvs.length _ e h5 hlow he hn
  have hge : ∀ m, 5 ≤ m → 2 ^ m < kvs.length →
      m + 1 ≤ (htAddAll hash htCreateTable kvs).2.exp := by
    intro m _ hm
    by_contra hcon
    have h1 : (htAddAll hash htCreateTable kvs).2.exp ≤ m := by omega
    have h2 : 2 ^ (htAddAll hash htCreateTable kvs).2.exp ≤ 2 ^ m :=
      Nat.pow_le_pow_right (by decide) h1
    omega
  refine ⟨⟨h5, hle, hleast⟩, ?_, ?_, ?_, ?_⟩
  · intro hn
    have := hleast 5 (Nat.le_refl _) (by rw [hn]; decide)
    omega
  · intro hn
    have h1 := hleast 6 (by decide) (by rw [hn]; decide)
    have h2 := hge 5 (Nat.le_refl _) (by rw [hn]; decide)
    omega
  · intro hn
    have h1 := hleast 6 (by decide) (by rw [hn]; decide)
    have h2 := hge 5 (Nat.le_refl _) (by rw [hn]; decide)
    omega
  · intro hn
    have h1 := hleast 10 (by decide) (by rw [hn]; decide)
    have h2 := hge 9 (by decide) (by rw [hn]; decide)
    omega

/-- C11 at the adds of the 33 one-byte keys `0, ..., 32`. -/
theorem C11_witness :
    (5 ≤ (htAddAll sampleHash htCreateTable (distinctPairs 33)).2.exp ∧
      (distinctPairs 33).length ≤ 2 ^ (htAddAll sampleHash htCreateTable (distinctPairs 33)).2.exp ∧
      ∀ e, 5 ≤ e → (distinctPairs 33).length ≤ 2 ^ e →
        (htAddAll sampleHash htCreateTable (distinctPairs 33)).2.exp ≤ e) ∧
    ((distinctPairs 33).length = 32 →
      (htAddAll sampleHash htCreateTable (distinctPairs 33)).2.exp = 5) ∧
    ((distinctPairs 33).length = 33 →
      (htAddAll sampleHash htCreateTable (distinctPairs 33)).2.exp = 6) ∧
    ((distinctPairs 33).length = 50 →
      (htAddAll sampleHash htCreateTable (distinctPairs 33)).2.exp = 6) ∧
    ((distinctPairs 33).length = 999 →
      (htAddAll sampleHash htCreateTable (distinctPairs 33)).2.exp = 10) :=
  C11_exp_after_distinct_adds sampleHash (distinctPairs 33)
    (distinctPairs_keys_nodup 33 (by decide))

/-- On a reachable table, `htAdd` of a key with any value leaves the
result of `htFind` unchanged for every other key, also when the call grows the
table; `htExpandAndRehash` itself relinks every entry, losing and altering
none, so every lookup returns what it returned before. -/
theorem htAdd_frame (hash : Key → Nat) (ht : Hashtable_t) (key : Key)
    (htv : HashtableValue_t) (key2 : Key) (hr : Reachable hash ht) (hne : key2 ≠ key) :
    htFind hash (htAdd hash ht key htv).2 key2 = htFind hash ht key2 ∧
    (entries (htExpandAndRehash hash ht)).Perm (entries ht) ∧
    (∀ k, htFind hash (htExpandAndRehash hash ht) k = htFind hash ht k) :=
  ⟨htFind_htAdd_other hash ht key htv (Reachable_wf hr) key2 hne,
    (htExpandAndRehash_spec hash ht (Reachable_wf hr).size).2.2,
    fun k => htFind_htExpandAndRehash hash ht (Reachable_wf hr) k⟩

/-- C13: after every sequence of `htAdd` / `htRemove` / `htReplace` calls with
values of storable types on a fresh table, no two entries linked anywhere in
the table have the same key (the same length and the same bytes). -/
theorem C13_no_duplicate_keys (hash : Key → Nat) (ops : List Op)
    (hst : ∀ op ∈ ops, op.Storable) :
    ((entries (runOps hash htCreateTable ops)).map (fun e => e.key)).Nodup :=
  (runOps_WF hash ops htCreateTable (htCreateTable_WF hash) hst).nodup

/-- C13 at the sample call sequence. -/
theorem C13_witness :
    ((entries (runOps sampleHash htCreateTable sampleOps)).map (fun e => e.key)).Nodup :=
  C13_no_duplicate_keys sampleHash sampleOps (by decide)

/-- C14, refuted: whatever the hash function, one `htAdd` of the one-byte key
`1` with a value of type `NONE` on a fresh table links an entry whose value
type is `NONE`. -/
theorem C14_counterexample :
    ¬ ∃ hash : Key → Nat,
      ∀ e ∈ entries (runOps hash htCreateTable [Op.add [1] noneValue]),
        e.htv.entryType ≠ EntryType_t.NONE := by
  rintro ⟨hash, h⟩
  obtain ⟨_, _, _, _, _, hperm, _⟩ := htAdd_miss hash htCreateTable [1] noneValue
    (by simp [htCreateTable])
    (htFind_type_of_absent hash htCreateTable [1] (not_present_htCreateTable [1]))
  have hmem : ({ key := [1], htv := noneValue } : HashtableEntry_t) ∈
      entries (runOps hash htCreateTable [Op.add [1] noneValue]) :=
    hperm.mem_iff.mpr (List.mem_cons_self _ _)
  exact h _ hmem rfl

/-- C14 as amended: after every sequence of `htAdd` / `htReplace` / `htRemove`
calls on a fresh table in which every supplied value has a storable type, no
entry in the table has value type `NONE`, and `htFind` returns a value of type
`NONE` exactly for the keys that are not present. -/
theorem C14_no_NONE_stored (hash : Key → Nat) (ops : List Op)
    (hst : ∀ op ∈ ops, op.Storable) :
    (∀ e ∈ entries (runOps hash htCreateTable ops), e.htv.entryType ≠ EntryType_t.NONE) ∧
    (∀ key, (htFind hash (runOps hash htCreateTable ops) key).entryType = EntryType_t.NONE ↔
      ¬ Present (runOps hash htCreateTable ops) key) := by
  have hwf := runOps_WF hash ops htCreateTable (htCreateTable_WF hash) hst
  refine ⟨hwf.stored, fun key => ?_⟩
  rw [present_iff_htFind hash _ key hwf]
  exact not_not.symm

/-- C14 as amended, at the sample call sequence. -/
theorem C14_witness :
    (∀ e ∈ entries (runOps sampleHash htCreateTable sampleOps),
      e.htv.entryType ≠ EntryType_t.NONE) ∧
    (∀ key, (htFind sampleHash (runOps sampleHash htCreateTable sampleOps) key).entryType =
        EntryType_t.NONE ↔ ¬ Present (runOps sampleHash htCreateTable sampleOps) key) :=
  C14_no_NONE_stored sampleHash sampleOps (by decide)

/-- C15: `htCreateTable` returns a table with `exp = 5`, `len = 0` and
`2 ^ 5 = 32` buckets, all of them empty, so `htFind` on it returns the `NONE`
sentinel for every key. -/
theorem C15_htCreateTable_empty (hash : Key → Nat) :
    htCreateTable.exp = 5 ∧ htCreateTable.len = 0 ∧ htCreateTable.table.length = 32 ∧
    (∀ chain ∈ htCreateTable.table, chain = []) ∧
    (∀ key, htFind hash htCreateTable key =
      { entryType := EntryType_t.NONE, v := ValueUnion.word 0 }) := by
  refine ⟨rfl, rfl, by simp [htCreateTable, HASHTABLE_DEFAULTCAP], ?_, ?_⟩
  · intro chain hc
    exact List.eq_of_mem_replicate hc
  · intro key
    exact htFind_of_absent hash htCreateTable key (not_present_htCreateTable key)

/-! ## The result of `cmpKey` -/

theorem cmpKeyLoop_zero_or_one (a : List UInt8) :
    ∀ b : List UInt8, cmpKeyLoop a b = 0 ∨ cmpKeyLoop a b = 1 := by
  induction a with
  | nil => intro b; right; cases b <;> rfl
  | cons x xs ih =>
    intro b
    cases b with
    | nil => right; rfl
    | cons y ys =>
      by_cases hxy : x = y
      · simp only [cmpKeyLoop, hxy, ne_eq, not_true_eq_false, if_false]
        exact ih ys
      · left; simp [cmpKeyLoop, hxy]

theorem cmpKey_zero_or_one (a b : Key) : cmpKey a b = 0 ∨ cmpKey a b = 1 := by
  unfold cmpKey
  by_cases hlen : a.length = b.length
  · simp only [hlen, ne_eq, not_true_eq_false, if_false]
    exact cmpKeyLoop_zero_or_one a b
  · left; simp [hlen]

theorem cmpKey_eq_one_iff (a b : Key) : cmpKey a b = 1 ↔ a = b := by
  constructor
  · intro h
    by_contra hne
    rw [(cmpKey_eq_zero_iff a b).mpr hne] at h
    exact absurd h (by decide)
  · intro h
    rcases cmpKey_zero_or_one a b with h0 | h1
    · exact absurd h ((cmpKey_eq_zero_iff a b).mp h0)
    · exact h1

theorem singleKeyTable_spec (hash : Key → Nat) (key : Key) (htv : HashtableValue_t)
    (hst : Storable htv) :
    WF hash (htAdd hash htCreateTable key htv).2 ∧
    (htAdd hash htCreateTable key htv).2.len = 1 ∧
    htFind hash (htAdd hash htCreateTable key htv).2 key = htv ∧
    (∀ key2, Present (htAdd hash htCreateTable key htv).2 key2 ↔ key2 = key) := by
  have hp := not_present_htCreateTable key
  have hwf := htCreateTable_WF hash
  refine ⟨htAdd_absent_WF hash _ key htv hwf hp hst, ?_, ?_, ?_⟩
  · rw [(htAdd_miss hash _ key htv hwf.size (htFind_type_of_absent hash _ key hp)).2.1]
    rfl
  · rw [htFind_htAdd_absent hash _ key htv hwf hp hst key, if_pos rfl]
  · intro key2
    rw [present_htAdd_miss hash _ key htv hwf.size hp key2]
    constructor
    · rintro (h | h)
      · exact h
      · exact absurd h (not_present_htCreateTable key2)
    · exact fun h => Or.inl h

/-- C16: `cmpKey` returns 1 if and only if the two lengths are equal and the
keys agree byte for byte, for arbitrary bytes, and 0 otherwise.  Hence a key
that is a proper prefix of another key, or that differs from it only after an
embedded NUL byte, compares different, and on a table that holds the one key
`htFind`, `htRemove`, `htAdd` and `htReplace` treat the other key as a key
that is not there. -/
theorem C16_cmpKey_exact (hash : Key → Nat) :
    (∀ k1 k2 : Key, cmpKey k1 k2 = 1 ↔
      (k1.length = k2.length ∧
        ∀ (i : Nat) (h1 : i < k1.length) (h2 : i < k2.length), k1[i] = k2[i])) ∧
    (∀ k1 k2 : Key, cmpKey k1 k2 = 1 ∨ cmpKey k1 k2 = 0) ∧
    (∀ p s : Key, s ≠ [] → cmpKey p (p ++ s) = 0 ∧ cmpKey (p ++ s) p = 0) ∧
    (∀ p a b : Key, a ≠ b → cmpKey (p ++ 0 :: a) (p ++ 0 :: b) = 0) ∧
    (∀ (k k2 : Key) (v v2 : HashtableValue_t), Storable v → Storable v2 → cmpKey k k2 = 0 →
      htFind hash (htAdd hash htCreateTable k v).2 k2 = noneValue ∧
      htRemove hash (htAdd hash htCreateTable k v).2 k2 = (1, (htAdd hash htCreateTable k v).2) ∧
      (htAdd hash (htAdd hash htCreateTable k v).2 k2 v2).1 = 0 ∧
      htFind hash (htAdd hash (htAdd hash htCreateTable k v).2 k2 v2).2 k = v ∧
      htFind hash (htAdd hash (htAdd hash htCreateTable k v).2 k2 v2).2 k2 = v2 ∧
      (htReplace hash (htAdd hash htCreateTable k v).2 k2 v2).2.len = 2 ∧
      htFind hash (htReplace hash (htAdd hash htCreateTable k v).2 k2 v2).2 k = v ∧
      htFind hash (htReplace hash (htAdd hash htCreateTable k v).2 k2 v2).2 k2 = v2) := by
  refine ⟨?_, ?_, ?_, ?_, ?_⟩
  · intro k1 k2
    rw [cmpKey_eq_one_iff]
    constructor
    · intro h
      subst h
      exact ⟨rfl, fun _ _ _ => rfl⟩
    · rintro ⟨hlen, hbytes⟩
      exact List.ext_getElem hlen hbytes
  · intro k1 k2
    exact (cmpKey_zero_or_one k1 k2).symm
  · intro p s hs
    have hne : p ≠ p ++ s := by
      intro h
      have hl := congrArg List.length h
      rw [List.length_append] at hl
      have : s.length = 0 := by omega
      exact hs (List.length_eq_zero.mp this)
    exact ⟨(cmpKey_eq_zero_iff _ _).mpr hne, (cmpKey_eq_zero_iff _ _).mpr (fun h => hne h.symm)⟩
  · intro p a b hab
    apply (cmpKey_eq_zero_iff _ _).mpr
    intro h
    have h2 := List.append_cancel_left h
    simp only [List.cons.injEq, true_and] at h2
    exact hab h2
  · intro k k2 v v2 hv hv2 hcmp
    have hne : k ≠ k2 := (cmpKey_eq_zero_iff k k2).mp hcmp
    obtain ⟨hwf, hlen, hfind, hpres⟩ := singleKeyTable_spec hash k v hv
    have hp2 : ¬ Present (htAdd hash htCreateTable k v).2 k2 :=
      fun h => hne ((hpres k2).mp h).symm
    have hmiss := htAdd_miss hash _ k2 v2 hwf.size (htFind_type_of_absent hash _ k2 hp2)
    have hadd := htFind_htAdd_absent hash _ k2 v2 hwf hp2 hv2
    refine ⟨htFind_of_absent hash _ k2 hp2, htRemove_absent hash _ k2 hp2, hmiss.1, ?_, ?_,
      ?_, ?_, ?_⟩
    · rw [hadd k, if_neg hne, hfind]
    · rw [hadd k2, if_pos rfl]
    · rw [htReplace_absent hash _ k2 v2 hp2]
      show (htAdd hash (htAdd hash htCreateTable k v).2 k2 v2).2.len = 2
      rw [hmiss.2.1, hlen]
    · rw [htReplace_absent hash _ k2 v2 hp2]
      show htFind hash (htAdd hash (htAdd hash htCreateTable k v).2 k2 v2).2 k = v
      rw [hadd k, if_neg hne, hfind]
    · rw [htReplace_absent hash _ k2 v2 hp2]
      show htFind hash (htAdd hash (htAdd hash htCreateTable k v).2 k2 v2).2 k2 = v2
      rw [hadd k2, if_pos rfl]

/-- C16 at the key `ab`, its extension `abc`, and the keys `a\0b` and `a\0c`. -/
theorem C16_witness :
    (cmpKey [97, 98] ([97, 98] ++ [99]) = 0 ∧ cmpKey ([97, 98] ++ [99]) [97, 98] = 0) ∧
    cmpKey ([97] ++ 0 :: [98]) ([97] ++ 0 :: [99]) = 0 ∧
    htFind sampleHash (htAdd sampleHash htCreateTable [97, 98] (sampleInt 1)).2 [97, 98, 99] =
      noneValue :=
  ⟨(C16_cmpKey_exact sampleHash).2.2.1 [97, 98] [99] (by decide),
    (C16_cmpKey_exact sampleHash).2.2.2.1 [97] [98] [99] (by decide),
    ((C16_cmpKey_exact sampleHash).2.2.2.2 [97, 98] [97, 98, 99] (sampleInt 1) (sampleInt 2)
      (by decide) (by decide) (by decide)).1⟩



/-! ## Tokenizing a request -/

theorem skipSpaces_of_ne (b : UInt8) (rest : List UInt8) (h : b ≠ 32) :
    skipSpaces (b :: rest) = b :: rest := by
  simp [skipSpaces, h]

theorem tokenEnd_append (tok : List UInt8) (d : UInt8) (rest : List UInt8)
    (htok : TokenBytes tok) (hd : d = 32 ∨ d = 0) :
    tokenEnd (tok ++ d :: rest) = (tok, d :: rest) := by
  induction tok with
  | nil => simp [tokenEnd, hd]
  | cons b bs ih =>
    have hb := htok b (List.mem_cons_self _ _)
    have hbs : TokenBytes bs := fun x hx => htok x (List.mem_cons_of_mem _ hx)
    simp [tokenEnd, hb.1, hb.2, ih hbs]

theorem strtok_r_of_space (tok rest : List UInt8) (hne : tok ≠ []) (htok : TokenBytes tok) :
    strtok_r (tok ++ 32 :: rest) = some (some tok, 32 :: rest, rest) := by
  cases tok with
  | nil => exact absurd rfl hne
  | cons b bs =>
    have hb := htok b (List.mem_cons_self _ _)
    have hte := tokenEnd_append (b :: bs) 32 rest htok (Or.inl rfl)
    rw [List.cons_append] at hte ⊢
    unfold strtok_r
    rw [skipSpaces_of_ne b _ hb.1]
    simp only [hb.2, if_false, hte]
    simp

theorem strtok_r_of_nul (tok rest : List UInt8) (hne : tok ≠ []) (htok : TokenBytes tok) :
    strtok_r (tok ++ 0 :: rest) = some (some tok, 0 :: rest, 0 :: rest) := by
  cases tok with
  | nil => exact absurd rfl hne
  | cons b bs =>
    have hb := htok b (List.mem_cons_self _ _)
    have hte := tokenEnd_append (b :: bs) 0 rest htok (Or.inr rfl)
    rw [List.cons_append] at hte ⊢
    unfold strtok_r
    rw [skipSpaces_of_ne b _ hb.1]
    simp only [hb.2, if_false, hte]
    simp

theorem strtok_r_at_nul (rest : List UInt8) :
    strtok_r (0 :: rest) = some (none, 0 :: rest, 0 :: rest) := by
  unfold strtok_r
  rw [skipSpaces_of_ne 0 _ (by decide)]
  simp

theorem cString_append_nul (s rest : List UInt8) (h : (0 : UInt8) ∉ s) :
    cString (s ++ 0 :: rest) = some s := by
  induction s with
  | nil => simp [cString]
  | cons b bs ih =>
    have hb : b ≠ 0 := fun hb => h (hb ▸ List.mem_cons_self _ _)
    have hbs : (0 : UInt8) ∉ bs := fun hx => h (List.mem_cons_of_mem _ hx)
    simp [cString, hb, ih hbs]

theorem tokenBytes_insert : TokenBytes (ascii "insert") := by decide

theorem tokenBytes_select : TokenBytes (ascii "select") := by decide

theorem parseCommand_insertRequest (retval0 : Int) (commandResult0 : List UInt8)
    (key type value : List UInt8) (hkey : KeyToken key) (htype : type ≠ [] ∧ TokenBytes type) :
    parseCommand retval0 commandResult0 (insertRequest key type value) =
      some ({ query := some (ascii "insert"), type := some type, key := some key,
              value := some (value ++ [0]) }, retval0, commandResult0) := by
  have h1 : insertRequest key type value =
      ascii "insert" ++ 32 :: (key ++ 32 :: (type ++ 32 :: (value ++ [0]))) := by
    have : ascii "insert " = ascii "insert" ++ [32] := by decide
    simp [insertRequest, this]
  unfold parseCommand
  rw [h1, strtok_r_of_space _ _ (by decide) tokenBytes_insert]
  simp only []
  rw [strtok_r_of_space _ _ hkey.1 hkey.2]
  simp only []
  rw [strtok_r_of_space _ _ htype.1 htype.2]
  simp

theorem parseCommand_selectRequest (retval0 : Int) (commandResult0 : List UInt8)
    (key : List UInt8) (hkey : KeyToken key) :
    parseCommand retval0 commandResult0 (selectRequest key) =
      some ({ query := some (ascii "select"), type := none, key := some key, value := none },
        retval0, commandResult0) := by
  have h1 : selectRequest key = ascii "select" ++ 32 :: (key ++ 0 :: []) := by
    have : ascii "select " = ascii "select" ++ [32] := by decide
    simp [selectRequest, this]
  unfold parseCommand
  rw [h1, strtok_r_of_space _ _ (by decide) tokenBytes_select]
  simp only []
  rw [strtok_r_of_nul _ _ hkey.1 hkey.2]
  simp only []
  rw [strtok_r_at_nul]
  have h2 : strncmpEq (ascii "select") (ascii "insert") 6 = false := by decide
  have h3 : strncmpEq (ascii "select") (ascii "replace") 7 = false := by decide
  simp [h2, h3]

theorem statementCopy_of_nul (text : List UInt8) :
    (if (text ++ [0]).getLast? = some (10 : UInt8) then (text ++ [0]).dropLast ++ [0]
      else text ++ [0]) = text ++ [0] := by
  simp

theorem executeDbCommand_insertRequest (hash : Key → Nat) (libc : Libc) (retval0 junk : Int)
    (key type value : List UInt8) (ht : Hashtable_t) (commandResult0 : List UInt8)
    (hret : retval0 ≠ 1) (hkey : KeyToken key) (htype : type ≠ [] ∧ TokenBytes type) :
    executeDbCommand hash libc retval0 junk (insertRequest key type value) ht commandResult0 =
      executeInsertCommand hash libc junk ht
        { query := some (ascii "insert"), type := some type, key := some key,
          value := some (value ++ [0]) } commandResult0 := by
  have hne : insertRequest key type value ≠ [] := by simp [insertRequest]
  have hcopy : (if (insertRequest key type value).getLast? = some (10 : UInt8) then
      (insertRequest key type value).dropLast ++ [0] else insertRequest key type value) =
      insertRequest key type value := by
    have : insertRequest key type value =
        (ascii "insert " ++ key ++ [32] ++ type ++ [32] ++ value) ++ [0] := rfl
    rw [this]
    exact statementCopy_of_nul _
  unfold executeDbCommand
  rw [if_neg hne]
  simp only [hcopy, parseCommand_insertRequest retval0 commandResult0 key type value hkey htype]
  have h1 : strncmpEq (ascii "insert") (ascii "insert") 6 = true := by decide
  simp [hret, h1]

theorem executeDbCommand_selectRequest (hash : Key → Nat) (libc : Libc) (retval0 junk : Int)
    (key : List UInt8) (ht : Hashtable_t) (commandResult0 : List UInt8)
    (hret : retval0 ≠ 1) (hkey : KeyToken key) :
    executeDbCommand hash libc retval0 junk (selectRequest key) ht commandResult0 =
      executeSelectCommand hash libc ht
        { query := some (ascii "select"), type := none, key := some key, value := none }
        commandResult0 := by
  have hne : selectRequest key ≠ [] := by simp [selectRequest]
  have hcopy : (if (selectRequest key).getLast? = some (10 : UInt8) then
      (selectRequest key).dropLast ++ [0] else selectRequest key) = selectRequest key := by
    have : selectRequest key = (ascii "select " ++ key) ++ [0] := rfl
    rw [this]
    exact statementCopy_of_nul _
  unfold executeDbCommand
  rw [if_neg hne]
  simp only [hcopy, parseCommand_selectRequest retval0 commandResult0 key hkey]
  have h1 : strncmpEq (ascii "select") (ascii "insert") 6 = false := by decide
  have h2 : strncmpEq (ascii "select") (ascii "select") 6 = true := by decide
  simp [hret, h1, h2]

/-! ## Reading and printing decimal numbers -/

theorem isdigit_iff (b : UInt8) : isdigit b = true ↔ 48 ≤ b.toNat ∧ b.toNat ≤ 57 := by
  simp [isdigit]

theorem isspace_of_isdigit (b : UInt8) (h : isdigit b = true) : isspace b = false := by
  have := (isdigit_iff b).mp h
  simp only [isspace, decide_eq_false_iff_not]
  omega

theorem ne_of_isdigit (b : UInt8) (h : isdigit b = true) : b ≠ 45 ∧ b ≠ 43 ∧ b ≠ 0 := by
  have hb := (isdigit_iff b).mp h
  refine ⟨?_, ?_, ?_⟩ <;> intro hh <;> rw [hh] at hb <;> revert hb <;> decide

theorem strtolDigits_all (l : List UInt8) (h : ∀ b ∈ l, isdigit b = true) :
    ∀ acc, strtolDigits l acc = (l.foldl (fun a b => a * 10 + (b.toNat - 48)) acc, []) := by
  induction l with
  | nil => intro acc; rfl
  | cons b rest ih =>
    intro acc
    have hb := h b (List.mem_cons_self _ _)
    simp only [strtolDigits, hb, if_true, List.foldl_cons]
    exact ih (fun x hx => h x (List.mem_cons_of_mem _ hx)) _

theorem strtol_of_decimal (d : List UInt8) (h : IsDecimal d) :
    strtol d = (clampLong (digitsValue d), []) := by
  obtain ⟨hne, hall⟩ := h
  cases d with
  | nil => exact absurd rfl hne
  | cons b rest =>
    have hb := hall b (List.mem_cons_self _ _)
    obtain ⟨h45, h43, _⟩ := ne_of_isdigit b hb
    have hsp := isspace_of_isdigit b hb
    have hdw : (b :: rest).dropWhile isspace = b :: rest := by
      simp [List.dropWhile, hsp]
    unfold strtol
    simp only [hdw, List.head?_cons, Option.some.injEq, h45, h43, or_self, if_false, hb,
      if_true, decide_False, Bool.false_eq_true]
    rw [strtolDigits_all (b :: rest) hall 0]
    rfl

theorem strtol_of_minus (d : List UInt8) (h : IsDecimal d) :
    strtol (45 :: d) = (clampLong (-(digitsValue d : Int)), []) := by
  obtain ⟨hne, hall⟩ := h
  cases d with
  | nil => exact absurd rfl hne
  | cons b rest =>
    have hb := hall b (List.mem_cons_self _ _)
    have hsp : isspace 45 = false := by decide
    have hdw : ((45 : UInt8) :: b :: rest).dropWhile isspace = 45 :: b :: rest := by
      simp [List.dropWhile, hsp]
    unfold strtol
    simp only [hdw, List.head?_cons, true_or, if_true, List.tail_cons, hb, decide_True]
    rw [strtolDigits_all (b :: rest) hall 0]
    rfl

theorem strtol_of_plus (d : List UInt8) (h : IsDecimal d) :
    strtol (43 :: d) = (clampLong (digitsValue d), []) := by
  obtain ⟨hne, hall⟩ := h
  cases d with
  | nil => exact absurd rfl hne
  | cons b rest =>
    have hb := hall b (List.mem_cons_self _ _)
    have hsp : isspace 43 = false := by decide
    have hdw : ((43 : UInt8) :: b :: rest).dropWhile isspace = 43 :: b :: rest := by
      simp [List.dropWhile, hsp]
    have h4345 : ¬ (some (43 : UInt8) = some 45) := by decide
    unfold strtol
    simp only [hdw, List.head?_cons, or_true, if_true, List.tail_cons, hb, h4345,
      decide_False, Bool.false_eq_true, if_false]
    rw [strtolDigits_all (b :: rest) hall 0]
    rfl

theorem strtol_rest_of_signedDecimal (text : List UInt8) (h : IsSignedDecimal text) :
    (strtol text).2 = [] := by
  rcases h with h | ⟨d, (hd | hd), hdec⟩
  · rw [strtol_of_decimal text h]
  · rw [hd, strtol_of_minus d hdec]
  · rw [hd, strtol_of_plus d hdec]

theorem not_mem_zero_of_decimal (d : List UInt8) (h : IsDecimal d) : (0 : UInt8) ∉ d :=
  fun hmem => (ne_of_isdigit 0 (h.2 0 hmem)).2.2 rfl

theorem digit_spec (d : Nat) (hd : d < 10) :
    isdigit (UInt8.ofNat (48 + d)) = true ∧ (UInt8.ofNat (48 + d)).toNat - 48 = d := by
  have ht := toNat_ofNat_of_lt (48 + d) (by omega)
  rw [isdigit_iff, ht]
  omega

theorem digitsValue_concat (l : List UInt8) (b : UInt8) :
    digitsValue (l ++ [b]) = digitsValue l * 10 + (b.toNat - 48) := by
  simp [digitsValue, List.foldl_append]

theorem decimalDigits_spec (fuel : Nat) :
    ∀ n, n < 10 ^ (fuel + 1) →
      IsDecimal (decimalDigits (fuel + 1) n) ∧ digitsValue (decimalDigits (fuel + 1) n) = n := by
  induction fuel with
  | zero =>
    intro n hn
    have hn10 : n < 10 := by simpa using hn
    obtain ⟨h1, h2⟩ := digit_spec n hn10
    simp only [decimalDigits, hn10, if_true]
    refine ⟨⟨by simp, ?_⟩, ?_⟩
    · intro b hb
      rw [List.mem_singleton.mp hb]; exact h1
    · simp [digitsValue, h2]
  | succ f ih =>
    intro n hn
    by_cases hn10 : n < 10
    · obtain ⟨h1, h2⟩ := digit_spec n hn10
      rw [decimalDigits, if_pos hn10]
      refine ⟨⟨by simp, ?_⟩, ?_⟩
      · intro b hb
        rw [List.mem_singleton.mp hb]; exact h1
      · simp [digitsValue, h2]
    · have hdiv : n / 10 < 10 ^ (f + 1) := by
        rw [Nat.div_lt_iff_lt_mul (by decide)]
        rw [Nat.pow_succ] at hn
        exact hn
      obtain ⟨⟨i1, i2⟩, i3⟩ := ih (n / 10) hdiv
      obtain ⟨h1, h2⟩ := digit_spec (n % 10) (Nat.mod_lt _ (by decide))
      rw [decimalDigits, if_neg hn10]
      refine ⟨⟨by simp, ?_⟩, ?_⟩
      · intro b hb
        rcases List.mem_append.mp hb with hh | hh
        · exact i2 b hh
        · rw [List.mem_singleton.mp hh]; exact h1
      · rw [digitsValue_concat, i3, h2]
        omega

theorem decimalDigits_self (n : Nat) :
    IsDecimal (decimalDigits (n + 1) n) ∧ digitsValue (decimalDigits (n + 1) n) = n := by
  apply decimalDigits_spec
  exact Nat.lt_of_lt_of_le (Nat.lt_pow_self (by decide) n)
    (Nat.pow_le_pow_right (by decide) (Nat.le_succ n))

theorem clampLong_of_range (x : Int) (h1 : -(2 ^ 63) ≤ x) (h2 : x < 2 ^ 63) :
    clampLong x = x := by
  unfold clampLong LONG_MAX LONG_MIN
  rw [if_neg (by omega), if_neg (by omega)]

theorem printLong_spec (x : Int) (h1 : -(2 ^ 63) ≤ x) (h2 : x < 2 ^ 63) :
    IsSignedDecimal (printLong x) ∧ strtol (printLong x) = (x, []) := by
  by_cases hneg : x < 0
  · obtain ⟨hdec, hval⟩ := decimalDigits_self x.natAbs
    have hp : printLong x = 45 :: decimalDigits (x.natAbs + 1) x.natAbs := by
      simp [printLong, hneg]
    rw [hp]
    refine ⟨Or.inr ⟨_, Or.inl rfl, hdec⟩, ?_⟩
    rw [strtol_of_minus _ hdec, hval]
    have hx : -((x.natAbs : Nat) : Int) = x := by omega
    rw [hx, clampLong_of_range x h1 h2]
  · obtain ⟨hdec, hval⟩ := decimalDigits_self x.toNat
    have hp : printLong x = decimalDigits (x.toNat + 1) x.toNat := by
      simp [printLong, hneg]
    rw [hp]
    refine ⟨Or.inl hdec, ?_⟩
    rw [strtol_of_decimal _ hdec, hval]
    have hx : ((x.toNat : Nat) : Int) = x := by omega
    rw [hx, clampLong_of_range x h1 h2]

theorem asLong_wordOfLong (x : Int) (h1 : -(2 ^ 63) ≤ x) (h2 : x < 2 ^ 63) :
    asLong (wordOfLong x) = x := by
  unfold asLong wordOfLong
  by_cases hneg : x < 0
  · have hm : x % 2 ^ 64 = x + 2 ^ 64 := by
      rw [← Int.add_emod_self]
      exact Int.emod_eq_of_lt (by omega) (by omega)
    rw [hm]
    have ht : ((x + 2 ^ 64).toNat : Int) = x + 2 ^ 64 := Int.toNat_of_nonneg (by omega)
    have hlt : ¬ (x + 2 ^ 64).toNat < 2 ^ 63 := by
      intro hh
      have : ((x + 2 ^ 64).toNat : Int) < 2 ^ 63 := by exact_mod_cast hh
      omega
    rw [if_neg hlt, ht]
    ring
  · have hm : x % 2 ^ 64 = x := Int.emod_eq_of_lt (by omega) (by omega)
    rw [hm]
    have ht : ((x.toNat : Nat) : Int) = x := Int.toNat_of_nonneg (by omega)
    have hlt : x.toNat < 2 ^ 63 := by
      have : ((x.toNat : Nat) : Int) < 2 ^ 63 := by rw [ht]; exact h2
      exact_mod_cast this
    rw [if_pos hlt, ht]

/-! ## `executeInsertCommand` on a well-formed command -/

theorem getKeyType_string (junk : Int) : getKeyType junk (ascii "string") = 0 := by
  simp [getKeyType, EntryType_t.toInt]

theorem getKeyType_uint (junk : Int) : getKeyType junk (ascii "uint") = 1 := by
  have h1 : ascii "uint" ≠ ascii "string" := by decide
  simp [getKeyType, EntryType_t.toInt, h1]

theorem getKeyType_int (junk : Int) : getKeyType junk (ascii "int") = 2 := by
  have h1 : ascii "int" ≠ ascii "string" := by decide
  have h2 : ascii "int" ≠ ascii "uint" := by decide
  simp [getKeyType, EntryType_t.toInt, h1, h2]

theorem getKeyType_double (junk : Int) : getKeyType junk (ascii "double") = 3 := by
  have h1 : ascii "double" ≠ ascii "string" := by decide
  have h2 : ascii "double" ≠ ascii "uint" := by decide
  have h3 : ascii "double" ≠ ascii "int" := by decide
  simp [getKeyType, EntryType_t.toInt, h1, h2, h3]

theorem executeInsertCommand_string (hash : Key → Nat) (libc : Libc) (junk : Int)
    (ht : Hashtable_t) (query : Option (List UInt8)) (key value commandResult : List UInt8)
    (h0 : (0 : UInt8) ∉ value) :
    executeInsertCommand hash libc junk ht
      { query := query, type := some (ascii "string"), key := some key,
        value := some (value ++ [0]) } commandResult =
    some (insertEpilogue (afterHtAdd key
      (htAdd hash ht key { entryType := EntryType_t.STRING, v := ValueUnion.val value })
      commandResult)) := by
  unfold executeInsertCommand
  simp [getKeyType_string, EntryType_t.toInt, cString_append_nul value [] h0]

theorem executeInsertCommand_uint (hash : Key → Nat) (libc : Libc) (junk : Int)
    (ht : Hashtable_t) (query : Option (List UInt8)) (key value commandResult : List UInt8)
    (hdec : IsDecimal value) :
    executeInsertCommand hash libc junk ht
      { query := query, type := some (ascii "uint"), key := some key,
        value := some (value ++ [0]) } commandResult =
    some (insertEpilogue (afterHtAdd key
      (htAdd hash ht key
        { entryType := EntryType_t.UNSIGNED_INT,
          v := ValueUnion.word (wordOfLong (strtol value).1) })
      commandResult)) := by
  have h0 := not_mem_zero_of_decimal value hdec
  have hrest := strtol_rest_of_signedDecimal value (Or.inl hdec)
  unfold executeInsertCommand
  simp [getKeyType_uint, EntryType_t.toInt, cString_append_nul value [] h0, hrest]

theorem not_mem_zero_of_signedDecimal (text : List UInt8) (h : IsSignedDecimal text) :
    (0 : UInt8) ∉ text := by
  rcases h with h | ⟨d, (hd | hd), hdec⟩
  · exact not_mem_zero_of_decimal text h
  · rw [hd]
    intro hmem
    rcases List.mem_cons.mp hmem with hh | hh
    · exact absurd hh (by decide)
    · exact not_mem_zero_of_decimal d hdec hh
  · rw [hd]
    intro hmem
    rcases List.mem_cons.mp hmem with hh | hh
    · exact absurd hh (by decide)
    · exact not_mem_zero_of_decimal d hdec hh

theorem executeInsertCommand_int (hash : Key → Nat) (libc : Libc) (junk : Int)
    (ht : Hashtable_t) (query : Option (List UInt8)) (key value commandResult : List UInt8)
    (hdec : IsSignedDecimal value) :
    executeInsertCommand hash libc junk ht
      { query := query, type := some (ascii "int"), key := some key,
        value := some (value ++ [0]) } commandResult =
    some (insertEpilogue (afterHtAdd key
      (htAdd hash ht key
        { entryType := EntryType_t.SIGNED_INT,
          v := ValueUnion.word (wordOfLong (strtol value).1) })
      commandResult)) := by
  have h0 := not_mem_zero_of_signedDecimal value hdec
  have hrest := strtol_rest_of_signedDecimal value hdec
  unfold executeInsertCommand
  simp [getKeyType_int, EntryType_t.toInt, cString_append_nul value [] h0, hrest]

theorem executeInsertCommand_double (hash : Key → Nat) (libc : Libc) (junk : Int)
    (ht : Hashtable_t) (query : Option (List UInt8)) (key value commandResult : List UInt8)
    (h0 : (0 : UInt8) ∉ value) :
    executeInsertCommand hash libc junk ht
      { query := query, type := some (ascii "double"), key := some key,
        value := some (value ++ [0]) } commandResult =
    some (insertEpilogue (insertDouble hash libc ht key value commandResult)) := by
  unfold executeInsertCommand
  simp [getKeyType_double, EntryType_t.toInt, cString_append_nul value [] h0]

theorem typeTag_uint : typeTag (ascii "uint") = EntryType_t.UNSIGNED_INT := by decide

theorem typeTag_int : typeTag (ascii "int") = EntryType_t.SIGNED_INT := by decide

theorem typeTag_double : typeTag (ascii "double") = EntryType_t.DOUBLE := by decide

theorem tokenBytes_typeName (type value : List UInt8) (h : ValidValue type value) :
    type ≠ [] ∧ TokenBytes type := by
  rcases h.2 with h | ⟨h, _⟩ | ⟨h, _⟩ | h <;> rw [h] <;> decide

/-- What `executeInsertCommand` does with a valid value: one `htAdd` call with
a value of the named type, then the two reply statements. -/
theorem executeInsertCommand_valid (hash : Key → Nat) (libc : Libc) (junk : Int)
    (ht : Hashtable_t) (query : Option (List UInt8)) (key type value commandResult : List UInt8)
    (hval : ValidValue type value) :
    ∃ (htv : HashtableValue_t) (commandResult1 : List UInt8),
      htv.entryType = typeTag type ∧ Storable htv ∧
      executeInsertCommand hash libc junk ht
        { query := query, type := some type, key := some key, value := some (value ++ [0]) }
        commandResult =
      some (insertEpilogue (afterHtAdd key (htAdd hash ht key htv) commandResult1)) := by
  obtain ⟨h0, hty⟩ := hval
  rcases hty with h | ⟨h, hdec⟩ | ⟨h, hdec⟩ | h
  · subst h
    exact ⟨_, commandResult, rfl, by simp [Storable],
      executeInsertCommand_string hash libc junk ht query key value commandResult h0⟩
  · subst h
    exact ⟨_, commandResult, typeTag_uint.symm, by simp [Storable],
      executeInsertCommand_uint hash libc junk ht query key value commandResult hdec⟩
  · subst h
    exact ⟨_, commandResult, typeTag_int.symm, by simp [Storable],
      executeInsertCommand_int hash libc junk ht query key value commandResult hdec⟩
  · subst h
    exact ⟨_, _, typeTag_double.symm, by simp [Storable],
      executeInsertCommand_double hash libc junk ht query key value commandResult h0⟩

theorem insertEpilogue_afterHtAdd_absent (hash : Key → Nat) (ht : Hashtable_t)
    (key : List UInt8) (htv : HashtableValue_t) (commandResult : List UInt8)
    (hwf : WF hash ht) (habs : ¬ Present ht key) :
    insertEpilogue (afterHtAdd key (htAdd hash ht key htv) commandResult) =
      (0, (htAdd hash ht key htv).2, ascii "Value inserted successfully") := by
  have hret := (htAdd_miss hash ht key htv hwf.size (htFind_type_of_absent hash ht key habs)).1
  simp [insertEpilogue, afterHtAdd, hret]

theorem insertEpilogue_afterHtAdd_present (hash : Key → Nat) (ht : Hashtable_t)
    (key : List UInt8) (htv : HashtableValue_t) (commandResult : List UInt8)
    (hwf : WF hash ht) (hp : Present ht key) :
    insertEpilogue (afterHtAdd key (htAdd hash ht key htv) commandResult) =
      (1, ht, ascii "Key " ++ key ++ ascii " already exists") := by
  rw [htAdd_present hash ht key htv hwf hp]
  simp [insertEpilogue, afterHtAdd]

theorem executeSelectCommand_present (hash : Key → Nat) (libc : Libc) (ht : Hashtable_t)
    (query : Option (List UInt8)) (key commandResult text : List UInt8)
    (hty : (htFind hash ht key).entryType ≠ EntryType_t.NONE)
    (htext : renderValue libc (htFind hash ht key) = some text) :
    executeSelectCommand hash libc ht
      { query := query, type := none, key := some key, value := none } commandResult =
    some (0, ht, ascii "\x7b" ++ key ++ ascii ": " ++ text ++ ascii "\x7d") := by
  unfold executeSelectCommand
  simp [hty, htext]

theorem sampleDbTable_reachable : Reachable sampleHash sampleDbTable :=
  Reachable_step (Reachable_create sampleHash) (Op.add sampleKey (sampleString (ascii "hello")))
    (by decide)

/-- For every NUL-terminated request `insert <key> <type> <value>` whose
key holds no space and is absent from the (reachable) table, whose type is one
of `string`, `uint`, `int`, `double` and whose value is valid text for the
type, `executeDbCommand` returns 0, the reply is exactly
`Value inserted successfully`, and afterwards the table holds the key with the
type tag the type names.  The uninitialized local `retval` is taken to hold a
value other than 1. -/
theorem insert_absent_key (hash : Key → Nat) (libc : Libc) (retval0 junk : Int)
    (ht : Hashtable_t) (key type value commandResult0 : List UInt8)
    (hret : retval0 ≠ 1) (hr : Reachable hash ht) (hkey : KeyToken key)
    (habs : ¬ Present ht key) (hval : ValidValue type value) :
    ∃ ht2 : Hashtable_t,
      executeDbCommand hash libc retval0 junk (insertRequest key type value) ht commandResult0 =
        some (0, ht2, ascii "Value inserted successfully") ∧
      Present ht2 key ∧ (htFind hash ht2 key).entryType = typeTag type := by
  have hwf := Reachable_wf hr
  obtain ⟨htv, cr1, htag, hst, hexec⟩ :=
    executeInsertCommand_valid hash libc junk ht (some (ascii "insert")) key type value
      commandResult0 hval
  refine ⟨(htAdd hash ht key htv).2, ?_, ?_, ?_⟩
  · rw [executeDbCommand_insertRequest hash libc retval0 junk key type value ht commandResult0
      hret hkey (tokenBytes_typeName type value hval), hexec,
      insertEpilogue_afterHtAdd_absent hash ht key htv cr1 hwf habs]
  · exact (present_htAdd_absent hash ht key htv hwf habs key).mpr (Or.inl rfl)
  · rw [htFind_htAdd_absent hash ht key htv hwf habs hst key, if_pos rfl, htag]

/-- For every well-formed insert request (valid type and value) whose
key is already present in the (reachable) table, `executeDbCommand` replies
exactly `Key <key> already exists`, returns 1 and leaves the table as it was,
so a following `select <key>` renders the value that was stored before, as it
did before.  The uninitialized local `retval` is taken to hold a value other
than 1. -/
theorem insert_present_key (hash : Key → Nat) (libc : Libc) (retval0 junk : Int)
    (ht : Hashtable_t) (key type value commandResult0 : List UInt8)
    (hret : retval0 ≠ 1) (hr : Reachable hash ht) (hkey : KeyToken key)
    (hp : Present ht key) (hval : ValidValue type value) :
    executeDbCommand hash libc retval0 junk (insertRequest key type value) ht commandResult0 =
      some (1, ht, ascii "Key " ++ key ++ ascii " already exists") ∧
    (∀ (retval1 junk1 : Int) (commandResult1 text : List UInt8), retval1 ≠ 1 →
      renderValue libc (htFind hash ht key) = some text →
      executeDbCommand hash libc retval1 junk1 (selectRequest key) ht commandResult1 =
        some (0, ht, ascii "\x7b" ++ key ++ ascii ": " ++ text ++ ascii "\x7d")) := by
  have hwf := Reachable_wf hr
  obtain ⟨htv, cr1, _, _, hexec⟩ :=
    executeInsertCommand_valid hash libc junk ht (some (ascii "insert")) key type value
      commandResult0 hval
  constructor
  · rw [executeDbCommand_insertRequest hash libc retval0 junk key type value ht commandResult0
      hret hkey (tokenBytes_typeName type value hval), hexec,
      insertEpilogue_afterHtAdd_present hash ht key htv cr1 hwf hp]
  · intro retval1 junk1 commandResult1 text hret1 htext
    rw [executeDbCommand_selectRequest hash libc retval1 junk1 key ht commandResult1 hret1 hkey]
    exact executeSelectCommand_present hash libc ht _ key commandResult1 text
      ((present_iff_htFind hash ht key hwf).mp hp) htext

/-- For every signed 64-bit integer `n` with its canonical decimal text
(what `%ld` prints), and every key without spaces that is absent from the
(reachable) table, the request `insert k int <text>` followed by `select k`
makes the second reply exactly `{k: <text>}`.  The uninitialized local
`retval` is taken to hold a value other than 1 in both calls. -/
theorem insert_int_then_select (hash : Key → Nat) (libc : Libc)
    (retval0 junk0 retval1 junk1 : Int) (ht : Hashtable_t) (n : Int)
    (key commandResult0 commandResult1 : List UInt8)
    (hret0 : retval0 ≠ 1) (hret1 : retval1 ≠ 1) (hr : Reachable hash ht) (hkey : KeyToken key)
    (habs : ¬ Present ht key) (hlo : -(2 ^ 63) ≤ n) (hhi : n < 2 ^ 63) :
    ∃ ht2 : Hashtable_t,
      executeDbCommand hash libc retval0 junk0 (insertRequest key (ascii "int") (printLong n)) ht
          commandResult0 =
        some (0, ht2, ascii "Value inserted successfully") ∧
      executeDbCommand hash libc retval1 junk1 (selectRequest key) ht2 commandResult1 =
        some (0, ht2, ascii "\x7b" ++ key ++ ascii ": " ++ printLong n ++ ascii "\x7d") := by
  have hwf := Reachable_wf hr
  obtain ⟨hdec, hparse⟩ := printLong_spec n hlo hhi
  have hst : Storable
      { entryType := EntryType_t.SIGNED_INT, v := ValueUnion.word (wordOfLong n) } := by
    simp [Storable]
  have hfind := htFind_htAdd_absent hash ht key
    { entryType := EntryType_t.SIGNED_INT, v := ValueUnion.word (wordOfLong n) } hwf habs hst key
  rw [if_pos rfl] at hfind
  refine ⟨(htAdd hash ht key
    { entryType := EntryType_t.SIGNED_INT, v := ValueUnion.word (wordOfLong n) }).2, ?_, ?_⟩
  · rw [executeDbCommand_insertRequest hash libc retval0 junk0 key (ascii "int") (printLong n) ht
      commandResult0 hret0 hkey (by decide),
      executeInsertCommand_int hash libc junk0 ht _ key (printLong n) commandResult0 hdec,
      hparse, insertEpilogue_afterHtAdd_absent hash ht key _ commandResult0 hwf habs]
  · rw [executeDbCommand_selectRequest hash libc retval1 junk1 key _ commandResult1 hret1 hkey]
    apply executeSelectCommand_present
    · rw [hfind]; exact hst
    · rw [hfind]
      show some (printLong (asLong (wordOfLong n))) = some (printLong n)
      rw [asLong_wordOfLong n hlo hhi]

/-- When the uninitialized local `retval` happens to hold 1, a well-formed
insert request is not dispatched: `executeDbCommand` returns 1 and leaves the
table and `commandResult` as they were. -/
theorem executeDbCommand_insertRequest_retval_one (hash : Key → Nat) (libc : Libc) (junk : Int)
    (key type value : List UInt8) (ht : Hashtable_t) (commandResult0 : List UInt8)
    (hkey : KeyToken key) (htype : type ≠ [] ∧ TokenBytes type) :
    executeDbCommand hash libc 1 junk (insertRequest key type value) ht commandResult0 =
      some (1, ht, commandResult0) := by
  have hne : insertRequest key type value ≠ [] := by simp [insertRequest]
  have hcopy : (if (insertRequest key type value).getLast? = some (10 : UInt8) then
      (insertRequest key type value).dropLast ++ [0] else insertRequest key type value) =
      insertRequest key type value := by
    have : insertRequest key type value =
        (ascii "insert " ++ key ++ [32] ++ type ++ [32] ++ value) ++ [0] := rfl
    rw [this]
    exact statementCopy_of_nul _
  unfold executeDbCommand
  rw [if_neg hne]
  simp only [hcopy, parseCommand_insertRequest 1 commandResult0 key type value hkey htype]
  simp

/-! ## The requests `delete` and `select` -/

theorem tokenBytes_delete : TokenBytes (ascii "delete") := by decide

theorem parseCommand_deleteRequest (retval0 : Int) (commandResult0 : List UInt8)
    (key : List UInt8) (hkey : KeyToken key) :
    parseCommand retval0 commandResult0 (deleteRequest key) =
      some ({ query := some (ascii "delete"), type := none, key := some key, value := none },
        retval0, commandResult0) := by
  have h1 : deleteRequest key = ascii "delete" ++ 32 :: (key ++ 0 :: []) := by
    have : ascii "delete " = ascii "delete" ++ [32] := by decide
    simp [deleteRequest, this]
  unfold parseCommand
  rw [h1, strtok_r_of_space _ _ (by decide) tokenBytes_delete]
  simp only []
  rw [strtok_r_of_nul _ _ hkey.1 hkey.2]
  simp only []
  rw [strtok_r_at_nul]
  have h2 : strncmpEq (ascii "delete") (ascii "insert") 6 = false := by decide
  have h3 : strncmpEq (ascii "delete") (ascii "replace") 7 = false := by decide
  simp [h2, h3]

theorem executeDbCommand_deleteRequest (hash : Key → Nat) (libc : Libc) (retval0 junk : Int)
    (key : List UInt8) (ht : Hashtable_t) (commandResult0 : List UInt8)
    (hret : retval0 ≠ 1) (hkey : KeyToken key) :
    executeDbCommand hash libc retval0 junk (deleteRequest key) ht commandResult0 =
      executeDeleteCommand hash ht
        { query := some (ascii "delete"), type := none, key := some key, value := none }
        commandResult0 := by
  have hne : deleteRequest key ≠ [] := by simp [deleteRequest]
  have hcopy : (if (deleteRequest key).getLast? = some (10 : UInt8) then
      (deleteRequest key).dropLast ++ [0] else deleteRequest key) = deleteRequest key := by
    have : deleteRequest key = (ascii "delete " ++ key) ++ [0] := rfl
    rw [this]
    exact statementCopy_of_nul _
  unfold executeDbCommand
  rw [if_neg hne]
  simp only [hcopy, parseCommand_deleteRequest retval0 commandResult0 key hkey]
  have h1 : strncmpEq (ascii "delete") (ascii "insert") 6 = false := by decide
  have h2 : strncmpEq (ascii "delete") (ascii "select") 6 = false := by decide
  have h3 : strncmpEq (ascii "delete") (ascii "delete") 6 = true := by decide
  simp [hret, h1, h2, h3]

theorem executeSelectCommand_absent (hash : Key → Nat) (libc : Libc) (ht : Hashtable_t)
    (query : Option (List UInt8)) (key commandResult : List UInt8)
    (hty : (htFind hash ht key).entryType = EntryType_t.NONE) :
    executeSelectCommand hash libc ht
      { query := query, type := none, key := some key, value := none } commandResult =
    some (0, ht, ascii "Key not found") := by
  unfold executeSelectCommand
  simp [hty]

/-- For every NUL-terminated request `delete <key>` on a reachable
table, with a key that holds no space: if the key is present,
`executeDbCommand` replies `Key removed successfully`, returns 0, and a
following `select <key>` replies `Key not found`; if the key is absent, it
replies `Key not found`, returns 1, and the table is unchanged.  The
uninitialized local `retval` is taken to hold a value other than 1. -/
theorem delete_request (hash : Key → Nat) (libc : Libc) (retval0 junk : Int)
    (ht : Hashtable_t) (key commandResult0 : List UInt8)
    (hret : retval0 ≠ 1) (hr : Reachable hash ht) (hkey : KeyToken key) :
    (Present ht key →
      ∃ ht2 : Hashtable_t,
        executeDbCommand hash libc retval0 junk (deleteRequest key) ht commandResult0 =
          some (0, ht2, ascii "Key removed successfully") ∧
        ∀ (retval1 junk1 : Int) (commandResult1 : List UInt8), retval1 ≠ 1 →
          executeDbCommand hash libc retval1 junk1 (selectRequest key) ht2 commandResult1 =
            some (0, ht2, ascii "Key not found")) ∧
    (¬ Present ht key →
      executeDbCommand hash libc retval0 junk (deleteRequest key) ht commandResult0 =
        some (1, ht, ascii "Key not found")) := by
  have hwf := Reachable_wf hr
  rw [executeDbCommand_deleteRequest hash libc retval0 junk key ht commandResult0 hret hkey]
  constructor
  · intro hp
    obtain ⟨h0, _, _, _, habs, _⟩ := htRemove_present hash ht key hwf hp
    refine ⟨(htRemove hash ht key).2, ?_, ?_⟩
    · simp [executeDeleteCommand, h0]
    · intro retval1 junk1 commandResult1 hret1
      rw [executeDbCommand_selectRequest hash libc retval1 junk1 key _ commandResult1 hret1 hkey]
      exact executeSelectCommand_absent hash libc _ _ key commandResult1
        (htFind_type_of_absent hash _ key habs)
  · intro habs
    simp [executeDeleteCommand, htRemove_absent hash ht key habs]

/-- For every NUL-terminated request `select <key>` whose key holds no
space and is absent from the table, `executeDbCommand` replies exactly
`Key not found`, returns 0, and leaves the table unchanged.  The
uninitialized local `retval` is taken to hold a value other than 1. -/
theorem select_absent_key (hash : Key → Nat) (libc : Libc) (retval0 junk : Int)
    (ht : Hashtable_t) (key commandResult0 : List UInt8)
    (hret : retval0 ≠ 1) (hkey : KeyToken key) (habs : ¬ Present ht key) :
    executeDbCommand hash libc retval0 junk (selectRequest key) ht commandResult0 =
      some (0, ht, ascii "Key not found") := by
  rw [executeDbCommand_selectRequest hash libc retval0 junk key ht commandResult0 hret hkey]
  exact executeSelectCommand_absent hash libc ht _ key commandResult0
    (htFind_type_of_absent hash ht key habs)

/-! ## The request `replace` -/

theorem tokenBytes_replace : TokenBytes (ascii "replace") := by decide

theorem parseCommand_replaceRequest (retval0 : Int) (commandResult0 : List UInt8)
    (key type value : List UInt8) (hkey : KeyToken key) (htype : type ≠ [] ∧ TokenBytes type) :
    parseCommand retval0 commandResult0 (replaceRequest key type value) =
      some ({ query := some (ascii "replace"), type := some type, key := some key,
              value := some (value ++ [0]) }, retval0, commandResult0) := by
  have h1 : replaceRequest key type value =
      ascii "replace" ++ 32 :: (key ++ 32 :: (type ++ 32 :: (value ++ [0]))) := by
    have : ascii "replace " = ascii "replace" ++ [32] := by decide
    simp [replaceRequest, this]
  unfold parseCommand
  rw [h1, strtok_r_of_space _ _ (by decide) tokenBytes_replace]
  simp only []
  rw [strtok_r_of_space _ _ hkey.1 hkey.2]
  simp only []
  rw [strtok_r_of_space _ _ htype.1 htype.2]
  simp

theorem statementCopy_replaceRequest (key type value : List UInt8) :
    (if (replaceRequest key type value).getLast? = some (10 : UInt8) then
      (replaceRequest key type value).dropLast ++ [0] else replaceRequest key type value) =
      replaceRequest key type value := by
  have : replaceRequest key type value =
      (ascii "replace " ++ key ++ [32] ++ type ++ [32] ++ value) ++ [0] := rfl
  rw [this]
  exact statementCopy_of_nul _

theorem executeDbCommand_replaceRequest (hash : Key → Nat) (libc : Libc) (retval0 junk : Int)
    (key type value : List UInt8) (ht : Hashtable_t) (commandResult0 : List UInt8)
    (hret : retval0 ≠ 1) (hkey : KeyToken key) (htype : type ≠ [] ∧ TokenBytes type) :
    executeDbCommand hash libc retval0 junk (replaceRequest key type value) ht commandResult0 =
      executeReplaceCommand hash libc junk ht
        { query := some (ascii "replace"), type := some type, key := some key,
          value := some (value ++ [0]) } := by
  have hne : replaceRequest key type value ≠ [] := by simp [replaceRequest]
  unfold executeDbCommand
  rw [if_neg hne]
  simp only [statementCopy_replaceRequest,
    parseCommand_replaceRequest retval0 commandResult0 key type value hkey htype]
  have h1 : strncmpEq (ascii "replace") (ascii "insert") 6 = false := by decide
  have h2 : strncmpEq (ascii "replace") (ascii "select") 6 = false := by decide
  have h3 : strncmpEq (ascii "replace") (ascii "delete") 6 = false := by decide
  have h4 : strncmpEq (ascii "replace") (ascii "replace") 7 = true := by decide
  simp [hret, h1, h2, h3, h4]

/-- When the uninitialized local `retval` happens to hold 1, a well-formed
replace request is not dispatched. -/
theorem executeDbCommand_replaceRequest_retval_one (hash : Key → Nat) (libc : Libc) (junk : Int)
    (key type value : List UInt8) (ht : Hashtable_t) (commandResult0 : List UInt8)
    (hkey : KeyToken key) (htype : type ≠ [] ∧ TokenBytes type) :
    executeDbCommand hash libc 1 junk (replaceRequest key type value) ht commandResult0 =
      some (1, ht, commandResult0) := by
  have hne : replaceRequest key type value ≠ [] := by simp [replaceRequest]
  unfold executeDbCommand
  rw [if_neg hne]
  simp only [statementCopy_replaceRequest,
    parseCommand_replaceRequest 1 commandResult0 key type value hkey htype]
  simp

theorem executeReplaceCommand_string (hash : Key → Nat) (libc : Libc) (junk : Int)
    (ht : Hashtable_t) (query : Option (List UInt8)) (key value : List UInt8)
    (h0 : (0 : UInt8) ∉ value) :
    executeReplaceCommand hash libc junk ht
      { query := query, type := some (ascii "string"), key := some key,
        value := some (value ++ [0]) } =
    some (replaceEpilogue
      (htReplace hash ht key { entryType := EntryType_t.STRING, v := ValueUnion.val value }).1
      (htReplace hash ht key { entryType := EntryType_t.STRING, v := ValueUnion.val value }).2) := by
  unfold executeReplaceCommand
  simp [getKeyType_string, EntryType_t.toInt, cString_append_nul value [] h0]

theorem executeReplaceCommand_uint (hash : Key → Nat) (libc : Libc) (junk : Int)
    (ht : Hashtable_t) (query : Option (List UInt8)) (key value : List UInt8)
    (h0 : (0 : UInt8) ∉ value) :
    executeReplaceCommand hash libc junk ht
      { query := query, type := some (ascii "uint"), key := some key,
        value := some (value ++ [0]) } =
    if (strtol value).2 ≠ [] then some (replaceEpilogue 1 ht)
    else some (replaceEpilogue
      (htReplace hash ht key
        { entryType := EntryType_t.UNSIGNED_INT,
          v := ValueUnion.word (wordOfLong (strtol value).1) }).1
      (htReplace hash ht key
        { entryType := EntryType_t.UNSIGNED_INT,
          v := ValueUnion.word (wordOfLong (strtol value).1) }).2) := by
  unfold executeReplaceCommand
  simp [getKeyType_uint, EntryType_t.toInt, cString_append_nul value [] h0]

theorem executeReplaceCommand_int (hash : Key → Nat) (libc : Libc) (junk : Int)
    (ht : Hashtable_t) (query : Option (List UInt8)) (key value : List UInt8)
    (h0 : (0 : UInt8) ∉ value) :
    executeReplaceCommand hash libc junk ht
      { query := query, type := some (ascii "int"), key := some key,
        value := some (value ++ [0]) } =
    if (strtol value).2 ≠ [] then some (replaceEpilogue 1 ht)
    else some (replaceEpilogue
      (htReplace hash ht key
        { entryType := EntryType_t.SIGNED_INT,
          v := ValueUnion.word (wordOfLong (strtol value).1) }).1
      (htReplace hash ht key
        { entryType := EntryType_t.SIGNED_INT,
          v := ValueUnion.word (wordOfLong (strtol value).1) }).2) := by
  unfold executeReplaceCommand
  simp [getKeyType_int, EntryType_t.toInt, cString_append_nul value [] h0]

theorem executeReplaceCommand_double (hash : Key → Nat) (libc : Libc) (junk : Int)
    (ht : Hashtable_t) (query : Option (List UInt8)) (key value : List UInt8)
    (h0 : (0 : UInt8) ∉ value) :
    executeReplaceCommand hash libc junk ht
      { query := query, type := some (ascii "double"), key := some key,
        value := some (value ++ [0]) } =
    if (libc.strtod value).2 ≠ [] then some (replaceEpilogue 1 ht)
    else some (replaceEpilogue
      (htReplace hash ht key
        { entryType := EntryType_t.DOUBLE, v := ValueUnion.word (libc.strtod value).1 }).1
      (htReplace hash ht key
        { entryType := EntryType_t.DOUBLE, v := ValueUnion.word (libc.strtod value).1 }).2) := by
  unfold executeReplaceCommand
  simp [getKeyType_double, EntryType_t.toInt, cString_append_nul value [] h0]

/-- On a well-formed table `htReplace` of a storable value returns 0, and a
lookup of the key then returns the value, whether or not the key was there. -/
theorem htReplace_ok (hash : Key → Nat) (ht : Hashtable_t) (key : Key) (htv : HashtableValue_t)
    (hwf : WF hash ht) (hst : Storable htv) :
    (htReplace hash ht key htv).1 = 0 ∧ htFind hash (htReplace hash ht key htv).2 key = htv := by
  by_cases hp : Present ht key
  · refine ⟨(htReplace_present hash ht key htv hwf hp hst).1, ?_⟩
    rw [htFind_htReplace_present hash ht key htv hwf hp hst key, if_pos rfl]
  · rw [htReplace_absent hash ht key htv hp]
    refine ⟨rfl, ?_⟩
    show htFind hash (htAdd hash ht key htv).2 key = htv
    rw [htFind_htAdd_absent hash ht key htv hwf hp hst key, if_pos rfl]

theorem replaceEpilogue_zero (ht : Hashtable_t) :
    replaceEpilogue 0 ht = (0, ht, ascii "Key replaced successfully") := by
  simp [replaceEpilogue]

theorem replaceEpilogue_one (ht : Hashtable_t) :
    replaceEpilogue 1 ht = (1, ht, ascii "Error replacing key") := by
  simp [replaceEpilogue]

/-- A replace request that stores a storable value, followed by a select of
the key: the reply of the select renders the stored value. -/
theorem replace_then_select (hash : Key → Nat) (libc : Libc) (retval1 junk1 : Int)
    (ht : Hashtable_t) (key commandResult1 text : List UInt8) (htv : HashtableValue_t)
    (hret1 : retval1 ≠ 1) (hwf : WF hash ht) (hkey : KeyToken key) (hst : Storable htv)
    (htext : renderValue libc htv = some text) :
    replaceEpilogue (htReplace hash ht key htv).1 (htReplace hash ht key htv).2 =
      (0, (htReplace hash ht key htv).2, ascii "Key replaced successfully") ∧
    executeDbCommand hash libc retval1 junk1 (selectRequest key) (htReplace hash ht key htv).2
        commandResult1 =
      some (0, (htReplace hash ht key htv).2,
        ascii "\x7b" ++ key ++ ascii ": " ++ text ++ ascii "\x7d") := by
  obtain ⟨h0, hfind⟩ := htReplace_ok hash ht key htv hwf hst
  constructor
  · rw [h0, replaceEpilogue_zero]
  · rw [executeDbCommand_selectRequest hash libc retval1 junk1 key _ commandResult1 hret1 hkey]
    apply executeSelectCommand_present
    · rw [hfind]; exact hst
    · rw [hfind]; exact htext

/-- For every key without spaces, whether or not it is present in the
(reachable) table and whatever type its current value has, and for every type
in `string`, `uint`, `int` with a value text `x` in canonical form (for the
integers: the decimal text of a number in signed 64-bit range), the request
`replace k <type> x` replies `Key replaced successfully`, returns 0, and a
following `select k` replies exactly `{k: x}`.  The uninitialized local
`retval` is taken to hold a value other than 1 in both calls. -/
theorem replace_request_then_select (hash : Key → Nat) (libc : Libc)
    (retval0 junk0 retval1 junk1 : Int) (ht : Hashtable_t)
    (key type x commandResult0 commandResult1 : List UInt8)
    (hret0 : retval0 ≠ 1) (hret1 : retval1 ≠ 1) (hr : Reachable hash ht) (hkey : KeyToken key)
    (hx : CanonicalValue type x) :
    ∃ ht2 : Hashtable_t,
      executeDbCommand hash libc retval0 junk0 (replaceRequest key type x) ht commandResult0 =
        some (0, ht2, ascii "Key replaced successfully") ∧
      executeDbCommand hash libc retval1 junk1 (selectRequest key) ht2 commandResult1 =
        some (0, ht2, ascii "\x7b" ++ key ++ ascii ": " ++ x ++ ascii "\x7d") := by
  have hwf := Reachable_wf hr
  rcases hx with ⟨hty, h0⟩ | ⟨hty, n, hlo, hhi, hxn⟩ | ⟨hty, n, hlo, hhi, hxn⟩
  · subst hty
    obtain ⟨h1, h2⟩ := replace_then_select hash libc retval1 junk1 ht key commandResult1 x
      { entryType := EntryType_t.STRING, v := ValueUnion.val x } hret1 hwf hkey
      (by simp [Storable]) rfl
    refine ⟨_, ?_, h2⟩
    rw [executeDbCommand_replaceRequest hash libc retval0 junk0 key (ascii "string") x ht
      commandResult0 hret0 hkey (by decide),
      executeReplaceCommand_string hash libc junk0 ht _ key x h0, h1]
  · subst hty
    subst hxn
    obtain ⟨hdec, hparse⟩ := printLong_spec n (by omega) hhi
    obtain ⟨h1, h2⟩ := replace_then_select hash libc retval1 junk1 ht key commandResult1
      (printLong n)
      { entryType := EntryType_t.UNSIGNED_INT, v := ValueUnion.word (wordOfLong n) } hret1 hwf
      hkey (by simp [Storable])
      (by
        show some (printLong (asLong (wordOfLong n))) = some (printLong n)
        rw [asLong_wordOfLong n (by omega) hhi])
    refine ⟨_, ?_, h2⟩
    rw [executeDbCommand_replaceRequest hash libc retval0 junk0 key (ascii "uint") (printLong n) ht
      commandResult0 hret0 hkey (by decide),
      executeReplaceCommand_uint hash libc junk0 ht _ key (printLong n)
        (not_mem_zero_of_signedDecimal _ hdec), hparse]
    simp only [ne_eq, not_true_eq_false, if_false]
    rw [h1]
  · subst hty
    subst hxn
    obtain ⟨hdec, hparse⟩ := printLong_spec n hlo hhi
    obtain ⟨h1, h2⟩ := replace_then_select hash libc retval1 junk1 ht key commandResult1
      (printLong n)
      { entryType := EntryType_t.SIGNED_INT, v := ValueUnion.word (wordOfLong n) } hret1 hwf
      hkey (by simp [Storable])
      (by
        show some (printLong (asLong (wordOfLong n))) = some (printLong n)
        rw [asLong_wordOfLong n hlo hhi])
    refine ⟨_, ?_, h2⟩
    rw [executeDbCommand_replaceRequest hash libc retval0 junk0 key (ascii "int") (printLong n) ht
      commandResult0 hret0 hkey (by decide),
      executeReplaceCommand_int hash libc junk0 ht _ key (printLong n)
        (not_mem_zero_of_signedDecimal _ hdec), hparse]
    simp only [ne_eq, not_true_eq_false, if_false]
    rw [h1]

/-- For every request `replace <key> <type> <value>` on a
reachable table, with a key token, a type that is one of `string`, `uint`,
`int`, `double` and a value without NUL: when the value is accepted for the
type (any text for `string`; a text `strtol` reads to its end for `uint` and
`int`; a text `strtod` reads to its end for `double`), `executeDbCommand`
replies `Key replaced successfully` and returns 0; otherwise it replies
`Error replacing key`, returns 1 and leaves the table unchanged.  The
uninitialized local `retval` is taken to hold a value other than 1. -/
theorem replace_succeeds_iff_accepted (hash : Key → Nat) (libc : Libc) (retval0 junk : Int)
    (ht : Hashtable_t) (key type value commandResult0 : List UInt8)
    (hret : retval0 ≠ 1) (hr : Reachable hash ht) (hkey : KeyToken key)
    (htype : type ∈ typeNames) (h0 : (0 : UInt8) ∉ value) :
    (ReplaceAccepts libc type value →
      ∃ ht2 : Hashtable_t,
        executeDbCommand hash libc retval0 junk (replaceRequest key type value) ht commandResult0 =
          some (0, ht2, ascii "Key replaced successfully")) ∧
    (¬ ReplaceAccepts libc type value →
      executeDbCommand hash libc retval0 junk (replaceRequest key type value) ht commandResult0 =
        some (1, ht, ascii "Error replacing key")) := by
  have hwf := Reachable_wf hr
  have hne1 : ascii "uint" ≠ ascii "string" := by decide
  have hne2 : ascii "int" ≠ ascii "string" := by decide
  have hne3 : ascii "double" ≠ ascii "string" := by decide
  have hne4 : ascii "uint" ≠ ascii "double" := by decide
  have hne5 : ascii "int" ≠ ascii "double" := by decide
  have hne6 : ascii "double" ≠ ascii "uint" := by decide
  have hne7 : ascii "double" ≠ ascii "int" := by decide
  simp only [typeNames, List.mem_cons, List.mem_singleton, List.not_mem_nil, or_false] at htype
  rcases htype with hty | hty | hty | hty
  · subst hty
    rw [executeDbCommand_replaceRequest hash libc retval0 junk key (ascii "string") value ht
      commandResult0 hret hkey (by decide),
      executeReplaceCommand_string hash libc junk ht _ key value h0]
    constructor
    · intro _
      exact ⟨_, by
        rw [(htReplace_ok hash ht key _ hwf (by simp [Storable])).1, replaceEpilogue_zero]⟩
    · intro hn
      exact absurd (Or.inl rfl) hn
  · subst hty
    rw [executeDbCommand_replaceRequest hash libc retval0 junk key (ascii "uint") value ht
      commandResult0 hret hkey (by decide),
      executeReplaceCommand_uint hash libc junk ht _ key value h0]
    constructor
    · intro hacc
      have hrest : (strtol value).2 = [] := by
        rcases hacc with h | ⟨_, h⟩ | ⟨h, _⟩
        · exact absurd h hne1
        · exact h
        · exact absurd h hne4
      exact ⟨_, by
        rw [if_neg (by simp [hrest]),
          (htReplace_ok hash ht key _ hwf (by simp [Storable])).1, replaceEpilogue_zero]⟩
    · intro hn
      have hrest : (strtol value).2 ≠ [] := fun h => hn (Or.inr (Or.inl ⟨Or.inl rfl, h⟩))
      rw [if_pos hrest, replaceEpilogue_one]
  · subst hty
    rw [executeDbCommand_replaceRequest hash libc retval0 junk key (ascii "int") value ht
      commandResult0 hret hkey (by decide),
      executeReplaceCommand_int hash libc junk ht _ key value h0]
    constructor
    · intro hacc
      have hrest : (strtol value).2 = [] := by
        rcases hacc with h | ⟨_, h⟩ | ⟨h, _⟩
        · exact absurd h hne2
        · exact h
        · exact absurd h hne5
      exact ⟨_, by
        rw [if_neg (by simp [hrest]),
          (htReplace_ok hash ht key _ hwf (by simp [Storable])).1, replaceEpilogue_zero]⟩
    · intro hn
      have hrest : (strtol value).2 ≠ [] := fun h => hn (Or.inr (Or.inl ⟨Or.inr rfl, h⟩))
      rw [if_pos hrest, replaceEpilogue_one]
  · subst hty
    rw [executeDbCommand_replaceRequest hash libc retval0 junk key (ascii "double") value ht
      commandResult0 hret hkey (by decide),
      executeReplaceCommand_double hash libc junk ht _ key value h0]
    constructor
    · intro hacc
      have hrest : (libc.strtod value).2 = [] := by
        rcases hacc with h | ⟨h | h, _⟩ | ⟨_, h⟩
        · exact absurd h hne3
        · exact absurd h hne6
        · exact absurd h hne7
        · exact h
      exact ⟨_, by
        rw [if_neg (by simp [hrest]),
          (htReplace_ok hash ht key _ hwf (by simp [Storable])).1, replaceEpilogue_zero]⟩
    · intro hn
      have hrest : (libc.strtod value).2 ≠ [] := fun h => hn (Or.inr (Or.inr ⟨rfl, h⟩))
      rw [if_pos hrest, replaceEpilogue_one]

/-! ## Requests that lack a token -/

theorem skipSpaces_replicate (n : Nat) (rest : List UInt8) :
    skipSpaces (List.replicate n 32 ++ rest) = skipSpaces rest := by
  induction n with
  | zero => simp
  | succ n ih => simp [List.replicate_succ, skipSpaces, ih]

theorem strtok_r_spaces_nul (n : Nat) (rest : List UInt8) :
    strtok_r (List.replicate n 32 ++ 0 :: rest) = some (none, 0 :: rest, 0 :: rest) := by
  unfold strtok_r
  rw [skipSpaces_replicate, skipSpaces_of_ne 0 _ (by decide)]
  simp

/-- A token followed by spaces only: `strtok_r` returns the token, and the
next call returns `NULL`. -/
theorem strtok_r_token_spaces (tok : List UInt8) (n : Nat) (hne : tok ≠ [])
    (htok : TokenBytes tok) :
    ∃ stop save : List UInt8,
      strtok_r (tok ++ (List.replicate n 32 ++ [0])) = some (some tok, stop, save) ∧
      strtok_r save = some (none, [0], [0]) := by
  cases n with
  | zero =>
    refine ⟨[0], [0], ?_, strtok_r_at_nul []⟩
    simpa using strtok_r_of_nul tok [] hne htok
  | succ m =>
    refine ⟨32 :: (List.replicate m 32 ++ [0]), List.replicate m 32 ++ [0], ?_,
      strtok_r_spaces_nul m []⟩
    simpa [List.replicate_succ] using strtok_r_of_space tok (List.replicate m 32 ++ [0]) hne htok

theorem parseCommand_verbOnly (retval0 : Int) (commandResult0 verb : List UInt8) (n : Nat)
    (hverb : KeyToken verb) :
    parseCommand retval0 commandResult0 (verbOnlyRequest verb n) =
      some ({ query := some verb, type := none, key := none, value := none }, 1,
        ascii "Malformed query") := by
  obtain ⟨stop, save, h1, h2⟩ := strtok_r_token_spaces verb n hverb.1 hverb.2
  have hreq : verbOnlyRequest verb n = verb ++ (List.replicate n 32 ++ [0]) := by
    simp [verbOnlyRequest]
  unfold parseCommand
  rw [hreq, h1]
  simp only []
  rw [h2]

theorem parseCommand_noType (retval0 : Int) (commandResult0 verb key : List UInt8) (n : Nat)
    (hverb : KeyToken verb) (hkey : KeyToken key)
    (hq : strncmpEq verb (ascii "insert") 6 = true ∨ strncmpEq verb (ascii "replace") 7 = true) :
    parseCommand retval0 commandResult0 (noTypeRequest verb key n) =
      some ({ query := some verb, type := none, key := some key, value := none }, 1,
        ascii "Malformed query") := by
  obtain ⟨stop, save, h1, h2⟩ := strtok_r_token_spaces key n hkey.1 hkey.2
  have hreq : noTypeRequest verb key n = verb ++ 32 :: (key ++ (List.replicate n 32 ++ [0])) := by
    simp [noTypeRequest]
  unfold parseCommand
  rw [hreq, strtok_r_of_space _ _ hverb.1 hverb.2]
  simp only []
  rw [h1]
  simp only []
  rw [h2]
  simp only []
  rw [if_pos hq]

theorem executeDbCommand_of_parse_one (hash : Key → Nat) (libc : Libc) (retval0 junk : Int)
    (text : List UInt8) (ht : Hashtable_t) (commandResult0 commandResult : List UInt8)
    (command : Command_t)
    (hparse : parseCommand retval0 commandResult0 (text ++ [0]) = some (command, 1, commandResult)) :
    executeDbCommand hash libc retval0 junk (text ++ [0]) ht commandResult0 =
      some (1, ht, commandResult) := by
  unfold executeDbCommand
  rw [if_neg (by simp)]
  simp only [statementCopy_of_nul, hparse]
  simp

/-- C26: for every NUL-terminated request that consists of a verb token only
(whatever the verb, with or without trailing spaces), and for every `insert`
or `replace` request that has a key token but no type token (with or without
trailing spaces), `executeDbCommand` replies exactly `Malformed query`,
returns 1, and leaves the table unchanged. -/
theorem C26_malformed_query (hash : Key → Nat) (libc : Libc) (retval0 junk : Int)
    (ht : Hashtable_t) (verb key commandResult0 : List UInt8) (n : Nat)
    (hverb : KeyToken verb) (hkey : KeyToken key) :
    executeDbCommand hash libc retval0 junk (verbOnlyRequest verb n) ht commandResult0 =
      some (1, ht, ascii "Malformed query") ∧
    executeDbCommand hash libc retval0 junk (noTypeRequest (ascii "insert") key n) ht
        commandResult0 =
      some (1, ht, ascii "Malformed query") ∧
    executeDbCommand hash libc retval0 junk (noTypeRequest (ascii "replace") key n) ht
        commandResult0 =
      some (1, ht, ascii "Malformed query") := by
  refine ⟨?_, ?_, ?_⟩
  · exact executeDbCommand_of_parse_one hash libc retval0 junk _ ht commandResult0 _ _
      (parseCommand_verbOnly retval0 commandResult0 verb n hverb)
  · exact executeDbCommand_of_parse_one hash libc retval0 junk _ ht commandResult0 _ _
      (parseCommand_noType retval0 commandResult0 (ascii "insert") key n (by decide) hkey
        (Or.inl (by decide)))
  · exact executeDbCommand_of_parse_one hash libc retval0 junk _ ht commandResult0 _ _
      (parseCommand_noType retval0 commandResult0 (ascii "replace") key n (by decide) hkey
        (Or.inr (by decide)))

/-- C26 with one trailing space: at the requests `select `, `insert key ` and
`replace key `, on the table that holds `k`. -/
theorem C26_witness :
    (executeDbCommand sampleHash sampleLibc 0 0 (verbOnlyRequest (ascii "select") 1)
        sampleDbTable [] =
      some (1, sampleDbTable, ascii "Malformed query") ∧
    executeDbCommand sampleHash sampleLibc 0 0 (noTypeRequest (ascii "insert") (ascii "key") 1)
        sampleDbTable [] =
      some (1, sampleDbTable, ascii "Malformed query") ∧
    executeDbCommand sampleHash sampleLibc 0 0 (noTypeRequest (ascii "replace") (ascii "key") 1)
        sampleDbTable [] =
      some (1, sampleDbTable, ascii "Malformed query")) ∧
    noTypeRequest (ascii "replace") (ascii "key") 1 = ascii "replace key " ++ [0] :=
  ⟨C26_malformed_query sampleHash sampleLibc 0 0 sampleDbTable (ascii "select") (ascii "key") []
    1 (by decide) (by decide), by decide⟩

/-! ## Unsigned values -/

theorem printLong_natCast (n : Nat) : printLong (n : Int) = canonicalDecimal n := by
  have h : ¬ ((n : Int) < 0) := by omega
  simp [printLong, canonicalDecimal, h]

theorem canonicalDecimal_inj (m n : Nat) (h : canonicalDecimal m = canonicalDecimal n) :
    m = n := by
  have h1 := (decimalDigits_self m).2
  have h2 := (decimalDigits_self n).2
  unfold canonicalDecimal at h
  rw [h] at h1
  omega

theorem clampLong_natCast (n : Nat) :
    clampLong (n : Int) = ((min n (2 ^ 63 - 1) : Nat) : Int) := by
  unfold clampLong LONG_MAX LONG_MIN
  by_cases h : n ≤ 2 ^ 63 - 1
  · rw [if_neg (by omega), if_neg (by omega), Nat.min_eq_left h]
  · rw [if_pos (by omega), Nat.min_eq_right (by omega)]
    norm_num

theorem strtol_canonicalDecimal (n : Nat) :
    strtol (canonicalDecimal n) = (((min n (2 ^ 63 - 1) : Nat) : Int), []) := by
  obtain ⟨hdec, hval⟩ := decimalDigits_self n
  unfold canonicalDecimal
  rw [strtol_of_decimal _ hdec, hval, clampLong_natCast]

/-- C21, as the code has it: for every natural number `n` with canonical
decimal text `d(n)` and every key absent from the (reachable) table, the
request `insert k uint d(n)` is accepted and a following `select k` replies
`{k: d(m)}` where `m` is the smaller of `n` and `2^63 - 1`, the largest
`long`, since the text is read by `strtol` and printed by `%ld`.  The reply
is `{k: d(n)}` only for `n < 2^63`.  The uninitialized local `retval` is
taken to hold a value other than 1 in both calls. -/
theorem C21_uint_insert_then_select (hash : Key → Nat) (libc : Libc)
    (retval0 junk0 retval1 junk1 : Int) (ht : Hashtable_t) (n : Nat)
    (key commandResult0 commandResult1 : List UInt8)
    (hret0 : retval0 ≠ 1) (hret1 : retval1 ≠ 1) (hr : Reachable hash ht) (hkey : KeyToken key)
    (habs : ¬ Present ht key) :
    ∃ ht2 : Hashtable_t,
      executeDbCommand hash libc retval0 junk0
          (insertRequest key (ascii "uint") (canonicalDecimal n)) ht commandResult0 =
        some (0, ht2, ascii "Value inserted successfully") ∧
      executeDbCommand hash libc retval1 junk1 (selectRequest key) ht2 commandResult1 =
        some (0, ht2, ascii "\x7b" ++ key ++ ascii ": " ++
          canonicalDecimal (min n (2 ^ 63 - 1)) ++ ascii "\x7d") ∧
      (canonicalDecimal (min n (2 ^ 63 - 1)) = canonicalDecimal n ↔ n < 2 ^ 63) := by
  have hwf := Reachable_wf hr
  have hdec := (decimalDigits_self n).1
  have hparse := strtol_canonicalDecimal n
  have hm : ((min n (2 ^ 63 - 1) : Nat) : Int) < 2 ^ 63 := by
    have : min n (2 ^ 63 - 1) ≤ 2 ^ 63 - 1 := Nat.min_le_right _ _
    omega
  have hst : Storable
      { entryType := EntryType_t.UNSIGNED_INT,
        v := ValueUnion.word (wordOfLong ((min n (2 ^ 63 - 1) : Nat) : Int)) } := by
    simp [Storable]
  have hfind := htFind_htAdd_absent hash ht key
    { entryType := EntryType_t.UNSIGNED_INT,
      v := ValueUnion.word (wordOfLong ((min n (2 ^ 63 - 1) : Nat) : Int)) } hwf habs hst key
  rw [if_pos rfl] at hfind
  refine ⟨(htAdd hash ht key
    { entryType := EntryType_t.UNSIGNED_INT,
      v := ValueUnion.word (wordOfLong ((min n (2 ^ 63 - 1) : Nat) : Int)) }).2, ?_, ?_, ?_⟩
  · rw [executeDbCommand_insertRequest hash libc retval0 junk0 key (ascii "uint")
      (canonicalDecimal n) ht commandResult0 hret0 hkey (by decide),
      executeInsertCommand_uint hash libc junk0 ht _ key (canonicalDecimal n) commandResult0 hdec,
      hparse, insertEpilogue_afterHtAdd_absent hash ht key _ commandResult0 hwf habs]
  · rw [executeDbCommand_selectRequest hash libc retval1 junk1 key _ commandResult1 hret1 hkey]
    apply executeSelectCommand_present
    · rw [hfind]; exact hst
    · rw [hfind]
      show some (printLong (asLong (wordOfLong ((min n (2 ^ 63 - 1) : Nat) : Int)))) =
        some (canonicalDecimal (min n (2 ^ 63 - 1)))
      rw [asLong_wordOfLong _ (by omega) hm, printLong_natCast]
  · constructor
    · intro h
      have := canonicalDecimal_inj _ _ h
      have h2 : min n (2 ^ 63 - 1) ≤ 2 ^ 63 - 1 := Nat.min_le_right _ _
      omega
    · intro h
      rw [Nat.min_eq_left (by omega)]

/-- C21 at the largest unsigned 64-bit integer on a fresh table: the request
`insert k uint 18446744073709551615` followed by `select k` replies
`{k: 9223372036854775807}`. -/
theorem C21_witness :
    (∃ ht2 : Hashtable_t,
      executeDbCommand sampleHash sampleLibc 0 0
          (insertRequest sampleKey (ascii "uint") (canonicalDecimal 18446744073709551615))
          htCreateTable [] =
        some (0, ht2, ascii "Value inserted successfully") ∧
      executeDbCommand sampleHash sampleLibc 0 0 (selectRequest sampleKey) ht2 [] =
        some (0, ht2, ascii "\x7b" ++ sampleKey ++ ascii ": " ++
          canonicalDecimal (min 18446744073709551615 (2 ^ 63 - 1)) ++ ascii "\x7d") ∧
      (canonicalDecimal (min 18446744073709551615 (2 ^ 63 - 1)) =
          canonicalDecimal 18446744073709551615 ↔
        18446744073709551615 < 2 ^ 63)) ∧
    canonicalDecimal 18446744073709551615 = ascii "18446744073709551615" ∧
    canonicalDecimal (min 18446744073709551615 (2 ^ 63 - 1)) = ascii "9223372036854775807" :=
  ⟨C21_uint_insert_then_select sampleHash sampleLibc 0 0 0 0 htCreateTable 18446744073709551615
    sampleKey [] [] (by decide) (by decide) (Reachable_create sampleHash) (by decide)
    (by decide), by decide, by decide⟩

/-! ## Requests without a value -/

theorem parseCommand_noValueRequest (retval0 : Int) (commandResult0 : List UInt8)
    (verb key type : List UInt8) (hverb : KeyToken verb) (hkey : KeyToken key)
    (htype : KeyToken type) :
    parseCommand retval0 commandResult0 (noValueRequest verb key type) =
      some ({ query := some verb, type := some type, key := some key, value := some [] },
        retval0, commandResult0) := by
  have h1 : noValueRequest verb key type = verb ++ 32 :: (key ++ 32 :: (type ++ 0 :: [])) := by
    simp [noValueRequest]
  unfold parseCommand
  rw [h1, strtok_r_of_space _ _ hverb.1 hverb.2]
  simp only []
  rw [strtok_r_of_space _ _ hkey.1 hkey.2]
  simp only []
  rw [strtok_r_of_nul _ _ htype.1 htype.2]
  simp

/-- A request `insert <key> int` that ends with the type token: the pointer
`command.value` is one past the terminator of the request, and `strtol` reads
outside `statementCopy`. -/
theorem executeDbCommand_insert_noValue (hash : Key → Nat) (libc : Libc) (retval0 junk : Int)
    (key : List UInt8) (ht : Hashtable_t) (commandResult0 : List UInt8)
    (hret : retval0 ≠ 1) (hkey : KeyToken key) :
    executeDbCommand hash libc retval0 junk (noValueRequest (ascii "insert") key (ascii "int")) ht
      commandResult0 = none := by
  have hreq : noValueRequest (ascii "insert") key (ascii "int") =
      (ascii "insert" ++ [32] ++ key ++ [32] ++ ascii "int") ++ [0] := rfl
  have hparse := parseCommand_noValueRequest retval0 commandResult0 (ascii "insert") key
    (ascii "int") (by decide) hkey (by decide)
  rw [hreq] at hparse ⊢
  unfold executeDbCommand
  rw [if_neg (by simp)]
  simp only [statementCopy_of_nul, hparse]
  have h1 : strncmpEq (ascii "insert") (ascii "insert") 6 = true := by decide
  simp [hret, h1, executeInsertCommand, getKeyType_int, EntryType_t.toInt, cString]

theorem executeInsertCommand_int_empty (hash : Key → Nat) (libc : Libc) (junk : Int)
    (ht : Hashtable_t) (query : Option (List UInt8)) (key commandResult : List UInt8) :
    executeInsertCommand hash libc junk ht
      { query := query, type := some (ascii "int"), key := some key,
        value := some ([] ++ [0]) } commandResult =
    some (insertEpilogue (afterHtAdd key
      (htAdd hash ht key { entryType := EntryType_t.SIGNED_INT, v := ValueUnion.word 0 })
      commandResult)) := by
  have hs : strtol [] = (0, []) := by decide
  have hw : wordOfLong 0 = 0 := by decide
  unfold executeInsertCommand
  simp [getKeyType_int, EntryType_t.toInt, cString, hs, hw]

/-- C27, as the code has it: a request `insert k int ` that supplies a key
and a type, a single trailing space and no value, is not rejected.  For a key
absent from the (reachable) table, `executeDbCommand` returns 0 with the reply
`Value inserted successfully` and stores the integer 0, so that a following
`select k` replies `{k: 0}`; and the request `insert k int` without the
trailing space makes `strtol` read outside the request buffer.  The
uninitialized local `retval` is taken to hold a value other than 1. -/
theorem C27_insert_without_value (hash : Key → Nat) (libc : Libc)
    (retval0 junk0 retval1 junk1 : Int) (ht : Hashtable_t)
    (key commandResult0 commandResult1 : List UInt8)
    (hret0 : retval0 ≠ 1) (hret1 : retval1 ≠ 1) (hr : Reachable hash ht) (hkey : KeyToken key)
    (habs : ¬ Present ht key) :
    (∃ ht2 : Hashtable_t,
      executeDbCommand hash libc retval0 junk0 (insertRequest key (ascii "int") []) ht
          commandResult0 =
        some (0, ht2, ascii "Value inserted successfully") ∧
      executeDbCommand hash libc retval1 junk1 (selectRequest key) ht2 commandResult1 =
        some (0, ht2, ascii "\x7b" ++ key ++ ascii ": 0\x7d")) ∧
    executeDbCommand hash libc retval0 junk0 (noValueRequest (ascii "insert") key (ascii "int")) ht
      commandResult0 = none := by
  have hwf := Reachable_wf hr
  have hst : Storable { entryType := EntryType_t.SIGNED_INT, v := ValueUnion.word 0 } := by
    simp [Storable]
  have hfind := htFind_htAdd_absent hash ht key
    { entryType := EntryType_t.SIGNED_INT, v := ValueUnion.word 0 } hwf habs hst key
  rw [if_pos rfl] at hfind
  refine ⟨⟨(htAdd hash ht key { entryType := EntryType_t.SIGNED_INT, v := ValueUnion.word 0 }).2,
    ?_, ?_⟩, executeDbCommand_insert_noValue hash libc retval0 junk0 key ht commandResult0 hret0
      hkey⟩
  · rw [executeDbCommand_insertRequest hash libc retval0 junk0 key (ascii "int") [] ht
      commandResult0 hret0 hkey (by decide),
      executeInsertCommand_int_empty hash libc junk0 ht _ key commandResult0,
      insertEpilogue_afterHtAdd_absent hash ht key _ commandResult0 hwf habs]
  · rw [executeDbCommand_selectRequest hash libc retval1 junk1 key _ commandResult1 hret1 hkey]
    have htext : renderValue libc (htFind hash (htAdd hash ht key
        { entryType := EntryType_t.SIGNED_INT, v := ValueUnion.word 0 }).2 key) =
        some (ascii "0") := by
      rw [hfind]
      have hp : printLong (asLong 0) = ascii "0" := by decide
      show some (printLong (asLong 0)) = some (ascii "0")
      rw [hp]
    have h := executeSelectCommand_present hash libc _ (some (ascii "select")) key commandResult1
      (ascii "0") (by rw [hfind]; exact hst) htext
    rw [h]
    have : ascii ": " ++ ascii "0" ++ ascii "\x7d" = ascii ": 0\x7d" := by decide
    simp [List.append_assoc, this]

/-- C27 at the request `insert k int ` on a fresh table. -/
theorem C27_witness :
    ((∃ ht2 : Hashtable_t,
      executeDbCommand sampleHash sampleLibc 0 0 (insertRequest sampleKey (ascii "int") [])
          htCreateTable [] =
        some (0, ht2, ascii "Value inserted successfully") ∧
      executeDbCommand sampleHash sampleLibc 0 0 (selectRequest sampleKey) ht2 [] =
        some (0, ht2, ascii "\x7b" ++ sampleKey ++ ascii ": 0\x7d")) ∧
    executeDbCommand sampleHash sampleLibc 0 0
      (noValueRequest (ascii "insert") sampleKey (ascii "int")) htCreateTable [] = none) ∧
    insertRequest sampleKey (ascii "int") [] = ascii "insert k int " ++ [0] ∧
    noValueRequest (ascii "insert") sampleKey (ascii "int") = ascii "insert k int" ++ [0] :=
  ⟨C27_insert_without_value sampleHash sampleLibc 0 0 0 0 htCreateTable sampleKey [] []
    (by decide) (by decide) (Reachable_create sampleHash) (by decide) (by decide),
    by decide, by decide⟩

/-! ## Requests with a query that is none of the four verbs -/

theorem mem_skipSpaces_zero (s : List UInt8) (h : (0 : UInt8) ∈ s) : (0 : UInt8) ∈ skipSpaces s := by
  induction s with
  | nil => exact absurd h (List.not_mem_nil _)
  | cons b rest ih =>
    unfold skipSpaces
    by_cases hb : b = 32
    · rw [if_pos hb]
      rcases List.mem_cons.mp h with h0 | h0
      · rw [hb] at h0
        exact absurd h0 (by decide)
      · exact ih h0
    · rw [if_neg hb]
      exact h

theorem tokenEnd_snd_ne_nil (s : List UInt8) (h : (0 : UInt8) ∈ s) : (tokenEnd s).2 ≠ [] := by
  induction s with
  | nil => exact absurd h (List.not_mem_nil _)
  | cons b rest ih =>
    unfold tokenEnd
    by_cases hb : b = 32 ∨ b = 0
    · rw [if_pos hb]
      simp
    · rw [if_neg hb]
      rcases List.mem_cons.mp h with h0 | h0
      · exact absurd (Or.inr h0.symm) hb
      · exact ih h0

/-- On bytes that hold a NUL, `strtok_r` stays inside the buffer. -/
theorem strtok_r_of_mem_zero (s : List UInt8) (h : (0 : UInt8) ∈ s) :
    ∃ (tok : Option (List UInt8)) (stop save : List UInt8), strtok_r s = some (tok, stop, save) := by
  have h1 := mem_skipSpaces_zero s h
  unfold strtok_r
  cases hs : skipSpaces s with
  | nil => rw [hs] at h1; exact absurd h1 (List.not_mem_nil _)
  | cons b rest =>
    rw [hs] at h1
    simp only []
    by_cases hb : b = 0
    · rw [if_pos hb]
      exact ⟨_, _, _, rfl⟩
    · rw [if_neg hb]
      have h2 := tokenEnd_snd_ne_nil (b :: rest) h1
      cases ht : (tokenEnd (b :: rest)).2 with
      | nil => exact absurd ht h2
      | cons e after =>
        simp only []
        by_cases he : e = 0
        · rw [if_pos he]
          exact ⟨_, _, _, rfl⟩
        · rw [if_neg he]
          exact ⟨_, _, _, rfl⟩

/-- The tokens of a request with a query and a key: when the query begins
with neither `insert` nor `replace`, `retval` and `commandResult` are left as
they were. -/
theorem parseCommand_keyedRequest (retval0 : Int) (commandResult0 verb key tail : List UInt8)
    (hverb : KeyToken verb) (hkey : KeyToken key) (htail : tail = [] ∨ tail.head? = some 32)
    (h1 : strncmpEq verb (ascii "insert") 6 = false)
    (h2 : strncmpEq verb (ascii "replace") 7 = false) :
    ∃ command : Command_t,
      parseCommand retval0 commandResult0 (keyedRequest verb key tail) =
        some (command, retval0, commandResult0) ∧
      command.query = some verb ∧ command.key = some key := by
  unfold parseCommand
  rcases htail with ht | ht
  · subst ht
    have hreq : keyedRequest verb key [] = verb ++ 32 :: (key ++ 0 :: []) := by
      simp [keyedRequest]
    rw [hreq, strtok_r_of_space _ _ hverb.1 hverb.2]
    simp only []
    rw [strtok_r_of_nul _ _ hkey.1 hkey.2]
    simp only []
    rw [strtok_r_at_nul]
    simp [h1, h2]
  · cases tail with
    | nil => simp at ht
    | cons b t =>
      have hb : b = 32 := by simpa using ht
      subst hb
      have hreq : keyedRequest verb key (32 :: t) = verb ++ 32 :: (key ++ 32 :: (t ++ [0])) := by
        simp [keyedRequest]
      rw [hreq, strtok_r_of_space _ _ hverb.1 hverb.2]
      simp only []
      rw [strtok_r_of_space _ _ hkey.1 hkey.2]
      simp only []
      obtain ⟨tok, stop, save, h3⟩ := strtok_r_of_mem_zero (t ++ [0]) (by simp)
      rw [h3]
      cases tok with
      | none => simp [h1, h2]
      | some type => simp

/-- For every NUL-terminated request that has a key token after
its first token, and whose first token does not begin with `insert`, `select`
or `delete` (compared on 6 bytes) nor with `replace` (compared on 7 bytes),
`executeDbCommand` replies exactly `Query not supported`, returns 1, and
leaves the table unchanged.  The uninitialized local `retval` is taken to
hold a value other than 1. -/
theorem query_not_supported (hash : Key → Nat) (libc : Libc) (retval0 junk : Int)
    (ht : Hashtable_t) (verb key tail commandResult0 : List UInt8)
    (hret : retval0 ≠ 1) (hverb : KeyToken verb) (hkey : KeyToken key)
    (htail : tail = [] ∨ tail.head? = some 32) (hno : matchesVerb verb = false) :
    executeDbCommand hash libc retval0 junk (keyedRequest verb key tail) ht commandResult0 =
      some (1, ht, ascii "Query not supported") := by
  simp only [matchesVerb, Bool.or_eq_false_iff] at hno
  obtain ⟨⟨⟨h1, h2⟩, h3⟩, h4⟩ := hno
  obtain ⟨command, hparse, hq, _⟩ :=
    parseCommand_keyedRequest retval0 commandResult0 verb key tail hverb hkey htail h1 h4
  have hreq : keyedRequest verb key tail = (verb ++ [32] ++ key ++ tail) ++ [0] := rfl
  rw [hreq] at hparse ⊢
  unfold executeDbCommand
  rw [if_neg (by simp)]
  simp only [statementCopy_of_nul, hparse]
  simp [hret, hq, h1, h2, h3, h4]

/-- A first token that only begins with a verb is dispatched as that verb:
the request `selectfoo k` is answered as `select k`. -/
theorem executeDbCommand_verb_prefix :
    executeDbCommand sampleHash sampleLibc 0 0
        (keyedRequest (ascii "selectfoo") sampleKey []) sampleDbTable [] =
      some (0, sampleDbTable, ascii "\x7bk: hello\x7d") := by
  decide

/-! ## Requests that `executeDbCommand` does not answer -/

theorem parseCommand_spaces (retval0 : Int) (commandResult0 : List UInt8) (n : Nat) :
    parseCommand retval0 commandResult0 (List.replicate n 32 ++ [0]) = none := by
  unfold parseCommand
  rw [strtok_r_spaces_nul n []]

theorem getKeyType_unknown (junk : Int) (type : List UInt8) (h : type ∉ typeNames) :
    getKeyType junk type = junk := by
  simp only [typeNames, List.mem_cons, List.mem_singleton, List.not_mem_nil, or_false,
    not_or] at h
  obtain ⟨h1, h2, h3, h4⟩ := h
  simp [getKeyType, h1, h2, h3, h4]

/-- C29, as the code has it.  For a line of `n` spaces that ends in a newline
or a NUL, the empty line included, the first `strtok_r` call returns `NULL`
and `executeDbCommand` passes the `NULL` `command.query` to `strncmp`: it does
not return normally.  For a request `insert <key> <type> <value>` that names
an unknown type, where `getKeyType` ends without a `return` and its caller
reads a value that is none of the four type numbers, it returns 1 and writes
no reply: `commandResult` is left as it was. -/
theorem C29_requests_without_reply (hash : Key → Nat) (libc : Libc) (retval0 junk : Int)
    (ht : Hashtable_t) (key type value commandResult0 : List UInt8) (n : Nat) :
    executeDbCommand hash libc retval0 junk (List.replicate n 32 ++ [10]) ht commandResult0 =
      none ∧
    executeDbCommand hash libc retval0 junk (List.replicate n 32 ++ [0]) ht commandResult0 =
      none ∧
    (retval0 ≠ 1 → KeyToken key → KeyToken type → type ∉ typeNames → (junk < 0 ∨ 3 < junk) →
      executeDbCommand hash libc retval0 junk (insertRequest key type value) ht commandResult0 =
        some (1, ht, commandResult0)) := by
  refine ⟨?_, ?_, ?_⟩
  · unfold executeDbCommand
    rw [if_neg (by simp)]
    have hcopy : (if (List.replicate n 32 ++ [(10 : UInt8)]).getLast? = some (10 : UInt8) then
        (List.replicate n 32 ++ [(10 : UInt8)]).dropLast ++ [0]
        else List.replicate n 32 ++ [(10 : UInt8)]) = List.replicate n 32 ++ [0] := by
      simp
    simp only [hcopy, parseCommand_spaces]
  · unfold executeDbCommand
    rw [if_neg (by simp)]
    simp only [statementCopy_of_nul, parseCommand_spaces]
  · intro hret hkey htype hunknown hjunk
    rw [executeDbCommand_insertRequest hash libc retval0 junk key type value ht commandResult0
      hret hkey htype]
    unfold executeInsertCommand
    simp only [getKeyType_unknown junk type hunknown, EntryType_t.toInt]
    rw [if_neg (by omega), if_neg (by omega), if_neg (by omega), if_neg (by omega)]
    simp [insertEpilogue]

/-- The empty line, a line of one space, and the request `insert k foo 1`
read with an indeterminate type number of 7, on a fresh table whose reply
buffer holds no text. -/
theorem C29_witness :
    executeDbCommand sampleHash sampleLibc 0 0 [10] htCreateTable [] = none ∧
    executeDbCommand sampleHash sampleLibc 0 0 [32, 10] htCreateTable [] = none ∧
    executeDbCommand sampleHash sampleLibc 0 7 (insertRequest sampleKey (ascii "foo") (ascii "1"))
      htCreateTable [] = some (1, htCreateTable, []) := by
  have h0 := C29_requests_without_reply sampleHash sampleLibc 0 7 htCreateTable sampleKey
    (ascii "foo") (ascii "1") [] 0
  have h1 := C29_requests_without_reply sampleHash sampleLibc 0 0 htCreateTable sampleKey
    (ascii "foo") (ascii "1") [] 1
  have h00 := C29_requests_without_reply sampleHash sampleLibc 0 0 htCreateTable sampleKey
    (ascii "foo") (ascii "1") [] 0
  exact ⟨h00.1, h1.1,
    h0.2.2 (by decide) (by decide) (by decide) (by decide) (Or.inr (by decide))⟩

/-! ## The poll set and the slots of the multiplexer -/

theorem tail_set_succ (p : List Int) (k : Nat) (x : Int) :
    (p.set (k + 1) x).tail = p.tail.set k x := by
  cases p with
  | nil => simp
  | cons a rest => simp

theorem tail_set_zero (p : List Int) (x : Int) : (p.set 0 x).tail = p.tail := by
  cases p with
  | nil => simp
  | cons a rest => simp

theorem PollSetInv_registered {server : Server_t} (h : PollSetInv server) : Registered server := by
  intro i hi
  have hlen : i < server.clients.length := by rw [h.clients_length]; exact hi
  refine ⟨server.clients[i], ?_, List.getElem?_eq_getElem hlen⟩
  have ht := h.pollFds_tail
  cases hp : server.pollFds with
  | nil =>
    rw [hp] at ht
    rw [← ht] at hlen
    simp at hlen
  | cons a rest =>
    rw [hp] at ht
    simp only [List.tail_cons] at ht
    subst ht
    simp [List.getElem?_eq_getElem hlen]

theorem PollSetInv_set {server : Server_t} (h : PollSetInv server) (k : Nat) (x : Int) :
    PollSetInv { server with clients := server.clients.set k x,
                             pollFds := server.pollFds.set (k + 1) x } := by
  constructor
  · simp [h.clients_length]
  · show (server.pollFds.set (k + 1) x).tail = server.clients.set k x
    rw [tail_set_succ, h.pollFds_tail]

theorem createServer_inv (port socketFd bindResult listenResult : Int) (server : Server_t)
    (h : createServer port socketFd bindResult listenResult = some server) : PollSetInv server := by
  unfold createServer at h
  split_ifs at h
  simp only [Option.some.injEq] at h
  subst h
  constructor
  · simp
  · simp [List.replicate_succ]

theorem runServerSetup_inv {server : Server_t} (h : PollSetInv server) :
    PollSetInv (runServerSetup server) := by
  constructor
  · exact h.clients_length
  · show (server.pollFds.set 0 server.serverFd).tail = server.clients
    rw [tail_set_zero, h.pollFds_tail]

theorem acceptPass_inv {server : Server_t} (h : PollSetInv server) (numAccept acceptResult : Int) :
    PollSetInv (acceptPass numAccept server acceptResult).1 := by
  unfold acceptPass
  simp only []
  split_ifs
  · exact h
  · exact h
  · exact h
  · exact PollSetInv_set h _ _

theorem serveClient_inv {server : Server_t} (h : PollSetInv server) (i : Nat) (size : Int) :
    PollSetInv (serveClient server i size).1 := by
  unfold serveClient
  split_ifs
  · exact PollSetInv_set h _ _
  · exact h

theorem ServerStep_run_inv {server : Server_t} (h : PollSetInv server) (step : ServerStep) :
    PollSetInv (step.run server) := by
  cases step with
  | accept acceptResult => exact acceptPass_inv h 0 acceptResult
  | serve i size => exact serveClient_inv h i.val size

theorem runSteps_inv (steps : List ServerStep) :
    ∀ {server : Server_t}, PollSetInv server → PollSetInv (runSteps server steps) := by
  induction steps with
  | nil => intro server h; exact h
  | cons step rest ih =>
    intro server h
    exact ih (ServerStep_run_inv h step)

theorem acceptClientConnections_inv (pending : List Int) :
    ∀ {server : Server_t}, PollSetInv server →
      PollSetInv (acceptClientConnections server pending).2.1 := by
  induction pending with
  | nil =>
    intro server h
    exact acceptPass_inv h 0 (-1)
  | cons acceptResult rest ih =>
    intro server h
    have h1 := acceptPass_inv h 0 acceptResult
    unfold acceptClientConnections
    rcases hp : acceptPass 0 server acceptResult with ⟨server1, r, calls⟩
    rw [hp] at h1
    cases r with
    | none => exact ih h1
    | some r => exact h1

theorem serveSlot_inv (r : PollRound) {s : Server_t × List ServerCall} (h : PollSetInv s.1)
    (i : Nat) : PollSetInv (serveSlot r s i).1 := by
  unfold serveSlot
  split_ifs
  · exact serveClient_inv h i _
  · exact h

theorem foldl_serveSlot_inv (r : PollRound) (slots : List Nat) :
    ∀ {s : Server_t × List ServerCall}, PollSetInv s.1 →
      PollSetInv (slots.foldl (serveSlot r) s).1 := by
  induction slots with
  | nil => intro s h; exact h
  | cons i rest ih =>
    intro s h
    exact ih (serveSlot_inv r h i)

theorem runServerRound_inv {server : Server_t} (h : PollSetInv server) (r : PollRound) :
    PollSetInv (runServerRound server r).1 := by
  unfold runServerRound
  apply foldl_serveSlot_inv
  split_ifs
  · exact acceptClientConnections_inv r.pending h
  · exact h

/-- Whatever the operating system answers, the poll set agrees with the slots
after every pass of the loop of `runServer`. -/
theorem runServer_registered (port socketFd bindResult listenResult : Int) (server : Server_t)
    (rounds : List PollRound)
    (h : createServer port socketFd bindResult listenResult = some server) :
    Registered (runServer server rounds).1 := by
  have h1 := runServerSetup_inv (createServer_inv port socketFd bindResult listenResult server h)
  unfold runServer
  generalize runServerSetup server = s at h1
  induction rounds generalizing s with
  | nil => exact PollSetInv_registered h1
  | cons r rest ih =>
    unfold runServerLoop
    split_ifs
    · exact PollSetInv_registered h1
    · exact ih _ (runServerRound_inv h1 r)

/-- C30: with the multiplexer as the state `clients[0..19].clientFd`,
`pollFds[0..20].fd` and the steps accept into a free slot, accept and reject,
read and disconnect: after `createServer`, after the first statements of
`runServer`, and after every sequence of steps, for every slot `i` the
descriptor `pollFds[i+1].fd` equals `clients[i].clientFd`; so it is other than
-1 in the poll set exactly when the slot is occupied. -/
theorem C30_poll_set_matches_slots (port socketFd bindResult listenResult : Int)
    (server : Server_t) (steps : List ServerStep)
    (h : createServer port socketFd bindResult listenResult = some server) :
    Registered server ∧ Registered (runSteps (runServerSetup server) steps) ∧
    ∀ i, i < MAX_SERVER_CONN →
      ((runSteps (runServerSetup server) steps).pollFds[i + 1]? ≠ some (-1) ↔
        (runSteps (runServerSetup server) steps).clients[i]? ≠ some (-1)) := by
  have h0 := createServer_inv port socketFd bindResult listenResult server h
  have h1 := PollSetInv_registered (runSteps_inv steps (runServerSetup_inv h0))
  refine ⟨PollSetInv_registered h0, h1, ?_⟩
  intro i hi
  obtain ⟨fd, hp, hc⟩ := h1 i hi
  rw [hp, hc]

/-- C30 on the server created on descriptor 3, after two accepts, a read, a
disconnect and a failed accept: slot 18 holds descriptor 5, as does entry 19
of the poll set, and slot 19 is free again. -/
theorem C30_witness :
    (Registered sampleServer ∧ Registered (runSteps (runServerSetup sampleServer) sampleSteps) ∧
    ∀ i, i < MAX_SERVER_CONN →
      ((runSteps (runServerSetup sampleServer) sampleSteps).pollFds[i + 1]? ≠ some (-1) ↔
        (runSteps (runServerSetup sampleServer) sampleSteps).clients[i]? ≠ some (-1))) ∧
    (runSteps (runServerSetup sampleServer) sampleSteps).clients[18]? = some 5 ∧
    (runSteps (runServerSetup sampleServer) sampleSteps).pollFds[19]? = some 5 ∧
    (runSteps (runServerSetup sampleServer) sampleSteps).clients[19]? = some (-1) ∧
    (runSteps (runServerSetup sampleServer) sampleSteps).pollFds[0]? = some 3 :=
  ⟨C30_poll_set_matches_slots 1337 3 0 0 sampleServer sampleSteps rfl, by decide, by decide,
    by decide, by decide⟩

/-! ## The bucket of every entry, and the calls on other keys -/

/-- C36: after every sequence of `htAdd` / `htRemove` / `htReplace` calls on a
fresh table, every entry linked in bucket `i` satisfies
`htHashFunction(key, keylen) mod 2^exp == i`; an entry `htAdd` adds (it
returns 0) is the head of the bucket of its key; and `htExpandAndRehash`
gives a table of `2^(exp+1)` buckets in which every entry again sits in the
bucket of its hash. -/
theorem C36_bucket_of_hash (hash : Key → Nat) (ops : List Op) :
    BucketInv hash (runOps hash htCreateTable ops).exp (runOps hash htCreateTable ops).table ∧
    (∀ (key : Key) (htv : HashtableValue_t),
      (htAdd hash (runOps hash htCreateTable ops) key htv).1 = 0 →
      (htAdd hash (runOps hash htCreateTable ops) key htv).2.table[
          hash key % 2 ^ (htAdd hash (runOps hash htCreateTable ops) key htv).2.exp]?.bind
        List.head? = some { key := key, htv := htv }) ∧
    (htExpandAndRehash hash (runOps hash htCreateTable ops)).exp =
      (runOps hash htCreateTable ops).exp + 1 ∧
    (htExpandAndRehash hash (runOps hash htCreateTable ops)).table.length =
      2 ^ ((runOps hash htCreateTable ops).exp + 1) ∧
    BucketInv hash ((runOps hash htCreateTable ops).exp + 1)
      (htExpandAndRehash hash (runOps hash htCreateTable ops)).table := by
  have hs := runOps_Shape hash ops htCreateTable (WF_shape (htCreateTable_WF hash))
  have hx := htExpandAndRehash_spec hash (runOps hash htCreateTable ops) hs.size
  refine ⟨hs.bucket, ?_, rfl, hx.1, hx.2.1⟩
  intro key htv h0
  by_cases hf : (htFind hash (runOps hash htCreateTable ops) key).entryType = EntryType_t.NONE
  · exact (htAdd_miss hash _ key htv hs.size hf).2.2.2.2.2.2
  · rw [htAdd_hit hash _ key htv hf] at h0
    simp at h0

/-- The function `htReplace` on a key that is present, with any value: a
lookup of another key returns what it returned before. -/
theorem htFind_htReplace_other (hash : Key → Nat) (ht : Hashtable_t) (key : Key)
    (htv : HashtableValue_t) (hwf : WF hash ht) (key2 : Key) (hne : key2 ≠ key) :
    htFind hash (htReplace hash ht key htv).2 key2 = htFind hash ht key2 := by
  by_cases hp : Present ht key
  · obtain ⟨r, hfe⟩ := htFindEntry_isSome_of_present hash ht key hwf.bucket hp
    · obtain ⟨_, _, hexp, _, hB, e0, X, he0, hperm, hperm2⟩ :=
        htReplace_some hash ht key htv hwf.size r hfe
      have hnd : ((entries ht).map (fun x => x.key)).Nodup := hwf.nodup
      have hkeys : ((entries (htReplace hash ht key htv).2).map (fun x => x.key)).Perm
          ((entries ht).map (fun x => x.key)) := by
        refine ((hperm2.map _).trans ?_).trans (hperm.map _).symm
        simp [he0]
      symm
      apply htFind_congr_keyed hash ht (htReplace hash ht key htv).2 key2 hwf.bucket hnd
        (by rw [hexp]; exact hB hwf.bucket) (hkeys.nodup_iff.mpr hnd)
      intro e he
      have hek : e.key ≠ key := by rw [he]; exact hne
      rw [hperm.mem_iff, hperm2.mem_iff, List.mem_cons, List.mem_cons]
      constructor
      · rintro (h | h)
        · exact absurd (h ▸ he0) hek
        · exact Or.inr h
      · rintro (h | h)
        · exact absurd (by rw [h]) hek
        · exact Or.inr h
  · rw [htReplace_absent hash ht key htv hp]
    exact htFind_htAdd_other hash ht key htv hwf key2 hne

/-- For every reachable table, every key `k` (present or absent) and
every key `k'` different from `k`, `htFind(k')` returns the same value before
and after `htRemove(k)`, and before and after `htReplace(k, v)` for every
value `v`; wherever the two keys are linked, the same bucket included. -/
theorem remove_replace_frame (hash : Key → Nat) (ht : Hashtable_t) (key key2 : Key)
    (htv : HashtableValue_t) (hr : Reachable hash ht) (hne : key2 ≠ key) :
    htFind hash (htRemove hash ht key).2 key2 = htFind hash ht key2 ∧
    htFind hash (htReplace hash ht key htv).2 key2 = htFind hash ht key2 := by
  have hwf := Reachable_wf hr
  refine ⟨?_, htFind_htReplace_other hash ht key htv hwf key2 hne⟩
  by_cases hp : Present ht key
  · rw [htFind_htRemove_present hash ht key hwf hp key2, if_neg hne]
  · rw [htRemove_absent hash ht key hp]

theorem sampleChainTable_reachable : Reachable sampleHash sampleChainTable :=
  Reachable_step sampleTable_reachable (Op.add [2] (sampleInt 20)) (by decide)

/-! ## Insert requests whose number is not read to its end -/

theorem executeInsertCommand_uint_rest (hash : Key → Nat) (libc : Libc) (junk : Int)
    (ht : Hashtable_t) (query : Option (List UInt8)) (key value commandResult : List UInt8)
    (h0 : (0 : UInt8) ∉ value) (hrest : (strtol value).2 ≠ []) :
    executeInsertCommand hash libc junk ht
      { query := query, type := some (ascii "uint"), key := some key,
        value := some (value ++ [0]) } commandResult =
    some (1, ht, ascii "Error inserting key") := by
  unfold executeInsertCommand
  simp [getKeyType_uint, EntryType_t.toInt, cString_append_nul value [] h0, hrest,
    insertEpilogue]

theorem executeInsertCommand_int_rest (hash : Key → Nat) (libc : Libc) (junk : Int)
    (ht : Hashtable_t) (query : Option (List UInt8)) (key value commandResult : List UInt8)
    (h0 : (0 : UInt8) ∉ value) (hrest : (strtol value).2 ≠ []) :
    executeInsertCommand hash libc junk ht
      { query := query, type := some (ascii "int"), key := some key,
        value := some (value ++ [0]) } commandResult =
    some (insertEpilogue (insertDouble hash libc ht key value (ascii "Error inserting key"))) := by
  unfold executeInsertCommand
  simp [getKeyType_int, EntryType_t.toInt, cString_append_nul value [] h0, hrest]

/-- The case `DOUBLE` of `executeInsertCommand` on a key that is absent:
whatever `strtod` reads, the key is added with a `DOUBLE` value and the reply
is `Value inserted successfully`. -/
theorem insertDouble_absent (hash : Key → Nat) (libc : Libc) (ht : Hashtable_t)
    (key value commandResult : List UInt8) (hwf : WF hash ht) (habs : ¬ Present ht key) :
    insertEpilogue (insertDouble hash libc ht key value commandResult) =
      (0, (htAdd hash ht key
        { entryType := EntryType_t.DOUBLE, v := ValueUnion.word (libc.strtod value).1 }).2,
        ascii "Value inserted successfully") := by
  unfold insertDouble
  simp only []
  rw [insertEpilogue_afterHtAdd_absent hash ht key _ _ hwf habs]

/-- C38, as the code has it: for an insert request whose value text `strtol`
does not read to its end, on a key absent from the (reachable) table.  With
the type `uint`, `executeDbCommand` returns 1, replies `Error inserting key`
and leaves the table unchanged.  With the type `int` the case `SIGNED_INT` has
no `break` on this path and control falls into the case `DOUBLE`, which calls
`htAdd` whether or not `strtod` reads the text to its end: with `int` and
with `double` the key is inserted with a `DOUBLE` value, the function returns
0 and the reply is `Value inserted successfully`.  The uninitialized local
`retval` is taken to hold a value other than 1. -/
theorem C38_insert_unread_number (hash : Key → Nat) (libc : Libc) (retval0 junk : Int)
    (ht : Hashtable_t) (key value commandResult0 : List UInt8)
    (hret : retval0 ≠ 1) (hr : Reachable hash ht) (hkey : KeyToken key)
    (habs : ¬ Present ht key) (h0 : (0 : UInt8) ∉ value) (hrest : (strtol value).2 ≠ []) :
    executeDbCommand hash libc retval0 junk (insertRequest key (ascii "uint") value) ht
        commandResult0 =
      some (1, ht, ascii "Error inserting key") ∧
    (∃ ht2 : Hashtable_t,
      executeDbCommand hash libc retval0 junk (insertRequest key (ascii "int") value) ht
          commandResult0 =
        some (0, ht2, ascii "Value inserted successfully") ∧
      (htFind hash ht2 key).entryType = EntryType_t.DOUBLE) ∧
    (∃ ht2 : Hashtable_t,
      executeDbCommand hash libc retval0 junk (insertRequest key (ascii "double") value) ht
          commandResult0 =
        some (0, ht2, ascii "Value inserted successfully") ∧
      (htFind hash ht2 key).entryType = EntryType_t.DOUBLE) := by
  have hwf := Reachable_wf hr
  have hst : Storable
      { entryType := EntryType_t.DOUBLE, v := ValueUnion.word (libc.strtod value).1 } := by
    simp [Storable]
  have hfind := htFind_htAdd_absent hash ht key
    { entryType := EntryType_t.DOUBLE, v := ValueUnion.word (libc.strtod value).1 } hwf habs hst
    key
  rw [if_pos rfl] at hfind
  refine ⟨?_,
    ⟨(htAdd hash ht key
      { entryType := EntryType_t.DOUBLE, v := ValueUnion.word (libc.strtod value).1 }).2, ?_, ?_⟩,
    ⟨(htAdd hash ht key
      { entryType := EntryType_t.DOUBLE, v := ValueUnion.word (libc.strtod value).1 }).2, ?_, ?_⟩⟩
  · rw [executeDbCommand_insertRequest hash libc retval0 junk key (ascii "uint") value ht
      commandResult0 hret hkey (by decide),
      executeInsertCommand_uint_rest hash libc junk ht _ key value commandResult0 h0 hrest]
  · rw [executeDbCommand_insertRequest hash libc retval0 junk key (ascii "int") value ht
      commandResult0 hret hkey (by decide),
      executeInsertCommand_int_rest hash libc junk ht _ key value commandResult0 h0 hrest,
      insertDouble_absent hash libc ht key value _ hwf habs]
  · rw [hfind]
  · rw [executeDbCommand_insertRequest hash libc retval0 junk key (ascii "double") value ht
      commandResult0 hret hkey (by decide),
      executeInsertCommand_double hash libc junk ht _ key value commandResult0 h0,
      insertDouble_absent hash libc ht key value _ hwf habs]
  · rw [hfind]

/-- C38 at the value `abc` on a fresh table: the requests `insert k uint abc`,
`insert k int abc` and `insert k double abc`. -/
theorem C38_witness :
    executeDbCommand sampleHash sampleLibc 0 0 (insertRequest sampleKey (ascii "uint") (ascii "abc"))
        htCreateTable [] =
      some (1, htCreateTable, ascii "Error inserting key") ∧
    (∃ ht2 : Hashtable_t,
      executeDbCommand sampleHash sampleLibc 0 0
          (insertRequest sampleKey (ascii "int") (ascii "abc")) htCreateTable [] =
        some (0, ht2, ascii "Value inserted successfully") ∧
      (htFind sampleHash ht2 sampleKey).entryType = EntryType_t.DOUBLE) ∧
    (∃ ht2 : Hashtable_t,
      executeDbCommand sampleHash sampleLibc 0 0
          (insertRequest sampleKey (ascii "double") (ascii "abc")) htCreateTable [] =
        some (0, ht2, ascii "Value inserted successfully") ∧
      (htFind sampleHash ht2 sampleKey).entryType = EntryType_t.DOUBLE) :=
  C38_insert_unread_number sampleHash sampleLibc 0 0 htCreateTable sampleKey (ascii "abc") []
    (by decide) (Reachable_create sampleHash) (by decide) (by decide) (by decide) (by decide)

/-! ## The verb is compared on its first bytes -/

/-- What `executeDbCommand` does depends on the query only through the four
`strncmp` comparisons: two requests whose first tokens compare alike and which
continue with the same bytes are served alike. -/
theorem executeDbCommand_query_congr (hash : Key → Nat) (libc : Libc) (retval0 junk : Int)
    (in1 in2 : List UInt8) (ht : Hashtable_t) (commandResult0 : List UInt8)
    (q1 q2 stop1 stop2 save : List UInt8) (hne1 : in1 ≠ []) (hne2 : in2 ≠ [])
    (h1 : strtok_r (if in1.getLast? = some 10 then in1.dropLast ++ [0] else in1) =
      some (some q1, stop1, save))
    (h2 : strtok_r (if in2.getLast? = some 10 then in2.dropLast ++ [0] else in2) =
      some (some q2, stop2, save))
    (hI : strncmpEq q1 (ascii "insert") 6 = strncmpEq q2 (ascii "insert") 6)
    (hS : strncmpEq q1 (ascii "select") 6 = strncmpEq q2 (ascii "select") 6)
    (hD : strncmpEq q1 (ascii "delete") 6 = strncmpEq q2 (ascii "delete") 6)
    (hR : strncmpEq q1 (ascii "replace") 7 = strncmpEq q2 (ascii "replace") 7) :
    executeDbCommand hash libc retval0 junk in1 ht commandResult0 =
      executeDbCommand hash libc retval0 junk in2 ht commandResult0 := by
  unfold executeDbCommand parseCommand
  rw [if_neg hne1, if_neg hne2]
  simp only [h1, h2]
  rcases hs : strtok_r save with _ | ⟨tok, stop, save2⟩
  · rfl
  · rcases tok with _ | key
    · simp
    · simp only []
      rcases hs2 : strtok_r save2 with _ | ⟨tok3, stop3, save3⟩
      · rfl
      · rcases tok3 with _ | type
        · simp only [hI, hR]
          split_ifs <;> simp_all [executeInsertCommand, executeSelectCommand,
            executeDeleteCommand, executeReplaceCommand]
        · simp only [hI, hS, hD, hR]
          split_ifs <;> simp_all [executeInsertCommand, executeSelectCommand,
            executeDeleteCommand, executeReplaceCommand]

theorem strncmpEq_append (verb suffix other : List UInt8) (n : Nat) (h : n ≤ verb.length) :
    strncmpEq (verb ++ suffix) other n = strncmpEq verb other n := by
  simp [strncmpEq, List.take_append_of_le_length h]

theorem strncmpEq_head_ne (a b : UInt8) (s1 s2 : List UInt8) (n : Nat) (h : a ≠ b) :
    strncmpEq (a :: s1) (b :: s2) (n + 1) = false := by
  simp [strncmpEq, h]

/-- A token that begins with a verb compares with each of the four verbs as
the bare verb does. -/
theorem strncmpEq_verb_prefix (verb suffix : List UInt8) (hverb : verb ∈ verbNames) :
    strncmpEq (verb ++ suffix) (ascii "insert") 6 = strncmpEq verb (ascii "insert") 6 ∧
    strncmpEq (verb ++ suffix) (ascii "select") 6 = strncmpEq verb (ascii "select") 6 ∧
    strncmpEq (verb ++ suffix) (ascii "delete") 6 = strncmpEq verb (ascii "delete") 6 ∧
    strncmpEq (verb ++ suffix) (ascii "replace") 7 = strncmpEq verb (ascii "replace") 7 := by
  have hi : ascii "insert" = 105 :: ascii "nsert" := by decide
  have hs : ascii "select" = 115 :: ascii "elect" := by decide
  have hd : ascii "delete" = 100 :: ascii "elete" := by decide
  have hr : ascii "replace" = 114 :: ascii "eplace" := by decide
  simp only [verbNames, List.mem_cons, List.mem_singleton, List.not_mem_nil, or_false] at hverb
  rcases hverb with h | h | h | h
  · subst h
    refine ⟨strncmpEq_append _ _ _ 6 (by decide), strncmpEq_append _ _ _ 6 (by decide),
      strncmpEq_append _ _ _ 6 (by decide), ?_⟩
    rw [hi, hr, List.cons_append, strncmpEq_head_ne _ _ _ _ 6 (by decide),
      strncmpEq_head_ne _ _ _ _ 6 (by decide)]
  · subst h
    refine ⟨strncmpEq_append _ _ _ 6 (by decide), strncmpEq_append _ _ _ 6 (by decide),
      strncmpEq_append _ _ _ 6 (by decide), ?_⟩
    rw [hs, hr, List.cons_append, strncmpEq_head_ne _ _ _ _ 6 (by decide),
      strncmpEq_head_ne _ _ _ _ 6 (by decide)]
  · subst h
    refine ⟨strncmpEq_append _ _ _ 6 (by decide), strncmpEq_append _ _ _ 6 (by decide),
      strncmpEq_append _ _ _ 6 (by decide), ?_⟩
    rw [hd, hr, List.cons_append, strncmpEq_head_ne _ _ _ _ 6 (by decide),
      strncmpEq_head_ne _ _ _ _ 6 (by decide)]
  · subst h
    exact ⟨strncmpEq_append _ _ _ 6 (by decide), strncmpEq_append _ _ _ 6 (by decide),
      strncmpEq_append _ _ _ 6 (by decide), strncmpEq_append _ _ _ 7 (by decide)⟩

/-- The copy `executeDbCommand` makes of a request: the bytes before the last
one are kept, and what follows a first token begins with a space or NUL. -/
theorem statementCopy_append (p rest : List UInt8)
    (hrest : rest.head? = some 32 ∨ rest.head? = some 0 ∨ rest = [10]) :
    ∃ (d : UInt8) (t : List UInt8), (d = 32 ∨ d = 0) ∧
      (if (p ++ rest).getLast? = some (10 : UInt8) then (p ++ rest).dropLast ++ [0]
        else p ++ rest) = p ++ d :: t := by
  rcases hrest with h | h | h
  · cases rest with
    | nil => simp at h
    | cons b t =>
      have hb : b = 32 := by simpa using h
      subst hb
      by_cases hl : (p ++ 32 :: t).getLast? = some (10 : UInt8)
      · rw [if_pos hl]
        cases t with
        | nil => simp at hl
        | cons c u =>
          refine ⟨32, (c :: u).dropLast ++ [0], Or.inl rfl, ?_⟩
          rw [List.dropLast_append_of_ne_nil _ (by simp)]
          simp
      · rw [if_neg hl]
        exact ⟨32, t, Or.inl rfl, rfl⟩
  · cases rest with
    | nil => simp at h
    | cons b t =>
      have hb : b = 0 := by simpa using h
      subst hb
      by_cases hl : (p ++ 0 :: t).getLast? = some (10 : UInt8)
      · rw [if_pos hl]
        cases t with
        | nil => simp at hl
        | cons c u =>
          refine ⟨0, (c :: u).dropLast ++ [0], Or.inr rfl, ?_⟩
          rw [List.dropLast_append_of_ne_nil _ (by simp)]
          simp
      · rw [if_neg hl]
        exact ⟨0, t, Or.inr rfl, rfl⟩
  · subst h
    refine ⟨0, [], Or.inr rfl, ?_⟩
    simp

theorem strtok_r_token (tok : List UInt8) (d : UInt8) (t : List UInt8) (hne : tok ≠ [])
    (htok : TokenBytes tok) (hd : d = 32 ∨ d = 0) :
    strtok_r (tok ++ d :: t) = some (some tok, d :: t, if d = 32 then t else d :: t) := by
  rcases hd with h | h
  · subst h
    simpa using strtok_r_of_space tok t hne htok
  · subst h
    simpa using strtok_r_of_nul tok t hne htok

/-- C39: `executeDbCommand` selects the command by a prefix of the verb
token.  For every verb of `insert`, `select`, `delete`, `replace`, every
suffix of token bytes and every continuation of the request (a space or NUL
and what follows, or the final newline), the request whose first token is the
verb followed by the suffix has exactly the reply, the return value and the
effect on the table of the request with the bare verb; whatever the
indeterminate values are. -/
theorem C39_dispatch_on_leading_bytes (hash : Key → Nat) (libc : Libc) (retval0 junk : Int)
    (ht : Hashtable_t) (verb suffix rest commandResult0 : List UInt8)
    (hverb : verb ∈ verbNames) (hsuffix : TokenBytes suffix)
    (hrest : rest.head? = some 32 ∨ rest.head? = some 0 ∨ rest = [10]) :
    executeDbCommand hash libc retval0 junk (verb ++ suffix ++ rest) ht commandResult0 =
      executeDbCommand hash libc retval0 junk (verb ++ rest) ht commandResult0 := by
  have hvtok : verb ≠ [] ∧ TokenBytes verb := by
    simp only [verbNames, List.mem_cons, List.mem_singleton, List.not_mem_nil, or_false] at hverb
    rcases hverb with h | h | h | h <;> subst h <;> exact ⟨by decide, by decide⟩
  have hvs : TokenBytes (verb ++ suffix) := by
    intro b hb
    rcases List.mem_append.mp hb with h | h
    · exact hvtok.2 b h
    · exact hsuffix b h
  obtain ⟨d, t, hd, hc1⟩ := statementCopy_append (verb ++ suffix) rest hrest
  obtain ⟨d2, t2, hd2, hc2⟩ := statementCopy_append verb rest hrest
  have hrne : rest ≠ [] := by
    rcases hrest with h | h | h <;> intro hn <;> simp [hn] at h
  -- both copies end with the same bytes
  have hsame : d :: t = d2 :: t2 := by
    by_cases hl : rest.getLast? = some (10 : UInt8)
    · have e1 : (verb ++ suffix ++ rest).getLast? = some (10 : UInt8) := by
        rw [List.getLast?_append_of_ne_nil _ hrne]; exact hl
      have e2 : (verb ++ rest).getLast? = some (10 : UInt8) := by
        rw [List.getLast?_append_of_ne_nil _ hrne]; exact hl
      rw [if_pos e1, List.dropLast_append_of_ne_nil _ hrne, List.append_assoc] at hc1
      rw [if_pos e2, List.dropLast_append_of_ne_nil _ hrne, List.append_assoc] at hc2
      exact (List.append_cancel_left hc1).symm.trans (List.append_cancel_left hc2)
    · have e1 : ¬ (verb ++ suffix ++ rest).getLast? = some (10 : UInt8) := by
        rw [List.getLast?_append_of_ne_nil _ hrne]; exact hl
      have e2 : ¬ (verb ++ rest).getLast? = some (10 : UInt8) := by
        rw [List.getLast?_append_of_ne_nil _ hrne]; exact hl
      rw [if_neg e1] at hc1
      rw [if_neg e2] at hc2
      exact (List.append_cancel_left hc1).symm.trans (List.append_cancel_left hc2)
  obtain ⟨hI, hS, hD, hR⟩ := strncmpEq_verb_prefix verb suffix hverb
  have hd' : d2 = d := (List.cons.inj hsame).1.symm
  have ht' : t2 = t := (List.cons.inj hsame).2.symm
  subst hd' ht'
  apply executeDbCommand_query_congr hash libc retval0 junk _ _ ht commandResult0
    (verb ++ suffix) verb (d2 :: t2) (d2 :: t2) (if d2 = 32 then t2 else d2 :: t2)
    (by simp [hrne]) (by simp [hrne])
  · rw [hc1]
    exact strtok_r_token (verb ++ suffix) d2 t2 (by simp [hvtok.1]) hvs hd
  · rw [hc2]
    exact strtok_r_token verb d2 t2 hvtok.1 hvtok.2 hd
  · exact hI
  · exact hS
  · exact hD
  · exact hR

/-- C39 at the requests `selectfoo k` and `select k`, on the table that holds
`k`: both reply `{k: hello}`. -/
theorem C39_witness :
    executeDbCommand sampleHash sampleLibc 0 0
        (ascii "select" ++ ascii "foo" ++ (32 :: sampleKey ++ [0])) sampleDbTable [] =
      executeDbCommand sampleHash sampleLibc 0 0
        (ascii "select" ++ (32 :: sampleKey ++ [0])) sampleDbTable [] ∧
    executeDbCommand sampleHash sampleLibc 0 0
        (ascii "select" ++ ascii "foo" ++ (32 :: sampleKey ++ [0])) sampleDbTable [] =
      some (0, sampleDbTable, ascii "\x7bk: hello\x7d") :=
  ⟨C39_dispatch_on_leading_bytes sampleHash sampleLibc 0 0 sampleDbTable (ascii "select") (ascii "foo")
    (32 :: sampleKey ++ [0]) [] (by decide) (by decide) (Or.inl rfl), by decide⟩

/-! ## A connection that finds no free slot -/

theorem freeSlot_foldl_of_full (clients : List Int) (h : ∀ fd ∈ clients, fd ≠ -1)
    (slots : List Nat) :
    slots.foldl
      (fun (clientIdx : Int) (i : Nat) =>
        if clients[i]? = some (-1) then (i : Int) else clientIdx) (-1) = -1 := by
  induction slots with
  | nil => rfl
  | cons i rest ih =>
    have hi : ¬ clients[i]? = some (-1) := by
      intro hc
      exact h (-1) (List.getElem?_mem hc) rfl
    simp only [List.foldl_cons, if_neg hi]
    exact ih

theorem freeSlot_of_full (clients : List Int) (h : ∀ fd ∈ clients, fd ≠ -1) :
    freeSlot clients = -1 :=
  freeSlot_foldl_of_full clients h _

theorem occupied_le (server : Server_t) (h : PollSetInv server) :
    occupied server ≤ MAX_SERVER_CONN := by
  unfold occupied
  rw [← h.clients_length]
  exact List.length_filter_le _ _

theorem acceptClientConnections_of_full (server : Server_t) (acceptResult : Int)
    (pending : List Int) (hfull : ∀ fd ∈ server.clients, fd ≠ -1) (hpending : acceptResult ≠ -1) :
    acceptClientConnections server (acceptResult :: pending) =
      (-1, server, [ServerCall.close acceptResult]) := by
  have hfree := freeSlot_of_full server.clients hfull
  unfold acceptClientConnections acceptPass
  simp [hfree, hpending]

/-- The body of the loop touches the slot it serves and no other. -/
theorem serveSlot_clients (r : PollRound) (s : Server_t × List ServerCall) (i j : Nat)
    (hne : j ≠ i) : (serveSlot r s i).1.clients[j]? = s.1.clients[j]? := by
  unfold serveSlot serveClient
  split_ifs
  · exact List.getElem?_set_ne (fun h => hne h.symm)
  · rfl
  · rfl

/-- The handler is called with the descriptor of the slot that is served. -/
theorem serveSlot_onData (r : PollRound) (s : Server_t × List ServerCall) (i : Nat) (fd : Int)
    (h : ServerCall.onData fd ∈ (serveSlot r s i).2) :
    ServerCall.onData fd ∈ s.2 ∨ s.1.clients[i]? = some fd := by
  unfold serveSlot serveClient at h
  split_ifs at h
  · rcases List.mem_append.mp h with h | h
    · exact Or.inl h
    · cases hc : s.1.clients[i]? with
      | none => rw [hc] at h; simp at h
      | some c => rw [hc] at h; simp at h
  · rcases List.mem_append.mp h with h | h
    · exact Or.inl h
    · cases hc : s.1.clients[i]? with
      | none => rw [hc] at h; simp at h
      | some c =>
        rw [hc] at h
        simp at h
        rw [h]
        exact Or.inr rfl
  · exact Or.inl h

theorem foldl_serveSlot_onData (r : PollRound) (clients : List Int) (slots : List Nat)
    (hnd : slots.Nodup) :
    ∀ (s : Server_t × List ServerCall),
      (∀ j ∈ slots, s.1.clients[j]? = clients[j]?) →
      (∀ fd, ServerCall.onData fd ∈ s.2 → fd ∈ clients) →
      ∀ fd, ServerCall.onData fd ∈ (slots.foldl (serveSlot r) s).2 → fd ∈ clients := by
  induction slots with
  | nil => intro s _ h2; exact h2
  | cons i rest ih =>
    intro s h1 h2
    simp only [List.foldl_cons]
    have hi : i ∉ rest := (List.nodup_cons.mp hnd).1
    apply ih (List.nodup_cons.mp hnd).2
    · intro j hj
      rw [serveSlot_clients r s i j (fun h => hi (h ▸ hj))]
      exact h1 j (List.mem_cons_of_mem _ hj)
    · intro fd hfd
      rcases serveSlot_onData r s i fd hfd with h | h
      · exact h2 fd h
      · rw [h1 i (List.mem_cons_self _ _)] at h
        exact List.getElem?_mem h

theorem foldl_serveSlot_calls (r : PollRound) (call : ServerCall) (slots : List Nat) :
    ∀ (s : Server_t × List ServerCall), call ∈ s.2 → call ∈ (slots.foldl (serveSlot r) s).2 := by
  induction slots with
  | nil => intro s h; exact h
  | cons i rest ih =>
    intro s h
    simp only [List.foldl_cons]
    apply ih
    unfold serveSlot
    split_ifs
    · exact List.mem_append_left _ h
    · exact h

/-- C31: when all 20 slots are occupied and a connection is pending,
`acceptClientConnections` accepts it, calls `close` on it and makes no other
call, returns -1, and changes no slot and no entry of the poll set.  In the
pass of the loop of `runServer` that rejects it, `close` is called on its
descriptor and every call of `onData` is with the descriptor a slot held
before the pass, so `onData` is not called with the descriptor of the
rejected connection, which no slot holds.  After `createServer` and every
sequence of steps the number of occupied slots is at most 20. -/
theorem C31_reject_when_full (server : Server_t) (acceptResult : Int) (pending : List Int)
    (hfull : ∀ fd ∈ server.clients, fd ≠ -1) (hpending : acceptResult ≠ -1) :
    acceptClientConnections server (acceptResult :: pending) =
      (-1, server, [ServerCall.close acceptResult]) ∧
    (∀ r : PollRound, r.serverReadable = true → r.pending = acceptResult :: pending →
      ServerCall.close acceptResult ∈ (runServerRound server r).2 ∧
      (∀ fd, ServerCall.onData fd ∈ (runServerRound server r).2 → fd ∈ server.clients) ∧
      (acceptResult ∉ server.clients →
        ServerCall.onData acceptResult ∉ (runServerRound server r).2)) ∧
    (∀ (port socketFd bindResult listenResult : Int) (server0 : Server_t)
      (steps : List ServerStep),
      createServer port socketFd bindResult listenResult = some server0 →
      occupied (runSteps (runServerSetup server0) steps) ≤ MAX_SERVER_CONN) := by
  have hacc := acceptClientConnections_of_full server acceptResult pending hfull hpending
  refine ⟨hacc, ?_, ?_⟩
  · intro r hread hpend
    have hround : runServerRound server r =
        (List.range MAX_SERVER_CONN).foldl (serveSlot r)
          (server, [ServerCall.close acceptResult]) := by
      unfold runServerRound
      rw [hread, hpend, hacc]
      rfl
    rw [hround]
    have hslots := foldl_serveSlot_onData r server.clients (List.range MAX_SERVER_CONN)
      (List.nodup_range _) (server, [ServerCall.close acceptResult]) (fun _ _ => rfl)
      (fun fd h => by simp at h)
    refine ⟨?_, hslots, ?_⟩
    · exact foldl_serveSlot_calls r _ _ _ (by simp)
    · intro hnew hcall
      exact hnew (hslots acceptResult hcall)
  · intro port socketFd bindResult listenResult server0 steps h
    exact occupied_le _ (runSteps_inv steps
      (runServerSetup_inv (createServer_inv port socketFd bindResult listenResult server0 h)))

/-- C31 on the server whose slots hold the descriptors 4 to 23, with the
connection 24 pending and another behind it; and the calls of the pass of the
loop of `runServer` in which, besides, slot 3 has data and slot 5 has
disconnected: `close` on 24, `onData` on the descriptor 7 of slot 3, `close`
on the descriptor 9 of slot 5. -/
theorem C31_witness :
    (acceptClientConnections fullServer (24 :: [25]) =
      (-1, fullServer, [ServerCall.close 24]) ∧
    (∀ r : PollRound, r.serverReadable = true → r.pending = 24 :: [25] →
      ServerCall.close 24 ∈ (runServerRound fullServer r).2 ∧
      (∀ fd, ServerCall.onData fd ∈ (runServerRound fullServer r).2 → fd ∈ fullServer.clients) ∧
      ((24 : Int) ∉ fullServer.clients →
        ServerCall.onData 24 ∉ (runServerRound fullServer r).2)) ∧
    (∀ (port socketFd bindResult listenResult : Int) (server0 : Server_t)
      (steps : List ServerStep),
      createServer port socketFd bindResult listenResult = some server0 →
      occupied (runSteps (runServerSetup server0) steps) ≤ MAX_SERVER_CONN)) ∧
    occupied fullServer = 20 ∧ (24 : Int) ∉ fullServer.clients ∧
    (runServerRound fullServer sampleRound).2 =
      [ServerCall.close 24, ServerCall.onData 7, ServerCall.close 9] ∧
    occupied (runServerRound fullServer sampleRound).1 = 19 :=
  ⟨C31_reject_when_full fullServer 24 [25] (by decide) (by decide), by decide, by decide,
    by decide, by decide⟩

/-! ## The legacy table -/

theorem legacy_htAdd_eq (hash : Key → Nat) (ht : Hashtable_t) (key : Key)
    (htv : HashtableValue_t) : Legacy.htAdd hash ht key htv = htAdd hash ht key htv := by
  unfold Legacy.htAdd htAdd
  simp only [storeValue_eq]

theorem htCreateTable_getD (i : Nat) : htCreateTable.table[i]?.getD [] = [] := by
  unfold htCreateTable
  by_cases h : i < 2 ^ HASHTABLE_DEFAULTCAP
  · rw [List.getElem?_replicate]; simp [h]
  · rw [List.getElem?_eq_none (by simpa using h)]; rfl

theorem htCreateTable_length : htCreateTable.table.length = 32 := by
  simp [htCreateTable, HASHTABLE_DEFAULTCAP]

theorem htCreateTable_chains (l : List HashtableEntry_t) (h : l ∈ htCreateTable.table) :
    l = [] := by
  unfold htCreateTable at h
  exact (List.mem_replicate.mp h).2

/-- The fresh table after one `htAdd`. -/
theorem legacy_htAdd_fresh (hash : Key → Nat) (key : Key) (htv : HashtableValue_t) :
    Legacy.htAdd hash htCreateTable key htv =
      (0, { table := htCreateTable.table.set (hash key % 32) [{ key := key, htv := htv }],
            len := 1, exp := 5 }) := by
  have hf := htFind_type_of_absent hash htCreateTable key (not_present_htCreateTable key)
  have hlen : ¬ htCreateTable.len = 2 ^ htCreateTable.exp := by decide
  have hexp : htCreateTable.exp = 5 := rfl
  have hl0 : htCreateTable.len = 0 := rfl
  unfold Legacy.htAdd
  rw [if_neg (by simp [hf])]
  simp [hlen, htCreateTable_getD, hexp, hl0]

theorem htFind_of_flatten_nil (hash : Key → Nat) (ht : Hashtable_t) (key : Key)
    (h : ht.table.flatten = []) : htFind hash ht key = noneValue := by
  apply htFind_of_absent
  rintro ⟨e, he, _⟩
  unfold entries at he
  rw [h] at he
  exact absurd he (List.not_mem_nil _)

theorem flatten_set_set_nil (b : Nat) (chain : List HashtableEntry_t) :
    ((htCreateTable.table.set b chain).set b []).flatten = [] := by
  rw [List.set_set]
  apply List.flatten_eq_nil_iff.mpr
  intro l hl
  rcases List.mem_or_eq_of_mem_set hl with h | h
  · exact htCreateTable_chains l h
  · exact h

/-- The legacy `htRemove` on a bucket that is not empty. -/
theorem legacy_htRemove_cons (hash : Key → Nat) (ht : Hashtable_t) (key : Key)
    (hte : HashtableEntry_t) (rest : List HashtableEntry_t)
    (h : ht.table.getD (hash key % 2 ^ ht.exp) [] = hte :: rest) :
    Legacy.htRemove hash ht key =
      (0, { table := ht.table.set (hash key % 2 ^ ht.exp)
              (if htFindEntryWalk key (hte :: rest) = 0 then []
                else (hte :: rest).eraseIdx (htFindEntryWalk key (hte :: rest))),
            len := if ht.len = 0 then 2 ^ 64 - 1 else ht.len - 1,
            exp := ht.exp }) := by
  unfold Legacy.htRemove
  simp only [h]

/-- The legacy `htRemove` of one of two keys that share a bucket of a fresh
table.  Called on the key that is absent, it unlinks the other key; called on
the key at the head of the chain, it drops the whole chain and counts one
entry less. -/
theorem legacy_htRemove_collision (hash : Key → Nat) (key key2 : Key)
    (htv htv2 : HashtableValue_t) (hne : key ≠ key2) (hst2 : Storable htv2)
    (hcol : hash key % 32 = hash key2 % 32) :
    htFind hash (Legacy.htAdd hash htCreateTable key2 htv2).2 key2 = htv2 ∧
    htFind hash
      (Legacy.htRemove hash (Legacy.htAdd hash htCreateTable key2 htv2).2 key).2 key2 =
      noneValue ∧
    htFind hash
      (Legacy.htAdd hash (Legacy.htAdd hash htCreateTable key2 htv2).2 key htv).2 key2 = htv2 ∧
    htFind hash
      (Legacy.htRemove hash
        (Legacy.htAdd hash (Legacy.htAdd hash htCreateTable key2 htv2).2 key htv).2 key).2 key2 =
      noneValue ∧
    (Legacy.htRemove hash
      (Legacy.htAdd hash (Legacy.htAdd hash htCreateTable key2 htv2).2 key htv).2 key).2.len = 1 ∧
    entries (Legacy.htRemove hash
      (Legacy.htAdd hash (Legacy.htAdd hash htCreateTable key2 htv2).2 key htv).2 key).2 = [] := by
  have hb : hash key2 % 32 < htCreateTable.table.length := by
    rw [htCreateTable_length]; exact Nat.mod_lt _ (by decide)
  have h32 : (2 : Nat) ^ 5 = 32 := by norm_num
  have hwf0 := htCreateTable_WF hash
  have habs0 := not_present_htCreateTable key2
  have hfind1 : htFind hash (Legacy.htAdd hash htCreateTable key2 htv2).2 key2 = htv2 := by
    rw [legacy_htAdd_eq, htFind_htAdd_absent hash htCreateTable key2 htv2 hwf0 habs0 hst2 key2,
      if_pos rfl]
  have hwf1 : WF hash (Legacy.htAdd hash htCreateTable key2 htv2).2 := by
    rw [legacy_htAdd_eq]
    exact htAdd_absent_WF hash htCreateTable key2 htv2 hwf0 habs0 hst2
  have habs1 : ¬ Present (Legacy.htAdd hash htCreateTable key2 htv2).2 key := by
    rw [legacy_htAdd_eq, present_htAdd_absent hash htCreateTable key2 htv2 hwf0 habs0 key]
    rintro (h | h)
    · exact hne h
    · exact not_present_htCreateTable key h
  have hfind2 : htFind hash
      (Legacy.htAdd hash (Legacy.htAdd hash htCreateTable key2 htv2).2 key htv).2 key2 = htv2 := by
    rw [legacy_htAdd_eq hash _ key htv,
      htFind_htAdd_other hash _ key htv hwf1 key2 (fun h => hne h.symm), hfind1]
  have hcmp : cmpKey key key ≠ 0 := cmpKey_self key
  have hadd2 : Legacy.htAdd hash (Legacy.htAdd hash htCreateTable key2 htv2).2 key htv =
      (0, { table := htCreateTable.table.set (hash key2 % 32)
              [{ key := key, htv := htv }, { key := key2, htv := htv2 }],
            len := 2, exp := 5 }) := by
    have hf := htFind_type_of_absent hash _ key habs1
    rw [legacy_htAdd_fresh] at hf ⊢
    unfold Legacy.htAdd
    rw [if_neg (by simp [hf])]
    simp [h32, hcol, hb]
  have hrem1 : Legacy.htRemove hash (Legacy.htAdd hash htCreateTable key2 htv2).2 key =
      (0, { table := (htCreateTable.table.set (hash key2 % 32)
              [{ key := key2, htv := htv2 }]).set (hash key2 % 32) [],
            len := 0, exp := 5 }) := by
    rw [legacy_htAdd_fresh]
    rw [legacy_htRemove_cons hash _ key { key := key2, htv := htv2 } []
      (by simp [h32, hcol, hb])]
    simp [htFindEntryWalk, hcol]
  have hrem2 : Legacy.htRemove hash
      (Legacy.htAdd hash (Legacy.htAdd hash htCreateTable key2 htv2).2 key htv).2 key =
      (0, { table := (htCreateTable.table.set (hash key2 % 32)
              [{ key := key, htv := htv }, { key := key2, htv := htv2 }]).set (hash key2 % 32) [],
            len := 1, exp := 5 }) := by
    rw [hadd2]
    rw [legacy_htRemove_cons hash _ key { key := key, htv := htv } [{ key := key2, htv := htv2 }]
      (by simp [h32, hcol, hb])]
    simp [htFindEntryWalk, hcol, hcmp]
  refine ⟨hfind1, ?_, hfind2, ?_, ?_, ?_⟩
  · rw [hrem1]
    exact htFind_of_flatten_nil hash _ key2 (flatten_set_set_nil _ _)
  · rw [hrem2]
    exact htFind_of_flatten_nil hash _ key2 (flatten_set_set_nil _ _)
  · rw [hrem2]
  · rw [hrem2]
    exact flatten_set_set_nil _ _

/-- Whatever the hash function, two of the 33 one-byte keys `0, ..., 32` share
one of the 32 buckets of a fresh table. -/
theorem exists_collision (hash : Key → Nat) :
    ∃ key key2 : Key, key ≠ key2 ∧ hash key % 32 = hash key2 % 32 := by
  have hc : (Finset.range 32).card < (Finset.range 33).card := by simp
  have hmap : ∀ i ∈ Finset.range 33,
      (fun i : Nat => hash [UInt8.ofNat i] % 32) i ∈ Finset.range 32 := by
    intro i _
    exact Finset.mem_range.mpr (Nat.mod_lt _ (by decide))
  obtain ⟨i, hi, j, hj, hne, heq⟩ := Finset.exists_ne_map_eq_of_card_lt_of_maps_to hc hmap
  refine ⟨[UInt8.ofNat i], [UInt8.ofNat j], ?_, heq⟩
  intro h
  have h1 : (UInt8.ofNat i).toNat = (UInt8.ofNat j).toNat := by
    rw [List.cons.inj h |>.1]
  rw [toNat_ofNat_of_lt i (by have := Finset.mem_range.mp hi; omega),
    toNat_ofNat_of_lt j (by have := Finset.mem_range.mp hj; omega)] at h1
  exact hne h1

/-- C40, as the legacy code has it: whatever the hash function, there are two
different keys `k` and `k'` for which `htRemove(k)` changes what `htFind(k')`
returns.  On the table that holds only `k'`, `htFind(k')` returns its value
before `htRemove(k)` of the absent key `k` and the `NONE` value after it; on
the table that holds `k'` and then `k`, `htRemove(k)` of the key at the head
of the chain drops `k'` with it, and leaves `ht->len` at 1 with no entry
linked. -/
theorem C40_legacy_htRemove_drops_other_keys (hash : Key → Nat) :
    ∃ key key2 : Key, key ≠ key2 ∧
      htFind hash (Legacy.htAdd hash htCreateTable key2 (sampleInt 10)).2 key2 = sampleInt 10 ∧
      htFind hash
        (Legacy.htRemove hash (Legacy.htAdd hash htCreateTable key2 (sampleInt 10)).2 key).2 key2 =
        noneValue ∧
      htFind hash
        (Legacy.htAdd hash (Legacy.htAdd hash htCreateTable key2 (sampleInt 10)).2 key
          (sampleInt 20)).2 key2 = sampleInt 10 ∧
      htFind hash
        (Legacy.htRemove hash
          (Legacy.htAdd hash (Legacy.htAdd hash htCreateTable key2 (sampleInt 10)).2 key
            (sampleInt 20)).2 key).2 key2 = noneValue ∧
      (Legacy.htRemove hash
        (Legacy.htAdd hash (Legacy.htAdd hash htCreateTable key2 (sampleInt 10)).2 key
          (sampleInt 20)).2 key).2.len = 1 ∧
      entries (Legacy.htRemove hash
        (Legacy.htAdd hash (Legacy.htAdd hash htCreateTable key2 (sampleInt 10)).2 key
          (sampleInt 20)).2 key).2 = [] := by
  obtain ⟨key, key2, hne, hcol⟩ := exists_collision hash
  exact ⟨key, key2, hne,
    legacy_htRemove_collision hash key key2 (sampleInt 20) (sampleInt 10) hne (by decide) hcol⟩

/-- C40 with the hash function that takes the length of the key, on the
one-byte keys `1` and `2`: after `htAdd` of the key `1`, the call `htRemove`
on the absent key `2` removes the key `1`. -/
theorem C40_witness :
    htFind sampleHash (Legacy.htAdd sampleHash htCreateTable [1] (sampleInt 10)).2 [1] =
      sampleInt 10 ∧
    htFind sampleHash
      (Legacy.htRemove sampleHash (Legacy.htAdd sampleHash htCreateTable [1] (sampleInt 10)).2
        [2]).2 [1] = noneValue ∧
    (∃ key key2 : Key, key ≠ key2 ∧
      htFind sampleHash (Legacy.htAdd sampleHash htCreateTable key2 (sampleInt 10)).2 key2 =
        sampleInt 10 ∧
      htFind sampleHash
        (Legacy.htRemove sampleHash (Legacy.htAdd sampleHash htCreateTable key2 (sampleInt 10)).2
          key).2 key2 = noneValue) := by
  refine ⟨by decide, by decide, ?_⟩
  obtain ⟨key, key2, hne, h1, h2, _⟩ := C40_legacy_htRemove_drops_other_keys sampleHash
  exact ⟨key, key2, hne, h1, h2⟩

/-! ## The legacy codec: tokens of a line -/

theorem takeWhile_append_of_all {p : UInt8 → Bool} (tok rest : List UInt8) (d : UInt8)
    (htok : ∀ b ∈ tok, p b = true) (hd : p d = false) :
    (tok ++ d :: rest).takeWhile p = tok := by
  induction tok with
  | nil => simp [List.takeWhile, hd]
  | cons b bs ih =>
    have hb := htok b (List.mem_cons_self _ _)
    simp [List.takeWhile, hb, ih (fun x hx => htok x (List.mem_cons_of_mem _ hx))]

/-- The function `strtok` at the first byte of a token that a delimiter
ends. -/
theorem legacy_strtok_token (delim : UInt8) (pre tok rest : List UInt8) (hne : tok ≠ [])
    (htok : ∀ b ∈ tok, b ≠ delim ∧ b ≠ 0) (hd : delim ≠ 0) :
    Legacy.strtok delim (pre ++ (tok ++ delim :: rest)) pre.length =
      (some pre.length, pre ++ (tok ++ 0 :: rest), pre.length + tok.length + 1) := by
  cases tok with
  | nil => exact absurd rfl hne
  | cons b bs =>
    have hb := htok b (List.mem_cons_self _ _)
    have hskip : ((b :: bs ++ delim :: rest).takeWhile (fun c => c = delim)) = [] := by
      simp [List.takeWhile, hb.1]
    have htake : ((b :: bs ++ delim :: rest).takeWhile (fun c => c ≠ delim ∧ c ≠ 0)) = b :: bs := by
      apply takeWhile_append_of_all
      · intro x hx
        simpa using htok x hx
      · simp
    unfold Legacy.strtok
    simp only [List.drop_left, hskip, List.length_nil, Nat.add_zero, htake]
    have h1 : (pre ++ (b :: bs ++ delim :: rest))[pre.length]? = some b := by
      rw [List.getElem?_append_right (Nat.le_refl _)]
      simp
    have h2 : (pre ++ (b :: bs ++ delim :: rest))[pre.length + (b :: bs).length]? = some delim := by
      rw [List.getElem?_append_right (Nat.le_add_right _ _), Nat.add_sub_cancel_left,
        List.getElem?_append_right (Nat.le_refl _)]
      simp
    have h3 : (pre ++ (b :: bs ++ delim :: rest)).set (pre.length + (b :: bs).length) 0 =
        pre ++ (b :: bs ++ 0 :: rest) := by
      rw [List.set_append_right _ _ (Nat.le_add_right _ _)]
      simp
    rw [h1]
    simp only [hb.2, if_false]
    rw [h2]
    simp only [hd, if_false, h3]

theorem legacy_cStringAt_token (pre tok rest : List UInt8) (htok : (0 : UInt8) ∉ tok) :
    Legacy.cStringAt (pre ++ (tok ++ 0 :: rest)) pre.length = tok := by
  unfold Legacy.cStringAt
  rw [List.drop_left]
  apply takeWhile_append_of_all
  · intro x hx
    have : x ≠ 0 := fun h => htok (h ▸ hx)
    simpa using this
  · simp

theorem signedDecimal_bytes (text : List UInt8) (h : IsSignedDecimal text) :
    text ≠ [] ∧ ∀ b ∈ text, b ≠ 32 ∧ b ≠ 10 ∧ b ≠ 0 := by
  have hdig : ∀ d : List UInt8, IsDecimal d → ∀ b ∈ d, b ≠ 32 ∧ b ≠ 10 ∧ b ≠ 0 := by
    intro d hd b hb
    have h1 := (isdigit_iff b).mp (hd.2 b hb)
    refine ⟨?_, ?_, ?_⟩ <;> intro hh <;> rw [hh] at h1 <;> exact absurd h1.1 (by decide)
  rcases h with h | ⟨d, (hd | hd), hdec⟩
  · exact ⟨h.1, hdig text h⟩
  · subst hd
    refine ⟨by simp, ?_⟩
    intro b hb
    rcases List.mem_cons.mp hb with hh | hh
    · subst hh; decide
    · exact hdig d hdec b hh
  · subst hd
    refine ⟨by simp, ?_⟩
    intro b hb
    rcases List.mem_cons.mp hb with hh | hh
    · subst hh; decide
    · exact hdig d hdec b hh

theorem wordOfLong_asLong (bits : Nat) (h : bits < 2 ^ 64) : wordOfLong (asLong bits) = bits := by
  unfold wordOfLong asLong
  by_cases hlt : bits < 2 ^ 63
  · rw [if_pos hlt, Int.emod_eq_of_lt (by omega) (by omega)]
    exact Int.toNat_ofNat bits
  · rw [if_neg hlt]
    have hm : ((bits : Int) - 2 ^ 64) % 2 ^ 64 = (bits : Int) := by
      rw [show (bits : Int) - 2 ^ 64 = (bits : Int) + (-1) * 2 ^ 64 by ring,
        Int.add_mul_emod_self]
      exact Int.emod_eq_of_lt (by omega) (by omega)
    rw [hm]
    exact Int.toNat_ofNat bits

theorem asLong_range (bits : Nat) (h : bits < 2 ^ 64) :
    -(2 ^ 63) ≤ asLong bits ∧ asLong bits < 2 ^ 63 := by
  unfold asLong
  by_cases hlt : bits < 2 ^ 63
  · rw [if_pos hlt]; omega
  · rw [if_neg hlt]; omega

/-- A line of four tokens, as `htSerializeToFile` writes a record with a
number as value: what `readRecord` reads from it, when the first token is the
length of the second. -/
theorem legacy_readRecord_tokens (libc : Libc) (junk : Nat) (K key T V : List UInt8)
    (hK : K ≠ [] ∧ ∀ b ∈ K, b ≠ 32 ∧ b ≠ 10 ∧ b ≠ 0)
    (hkey : key ≠ [] ∧ ∀ b ∈ key, b ≠ 32 ∧ b ≠ 10 ∧ b ≠ 0)
    (hT : T ≠ [] ∧ ∀ b ∈ T, b ≠ 32 ∧ b ≠ 10 ∧ b ≠ 0)
    (hV : V ≠ [] ∧ ∀ b ∈ V, b ≠ 32 ∧ b ≠ 10 ∧ b ≠ 0)
    (hlen : wordOfLong (Legacy.atol K) = key.length)
    (htype : Legacy.entryTypeOfInt (Legacy.atoi T) = some EntryType_t.UNSIGNED_INT ∨
      Legacy.entryTypeOfInt (Legacy.atoi T) = some EntryType_t.SIGNED_INT) :
    ∃ entryType : EntryType_t,
      Legacy.entryTypeOfInt (Legacy.atoi T) = some entryType ∧
      Legacy.readRecord libc junk (K ++ [32] ++ key ++ [32] ++ T ++ ([32] ++ V ++ [10])) =
        Except.ok (key, { entryType := entryType,
                          v := ValueUnion.word (wordOfLong (Legacy.atol V)) }) := by
  have z : ∀ (l : List UInt8), (∀ b ∈ l, b ≠ 32 ∧ b ≠ 10 ∧ b ≠ 0) → (0 : UInt8) ∉ l :=
    fun l hl h0 => (hl 0 h0).2.2 rfl
  have t32 : ∀ (l : List UInt8), (∀ b ∈ l, b ≠ 32 ∧ b ≠ 10 ∧ b ≠ 0) →
      ∀ b ∈ l, b ≠ 32 ∧ b ≠ 0 := fun l hl b hb => ⟨(hl b hb).1, (hl b hb).2.2⟩
  have t10 : ∀ (l : List UInt8), (∀ b ∈ l, b ≠ 32 ∧ b ≠ 10 ∧ b ≠ 0) →
      ∀ b ∈ l, b ≠ 10 ∧ b ≠ 0 := fun l hl b hb => ⟨(hl b hb).2.1, (hl b hb).2.2⟩
  -- the buffer before and after each `strtok` call
  have e1 := legacy_strtok_token 32 [] K (key ++ 32 :: (T ++ 32 :: (V ++ 10 :: [0]))) hK.1
    (t32 K hK.2) (by decide)
  have c1 := legacy_cStringAt_token [] K (key ++ 32 :: (T ++ 32 :: (V ++ 10 :: [0]))) (z K hK.2)
  have p1 : ([] : List UInt8).length + K.length + 1 = (K ++ [0]).length := by simp
  have e2 := legacy_strtok_token 32 (K ++ [0]) key (T ++ 32 :: (V ++ 10 :: [0])) hkey.1
    (t32 key hkey.2) (by decide)
  have p2 : (K ++ [0]).length + key.length + 1 = (K ++ [0] ++ key ++ [0]).length := by
    simp; omega
  have e3 := legacy_strtok_token 32 (K ++ [0] ++ key ++ [0]) T (V ++ 10 :: [0]) hT.1
    (t32 T hT.2) (by decide)
  have c3 := legacy_cStringAt_token (K ++ [0] ++ key ++ [0]) T (V ++ 10 :: [0]) (z T hT.2)
  have p3 : (K ++ [0] ++ key ++ [0]).length + T.length + 1 =
      (K ++ [0] ++ key ++ [0] ++ T ++ [0]).length := by simp; omega
  have e4 := legacy_strtok_token 10 (K ++ [0] ++ key ++ [0] ++ T ++ [0]) V [0] hV.1
    (t10 V hV.2) (by decide)
  have c4 := legacy_cStringAt_token (K ++ [0] ++ key ++ [0] ++ T ++ [0]) V [0] (z V hV.2)
  have hkeybytes : (((K ++ [0]) ++ (key ++ (0 :: (T ++ 0 :: (V ++ 0 :: [0]))))).drop
      (K ++ [0]).length).take key.length = key := by
    rw [List.drop_left, List.take_left]
  have hbound : (K ++ [0]).length + key.length ≤
      ((K ++ [0]) ++ (key ++ (0 :: (T ++ 0 :: (V ++ 0 :: [0]))))).length := by
    simp; omega
  rw [p1] at e1
  rw [p2] at e2
  rw [p3] at e3
  simp only [List.append_assoc, List.singleton_append, List.cons_append, List.nil_append,
    List.length_nil] at e1 c1 e2 e3 c3 e4 c4 hkeybytes hbound
  have hres : ∀ entryType : EntryType_t,
      (entryType = EntryType_t.UNSIGNED_INT ∨ entryType = EntryType_t.SIGNED_INT) →
      Legacy.entryTypeOfInt (Legacy.atoi T) = some entryType →
      Legacy.readRecord libc junk (K ++ [32] ++ key ++ [32] ++ T ++ ([32] ++ V ++ [10])) =
        Except.ok (key, { entryType := entryType,
                          v := ValueUnion.word (wordOfLong (Legacy.atol V)) }) := by
    intro entryType hcase hty
    unfold Legacy.readRecord
    simp only [List.append_assoc, List.singleton_append, List.cons_append, List.nil_append,
      List.length_nil]
    rw [e1]
    simp only [c1, hlen]
    rw [e2]
    simp only []
    rw [e3]
    simp only [c3]
    rw [e4]
    simp only [Legacy.readValue, hty, Legacy.keyBytes, c4, hbound, if_true, hkeybytes]
    rcases hcase with h | h <;> subst h <;> rfl
  rcases htype with h | h
  · exact ⟨_, h, hres _ (Or.inl rfl) h⟩
  · exact ⟨_, h, hres _ (Or.inr rfl) h⟩

/-! ## The legacy codec: records and lines -/

theorem legacy_getlines_cons (b : UInt8) (rest : List UInt8) :
    Legacy.getlines (b :: rest) =
      if b = 10 then [10] :: Legacy.getlines rest
      else
        match Legacy.getlines rest with
        | [] => [[b]]
        | line :: lines => (b :: line) :: lines := by
  rw [Legacy.getlines]

theorem legacy_getlines_record (body rest : List UInt8) (h : (10 : UInt8) ∉ body) :
    Legacy.getlines (body ++ 10 :: rest) = (body ++ [10]) :: Legacy.getlines rest := by
  induction body with
  | nil => simp [Legacy.getlines]
  | cons b bs ih =>
    have hb : b ≠ 10 := fun hb => h (hb ▸ List.mem_cons_self _ _)
    have hbs : (10 : UInt8) ∉ bs := fun hx => h (List.mem_cons_of_mem _ hx)
    have hih := ih hbs
    rw [List.cons_append, legacy_getlines_cons, if_neg hb, hih]
    rfl

/-- The record `htSerializeToFile` writes for an entry with a good key and an
integer value is one line, and `readRecord` reads the key and the value back
from it. -/
theorem legacy_record_roundtrip (libc : Libc) (junk : Nat) (e : HashtableEntry_t)
    (hkey : Legacy.GoodKey e.key) (hval : Legacy.IntValue e.htv) :
    ∃ body : List UInt8, Legacy.recordText libc e = some (body ++ [10]) ∧
      (10 : UInt8) ∉ body ∧
      Legacy.readRecord libc junk (body ++ [10]) = Except.ok (e.key, e.htv) := by
  obtain ⟨hne, hlen63, hbytes⟩ := hkey
  obtain ⟨bits, hbits, hv, hty⟩ := hval
  have hkl : asLong e.key.length = (e.key.length : Int) := by
    unfold asLong; rw [if_pos hlen63]
  have hK := printLong_spec (asLong e.key.length) (by rw [hkl]; omega) (by rw [hkl]; omega)
  have hV := printLong_spec (asLong bits) (asLong_range bits hbits).1 (asLong_range bits hbits).2
  have hKb := signedDecimal_bytes _ hK.1
  have hVb := signedDecimal_bytes _ hV.1
  have hT : printLong e.htv.entryType.toInt ≠ [] ∧
      (∀ b ∈ printLong e.htv.entryType.toInt, b ≠ 32 ∧ b ≠ 10 ∧ b ≠ 0) ∧
      Legacy.entryTypeOfInt (Legacy.atoi (printLong e.htv.entryType.toInt)) =
        some e.htv.entryType := by
    rcases hty with h | h <;> rw [h] <;> decide
  have hlenK : wordOfLong (Legacy.atol (printLong (asLong e.key.length))) = e.key.length := by
    unfold Legacy.atol
    rw [hK.2]
    exact wordOfLong_asLong _ (by omega)
  have hatolV : wordOfLong (Legacy.atol (printLong (asLong bits))) = bits := by
    unfold Legacy.atol
    rw [hV.2]
    exact wordOfLong_asLong _ hbits
  obtain ⟨entryType, het, hread⟩ := legacy_readRecord_tokens libc junk
    (printLong (asLong e.key.length)) e.key (printLong e.htv.entryType.toInt)
    (printLong (asLong bits)) hKb ⟨hne, hbytes⟩ ⟨hT.1, hT.2.1⟩ hVb hlenK
    (by rw [hT.2.2]; rcases hty with h | h <;> rw [h] <;> simp)
  have het2 : entryType = e.htv.entryType := by
    rw [hT.2.2] at het
    exact (Option.some.inj het).symm
  have hrec : Legacy.recordText libc e =
      some (printLong (asLong e.key.length) ++ [32] ++ e.key ++ [32] ++
        printLong e.htv.entryType.toInt ++ ([32] ++ printLong (asLong bits) ++ [10])) := by
    unfold Legacy.recordText Legacy.valueText
    rcases hty with h | h <;> simp [h, hv]
  refine ⟨printLong (asLong e.key.length) ++ [32] ++ e.key ++ [32] ++
    printLong e.htv.entryType.toInt ++ ([32] ++ printLong (asLong bits)), ?_, ?_, ?_⟩
  · rw [hrec]; simp
  · simp only [List.mem_append, List.mem_singleton, not_or]
    refine ⟨⟨⟨⟨⟨?_, by decide⟩, ?_⟩, by decide⟩, ?_⟩, by decide, ?_⟩
    · exact fun h => (hKb.2 10 h).2.1 rfl
    · exact fun h => (hbytes 10 h).2.1 rfl
    · exact fun h => (hT.2.1 10 h).2.1 rfl
    · exact fun h => (hVb.2 10 h).2.1 rfl
  · have hshape : printLong (asLong e.key.length) ++ [32] ++ e.key ++ [32] ++
        printLong e.htv.entryType.toInt ++ ([32] ++ printLong (asLong bits)) ++ [10] =
        printLong (asLong e.key.length) ++ [32] ++ e.key ++ [32] ++
        printLong e.htv.entryType.toInt ++ ([32] ++ printLong (asLong bits) ++ [10]) := by
      simp
    rw [hshape, hread, hatolV, het2, ← hv]

/-- The entries with a good key and an integer value are written as lines from
which the loop of `htDeserializeFromFile` adds the same keys and values, in
the same order. -/
theorem legacy_codec_entries (hash : Key → Nat) (libc : Libc) (junk : Nat)
    (es : List HashtableEntry_t)
    (hgood : ∀ e ∈ es, Legacy.GoodKey e.key ∧ Legacy.IntValue e.htv) :
    ∃ text : List UInt8, Legacy.writeEntries libc es = some text ∧
      ∀ (ht : Hashtable_t) (rest : List UInt8),
        Legacy.deserializeLines hash libc junk ht (Legacy.getlines (text ++ rest)) =
          Legacy.deserializeLines hash libc junk
            (htAddAll hash ht (es.map (fun e => (e.key, e.htv)))).2 (Legacy.getlines rest) := by
  induction es with
  | nil => exact ⟨[], rfl, fun ht rest => rfl⟩
  | cons e es ih =>
    obtain ⟨text, hw, hd⟩ := ih (fun x hx => hgood x (List.mem_cons_of_mem _ hx))
    obtain ⟨hk, hv⟩ := hgood e (List.mem_cons_self _ _)
    obtain ⟨body, hrec, h10, hread⟩ := legacy_record_roundtrip libc junk e hk hv
    refine ⟨body ++ [10] ++ text, ?_, ?_⟩
    · simp only [Legacy.writeEntries, hrec, hw]
    · intro ht rest
      have hshape : body ++ [10] ++ text ++ rest = body ++ 10 :: (text ++ rest) := by simp
      rw [hshape, legacy_getlines_record body _ h10]
      simp only [Legacy.deserializeLines, hread, List.map_cons, htAddAll, legacy_htAdd_eq]
      exact hd _ rest

/-! ## The legacy codec: a table written and read back -/

theorem range_flatMap_getD (T : List (List HashtableEntry_t)) :
    (List.range T.length).flatMap (fun i => T.getD i []) = T.flatten := by
  have h : (List.range T.length).map (fun i => T.getD i []) = T := by
    apply List.ext_getElem?
    intro i
    by_cases hi : i < T.length
    · simp [List.getElem?_map, List.getElem?_range hi, hi]
    · have h1 : T[i]? = none := List.getElem?_eq_none (by omega)
      have h2 : (List.range T.length)[i]? = none :=
        List.getElem?_eq_none (by simp; omega)
      simp [List.getElem?_map, h1, h2]
  rw [List.flatMap_def, h]

theorem legacy_htSerializeToFile_eq (libc : Libc) (ht : Hashtable_t)
    (hsize : ht.table.length = 2 ^ ht.exp) :
    Legacy.htSerializeToFile libc ht = Legacy.writeEntries libc (entries ht) := by
  unfold Legacy.htSerializeToFile entries
  rw [← hsize, range_flatMap_getD]

/-- Adds in sequence on the reference map: the first pair with a key
decides. -/
theorem refLookup_foldl_add (kvs : List (Key × HashtableValue_t)) :
    ∀ (m : RefMap) (key : Key),
      refLookup (kvs.foldl (fun m p => refInsertIfAbsent m p.1 p.2) m) key =
        match refLookup m key with
        | some v => some v
        | none => refLookup kvs key := by
  induction kvs with
  | nil =>
    intro m key
    simp only [List.foldl_nil]
    cases refLookup m key with
    | none => rfl
    | some v => rfl
  | cons p rest ih =>
    intro m key
    obtain ⟨k, v⟩ := p
    rw [List.foldl_cons, ih]
    simp only [refInsertIfAbsent]
    by_cases hk : refLookup m k = none
    · rw [if_pos hk, refLookup_cons, refLookup_cons]
      by_cases hkk : k = key
      · subst hkk
        simp [hk]
      · simp only [if_neg hkk]
    · rw [if_neg hk, refLookup_cons]
      by_cases hkk : k = key
      · subst hkk
        cases hm : refLookup m k with
        | none => exact absurd hm hk
        | some w => rfl
      · simp only [if_neg hkk]

theorem foldl_refStep_add (kvs : List (Key × HashtableValue_t)) (m : RefMap) :
    (kvs.map (fun p => Op.add p.1 p.2)).foldl refStep m =
      kvs.foldl (fun m p => refInsertIfAbsent m p.1 p.2) m := by
  induction kvs generalizing m with
  | nil => rfl
  | cons p rest ih =>
    simp only [List.map_cons, List.foldl_cons, refStep]
    exact ih _

/-- The table after `htAdd` of a list of keys with storable values on a fresh
table: it is well formed, and a lookup returns the value of the first pair
with the key. -/
theorem htAddAll_fresh_find (hash : Key → Nat) (kvs : List (Key × HashtableValue_t))
    (hst : ∀ p ∈ kvs, Storable p.2) :
    WF hash (htAddAll hash htCreateTable kvs).2 ∧
    ∀ key, htFind hash (htAddAll hash htCreateTable kvs).2 key = refFind kvs key := by
  have hops : ∀ op ∈ kvs.map (fun p => Op.add p.1 p.2), op.Storable := by
    intro op hop
    obtain ⟨p, hp, rfl⟩ := List.mem_map.mp hop
    exact hst p hp
  have h := Refines_runOps hash (kvs.map (fun p => Op.add p.1 p.2)) htCreateTable []
    (Refines_create hash) hops
  rw [← htAddAll_eq_runOps] at h
  refine ⟨h.wf, ?_⟩
  intro key
  rw [h.find key, foldl_refStep_add]
  unfold refFind
  rw [refLookup_foldl_add]
  simp [refLookup]

theorem storable_of_intValue (htv : HashtableValue_t) (h : Legacy.IntValue htv) :
    Storable htv := by
  obtain ⟨_, _, _, hty⟩ := h
  unfold Storable
  rcases hty with h | h <;> rw [h] <;> decide

/-- The lines written for a list of entries with good keys and integer values,
read into a fresh table. -/
theorem legacy_codec_fresh (hash : Key → Nat) (libc : Libc) (junk : Nat)
    (es : List HashtableEntry_t)
    (hgood : ∀ e ∈ es, Legacy.GoodKey e.key ∧ Legacy.IntValue e.htv) :
    ∃ file : List UInt8, Legacy.writeEntries libc es = some file ∧
      Legacy.htDeserializeFromFile hash libc junk htCreateTable file =
        Except.ok (htAddAll hash htCreateTable (es.map (fun e => (e.key, e.htv)))).2 := by
  obtain ⟨text, hw, hd⟩ := legacy_codec_entries hash libc junk es hgood
  refine ⟨text, hw, ?_⟩
  have h := hd htCreateTable []
  rw [List.append_nil] at h
  unfold Legacy.htDeserializeFromFile
  rw [h]
  rfl

theorem refLookup_of_mem_nodup (m : RefMap) (key : Key) (v : HashtableValue_t)
    (hnd : (m.map Prod.fst).Nodup) (h : (key, v) ∈ m) : refLookup m key = some v := by
  induction m with
  | nil => exact absurd h (List.not_mem_nil _)
  | cons p rest ih =>
    obtain ⟨k, w⟩ := p
    rw [refLookup_cons]
    simp only [List.map_cons, List.nodup_cons] at hnd
    rcases List.mem_cons.mp h with hh | hh
    · have h1 : key = k := (Prod.mk.inj hh).1
      have h2 : v = w := (Prod.mk.inj hh).2
      rw [if_pos h1.symm, h2]
    · have hne : k ≠ key := by
        intro hk
        exact hnd.1 (List.mem_map.mpr ⟨(key, v), hh, hk.symm⟩)
      rw [if_neg hne]
      exact ih hnd.2 hh

/-- The pairs of a well-formed table, as a reference map: a lookup in it is
the lookup in the table. -/
theorem refFind_entries (hash : Key → Nat) (ht : Hashtable_t) (hwf : WF hash ht) (key : Key) :
    refFind ((entries ht).map (fun e => (e.key, e.htv))) key = htFind hash ht key := by
  have hkeys : ((entries ht).map (fun e => (e.key, e.htv))).map Prod.fst =
      (entries ht).map (fun e => e.key) := by
    rw [List.map_map]; rfl
  by_cases hp : Present ht key
  · obtain ⟨e, he, hk⟩ := hp
    have hmem : (key, e.htv) ∈ (entries ht).map (fun e => (e.key, e.htv)) :=
      List.mem_map.mpr ⟨e, he, by rw [hk]⟩
    unfold refFind
    rw [refLookup_of_mem_nodup _ key e.htv (by rw [hkeys]; exact hwf.nodup) hmem, ← hk,
      htFind_of_mem hash ht e hwf he]
  · have hnone : refLookup ((entries ht).map (fun e => (e.key, e.htv))) key = none := by
      rw [refLookup_eq_none_iff, hkeys]
      intro hmem
      obtain ⟨e, he, hk⟩ := List.mem_map.mp hmem
      exact hp ⟨e, he, hk⟩
    unfold refFind
    rw [hnone, htFind_of_absent hash ht key hp]

/-! ## The contract of the legacy codec -/

/-- In the legacy codec, for every well-formed table whose keys are
non-empty byte strings without space, newline or NUL and whose values are
`SIGNED_INT`, `htDeserializeFromFile` on the text `htSerializeToFile` writes,
into a fresh table, gives a table with the same `len` in which `htFind`
returns for every key what it returns in the original. -/
theorem legacy_codec_roundtrip (hash : Key → Nat) (libc : Libc) (junk : Nat)
    (ht : Hashtable_t) (hwf : WF hash ht)
    (hkeys : ∀ e ∈ entries ht, Legacy.GoodKey e.key)
    (hvals : ∀ e ∈ entries ht, e.htv.entryType = EntryType_t.SIGNED_INT ∧
      ∃ bits : Nat, bits < 2 ^ 64 ∧ e.htv.v = ValueUnion.word bits) :
    ∃ (file : List UInt8) (ht2 : Hashtable_t),
      Legacy.htSerializeToFile libc ht = some file ∧
      Legacy.htDeserializeFromFile hash libc junk htCreateTable file = Except.ok ht2 ∧
      ht2.len = ht.len ∧
      ∀ key, htFind hash ht2 key = htFind hash ht key := by
  have hgood : ∀ e ∈ entries ht, Legacy.GoodKey e.key ∧ Legacy.IntValue e.htv := by
    intro e he
    obtain ⟨hty, bits, hb, hv⟩ := hvals e he
    exact ⟨hkeys e he, bits, hb, hv, Or.inr hty⟩
  obtain ⟨file, hw, hd⟩ := legacy_codec_fresh hash libc junk (entries ht) hgood
  have hst : ∀ p ∈ (entries ht).map (fun e => (e.key, e.htv)), Storable p.2 := by
    intro p hp
    obtain ⟨e, he, rfl⟩ := List.mem_map.mp hp
    exact storable_of_intValue _ (hgood e he).2
  have hkeymap : ((entries ht).map (fun e => (e.key, e.htv))).map Prod.fst =
      (entries ht).map (fun e => e.key) := by
    rw [List.map_map]; rfl
  have hall := htAddAll_distinct hash ((entries ht).map (fun e => (e.key, e.htv))) htCreateTable
    (htCreateTable_WF hash) (fun p _ => not_present_htCreateTable p.1)
    (by rw [hkeymap]; exact hwf.nodup) hst
  refine ⟨file, _, ?_, hd, ?_, ?_⟩
  · rw [legacy_htSerializeToFile_eq libc ht hwf.size, hw]
  · rw [hall.2.1, List.length_map, hwf.count]
    show 0 + (entries ht).length = (entries ht).length
    omega
  · intro key
    rw [(htAddAll_fresh_find hash _ hst).2 key, refFind_entries hash ht hwf key]

/-- C33, as the legacy code has it: a key with a NUL byte, which holds no
whitespace and no newline, is not read back.  For the table that holds the
two-byte key `A`, NUL with the value 10, `htSerializeToFile` writes the record
`2 A<NUL> 2 10`; on it the second `strtok` call of `htDeserializeFromFile`
ends the key at the NUL byte, the third returns `NULL`, and `atoi` is called
on the `NULL` pointer. -/
theorem C33_legacy_codec_nul_key (hash : Key → Nat) (libc : Libc) (junk : Nat) :
    htFind hash (Legacy.htAdd hash htCreateTable [65, 0] (sampleInt 10)).2 [65, 0] =
      sampleInt 10 ∧
    Legacy.htSerializeToFile libc (Legacy.htAdd hash htCreateTable [65, 0] (sampleInt 10)).2 =
      some [50, 32, 65, 0, 32, 50, 32, 49, 48, 10] ∧
    Legacy.htDeserializeFromFile hash libc junk htCreateTable
      [50, 32, 65, 0, 32, 50, 32, 49, 48, 10] = Except.error Legacy.Fault.nullPointer := by
  have hwf0 := htCreateTable_WF hash
  have habs := not_present_htCreateTable [65, 0]
  have hst : Storable (sampleInt 10) := by decide
  have hwf1 : WF hash (Legacy.htAdd hash htCreateTable [65, 0] (sampleInt 10)).2 := by
    rw [legacy_htAdd_eq]
    exact htAdd_absent_WF hash htCreateTable [65, 0] (sampleInt 10) hwf0 habs hst
  have hent : entries (Legacy.htAdd hash htCreateTable [65, 0] (sampleInt 10)).2 =
      [{ key := [65, 0], htv := sampleInt 10 }] := by
    have hperm := (htAdd_miss hash htCreateTable [65, 0] (sampleInt 10) hwf0.size
      (htFind_type_of_absent hash htCreateTable [65, 0] habs)).2.2.2.2.2.1
    rw [← legacy_htAdd_eq] at hperm
    have h0 : entries htCreateTable = [] := by decide
    rw [h0] at hperm
    exact List.perm_singleton.mp hperm
  refine ⟨?_, ?_, ?_⟩
  · rw [legacy_htAdd_eq, htFind_htAdd_absent hash htCreateTable [65, 0] (sampleInt 10) hwf0 habs
      hst [65, 0], if_pos rfl]
  · rw [legacy_htSerializeToFile_eq libc _ hwf1.size, hent]
    rfl
  · rfl

/-- C34: in the legacy codec, when the stream holds the records of a list of
entries with good keys and integer values, several of them with the same key
or not, `htDeserializeFromFile` into a fresh table gives a table that holds
every key of the stream once, with the value of the first record for the key;
and a further record for a key of the stream changes nothing. -/
theorem C34_legacy_duplicate_records (hash : Key → Nat) (libc : Libc) (junk : Nat)
    (es : List HashtableEntry_t)
    (hgood : ∀ e ∈ es, Legacy.GoodKey e.key ∧ Legacy.IntValue e.htv) :
    ∃ (file : List UInt8) (ht2 : Hashtable_t),
      Legacy.writeEntries libc es = some file ∧
      Legacy.htDeserializeFromFile hash libc junk htCreateTable file = Except.ok ht2 ∧
      (∀ key, htFind hash ht2 key = refFind (es.map (fun e => (e.key, e.htv))) key) ∧
      ((entries ht2).map (fun e => e.key)).Nodup ∧
      (∀ key, Present ht2 key ↔ key ∈ es.map (fun e => e.key)) ∧
      (∀ e : HashtableEntry_t, Legacy.GoodKey e.key → Legacy.IntValue e.htv →
        e.key ∈ es.map (fun e => e.key) →
        ∃ file2 : List UInt8, Legacy.writeEntries libc (es ++ [e]) = some file2 ∧
          Legacy.htDeserializeFromFile hash libc junk htCreateTable file2 = Except.ok ht2) := by
  obtain ⟨file, hw, hd⟩ := legacy_codec_fresh hash libc junk es hgood
  have hst : ∀ p ∈ es.map (fun e => (e.key, e.htv)), Storable p.2 := by
    intro p hp
    obtain ⟨e, he, rfl⟩ := List.mem_map.mp hp
    exact storable_of_intValue _ (hgood e he).2
  obtain ⟨hwf2, hfind⟩ := htAddAll_fresh_find hash (es.map (fun e => (e.key, e.htv))) hst
  have hkeymap : (es.map (fun e => (e.key, e.htv))).map Prod.fst = es.map (fun e => e.key) := by
    rw [List.map_map]; rfl
  have hpres : ∀ key, Present (htAddAll hash htCreateTable (es.map (fun e => (e.key, e.htv)))).2
      key ↔ key ∈ es.map (fun e => e.key) := by
    intro key
    rw [present_iff_htFind hash _ key hwf2, hfind key, ← hkeymap]
    unfold refFind
    cases hl : refLookup (es.map (fun e => (e.key, e.htv))) key with
    | none =>
      have := (refLookup_eq_none_iff _ key).mp hl
      simp only [noneValue, ne_eq, not_true_eq_false, false_iff]
      exact this
    | some v =>
      have hmem := refLookup_mem _ key v hl
      have hsv := hst (key, v) hmem
      have hin : key ∈ (es.map (fun e => (e.key, e.htv))).map Prod.fst :=
        List.mem_map.mpr ⟨(key, v), hmem, rfl⟩
      exact ⟨fun _ => hin, fun _ => hsv⟩
  refine ⟨file, _, hw, hd, hfind, hwf2.nodup, hpres, ?_⟩
  intro e hk hv hmem
  have hgood2 : ∀ x ∈ es ++ [e], Legacy.GoodKey x.key ∧ Legacy.IntValue x.htv := by
    intro x hx
    rcases List.mem_append.mp hx with h | h
    · exact hgood x h
    · rw [List.mem_singleton.mp h]; exact ⟨hk, hv⟩
  obtain ⟨file2, hw2, hd2⟩ := legacy_codec_fresh hash libc junk (es ++ [e]) hgood2
  refine ⟨file2, hw2, ?_⟩
  rw [hd2]
  have hrun : (htAddAll hash htCreateTable ((es ++ [e]).map (fun e => (e.key, e.htv)))).2 =
      (htAdd hash (htAddAll hash htCreateTable (es.map (fun e => (e.key, e.htv)))).2
        e.key e.htv).2 := by
    rw [htAddAll_eq_runOps, htAddAll_eq_runOps, List.map_append, List.map_append, runOps_append]
    rfl
  rw [hrun, htAdd_present hash _ e.key e.htv hwf2 ((hpres e.key).mpr hmem)]

/-- C34 on the stream of three records `1 → 10`, `2 → 20`, `1 → 30`: the key
`1` is read back with the value 10. -/
theorem C34_witness :
    (∃ (file : List UInt8) (ht2 : Hashtable_t),
      Legacy.writeEntries sampleLibc duplicateRecords = some file ∧
      Legacy.htDeserializeFromFile sampleHash sampleLibc 0 htCreateTable file = Except.ok ht2 ∧
      (∀ key, htFind sampleHash ht2 key =
        refFind (duplicateRecords.map (fun e => (e.key, e.htv))) key) ∧
      ((entries ht2).map (fun e => e.key)).Nodup ∧
      (∀ key, Present ht2 key ↔ key ∈ duplicateRecords.map (fun e => e.key)) ∧
      (∀ e : HashtableEntry_t, Legacy.GoodKey e.key → Legacy.IntValue e.htv →
        e.key ∈ duplicateRecords.map (fun e => e.key) →
        ∃ file2 : List UInt8, Legacy.writeEntries sampleLibc (duplicateRecords ++ [e]) =
            some file2 ∧
          Legacy.htDeserializeFromFile sampleHash sampleLibc 0 htCreateTable file2 =
            Except.ok ht2)) ∧
    refFind (duplicateRecords.map (fun e => (e.key, e.htv))) [49] = sampleInt 10 ∧
    Legacy.writeEntries sampleLibc duplicateRecords = some (ascii "1 1 2 10\n1 2 2 20\n1 1 2 30\n") :=
  ⟨C34_legacy_duplicate_records sampleHash sampleLibc 0 duplicateRecords
    (by
      intro e he
      have h : e = { key := [49], htv := sampleInt 10 } ∨
          e = { key := [50], htv := sampleInt 20 } ∨
          e = { key := [49], htv := sampleInt 30 } := by
        simpa [duplicateRecords] using he
      rcases h with h | h | h
      · subst h; exact ⟨by decide, 10, by decide, rfl, Or.inr rfl⟩
      · subst h; exact ⟨by decide, 20, by decide, rfl, Or.inr rfl⟩
      · subst h; exact ⟨by decide, 30, by decide, rfl, Or.inr rfl⟩),
    by decide, by decide⟩

/-! ## The string copy writes one byte past its buffer -/

theorem mallocStrcpy_none (chars : List UInt8) : mallocStrcpy chars = none := by
  simp [mallocStrcpy]

theorem heap_storeValue_string (htv : HashtableValue_t)
    (h : htv.entryType = EntryType_t.STRING) : Heap.storeValue htv = none := by
  unfold Heap.storeValue
  rw [if_pos h]
  cases htv.v with
  | word bits => rfl
  | val chars => simp [mallocStrcpy_none]

theorem heap_storeValue_other (htv : HashtableValue_t)
    (h : htv.entryType ≠ EntryType_t.STRING) : Heap.storeValue htv = some htv := by
  unfold Heap.storeValue
  rw [if_neg h]

theorem heap_htAdd_hit (hash : Key → Nat) (ht : Hashtable_t) (key : Key) (htv : HashtableValue_t)
    (h : (htFind hash ht key).entryType ≠ EntryType_t.NONE) :
    Heap.htAdd hash ht key htv = some (htAdd hash ht key htv) := by
  unfold Heap.htAdd htAdd
  rw [if_pos h, if_pos h]

theorem heap_htAdd_string (hash : Key → Nat) (ht : Hashtable_t) (key : Key)
    (htv : HashtableValue_t) (hmiss : (htFind hash ht key).entryType = EntryType_t.NONE)
    (h : htv.entryType = EntryType_t.STRING) : Heap.htAdd hash ht key htv = none := by
  unfold Heap.htAdd
  rw [if_neg (by rw [hmiss]; simp)]
  simp only [heap_storeValue_string htv h]

theorem heap_htAdd_other (hash : Key → Nat) (ht : Hashtable_t) (key : Key)
    (htv : HashtableValue_t) (h : htv.entryType ≠ EntryType_t.STRING) :
    Heap.htAdd hash ht key htv = some (htAdd hash ht key htv) := by
  unfold Heap.htAdd htAdd
  split_ifs
  · rfl
  · simp [heap_storeValue_other htv h, storeValue_eq]
  · simp [heap_storeValue_other htv h, storeValue_eq]

theorem heap_htAdd_some (hash : Key → Nat) (ht : Hashtable_t) (key : Key)
    (htv : HashtableValue_t) (r : Int × Hashtable_t) (h : Heap.htAdd hash ht key htv = some r) :
    r = htAdd hash ht key htv := by
  by_cases hhit : (htFind hash ht key).entryType ≠ EntryType_t.NONE
  · rw [heap_htAdd_hit hash ht key htv hhit] at h
    exact (Option.some.inj h).symm
  · by_cases hs : htv.entryType = EntryType_t.STRING
    · rw [heap_htAdd_string hash ht key htv (by simpa using hhit) hs] at h
      cases h
    · rw [heap_htAdd_other hash ht key htv hs] at h
      exact (Option.some.inj h).symm

theorem heap_htReplace_string (hash : Key → Nat) (ht : Hashtable_t) (key : Key)
    (htv : HashtableValue_t) (h : htv.entryType = EntryType_t.STRING) :
    Heap.htReplace hash ht key htv = none := by
  unfold Heap.htReplace
  cases hf : htFindEntry hash ht key with
  | none =>
    have hmiss : (htFind hash ht key).entryType = EntryType_t.NONE := by
      unfold htFind
      rw [hf]
      rfl
    simp only [heap_htAdd_string hash ht key htv hmiss h, Option.map_none']
  | some found =>
    obtain ⟨idx, pos, hte⟩ := found
    simp only [heap_storeValue_string htv h]

theorem heap_htReplace_other (hash : Key → Nat) (ht : Hashtable_t) (key : Key)
    (htv : HashtableValue_t) (h : htv.entryType ≠ EntryType_t.STRING) :
    Heap.htReplace hash ht key htv = some (htReplace hash ht key htv) := by
  unfold Heap.htReplace htReplace
  cases hf : htFindEntry hash ht key with
  | none =>
    simp only [heap_htAdd_other hash ht key htv h, Option.map_some']
  | some found =>
    obtain ⟨idx, pos, hte⟩ := found
    simp only [heap_storeValue_other htv h, storeValue_eq]

theorem heap_htReplace_some (hash : Key → Nat) (ht : Hashtable_t) (key : Key)
    (htv : HashtableValue_t) (r : Int × Hashtable_t) (h : Heap.htReplace hash ht key htv = some r) :
    r = htReplace hash ht key htv := by
  by_cases hs : htv.entryType = EntryType_t.STRING
  · rw [heap_htReplace_string hash ht key htv hs] at h
    cases h
  · rw [heap_htReplace_other hash ht key htv hs] at h
    exact (Option.some.inj h).symm

theorem heap_runOp_some (hash : Key → Nat) (ht ht1 : Hashtable_t) (op : Op)
    (h : Heap.runOp hash ht op = some ht1) : op.run hash ht = ht1 := by
  cases op with
  | add key htv =>
    simp only [Heap.runOp] at h
    cases hr : Heap.htAdd hash ht key htv with
    | none => rw [hr] at h; cases h
    | some r =>
      rw [hr] at h
      simp only [Option.map_some', Option.some.injEq] at h
      rw [← h, heap_htAdd_some hash ht key htv r hr]
      rfl
  | remove key =>
    simp only [Heap.runOp] at h
    exact Option.some.inj h
  | replace key htv =>
    simp only [Heap.runOp] at h
    cases hr : Heap.htReplace hash ht key htv with
    | none => rw [hr] at h; cases h
    | some r =>
      rw [hr] at h
      simp only [Option.map_some', Option.some.injEq] at h
      rw [← h, heap_htReplace_some hash ht key htv r hr]
      rfl

theorem heap_runOp_other (hash : Key → Nat) (ht : Hashtable_t) (op : Op)
    (h : ¬ op.HasString) : Heap.runOp hash ht op = some (op.run hash ht) := by
  cases op with
  | add key htv =>
    simp only [Heap.runOp]
    rw [heap_htAdd_other hash ht key htv h]
    rfl
  | remove key => rfl
  | replace key htv =>
    simp only [Heap.runOp]
    rw [heap_htReplace_other hash ht key htv h]
    rfl

theorem heap_runOps_some (hash : Key → Nat) (ops : List Op) :
    ∀ (ht ht1 : Hashtable_t), Heap.runOps hash ht ops = some ht1 → runOps hash ht ops = ht1 := by
  induction ops with
  | nil =>
    intro ht ht1 h
    exact Option.some.inj h
  | cons op rest ih =>
    intro ht ht1 h
    unfold Heap.runOps at h
    cases hr : Heap.runOp hash ht op with
    | none => rw [hr] at h; cases h
    | some ht2 =>
      rw [hr] at h
      simp only [Option.some_bind] at h
      have h2 := heap_runOp_some hash ht ht2 op hr
      show runOps hash (op.run hash ht) rest = ht1
      rw [h2]
      exact ih ht2 ht1 h

theorem heap_runOps_other (hash : Key → Nat) (ops : List Op) :
    ∀ (ht : Hashtable_t), (∀ op ∈ ops, ¬ op.HasString) →
      Heap.runOps hash ht ops = some (runOps hash ht ops) := by
  induction ops with
  | nil => intro ht _; rfl
  | cons op rest ih =>
    intro ht h
    unfold Heap.runOps
    rw [heap_runOp_other hash ht op (h op (List.mem_cons_self _ _))]
    simp only [Option.some_bind]
    exact ih _ (fun o ho => h o (List.mem_cons_of_mem _ ho))

theorem heap_reachable_reachable {hash : Key → Nat} {ht : Hashtable_t}
    (h : Heap.Reachable hash ht) : Reachable hash ht := by
  obtain ⟨ops, hst, hrun⟩ := h
  exact ⟨ops, hst, heap_runOps_some hash ops _ _ hrun⟩

/-- A sequence of calls whose first call adds a string has no result. -/
theorem heap_runOps_string_first (hash : Key → Nat) (key : Key) (htv : HashtableValue_t)
    (ops : List Op) (h : htv.entryType = EntryType_t.STRING) :
    Heap.runOps hash htCreateTable (Op.add key htv :: ops) = none := by
  simp only [Heap.runOps, Heap.runOp]
  rw [heap_htAdd_string hash htCreateTable key htv
    (htFind_type_of_absent hash htCreateTable key (not_present_htCreateTable key)) h]
  rfl

theorem sampleTable_heap_reachable : Heap.Reachable sampleHash sampleTable :=
  ⟨[Op.add [1] (sampleInt 10)], by decide, by decide⟩

/-! ## The contract of the hash table, with the string copy on the heap -/

theorem heap_reachable_create (hash : Key → Nat) : Heap.Reachable hash htCreateTable :=
  ⟨[], by simp, rfl⟩

theorem heap_reachable_wf {hash : Key → Nat} {ht : Hashtable_t} (h : Heap.Reachable hash ht) :
    WF hash ht :=
  Reachable_wf (heap_reachable_reachable h)

theorem distinctPairs_table_spec (hash : Key → Nat) (n : Nat) (hn : n ≤ 32) :
    Heap.Reachable hash (htAddAll hash htCreateTable (distinctPairs n)).2 ∧
    (htAddAll hash htCreateTable (distinctPairs n)).2.len = n ∧
    (htAddAll hash htCreateTable (distinctPairs n)).2.exp = 5 ∧
    ¬ Present (htAddAll hash htCreateTable (distinctPairs n)).2 [UInt8.ofNat n] := by
  have hnd := distinctPairs_keys_nodup n (by omega)
  have hst := distinctPairs_storable n
  obtain ⟨_, h2, h3, _, h5⟩ := htAddAll_distinct hash (distinctPairs n) htCreateTable
    (htCreateTable_WF hash) (fun p _ => not_present_htCreateTable p.1) hnd hst
  refine ⟨?_, ?_, ?_, ?_⟩
  · refine ⟨(distinctPairs n).map (fun p => Op.add p.1 p.2), ?_, ?_⟩
    · intro op hop
      obtain ⟨p, hp, hpe⟩ := List.mem_map.mp hop
      rw [← hpe]
      exact hst p hp
    · rw [heap_runOps_other, htAddAll_eq_runOps]
      intro op hop
      obtain ⟨p, hp, hpe⟩ := List.mem_map.mp hop
      obtain ⟨i, _, hi⟩ := List.mem_map.mp hp
      rw [← hpe, ← hi]
      simp [Op.HasString, sampleInt]
  · rw [h2, distinctPairs_length]
    show 0 + n = n
    omega
  · have h3b := h3 (by
      rw [distinctPairs_length]
      show 0 + n ≤ 2 ^ 5
      omega)
    rw [h3b]; rfl
  · intro hp
    rcases (h5 [UInt8.ofNat n]).mp hp with h | h
    · exact not_mem_distinctPairs_keys n n (Nat.le_refl _) (by omega) h
    · exact not_present_htCreateTable _ h

theorem table32_spec (hash : Key → Nat) :
    Heap.Reachable hash (table32 hash) ∧ (table32 hash).len = 32 ∧ (table32 hash).exp = 5 ∧
    ¬ Present (table32 hash) [32] := by
  have h := distinctPairs_table_spec hash 32 (Nat.le_refl 32)
  have hk : ([UInt8.ofNat 32] : Key) = [32] := by decide
  rw [hk] at h
  unfold table32
  exact h

theorem table31_heap_spec (hash : Key → Nat) :
    Heap.Reachable hash (table31 hash) ∧ (table31 hash).len = 31 ∧ (table31 hash).exp = 5 ∧
    ¬ Present (table31 hash) [31] := by
  have h := distinctPairs_table_spec hash 31 (by omega)
  have hk : ([UInt8.ofNat 31] : Key) = [31] := by decide
  rw [hk] at h
  unfold table31
  exact h

theorem sampleChainTable_heap_reachable : Heap.Reachable sampleHash sampleChainTable :=
  ⟨[Op.add [1] (sampleInt 10), Op.add [2] (sampleInt 20)], by decide, by decide⟩

/-- C1: a sequence of calls whose first call is the `htAdd` of a `STRING`
value has no result, whatever the key, the string and the calls that follow:
the copy of the string writes its terminator past the end of the buffer.
After every sequence of calls with values of the three other storable types on
a table from `htCreateTable`, and for every key, `htFind` returns the value
the reference finite map (add = insert-if-absent, remove = erase, replace =
insert-or-overwrite) holds for the key, or the `NONE` sentinel when the map
holds none, and `len` is the size of that map. -/
theorem C1_htFind_refines_unless_string (hash : Key → Nat) :
    (∀ (key : Key) (htv : HashtableValue_t) (ops : List Op),
      htv.entryType = EntryType_t.STRING →
        Heap.runOps hash htCreateTable (Op.add key htv :: ops) = none) ∧
    (∀ ops : List Op, (∀ op ∈ ops, op.Storable) → (∀ op ∈ ops, ¬ op.HasString) →
      ∃ ht : Hashtable_t, Heap.runOps hash htCreateTable ops = some ht ∧
        (∀ key, htFind hash ht key = refFind (refRun ops) key) ∧
        ht.len = refSize (refRun ops)) := by
  constructor
  · intro key htv ops hs
    exact heap_runOps_string_first hash key htv ops hs
  · intro ops hst hns
    refine ⟨runOps hash htCreateTable ops, heap_runOps_other hash ops htCreateTable hns, ?_, ?_⟩
    · intro key
      exact (htFind_refines_reference_map hash ops hst key).1
    · exact (htFind_refines_reference_map hash ops hst []).2

/-- C1 at the add of a string of 24 characters followed by the add of another
key, and at the sample sequence of calls without strings. -/
theorem C1_witness :
    Heap.runOps sampleHash htCreateTable
      (Op.add [1] sampleString24 :: [Op.add [2] (sampleInt 20)]) = none ∧
    ∃ ht : Hashtable_t, Heap.runOps sampleHash htCreateTable sampleNumericOps = some ht ∧
      (∀ key, htFind sampleHash ht key = refFind (refRun sampleNumericOps) key) ∧
      ht.len = refSize (refRun sampleNumericOps) :=
  ⟨(C1_htFind_refines_unless_string sampleHash).1 [1] sampleString24
      [Op.add [2] (sampleInt 20)] rfl,
    (C1_htFind_refines_unless_string sampleHash).2 sampleNumericOps (by decide) (by decide)⟩

/-- C2: on a table reached without a write outside a buffer, `htAdd` of a key
that is not present has no result when the value is a `STRING` (the copy
writes past the end of its buffer); with a value of another storable type it
returns 0, increases `len` by exactly 1, and `htFind` of the key then returns
that value. -/
theorem C2_htAdd_absent_key_by_type (hash : Key → Nat) (ht : Hashtable_t) (key : Key)
    (htv : HashtableValue_t) (hr : Heap.Reachable hash ht) (hp : ¬ Present ht key)
    (hst : Storable htv) :
    (htv.entryType = EntryType_t.STRING → Heap.htAdd hash ht key htv = none) ∧
    (htv.entryType ≠ EntryType_t.STRING →
      ∃ ht1 : Hashtable_t, Heap.htAdd hash ht key htv = some (0, ht1) ∧
        ht1.len = ht.len + 1 ∧ htFind hash ht1 key = htv) := by
  constructor
  · intro hs
    exact heap_htAdd_string hash ht key htv (htFind_type_of_absent hash ht key hp) hs
  · intro hns
    obtain ⟨h1, h2, h3⟩ :=
      (htAdd_absent_key hash).1 ht key htv (heap_reachable_reachable hr) hp hst
    refine ⟨(htAdd hash ht key htv).2, ?_, h2, h3⟩
    rw [heap_htAdd_other hash ht key htv hns, ← h1]

/-- C2 at the sample table and the absent one-byte key `2`: the add of a
string of 24 characters has no result, and the add of a `SIGNED_INT` returns 0
with one entry more and the value found under the key. -/
theorem C2_witness :
    Heap.htAdd sampleHash sampleTable [2] sampleString24 = none ∧
    ∃ ht1 : Hashtable_t, Heap.htAdd sampleHash sampleTable [2] (sampleInt 20) = some (0, ht1) ∧
      ht1.len = sampleTable.len + 1 ∧ htFind sampleHash ht1 [2] = sampleInt 20 :=
  ⟨(C2_htAdd_absent_key_by_type sampleHash sampleTable [2] sampleString24
      sampleTable_heap_reachable (by decide) (by decide)).1 rfl,
    (C2_htAdd_absent_key_by_type sampleHash sampleTable [2] (sampleInt 20)
      sampleTable_heap_reachable (by decide) (by decide)).2 (by decide)⟩

/-- C4: the sequence `htAdd` of a `STRING`, `htAdd` of a second key, `htRemove`
of that key has no result, the copy of the string having written past the end
of its buffer.  On a table reached without such a write, `htRemove` of a
present key returns 0, decreases `len` by exactly 1, and `htFind` of the key
then returns the `NONE` sentinel with a zero payload. -/
theorem C4_htRemove_present_key_on_heap (hash : Key → Nat) :
    (∀ (key key2 : Key) (htv htv2 : HashtableValue_t), htv.entryType = EntryType_t.STRING →
      Heap.runOps hash htCreateTable [Op.add key htv, Op.add key2 htv2, Op.remove key2] = none) ∧
    (∀ (ht : Hashtable_t) (key : Key), Heap.Reachable hash ht → Present ht key →
      (htRemove hash ht key).1 = 0 ∧
      (htRemove hash ht key).2.len + 1 = ht.len ∧
      htFind hash (htRemove hash ht key).2 key =
        { entryType := EntryType_t.NONE, v := ValueUnion.word 0 }) := by
  constructor
  · intro key key2 htv htv2 hs
    exact heap_runOps_string_first hash key htv _ hs
  · intro ht key hr hp
    exact htRemove_present_key hash ht key (heap_reachable_reachable hr) hp

/-- C4 at the add of a string of 24 characters, and at the sample table and
its key. -/
theorem C4_witness :
    Heap.runOps sampleHash htCreateTable
      [Op.add [1] sampleString24, Op.add [2] (sampleInt 20), Op.remove [2]] = none ∧
    (htRemove sampleHash sampleTable [1]).1 = 0 ∧
    (htRemove sampleHash sampleTable [1]).2.len + 1 = sampleTable.len ∧
    htFind sampleHash (htRemove sampleHash sampleTable [1]).2 [1] =
      { entryType := EntryType_t.NONE, v := ValueUnion.word 0 } :=
  ⟨(C4_htRemove_present_key_on_heap sampleHash).1 [1] [2] sampleString24 (sampleInt 20) rfl,
    (C4_htRemove_present_key_on_heap sampleHash).2 sampleTable [1] sampleTable_heap_reachable
      (by decide)⟩

/-- C6: on a table reached without a write outside a buffer, `htReplace` of a
present key has no result when the value is a `STRING` (the copy writes past
the end of its buffer); with a value of another storable type, the stored one
or another, it returns 0, leaves `len` and `exp` unchanged, and `htFind` of
the key then returns the new value. -/
theorem C6_htReplace_present_key_by_type (hash : Key → Nat) (ht : Hashtable_t) (key : Key)
    (htv : HashtableValue_t) (hr : Heap.Reachable hash ht) (hp : Present ht key)
    (hst : Storable htv) :
    (htv.entryType = EntryType_t.STRING → Heap.htReplace hash ht key htv = none) ∧
    (htv.entryType ≠ EntryType_t.STRING →
      ∃ ht1 : Hashtable_t, Heap.htReplace hash ht key htv = some (0, ht1) ∧
        ht1.len = ht.len ∧ ht1.exp = ht.exp ∧ htFind hash ht1 key = htv) := by
  constructor
  · intro hs
    exact heap_htReplace_string hash ht key htv hs
  · intro hns
    obtain ⟨h1, h2, h3, h4⟩ :=
      htReplace_present_key hash ht key htv (heap_reachable_reachable hr) hp hst
    refine ⟨(htReplace hash ht key htv).2, ?_, h2, h3, h4⟩
    rw [heap_htReplace_other hash ht key htv hns, ← h1]

/-- C6 at the sample table and its key: the replace by a string of 24
characters has no result, and the replace of the `SIGNED_INT` by a `DOUBLE`
returns 0 with `len` and `exp` as before and the new value under the key. -/
theorem C6_witness :
    Heap.htReplace sampleHash sampleTable [1] sampleString24 = none ∧
    ∃ ht1 : Hashtable_t,
      Heap.htReplace sampleHash sampleTable [1]
        { entryType := EntryType_t.DOUBLE, v := ValueUnion.word 7 } = some (0, ht1) ∧
      ht1.len = sampleTable.len ∧ ht1.exp = sampleTable.exp ∧
      htFind sampleHash ht1 [1] = { entryType := EntryType_t.DOUBLE, v := ValueUnion.word 7 } :=
  ⟨(C6_htReplace_present_key_by_type sampleHash sampleTable [1] sampleString24
      sampleTable_heap_reachable (by decide) (by decide)).1 rfl,
    (C6_htReplace_present_key_by_type sampleHash sampleTable [1]
      { entryType := EntryType_t.DOUBLE, v := ValueUnion.word 7 }
      sampleTable_heap_reachable (by decide) (by decide)).2 (by decide)⟩

/-- C7: on a table reached without a write outside a buffer, `htReplace` of a
key that is not present has no result when the value is a `STRING`, as
`htAdd` has none; with a value of another storable type it returns 0 and
produces the very table `htAdd` produces (same buckets, `len` and `exp`), and
`htFind` of the key then returns the value. -/
theorem C7_htReplace_absent_key_by_type (hash : Key → Nat) (ht : Hashtable_t) (key : Key)
    (htv : HashtableValue_t) (hr : Heap.Reachable hash ht) (hp : ¬ Present ht key)
    (hst : Storable htv) :
    (htv.entryType = EntryType_t.STRING →
      Heap.htReplace hash ht key htv = none ∧ Heap.htAdd hash ht key htv = none) ∧
    (htv.entryType ≠ EntryType_t.STRING →
      ∃ ht1 : Hashtable_t, Heap.htReplace hash ht key htv = some (0, ht1) ∧
        Heap.htAdd hash ht key htv = some (0, ht1) ∧ htFind hash ht1 key = htv) := by
  constructor
  · intro hs
    exact ⟨heap_htReplace_string hash ht key htv hs,
      heap_htAdd_string hash ht key htv (htFind_type_of_absent hash ht key hp) hs⟩
  · intro hns
    obtain ⟨h1, h2, h3⟩ :=
      htReplace_absent_key hash ht key htv (heap_reachable_reachable hr) hp hst
    obtain ⟨h4, _, _⟩ :=
      (htAdd_absent_key hash).1 ht key htv (heap_reachable_reachable hr) hp hst
    refine ⟨(htReplace hash ht key htv).2, ?_, ?_, h3⟩
    · rw [heap_htReplace_other hash ht key htv hns, ← h2]
    · rw [heap_htAdd_other hash ht key htv hns, h1, ← h4]

/-- C7 at the sample table and the absent key `2`: with a string of 24
characters neither call has a result; with a `SIGNED_INT` both give the same
table, and the value is found under the key. -/
theorem C7_witness :
    (Heap.htReplace sampleHash sampleTable [2] sampleString24 = none ∧
      Heap.htAdd sampleHash sampleTable [2] sampleString24 = none) ∧
    ∃ ht1 : Hashtable_t, Heap.htReplace sampleHash sampleTable [2] (sampleInt 20) = some (0, ht1) ∧
      Heap.htAdd sampleHash sampleTable [2] (sampleInt 20) = some (0, ht1) ∧
      htFind sampleHash ht1 [2] = sampleInt 20 :=
  ⟨(C7_htReplace_absent_key_by_type sampleHash sampleTable [2] sampleString24
      sampleTable_heap_reachable (by decide) (by decide)).1 rfl,
    (C7_htReplace_absent_key_by_type sampleHash sampleTable [2] (sampleInt 20)
      sampleTable_heap_reachable (by decide) (by decide)).2 (by decide)⟩

/-- C9: on a table reached without a write outside a buffer, `htAdd` of an
absent key with a `STRING` value has no result; in every other case it
returns, and it increases `exp` by exactly 1 if and only if the key is absent
and `len = 2 ^ exp` before the call, leaving `exp` unchanged otherwise. -/
theorem C9_htAdd_grows_iff_on_heap (hash : Key → Nat) (ht : Hashtable_t) (key : Key)
    (htv : HashtableValue_t) (hr : Heap.Reachable hash ht) :
    (htv.entryType = EntryType_t.STRING → ¬ Present ht key →
      Heap.htAdd hash ht key htv = none) ∧
    (¬ (htv.entryType = EntryType_t.STRING ∧ ¬ Present ht key) →
      ∃ r : Int × Hashtable_t, Heap.htAdd hash ht key htv = some r ∧
        (r.2.exp = ht.exp + 1 ↔ (¬ Present ht key ∧ ht.len = 2 ^ ht.exp)) ∧
        (¬ (¬ Present ht key ∧ ht.len = 2 ^ ht.exp) → r.2.exp = ht.exp)) := by
  have hwf := heap_reachable_wf hr
  constructor
  · intro hs hp
    exact heap_htAdd_string hash ht key htv (htFind_type_of_absent hash ht key hp) hs
  · intro hcase
    have hsome : Heap.htAdd hash ht key htv = some (htAdd hash ht key htv) := by
      by_cases hp : Present ht key
      · exact heap_htAdd_hit hash ht key htv ((present_iff_htFind hash ht key hwf).mp hp)
      · exact heap_htAdd_other hash ht key htv (fun hs => hcase ⟨hs, hp⟩)
    exact ⟨htAdd hash ht key htv, hsome,
      htAdd_grows_iff hash ht key htv (heap_reachable_reachable hr)⟩

/-- C9 at the table of 32 entries and 32 buckets: the add of the absent key
`32` grows the table, `exp` goes from 5 to 6, and the add of that key with a
string of 24 characters has no result; at the table of 31 entries the add of
the absent key `31` leaves `exp` at 5. -/
theorem C9_witness :
    (∃ r : Int × Hashtable_t,
      Heap.htAdd sampleHash (table32 sampleHash) [32] (sampleInt 320) = some r ∧
      r.2.exp = 6) ∧
    (∃ r : Int × Hashtable_t,
      Heap.htAdd sampleHash (table31 sampleHash) [31] (sampleInt 310) = some r ∧
      r.2.exp = 5) ∧
    Heap.htAdd sampleHash (table32 sampleHash) [32] sampleString24 = none ∧
    (table32 sampleHash).len = 32 ∧ (table32 sampleHash).exp = 5 ∧
    (table31 sampleHash).len = 31 ∧ (table31 sampleHash).exp = 5 := by
  have h32 := table32_spec sampleHash
  have h31 := table31_heap_spec sampleHash
  refine ⟨?_, ?_, ?_, h32.2.1, h32.2.2.1, h31.2.1, h31.2.2.1⟩
  · obtain ⟨r, hr, hiff, _⟩ :=
      (C9_htAdd_grows_iff_on_heap sampleHash (table32 sampleHash) [32] (sampleInt 320) h32.1).2
        (by decide)
    refine ⟨r, hr, ?_⟩
    rw [hiff.mpr ⟨h32.2.2.2, by rw [h32.2.1, h32.2.2.1]; rfl⟩, h32.2.2.1]
  · obtain ⟨r, hr, _, hkeep⟩ :=
      (C9_htAdd_grows_iff_on_heap sampleHash (table31 sampleHash) [31] (sampleInt 310) h31.1).2
        (by decide)
    refine ⟨r, hr, ?_⟩
    rw [hkeep (fun h => by
      have h2 := h.2
      rw [h31.2.1, h31.2.2.1] at h2
      exact absurd h2 (by decide)), h31.2.2.1]
  · exact (C9_htAdd_grows_iff_on_heap sampleHash (table32 sampleHash) [32] sampleString24
      h32.1).1 rfl h32.2.2.2

/-- C10 as amended: on a table reached without a write outside a buffer, and
for an absent key and a value that is no `STRING`, `htAdd` returns 0 and
doubles the capacity (`exp` increases by 1) when the insert would make the
count exceed `2 ^ exp`, that is when `len = 2 ^ exp` before the call; when
`len + 1 = 2 ^ exp` it leaves `exp` unchanged. -/
theorem C10_htAdd_grows_when_full_on_heap (hash : Key → Nat) (ht : Hashtable_t) (key : Key)
    (htv : HashtableValue_t) (hr : Heap.Reachable hash ht) (hp : ¬ Present ht key)
    (hns : htv.entryType ≠ EntryType_t.STRING) :
    ∃ ht1 : Hashtable_t, Heap.htAdd hash ht key htv = some (0, ht1) ∧
      (ht.len = 2 ^ ht.exp → ht1.exp = ht.exp + 1) ∧
      (ht.len + 1 = 2 ^ ht.exp → ht1.exp = ht.exp) := by
  have hwf := heap_reachable_wf hr
  obtain ⟨h1, _, _⟩ := htAdd_miss hash ht key htv hwf.size (htFind_type_of_absent hash ht key hp)
  obtain ⟨h2, h3⟩ := htAdd_grows_when_full hash ht key htv (heap_reachable_reachable hr) hp
  refine ⟨(htAdd hash ht key htv).2, ?_, h2, h3⟩
  rw [heap_htAdd_other hash ht key htv hns, ← h1]

/-- C10 as amended, at the table of 32 entries and the absent key `32`, where
the table grows to 64 buckets (`exp` 6), and at the table of 31 entries and
the absent key `31`, where the 32nd entry fits and `exp` stays at 5. -/
theorem C10_witness :
    (∃ ht1 : Hashtable_t,
      Heap.htAdd sampleHash (table32 sampleHash) [32] (sampleInt 320) = some (0, ht1) ∧
      ht1.exp = 6) ∧
    (∃ ht1 : Hashtable_t,
      Heap.htAdd sampleHash (table31 sampleHash) [31] (sampleInt 310) = some (0, ht1) ∧
      ht1.exp = 5) ∧
    (table32 sampleHash).len = 32 ∧ (table32 sampleHash).exp = 5 ∧
    (table31 sampleHash).len = 31 ∧ (table31 sampleHash).exp = 5 := by
  have h32 := table32_spec sampleHash
  have h31 := table31_heap_spec sampleHash
  refine ⟨?_, ?_, h32.2.1, h32.2.2.1, h31.2.1, h31.2.2.1⟩
  · obtain ⟨ht1, hadd, hgrow, _⟩ :=
      C10_htAdd_grows_when_full_on_heap sampleHash (table32 sampleHash) [32] (sampleInt 320)
        h32.1 h32.2.2.2 (by decide)
    refine ⟨ht1, hadd, ?_⟩
    rw [hgrow (by rw [h32.2.1, h32.2.2.1]; rfl), h32.2.2.1]
  · obtain ⟨ht1, hadd, _, hkeep⟩ :=
      C10_htAdd_grows_when_full_on_heap sampleHash (table31 sampleHash) [31] (sampleInt 310)
        h31.1 h31.2.2.2 (by decide)
    refine ⟨ht1, hadd, ?_⟩
    rw [hkeep (by rw [h31.2.1, h31.2.2.1]; rfl), h31.2.2.1]

/-- C12: the sequence `htAdd` of a `STRING`, `htAdd` of a second key has no
result, the copy of the string having written past the end of its buffer.  On
a table reached without such a write, an `htAdd` that makes no string copy
leaves the result of `htFind` unchanged for every other key, also when the
call grows the table; `htExpandAndRehash` itself relinks every entry, losing
and altering none, so every lookup returns what it returned before. -/
theorem C12_htAdd_frame_on_heap (hash : Key → Nat) :
    (∀ (key key2 : Key) (htv htv2 : HashtableValue_t), htv.entryType = EntryType_t.STRING →
      Heap.runOps hash htCreateTable [Op.add key htv, Op.add key2 htv2] = none) ∧
    (∀ (ht : Hashtable_t) (key : Key) (htv : HashtableValue_t) (key2 : Key),
      Heap.Reachable hash ht → key2 ≠ key →
      ¬ (htv.entryType = EntryType_t.STRING ∧ ¬ Present ht key) →
      ∃ r : Int × Hashtable_t, Heap.htAdd hash ht key htv = some r ∧
        htFind hash r.2 key2 = htFind hash ht key2) ∧
    (∀ ht : Hashtable_t, Heap.Reachable hash ht →
      (entries (htExpandAndRehash hash ht)).Perm (entries ht) ∧
      ∀ k, htFind hash (htExpandAndRehash hash ht) k = htFind hash ht k) := by
  refine ⟨?_, ?_, ?_⟩
  · intro key key2 htv htv2 hs
    exact heap_runOps_string_first hash key htv _ hs
  · intro ht key htv key2 hr hne hcase
    have hwf := heap_reachable_wf hr
    have hsome : Heap.htAdd hash ht key htv = some (htAdd hash ht key htv) := by
      by_cases hp : Present ht key
      · exact heap_htAdd_hit hash ht key htv ((present_iff_htFind hash ht key hwf).mp hp)
      · exact heap_htAdd_other hash ht key htv (fun hs => hcase ⟨hs, hp⟩)
    exact ⟨htAdd hash ht key htv, hsome,
      (htAdd_frame hash ht key htv key2 (heap_reachable_reachable hr) hne).1⟩
  · intro ht hr
    exact (htAdd_frame hash ht [] noneValue [0] (heap_reachable_reachable hr) (by simp)).2

/-- C12 at the add of a string of 24 characters followed by the add of another
key; at the table of 32 entries, where the add of the key `32` grows the table
and the lookup of the key `7` returns what it returned before; and at the
rehash of that table. -/
theorem C12_witness :
    Heap.runOps sampleHash htCreateTable
      [Op.add [1] sampleString24, Op.add [2] (sampleInt 20)] = none ∧
    (∃ r : Int × Hashtable_t,
      Heap.htAdd sampleHash (table32 sampleHash) [32] (sampleInt 320) = some r ∧
      htFind sampleHash r.2 [7] = htFind sampleHash (table32 sampleHash) [7]) ∧
    ((entries (htExpandAndRehash sampleHash (table32 sampleHash))).Perm
        (entries (table32 sampleHash)) ∧
      ∀ k, htFind sampleHash (htExpandAndRehash sampleHash (table32 sampleHash)) k =
        htFind sampleHash (table32 sampleHash) k) :=
  ⟨(C12_htAdd_frame_on_heap sampleHash).1 [1] [2] sampleString24 (sampleInt 20) rfl,
    (C12_htAdd_frame_on_heap sampleHash).2.1 (table32 sampleHash) [32] (sampleInt 320) [7]
      (table32_spec sampleHash).1 (by decide) (by decide),
    (C12_htAdd_frame_on_heap sampleHash).2.2 (table32 sampleHash) (table32_spec sampleHash).1⟩

/-- C37: the sequence `htAdd` of a `STRING`, `htReplace` of a second key has
no result, the copy of the string having written past the end of its buffer.
On a table reached without such a write, for every key `k` (present or
absent) and every key `k'` different from `k`, `htFind(k')` returns the same
value before and after `htRemove(k)`; `htReplace(k, v)` has no result when `v`
is a `STRING`, and for every other `v` it leaves what `htFind(k')` returns
unchanged; wherever the two keys are linked, the same bucket included. -/
theorem C37_remove_replace_frame_on_heap (hash : Key → Nat) :
    (∀ (key key2 : Key) (htv htv2 : HashtableValue_t), htv.entryType = EntryType_t.STRING →
      Heap.runOps hash htCreateTable [Op.add key htv, Op.replace key2 htv2] = none) ∧
    (∀ (ht : Hashtable_t) (key key2 : Key) (htv : HashtableValue_t),
      Heap.Reachable hash ht → key2 ≠ key →
      htFind hash (htRemove hash ht key).2 key2 = htFind hash ht key2 ∧
      (htv.entryType = EntryType_t.STRING → Heap.htReplace hash ht key htv = none) ∧
      (htv.entryType ≠ EntryType_t.STRING →
        ∃ r : Int × Hashtable_t, Heap.htReplace hash ht key htv = some r ∧
          htFind hash r.2 key2 = htFind hash ht key2)) := by
  constructor
  · intro key key2 htv htv2 hs
    exact heap_runOps_string_first hash key htv _ hs
  · intro ht key key2 htv hr hne
    obtain ⟨h1, h2⟩ := remove_replace_frame hash ht key key2 htv (heap_reachable_reachable hr) hne
    refine ⟨h1, ?_, ?_⟩
    · intro hs
      exact heap_htReplace_string hash ht key htv hs
    · intro hns
      exact ⟨htReplace hash ht key htv, heap_htReplace_other hash ht key htv hns, h2⟩

/-- C37 at the add of a string of 24 characters followed by the replace of
another key; and on the table where the keys `1` and `2` share a bucket: the
call is on the key `2`, at the head of the chain, and the lookup on the key
`1` behind it. -/
theorem C37_witness :
    Heap.runOps sampleHash htCreateTable
      [Op.add [1] sampleString24, Op.replace [2] (sampleInt 20)] = none ∧
    htFind sampleHash (htRemove sampleHash sampleChainTable [2]).2 [1] =
      htFind sampleHash sampleChainTable [1] ∧
    Heap.htReplace sampleHash sampleChainTable [2] sampleString24 = none ∧
    (∃ r : Int × Hashtable_t,
      Heap.htReplace sampleHash sampleChainTable [2] (sampleInt 21) = some r ∧
      htFind sampleHash r.2 [1] = htFind sampleHash sampleChainTable [1]) ∧
    sampleChainTable.table[1]? =
      some [{ key := [2], htv := sampleInt 20 }, { key := [1], htv := sampleInt 10 }] :=
  ⟨(C37_remove_replace_frame_on_heap sampleHash).1 [1] [2] sampleString24 (sampleInt 20) rfl,
    ((C37_remove_replace_frame_on_heap sampleHash).2 sampleChainTable [2] [1] sampleString24
      sampleChainTable_heap_reachable (by decide)).1,
    ((C37_remove_replace_frame_on_heap sampleHash).2 sampleChainTable [2] [1] sampleString24
      sampleChainTable_heap_reachable (by decide)).2.1 rfl,
    ((C37_remove_replace_frame_on_heap sampleHash).2 sampleChainTable [2] [1] (sampleInt 21)
      sampleChainTable_heap_reachable (by decide)).2.2 (by decide),
    by decide⟩

/-! ## Requests that are not dispatched: the uninitialized `retval`

The local `retval` of `executeDbCommand` is declared without a value and is
assigned only on the paths that reply `Malformed query`; on every other path
the test `retval != 1` reads it before any assignment.  When it holds 1 the
request is not dispatched. -/

theorem executeDbCommand_selectRequest_retval_one (hash : Key → Nat) (libc : Libc) (junk : Int)
    (key : List UInt8) (ht : Hashtable_t) (commandResult0 : List UInt8) (hkey : KeyToken key) :
    executeDbCommand hash libc 1 junk (selectRequest key) ht commandResult0 =
      some (1, ht, commandResult0) := by
  have hreq : selectRequest key = (ascii "select " ++ key) ++ [0] := rfl
  have hparse := parseCommand_selectRequest 1 commandResult0 key hkey
  rw [hreq] at hparse ⊢
  exact executeDbCommand_of_parse_one hash libc 1 junk _ ht commandResult0 commandResult0 _ hparse

theorem executeDbCommand_deleteRequest_retval_one (hash : Key → Nat) (libc : Libc) (junk : Int)
    (key : List UInt8) (ht : Hashtable_t) (commandResult0 : List UInt8) (hkey : KeyToken key) :
    executeDbCommand hash libc 1 junk (deleteRequest key) ht commandResult0 =
      some (1, ht, commandResult0) := by
  have hreq : deleteRequest key = (ascii "delete " ++ key) ++ [0] := rfl
  have hparse := parseCommand_deleteRequest 1 commandResult0 key hkey
  rw [hreq] at hparse ⊢
  exact executeDbCommand_of_parse_one hash libc 1 junk _ ht commandResult0 commandResult0 _ hparse

theorem sampleIntDbTable_heap_reachable : Heap.Reachable sampleHash sampleIntDbTable :=
  ⟨[Op.add sampleKey (sampleInt 7)], by decide, by decide⟩

theorem validValue_int_sample : ValidValue (ascii "int") (ascii "-975361") :=
  ⟨by decide, Or.inr (Or.inr (Or.inl ⟨rfl, Or.inr ⟨ascii "975361", Or.inl rfl, by decide⟩⟩))⟩

/-- C17: for every NUL-terminated request `insert <key> <type> <value>` whose
key holds no space and is absent from the table, whose type is one of
`string`, `uint`, `int`, `double` and whose value is valid text for the type:
when the uninitialized local `retval` holds 1, `executeDbCommand` returns 1,
inserts nothing and writes no reply; when it holds another value and the type
is not `string`, it returns 0, the reply is exactly
`Value inserted successfully`, and afterwards the table holds the key with the
type tag the type names. -/
theorem C17_insert_absent_key_by_retval (hash : Key → Nat) (libc : Libc) (retval0 junk : Int)
    (ht : Hashtable_t) (key type value commandResult0 : List UInt8)
    (hr : Heap.Reachable hash ht) (hkey : KeyToken key)
    (habs : ¬ Present ht key) (hval : ValidValue type value) :
    (retval0 = 1 →
      executeDbCommand hash libc retval0 junk (insertRequest key type value) ht commandResult0 =
        some (1, ht, commandResult0)) ∧
    (retval0 ≠ 1 → type ≠ ascii "string" →
      ∃ ht2 : Hashtable_t,
        executeDbCommand hash libc retval0 junk (insertRequest key type value) ht commandResult0 =
          some (0, ht2, ascii "Value inserted successfully") ∧
        Present ht2 key ∧ (htFind hash ht2 key).entryType = typeTag type) := by
  constructor
  · intro hret
    subst hret
    exact executeDbCommand_insertRequest_retval_one hash libc junk key type value ht
      commandResult0 hkey (tokenBytes_typeName type value hval)
  · intro hret _
    exact insert_absent_key hash libc retval0 junk ht key type value commandResult0 hret
      (heap_reachable_reachable hr) hkey habs hval

/-- C17 at the request `insert k int -975361` on a fresh table: with the local
`retval` holding 1 nothing is inserted and no reply is written; with `retval`
holding 0 the request is served. -/
theorem C17_witness :
    executeDbCommand sampleHash sampleLibc 1 0
        (insertRequest sampleKey (ascii "int") (ascii "-975361")) htCreateTable [] =
      some (1, htCreateTable, []) ∧
    ∃ ht2 : Hashtable_t,
      executeDbCommand sampleHash sampleLibc 0 0
          (insertRequest sampleKey (ascii "int") (ascii "-975361")) htCreateTable [] =
        some (0, ht2, ascii "Value inserted successfully") ∧
      Present ht2 sampleKey ∧
      (htFind sampleHash ht2 sampleKey).entryType = typeTag (ascii "int") :=
  ⟨(C17_insert_absent_key_by_retval sampleHash sampleLibc 1 0 htCreateTable sampleKey
      (ascii "int") (ascii "-975361") [] (heap_reachable_create sampleHash) (by decide)
      (by decide) validValue_int_sample).1 rfl,
    (C17_insert_absent_key_by_retval sampleHash sampleLibc 0 0 htCreateTable sampleKey
      (ascii "int") (ascii "-975361") [] (heap_reachable_create sampleHash) (by decide)
      (by decide) validValue_int_sample).2 (by decide) (by decide)⟩

/-- C18: for every well-formed insert request (valid type and value) whose
key is already present in the table: when the uninitialized local `retval`
holds 1, `executeDbCommand` returns 1 and leaves the table as it was, but
writes no reply; when it holds another value the reply is exactly
`Key <key> already exists`, with the same return value and the same table.  A
following `select <key>` renders the value that was stored before when its
own `retval` holds a value other than 1, and is not answered when it holds
1.  The replies are those for which the 1024 bytes that `onData` passes as
`commandResult` have room, terminator included. -/
theorem C18_insert_present_key_by_retval (hash : Key → Nat) (libc : Libc) (retval0 junk : Int)
    (ht : Hashtable_t) (key type value commandResult0 : List UInt8)
    (hr : Heap.Reachable hash ht) (hkey : KeyToken key)
    (hp : Present ht key) (hval : ValidValue type value) :
    (retval0 = 1 →
      executeDbCommand hash libc retval0 junk (insertRequest key type value) ht commandResult0 =
        some (1, ht, commandResult0)) ∧
    (retval0 ≠ 1 → key.length + 20 ≤ 1024 →
      executeDbCommand hash libc retval0 junk (insertRequest key type value) ht commandResult0 =
        some (1, ht, ascii "Key " ++ key ++ ascii " already exists")) ∧
    (∀ (retval1 junk1 : Int) (commandResult1 text : List UInt8),
      renderValue libc (htFind hash ht key) = some text →
      key.length + text.length + 5 ≤ 1024 →
      executeDbCommand hash libc retval1 junk1 (selectRequest key) ht commandResult1 =
        if retval1 = 1 then some (1, ht, commandResult1)
        else some (0, ht, ascii "\x7b" ++ key ++ ascii ": " ++ text ++ ascii "\x7d")) := by
  refine ⟨?_, ?_, ?_⟩
  · intro hret
    subst hret
    exact executeDbCommand_insertRequest_retval_one hash libc junk key type value ht
      commandResult0 hkey (tokenBytes_typeName type value hval)
  · intro hret _
    exact (insert_present_key hash libc retval0 junk ht key type value commandResult0 hret
      (heap_reachable_reachable hr) hkey hp hval).1
  · intro retval1 junk1 commandResult1 text htext _
    by_cases hret1 : retval1 = 1
    · subst hret1
      rw [if_pos rfl]
      exact executeDbCommand_selectRequest_retval_one hash libc junk1 key ht commandResult1 hkey
    · rw [if_neg hret1]
      exact (insert_present_key hash libc 0 junk ht key type value commandResult0 (by decide)
        (heap_reachable_reachable hr) hkey hp hval).2 retval1 junk1 commandResult1 text hret1
        htext

/-- C18 at the request `insert k int -975361` on the table that holds `k`
with the integer 7: with the local `retval` holding 1 no reply is written;
with `retval` holding 0 the reply is `Key k already exists`; and the request
`select k` that follows replies `{k: 7}` when its `retval` holds 0 and is not
answered when it holds 1. -/
theorem C18_witness :
    executeDbCommand sampleHash sampleLibc 1 0
        (insertRequest sampleKey (ascii "int") (ascii "-975361")) sampleIntDbTable [] =
      some (1, sampleIntDbTable, []) ∧
    executeDbCommand sampleHash sampleLibc 0 0
        (insertRequest sampleKey (ascii "int") (ascii "-975361")) sampleIntDbTable [] =
      some (1, sampleIntDbTable, ascii "Key k already exists") ∧
    executeDbCommand sampleHash sampleLibc 0 0 (selectRequest sampleKey) sampleIntDbTable [] =
      some (0, sampleIntDbTable, ascii "\x7bk: 7\x7d") ∧
    executeDbCommand sampleHash sampleLibc 1 0 (selectRequest sampleKey) sampleIntDbTable [] =
      some (1, sampleIntDbTable, []) :=
  ⟨(C18_insert_present_key_by_retval sampleHash sampleLibc 1 0 sampleIntDbTable sampleKey
      (ascii "int") (ascii "-975361") [] sampleIntDbTable_heap_reachable (by decide)
      (by decide) validValue_int_sample).1 rfl,
    (C18_insert_present_key_by_retval sampleHash sampleLibc 0 0 sampleIntDbTable sampleKey
      (ascii "int") (ascii "-975361") [] sampleIntDbTable_heap_reachable (by decide)
      (by decide) validValue_int_sample).2.1 (by decide) (by decide),
    ((C18_insert_present_key_by_retval sampleHash sampleLibc 0 0 sampleIntDbTable sampleKey
      (ascii "int") (ascii "-975361") [] sampleIntDbTable_heap_reachable (by decide)
      (by decide) validValue_int_sample).2.2 0 0 [] (ascii "7") (by decide)
      (by decide)).trans (if_neg (by decide)),
    ((C18_insert_present_key_by_retval sampleHash sampleLibc 0 0 sampleIntDbTable sampleKey
      (ascii "int") (ascii "-975361") [] sampleIntDbTable_heap_reachable (by decide)
      (by decide) validValue_int_sample).2.2 1 0 [] (ascii "7") (by decide)
      (by decide)).trans (if_pos rfl)⟩

/-- C19: for every key without spaces that is absent from the table and every
text `s` that holds no NUL (spaces allowed): when the uninitialized local
`retval` holds 1, the request `insert k string s` is not dispatched
(`executeDbCommand` returns 1, inserts nothing and writes no reply), and a
`select k` whose `retval` holds 1 is not answered either; when `retval` holds
another value, the insert request makes the call `htAdd(k, STRING s)`, whose
copy of the string writes past the end of its buffer. -/
theorem C19_insert_string_then_select_by_retval (hash : Key → Nat) (libc : Libc)
    (retval0 junk0 : Int) (ht : Hashtable_t) (key s commandResult0 : List UInt8)
    (hkey : KeyToken key) (habs : ¬ Present ht key) (hs : (0 : UInt8) ∉ s) :
    (retval0 = 1 →
      executeDbCommand hash libc retval0 junk0 (insertRequest key (ascii "string") s) ht
          commandResult0 =
        some (1, ht, commandResult0)) ∧
    (∀ (junk1 : Int) (ht2 : Hashtable_t) (commandResult1 : List UInt8),
      executeDbCommand hash libc 1 junk1 (selectRequest key) ht2 commandResult1 =
        some (1, ht2, commandResult1)) ∧
    (retval0 ≠ 1 →
      executeDbCommand hash libc retval0 junk0 (insertRequest key (ascii "string") s) ht
          commandResult0 =
        some (insertEpilogue (afterHtAdd key
          (htAdd hash ht key { entryType := EntryType_t.STRING, v := ValueUnion.val s })
          commandResult0)) ∧
      Heap.htAdd hash ht key { entryType := EntryType_t.STRING, v := ValueUnion.val s } =
        none) := by
  refine ⟨?_, ?_, ?_⟩
  · intro hret
    subst hret
    exact executeDbCommand_insertRequest_retval_one hash libc junk0 key (ascii "string") s ht
      commandResult0 hkey (by decide)
  · intro junk1 ht2 commandResult1
    exact executeDbCommand_selectRequest_retval_one hash libc junk1 key ht2 commandResult1 hkey
  · intro hret
    constructor
    · rw [executeDbCommand_insertRequest hash libc retval0 junk0 key (ascii "string") s ht
        commandResult0 hret hkey (by decide),
        executeInsertCommand_string hash libc junk0 ht _ key s commandResult0 hs]
    · exact heap_htAdd_string hash ht key _ (htFind_type_of_absent hash ht key habs) rfl

/-- C19 at the value `this Is The String` on a fresh table: with the local
`retval` holding 1 the insert request is not dispatched, nor is the select
request; with `retval` holding 0 the insert request is the call `htAdd(k,
STRING s)`, which has no result when the copy is carried out in its
buffer. -/
theorem C19_witness :
    executeDbCommand sampleHash sampleLibc 1 0
        (insertRequest sampleKey (ascii "string") (ascii "this Is The String"))
        htCreateTable [] =
      some (1, htCreateTable, []) ∧
    executeDbCommand sampleHash sampleLibc 1 0 (selectRequest sampleKey) htCreateTable [] =
      some (1, htCreateTable, []) ∧
    executeDbCommand sampleHash sampleLibc 0 0
        (insertRequest sampleKey (ascii "string") (ascii "this Is The String"))
        htCreateTable [] =
      some (insertEpilogue (afterHtAdd sampleKey
        (htAdd sampleHash htCreateTable sampleKey
          { entryType := EntryType_t.STRING, v := ValueUnion.val (ascii "this Is The String") })
        [])) ∧
    Heap.htAdd sampleHash htCreateTable sampleKey
        { entryType := EntryType_t.STRING, v := ValueUnion.val (ascii "this Is The String") } =
      none :=
  ⟨(C19_insert_string_then_select_by_retval sampleHash sampleLibc 1 0 htCreateTable sampleKey
      (ascii "this Is The String") [] (by decide) (by decide) (by decide)).1 rfl,
    (C19_insert_string_then_select_by_retval sampleHash sampleLibc 1 0 htCreateTable sampleKey
      (ascii "this Is The String") [] (by decide) (by decide) (by decide)).2.1 0 htCreateTable [],
    (C19_insert_string_then_select_by_retval sampleHash sampleLibc 0 0 htCreateTable sampleKey
      (ascii "this Is The String") [] (by decide) (by decide) (by decide)).2.2 (by decide)⟩

/-- C20: for every signed 64-bit integer `n` with its canonical decimal text
(what `%ld` prints), and every key without spaces that is absent from the
table: when the uninitialized local `retval` holds 1, the request
`insert k int <text>` is not dispatched (`executeDbCommand` returns 1, inserts
nothing and writes no reply); when it holds another value the request inserts
the number, and the reply to a following `select k` is exactly `{k: <text>}`
when the `retval` of that call holds a value other than 1, and is not written
when it holds 1. -/
theorem C20_insert_int_then_select_by_retval (hash : Key → Nat) (libc : Libc)
    (retval0 junk0 retval1 junk1 : Int) (ht : Hashtable_t) (n : Int)
    (key commandResult0 commandResult1 : List UInt8)
    (hr : Heap.Reachable hash ht) (hkey : KeyToken key)
    (habs : ¬ Present ht key) (hlo : -(2 ^ 63) ≤ n) (hhi : n < 2 ^ 63) :
    (retval0 = 1 →
      executeDbCommand hash libc retval0 junk0 (insertRequest key (ascii "int") (printLong n)) ht
          commandResult0 =
        some (1, ht, commandResult0)) ∧
    (retval0 ≠ 1 →
      ∃ ht2 : Hashtable_t,
        executeDbCommand hash libc retval0 junk0 (insertRequest key (ascii "int") (printLong n))
            ht commandResult0 =
          some (0, ht2, ascii "Value inserted successfully") ∧
        executeDbCommand hash libc retval1 junk1 (selectRequest key) ht2 commandResult1 =
          if retval1 = 1 then some (1, ht2, commandResult1)
          else some (0, ht2, ascii "\x7b" ++ key ++ ascii ": " ++ printLong n ++ ascii "\x7d")) := by
  constructor
  · intro hret
    subst hret
    exact executeDbCommand_insertRequest_retval_one hash libc junk0 key (ascii "int")
      (printLong n) ht commandResult0 hkey (by decide)
  · intro hret
    by_cases hret1 : retval1 = 1
    · subst hret1
      obtain ⟨ht2, h1, _⟩ := insert_int_then_select hash libc retval0 junk0 0 junk1 ht n key
        commandResult0 commandResult1 hret (by decide) (heap_reachable_reachable hr) hkey habs
        hlo hhi
      refine ⟨ht2, h1, ?_⟩
      rw [if_pos rfl]
      exact executeDbCommand_selectRequest_retval_one hash libc junk1 key ht2 commandResult1 hkey
    · obtain ⟨ht2, h1, h2⟩ := insert_int_then_select hash libc retval0 junk0 retval1 junk1 ht n
        key commandResult0 commandResult1 hret hret1 (heap_reachable_reachable hr) hkey habs
        hlo hhi
      refine ⟨ht2, h1, ?_⟩
      rw [if_neg hret1]
      exact h2

/-- C20 at the smallest 64-bit integer, `-9223372036854775808`, on a fresh
table: with the local `retval` holding 1 the insert request is not dispatched;
with `retval` holding 0 in both calls the number is inserted and rendered. -/
theorem C20_witness :
    executeDbCommand sampleHash sampleLibc 1 0
        (insertRequest sampleKey (ascii "int") (printLong (-9223372036854775808)))
        htCreateTable [] =
      some (1, htCreateTable, []) ∧
    ∃ ht2 : Hashtable_t,
      executeDbCommand sampleHash sampleLibc 0 0
          (insertRequest sampleKey (ascii "int") (printLong (-9223372036854775808)))
          htCreateTable [] =
        some (0, ht2, ascii "Value inserted successfully") ∧
      executeDbCommand sampleHash sampleLibc 0 0 (selectRequest sampleKey) ht2 [] =
        some (0, ht2,
          ascii "\x7b" ++ sampleKey ++ ascii ": " ++ printLong (-9223372036854775808) ++
            ascii "\x7d") := by
  refine ⟨(C20_insert_int_then_select_by_retval sampleHash sampleLibc 1 0 0 0 htCreateTable
      (-9223372036854775808) sampleKey [] [] (heap_reachable_create sampleHash) (by decide)
      (by decide) (by decide) (by decide)).1 rfl, ?_⟩
  obtain ⟨ht2, h1, h2⟩ :=
    (C20_insert_int_then_select_by_retval sampleHash sampleLibc 0 0 0 0 htCreateTable
      (-9223372036854775808) sampleKey [] [] (heap_reachable_create sampleHash) (by decide)
      (by decide) (by decide) (by decide)).2 (by decide)
  exact ⟨ht2, h1, h2.trans (if_neg (by decide))⟩

/-- C22: for every NUL-terminated request `delete <key>` with a key that
holds no space: when the uninitialized local `retval` holds 1,
`executeDbCommand` returns 1, removes nothing and writes no reply, whether
the key is present or not; when it holds another value and the key is
present, it replies `Key removed successfully`, returns 0, and a following
`select <key>` (its `retval` other than 1) replies `Key not found`; when the
key is absent, it replies `Key not found`, returns 1, and the table is
unchanged. -/
theorem C22_delete_request_by_retval (hash : Key → Nat) (libc : Libc) (retval0 junk : Int)
    (ht : Hashtable_t) (key commandResult0 : List UInt8)
    (hr : Heap.Reachable hash ht) (hkey : KeyToken key) :
    (retval0 = 1 →
      executeDbCommand hash libc retval0 junk (deleteRequest key) ht commandResult0 =
        some (1, ht, commandResult0)) ∧
    (retval0 ≠ 1 → Present ht key →
      ∃ ht2 : Hashtable_t,
        executeDbCommand hash libc retval0 junk (deleteRequest key) ht commandResult0 =
          some (0, ht2, ascii "Key removed successfully") ∧
        ∀ (retval1 junk1 : Int) (commandResult1 : List UInt8), retval1 ≠ 1 →
          executeDbCommand hash libc retval1 junk1 (selectRequest key) ht2 commandResult1 =
            some (0, ht2, ascii "Key not found")) ∧
    (retval0 ≠ 1 → ¬ Present ht key →
      executeDbCommand hash libc retval0 junk (deleteRequest key) ht commandResult0 =
        some (1, ht, ascii "Key not found")) := by
  refine ⟨?_, ?_, ?_⟩
  · intro hret
    subst hret
    exact executeDbCommand_deleteRequest_retval_one hash libc junk key ht commandResult0 hkey
  · intro hret hp
    exact (delete_request hash libc retval0 junk ht key commandResult0 hret
      (heap_reachable_reachable hr) hkey).1 hp
  · intro hret habs
    exact (delete_request hash libc retval0 junk ht key commandResult0 hret
      (heap_reachable_reachable hr) hkey).2 habs

/-- C22 at the key `k`: with the local `retval` holding 1 on the table that
holds the key, nothing is removed and no reply is written; with `retval`
holding 0 the key is removed from that table, and on a fresh table the reply
is `Key not found`. -/
theorem C22_witness :
    executeDbCommand sampleHash sampleLibc 1 0 (deleteRequest sampleKey) sampleIntDbTable [] =
      some (1, sampleIntDbTable, []) ∧
    (∃ ht2 : Hashtable_t,
      executeDbCommand sampleHash sampleLibc 0 0 (deleteRequest sampleKey) sampleIntDbTable [] =
        some (0, ht2, ascii "Key removed successfully") ∧
      ∀ (retval1 junk1 : Int) (commandResult1 : List UInt8), retval1 ≠ 1 →
        executeDbCommand sampleHash sampleLibc retval1 junk1 (selectRequest sampleKey) ht2
            commandResult1 =
          some (0, ht2, ascii "Key not found")) ∧
    executeDbCommand sampleHash sampleLibc 0 0 (deleteRequest sampleKey) htCreateTable [] =
      some (1, htCreateTable, ascii "Key not found") :=
  ⟨(C22_delete_request_by_retval sampleHash sampleLibc 1 0 sampleIntDbTable sampleKey []
      sampleIntDbTable_heap_reachable (by decide)).1 rfl,
    (C22_delete_request_by_retval sampleHash sampleLibc 0 0 sampleIntDbTable sampleKey []
      sampleIntDbTable_heap_reachable (by decide)).2.1 (by decide) (by decide),
    (C22_delete_request_by_retval sampleHash sampleLibc 0 0 htCreateTable sampleKey []
      (heap_reachable_create sampleHash) (by decide)).2.2 (by decide) (by decide)⟩

/-- C23: for every NUL-terminated request `select <key>` whose key holds no
space and is absent from the table: when the uninitialized local `retval`
holds 1, `executeDbCommand` returns 1 and writes no reply; when it holds
another value, it replies exactly `Key not found` and returns 0.  The table
is unchanged in both cases. -/
theorem C23_select_absent_key_by_retval (hash : Key → Nat) (libc : Libc) (retval0 junk : Int)
    (ht : Hashtable_t) (key commandResult0 : List UInt8)
    (hkey : KeyToken key) (habs : ¬ Present ht key) :
    executeDbCommand hash libc retval0 junk (selectRequest key) ht commandResult0 =
      if retval0 = 1 then some (1, ht, commandResult0)
      else some (0, ht, ascii "Key not found") := by
  by_cases hret : retval0 = 1
  · subst hret
    rw [if_pos rfl]
    exact executeDbCommand_selectRequest_retval_one hash libc junk key ht commandResult0 hkey
  · rw [if_neg hret]
    exact select_absent_key hash libc retval0 junk ht key commandResult0 hret hkey habs

/-- C23 at the request `select thisKeyDoesn'tExist` on the table that holds
only `k`: with the local `retval` holding 1 no reply is written, with
`retval` holding 0 the reply is `Key not found`. -/
theorem C23_witness :
    executeDbCommand sampleHash sampleLibc 1 0 (selectRequest (ascii "thisKeyDoesn'tExist"))
        sampleIntDbTable [] =
      some (1, sampleIntDbTable, []) ∧
    executeDbCommand sampleHash sampleLibc 0 0 (selectRequest (ascii "thisKeyDoesn'tExist"))
        sampleIntDbTable [] =
      some (0, sampleIntDbTable, ascii "Key not found") :=
  ⟨(C23_select_absent_key_by_retval sampleHash sampleLibc 1 0 sampleIntDbTable
      (ascii "thisKeyDoesn'tExist") [] (by decide) (by decide)).trans (if_pos rfl),
    (C23_select_absent_key_by_retval sampleHash sampleLibc 0 0 sampleIntDbTable
      (ascii "thisKeyDoesn'tExist") [] (by decide) (by decide)).trans (if_neg (by decide))⟩

/-! ## The request `replace` and unknown verbs, by the value of `retval` -/

theorem tokenBytes_canonical (type x : List UInt8) (h : CanonicalValue type x) :
    type ≠ [] ∧ TokenBytes type := by
  rcases h with ⟨h, _⟩ | ⟨h, _⟩ | ⟨h, _⟩ <;> rw [h] <;> decide

theorem tokenBytes_numeric (type : List UInt8) (h : type ∈ numericTypeNames) :
    (type ≠ [] ∧ TokenBytes type) ∧ type ∈ typeNames ∧ type ≠ ascii "string" := by
  simp only [numericTypeNames, List.mem_cons, List.mem_singleton, List.not_mem_nil,
    or_false] at h
  rcases h with h | h | h <;> rw [h] <;> decide

/-- C25: for every key without spaces, whether or not it is present in the
table and whatever type its current value has, and for every type in
`string`, `uint`, `int` with a value text `x` in canonical form (for the
integers: the decimal text of a number in signed 64-bit range): when the
uninitialized local `retval` holds 1, the request `replace k <type> x` is not
dispatched (`executeDbCommand` returns 1, replaces nothing and writes no
reply), and a `select k` whose `retval` holds 1 is not answered either; when
`retval` holds another value in both calls and the type is `uint` or `int`,
the request replies `Key replaced successfully`, returns 0, and a following
`select k` replies exactly `{k: x}`; and for the type `string` the request
makes the call `htReplace(k, STRING x)`, whose copy of the string writes past
the end of its buffer. -/
theorem C25_replace_then_select_by_retval (hash : Key → Nat) (libc : Libc)
    (retval0 junk0 retval1 junk1 : Int) (ht : Hashtable_t)
    (key type x commandResult0 commandResult1 : List UInt8)
    (hr : Heap.Reachable hash ht) (hkey : KeyToken key) (hx : CanonicalValue type x) :
    (retval0 = 1 →
      executeDbCommand hash libc retval0 junk0 (replaceRequest key type x) ht commandResult0 =
        some (1, ht, commandResult0)) ∧
    (∀ ht2 : Hashtable_t,
      executeDbCommand hash libc 1 junk1 (selectRequest key) ht2 commandResult1 =
        some (1, ht2, commandResult1)) ∧
    (retval0 ≠ 1 → retval1 ≠ 1 → type ≠ ascii "string" →
      ∃ ht2 : Hashtable_t,
        executeDbCommand hash libc retval0 junk0 (replaceRequest key type x) ht commandResult0 =
          some (0, ht2, ascii "Key replaced successfully") ∧
        executeDbCommand hash libc retval1 junk1 (selectRequest key) ht2 commandResult1 =
          some (0, ht2, ascii "\x7b" ++ key ++ ascii ": " ++ x ++ ascii "\x7d")) ∧
    (retval0 ≠ 1 → type = ascii "string" →
      executeDbCommand hash libc retval0 junk0 (replaceRequest key type x) ht commandResult0 =
        some (replaceEpilogue
          (htReplace hash ht key { entryType := EntryType_t.STRING, v := ValueUnion.val x }).1
          (htReplace hash ht key { entryType := EntryType_t.STRING, v := ValueUnion.val x }).2) ∧
      Heap.htReplace hash ht key { entryType := EntryType_t.STRING, v := ValueUnion.val x } =
        none) := by
  refine ⟨?_, ?_, ?_, ?_⟩
  · intro hret
    subst hret
    exact executeDbCommand_replaceRequest_retval_one hash libc junk0 key type x ht
      commandResult0 hkey (tokenBytes_canonical type x hx)
  · intro ht2
    exact executeDbCommand_selectRequest_retval_one hash libc junk1 key ht2 commandResult1 hkey
  · intro hret0 hret1 _
    exact replace_request_then_select hash libc retval0 junk0 retval1 junk1 ht key type x
      commandResult0 commandResult1 hret0 hret1 (heap_reachable_reachable hr) hkey hx
  · intro hret0 hty
    subst hty
    have h0 : (0 : UInt8) ∉ x := by
      rcases hx with ⟨_, h⟩ | ⟨h, _⟩ | ⟨h, _⟩
      · exact h
      · exact absurd h (by decide)
      · exact absurd h (by decide)
    constructor
    · rw [executeDbCommand_replaceRequest hash libc retval0 junk0 key (ascii "string") x ht
        commandResult0 hret0 hkey (by decide),
        executeReplaceCommand_string hash libc junk0 ht _ key x h0]
    · exact heap_htReplace_string hash ht key _ rfl

/-- C25 at the request `replace k int -87921` on the table where `k` holds
the integer 7: with the local `retval` holding 1 nothing is replaced and no
reply is written; with `retval` holding 0 in both calls the value is replaced
and rendered; and the call `htReplace(k, STRING hello)` of the request
`replace k string hello` has no result when the copy is carried out in its
buffer. -/
theorem C25_witness :
    executeDbCommand sampleHash sampleLibc 1 0
        (replaceRequest sampleKey (ascii "int") (ascii "-87921")) sampleIntDbTable [] =
      some (1, sampleIntDbTable, []) ∧
    (∃ ht2 : Hashtable_t,
      executeDbCommand sampleHash sampleLibc 0 0
          (replaceRequest sampleKey (ascii "int") (ascii "-87921")) sampleIntDbTable [] =
        some (0, ht2, ascii "Key replaced successfully") ∧
      executeDbCommand sampleHash sampleLibc 0 0 (selectRequest sampleKey) ht2 [] =
        some (0, ht2,
          ascii "\x7b" ++ sampleKey ++ ascii ": " ++ ascii "-87921" ++ ascii "\x7d")) ∧
    Heap.htReplace sampleHash sampleIntDbTable sampleKey
        { entryType := EntryType_t.STRING, v := ValueUnion.val (ascii "hello") } = none :=
  ⟨(C25_replace_then_select_by_retval sampleHash sampleLibc 1 0 0 0 sampleIntDbTable sampleKey
      (ascii "int") (ascii "-87921") [] [] sampleIntDbTable_heap_reachable (by decide)
      (Or.inr (Or.inr ⟨rfl, -87921, by decide, by decide, by decide⟩))).1 rfl,
    (C25_replace_then_select_by_retval sampleHash sampleLibc 0 0 0 0 sampleIntDbTable sampleKey
      (ascii "int") (ascii "-87921") [] [] sampleIntDbTable_heap_reachable (by decide)
      (Or.inr (Or.inr ⟨rfl, -87921, by decide, by decide, by decide⟩))).2.2.1
      (by decide) (by decide) (by decide),
    ((C25_replace_then_select_by_retval sampleHash sampleLibc 0 0 0 0 sampleIntDbTable sampleKey
      (ascii "string") (ascii "hello") [] [] sampleIntDbTable_heap_reachable (by decide)
      (Or.inl ⟨rfl, by decide⟩)).2.2.2 (by decide) rfl).2⟩

/-- The legacy `htRemove` of the key at the head of a chain of two: the whole
chain is dropped, and `len` is one less. -/
theorem legacyTableAfterRemove_eq (hash : Key → Nat) (key key2 : Key) (hne : key ≠ key2)
    (hcol : hash key % 32 = hash key2 % 32) :
    legacyTableAfterRemove hash key key2 =
      { table := (htCreateTable.table.set (hash key2 % 32)
          [{ key := key, htv := sampleInt 20 }, { key := key2, htv := sampleInt 10 }]).set
            (hash key2 % 32) [],
        len := 1, exp := 5 } := by
  have hb : hash key2 % 32 < htCreateTable.table.length := by
    rw [htCreateTable_length]; exact Nat.mod_lt _ (by decide)
  have h32 : (2 : Nat) ^ 5 = 32 := by norm_num
  have hwf0 := htCreateTable_WF hash
  have habs0 := not_present_htCreateTable key2
  have hst2 : Storable (sampleInt 10) := by decide
  have habs1 : ¬ Present (Legacy.htAdd hash htCreateTable key2 (sampleInt 10)).2 key := by
    rw [legacy_htAdd_eq, present_htAdd_absent hash htCreateTable key2 (sampleInt 10) hwf0 habs0 key]
    rintro (h | h)
    · exact hne h
    · exact not_present_htCreateTable key h
  have hcmp : cmpKey key key ≠ 0 := cmpKey_self key
  have hadd2 : Legacy.htAdd hash (Legacy.htAdd hash htCreateTable key2 (sampleInt 10)).2 key
      (sampleInt 20) =
      (0, { table := htCreateTable.table.set (hash key2 % 32)
              [{ key := key, htv := sampleInt 20 }, { key := key2, htv := sampleInt 10 }],
            len := 2, exp := 5 }) := by
    have hf := htFind_type_of_absent hash _ key habs1
    rw [legacy_htAdd_fresh] at hf ⊢
    unfold Legacy.htAdd
    rw [if_neg (by simp [hf])]
    simp [h32, hcol, hb]
  unfold legacyTableAfterRemove
  rw [hadd2]
  rw [legacy_htRemove_cons hash _ key { key := key, htv := sampleInt 20 }
    [{ key := key2, htv := sampleInt 10 }] (by simp [h32, hcol, hb])]
  simp [htFindEntryWalk, hcol, hcmp]

/-- C32: the legacy `htRemove` leaves tables on which the codec does not give
back `len`.  For two different keys `k` and `k'` that share a bucket of a
fresh table, the table after `htAdd(k')`, `htAdd(k)`, `htRemove(k)` has `len`
1 and no entry linked, so every key and every value of it is as the claim
asks; `htSerializeToFile` writes the empty file for it, and
`htDeserializeFromFile` reads a table of `len` 0 from that file.  Such keys
exist for every hash function.  On every well-formed table whose keys are
non-empty byte strings without space, newline or NUL and whose values are
`SIGNED_INT`, the table read back has the same `len` and `htFind` returns for
every key what it returns in the original. -/
theorem C32_legacy_codec_after_htRemove (hash : Key → Nat) (libc : Libc) (junk : Nat)
    (key key2 : Key) (hne : key ≠ key2) (hcol : hash key % 32 = hash key2 % 32) :
    ((∀ e ∈ entries (legacyTableAfterRemove hash key key2),
        Legacy.GoodKey e.key ∧ e.htv.entryType = EntryType_t.SIGNED_INT) ∧
      (legacyTableAfterRemove hash key key2).len = 1 ∧
      Legacy.htSerializeToFile libc (legacyTableAfterRemove hash key key2) = some [] ∧
      ∃ ht2 : Hashtable_t,
        Legacy.htDeserializeFromFile hash libc junk htCreateTable [] = Except.ok ht2 ∧
        ht2.len = 0) ∧
    (∃ k k2 : Key, k ≠ k2 ∧ hash k % 32 = hash k2 % 32) ∧
    (∀ ht : Hashtable_t, WF hash ht →
      (∀ e ∈ entries ht, Legacy.GoodKey e.key) →
      (∀ e ∈ entries ht, e.htv.entryType = EntryType_t.SIGNED_INT ∧
        ∃ bits : Nat, bits < 2 ^ 64 ∧ e.htv.v = ValueUnion.word bits) →
      ∃ (file : List UInt8) (ht2 : Hashtable_t),
        Legacy.htSerializeToFile libc ht = some file ∧
        Legacy.htDeserializeFromFile hash libc junk htCreateTable file = Except.ok ht2 ∧
        ht2.len = ht.len ∧
        ∀ k, htFind hash ht2 k = htFind hash ht k) := by
  have heq := legacyTableAfterRemove_eq hash key key2 hne hcol
  have hent : entries (legacyTableAfterRemove hash key key2) = [] := by
    rw [heq]
    exact flatten_set_set_nil _ _
  refine ⟨⟨?_, ?_, ?_, ?_⟩, exists_collision hash, ?_⟩
  · intro e he
    rw [hent] at he
    exact absurd he (List.not_mem_nil _)
  · rw [heq]
  · rw [legacy_htSerializeToFile_eq libc _ (by rw [heq]; simp [htCreateTable_length]), hent]
    rfl
  · exact ⟨htCreateTable, rfl, rfl⟩
  · intro ht hwf hkeys hvals
    exact legacy_codec_roundtrip hash libc junk ht hwf hkeys hvals

/-- C32 with the hash function that takes the length of the key, on the
one-byte keys `2` and `1`: the table after `htAdd` of the key `1`, `htAdd` of
the key `2` and `htRemove` of the key `2` has `len` 1, is written as the empty
file, and the table read from that file has `len` 0. -/
theorem C32_witness :
    ((∀ e ∈ entries (legacyTableAfterRemove sampleHash [2] [1]),
        Legacy.GoodKey e.key ∧ e.htv.entryType = EntryType_t.SIGNED_INT) ∧
      (legacyTableAfterRemove sampleHash [2] [1]).len = 1 ∧
      Legacy.htSerializeToFile sampleLibc (legacyTableAfterRemove sampleHash [2] [1]) = some [] ∧
      ∃ ht2 : Hashtable_t,
        Legacy.htDeserializeFromFile sampleHash sampleLibc 0 htCreateTable [] = Except.ok ht2 ∧
        ht2.len = 0) ∧
    ([2] : Key) ≠ [1] ∧ sampleHash [2] % 32 = sampleHash [1] % 32 :=
  ⟨(C32_legacy_codec_after_htRemove sampleHash sampleLibc 0 [2] [1] (by decide) (by decide)).1,
    by decide, by decide⟩

end SimpleDatabase
